import Mathlib

/-!
# Bug injection passes of the Yosys fork: a verification development

Shallow embedding of the AMT table codec (`passes/inject/selection.h`), the AMT
extractor (`passes/inject/inject_extract.cc`), the detector
(`passes/inject/inject_detect.cc`), the expander (`passes/inject/inject_expand.cc`)
and the AMT bug injector (`passes/inject/inject_amt.cc`).

Conventions of the embedding:
* an `RTLIL::Const` is the list of its bits, least significant first (the `flags`
  field plays no part in the passes and `Const::operator==` compares bits only);
* an `RTLIL::SigSpec` is the list of its bits (the unpacked form);
* a wire is identified by the index of its interned name (`IdString::index_`),
  which is also the key `SigBit::operator<` sorts by;
* by-reference output parameters become returned values; a failed `log_assert`,
  an out-of-range `at()` and a computation that does not terminate are `none`.
-/

namespace Yosys

/-! ## RTLIL data model -/

/-- The enumeration `RTLIL::State`, in declaration order. -/
inductive State where
  | S0 | S1 | Sx | Sz | Sa | Sm
  deriving DecidableEq, Repr

/-- The bits of an `RTLIL::Const`, least significant first. -/
abbrev Const := List State

/-- An `RTLIL::SigBit`: a constant bit (`wire == NULL`) or bit `offset` of wire `name`. -/
inductive SigBit where
  | const (data : State)
  | wire (name : Nat) (offset : Nat)
  deriving DecidableEq, Repr

/-- The bits of an `RTLIL::SigSpec`. -/
abbrev SigSpec := List SigBit

/-- Port names (`ID::A`, `ID::B`, `ID::S`, `ID::Y`) and any other. -/
inductive IdString where
  | A | B | S | Y
  | other (index : Nat)
  deriving DecidableEq, Repr

/-- Cell types the passes distinguish. -/
inductive CellType where
  | mux | pmux | amt | eq | and | or | not
  | other (index : Nat)
  deriving DecidableEq, Repr

/-- The parts of an `RTLIL::Cell` the passes read and write: the port dictionary
`connections_`, the parameter `STATE_TABLE` and the attribute `buggy`. -/
structure Cell where
  name : Nat
  type : CellType
  connections_ : List (IdString × SigSpec)
  STATE_TABLE : Const
  buggy : Bool
  deriving DecidableEq, Repr

/-- The call `cell->getPort(port)`; the passes call it on ports that exist. -/
def Cell.getPort (cell : Cell) (port : IdString) : SigSpec :=
  match cell.connections_.find? (fun c => c.1 = port) with
  | some c => c.2
  | none => []

/-- The call `cell->hasPort(port)`. -/
def Cell.hasPort (cell : Cell) (port : IdString) : Bool :=
  cell.connections_.any (fun c => c.1 = port)

/-- Removal of a key from the port dictionary. -/
def unsetConn : List (IdString × SigSpec) → IdString → List (IdString × SigSpec)
  | [], _ => []
  | c :: rest, port => if c.1 = port then unsetConn rest port else c :: unsetConn rest port

/-- The call `cell->unsetPort(port)`. -/
def Cell.unsetPort (cell : Cell) (port : IdString) : Cell :=
  { cell with connections_ := unsetConn cell.connections_ port }

/-- Assignment in the port dictionary: the entry is overwritten where it is, a new
entry is added at the end. -/
def setConn : List (IdString × SigSpec) → IdString → SigSpec → List (IdString × SigSpec)
  | [], port, sig => [(port, sig)]
  | c :: rest, port, sig =>
    if c.1 = port then (port, sig) :: rest else c :: setConn rest port sig

/-- The call `cell->setPort(port, sig)`. -/
def Cell.setPort (cell : Cell) (port : IdString) (sig : SigSpec) : Cell :=
  { cell with connections_ := setConn cell.connections_ port sig }

/-- The call `sig.extract(offset, length)`, which asserts that the slice lies
inside the signal. -/
def SigSpec.extract (sig : SigSpec) (offset length : Nat) : Option SigSpec :=
  if offset + length ≤ sig.length then some ((sig.drop offset).take length) else none

/-! ## selection.h: the AMT table codec -/

/-- The struct `selection_t`. -/
structure selection_t where
  select : Const
  output : SigSpec
  buggy : Bool
  deriving DecidableEq, Repr

/-- The `STATE_TABLE` bits the loop of `copy_to_cell` builds: per row the pattern
bits followed by the buggy flag. -/
def table_bits : List selection_t → Const
  | [] => []
  | s :: rest => s.select ++ (if s.buggy then State.S1 else State.S0) :: table_bits rest

/-- The signal `new_input` the loop of `copy_to_cell` builds. -/
def new_input : List selection_t → SigSpec
  | [] => []
  | s :: rest => s.output ++ new_input rest

/-- The function `copy_to_cell`. -/
def copy_to_cell (cell : Cell) (selections : List selection_t) : Cell :=
  let cell := { cell with STATE_TABLE := table_bits selections }
  (cell.unsetPort IdString.A).setPort IdString.A (new_input selections)

/-- One iteration of the loop of `copy_from_cell`: the row decoded at index `i`. -/
def decode_row (cell : Cell) (i : Nat) : Option selection_t :=
  let selection_size := (cell.getPort IdString.S).length
  let output_size := (cell.getPort IdString.Y).length
  let bits_table := cell.STATE_TABLE
  let off_begin := i * (selection_size + 1)
  let off_end := off_begin + selection_size
  let selection := (bits_table.drop off_begin).take selection_size
  match (cell.getPort IdString.A).extract (i * output_size) output_size, bits_table[off_end]? with
  | some output, some flag => some ⟨selection, output, flag = State.S1⟩
  | _, _ => none

/-- The loop of `copy_from_cell`, `count` iterations from index `i` on. -/
def copy_from_cell_loop (cell : Cell) : Nat → Nat → List selection_t → Option (List selection_t)
  | 0, _, selections => some selections
  | count + 1, i, selections =>
    match decode_row cell i with
    | some s => copy_from_cell_loop cell count (i + 1) (selections ++ [s])
    | none => none

/-- The function `copy_from_cell`: rows are pushed onto `selections`. -/
def copy_from_cell (cell : Cell) (selections : List selection_t) : Option (List selection_t) :=
  let selection_size := (cell.getPort IdString.S).length
  copy_from_cell_loop cell (cell.STATE_TABLE.length / (selection_size + 1)) 0 selections

/-- The size invariant of an AMT cell with `n` rows: `|A| = n * |Y|` and
`|STATE_TABLE| = n * (|S| + 1)`. -/
def amt_sizes (cell : Cell) (n : Nat) : Prop :=
  (cell.getPort IdString.A).length = n * (cell.getPort IdString.Y).length ∧
  cell.STATE_TABLE.length = n * ((cell.getPort IdString.S).length + 1)

/-- Every buggy-flag element of the table (the last element of each of the `n` rows)
is `S0` or `S1`. -/
def flags_binary (cell : Cell) (n : Nat) : Prop :=
  ∀ i, i < n →
    cell.STATE_TABLE[i * ((cell.getPort IdString.S).length + 1)
      + (cell.getPort IdString.S).length]? = some State.S0 ∨
    cell.STATE_TABLE[i * ((cell.getPort IdString.S).length + 1)
      + (cell.getPort IdString.S).length]? = some State.S1

/-! ### Sample cells -/

/-- An `$amt` cell with a one-bit selector and a one-bit output, no rows yet. -/
def sample_cell : Cell :=
  { name := 10, type := CellType.amt,
    connections_ := [(IdString.A, []), (IdString.S, [SigBit.wire 1 0]),
      (IdString.Y, [SigBit.wire 2 0])],
    STATE_TABLE := [], buggy := false }

/-- Two rows for `sample_cell`: `0 -> 1'1` and `- -> \w3 [0]`, the second flagged. -/
def sample_selections : List selection_t :=
  [⟨[State.S0], [SigBit.const State.S1], false⟩, ⟨[State.Sa], [SigBit.wire 3 0], true⟩]

/-- A one-row `$amt` cell whose flag element is `x`: `STATE_TABLE = [0, x]`. -/
def undef_flag_cell : Cell :=
  { name := 11, type := CellType.amt,
    connections_ := [(IdString.A, [SigBit.const State.S0]), (IdString.S, [SigBit.wire 1 0]),
      (IdString.Y, [SigBit.wire 2 0])],
    STATE_TABLE := [State.S0, State.Sx], buggy := false }

/-! ## Signal helpers of the framework kernel -/

/-- Modelled from the spec: `RTLIL::Const(int val, int width)` of the framework kernel
(`rtlil.cc` is not among the sources). The loop pushes `val & 1` and shifts `val`
right arithmetically, `width` times. -/
def Const.of_int : Int → Nat → Const
  | _, 0 => []
  | val, width + 1 =>
    (if val % 2 = 1 then State.S1 else State.S0) :: Const.of_int (val / 2) width

/-- Modelled from the spec: `RTLIL::Const(State bit, int width)`, `width` copies of
`bit`. -/
def Const.of_state (bit : State) (width : Nat) : Const :=
  List.replicate width bit

/-- The value of the C++ `int` expression `1 << i`: `2 ^ i` for `i < 31` and the most
negative `int` for `i = 31`. For `i >= 32` the expression has no defined value in C++;
the shift count is taken modulo 32 as the x86 shift instruction does. -/
def shl_one (i : Nat) : Int :=
  if i % 32 = 31 then -Int.ofNat (2 ^ 31) else Int.ofNat (2 ^ (i % 32))

/-- The test `bit.wire != NULL`. -/
def SigBit.is_wire : SigBit → Bool
  | SigBit.wire _ _ => true
  | SigBit.const _ => false

/-- The integer value of a `State` enumerator. -/
def State.index : State → Nat
  | State.S0 => 0 | State.S1 => 1 | State.Sx => 2 | State.Sz => 3 | State.Sa => 4 | State.Sm => 5

/-- The comparison `SigBit::operator<`: constants before wire bits, constants by `data`,
wire bits by name index and then offset. -/
def SigBit.lt : SigBit → SigBit → Bool
  | SigBit.const a, SigBit.const b => a.index < b.index
  | SigBit.const _, SigBit.wire _ _ => true
  | SigBit.wire _ _, SigBit.const _ => false
  | SigBit.wire n o, SigBit.wire n' o' => n < n' ∨ (n = n' ∧ o < o')

/-- Modelled from the spec: `SigSpec(wire)`, all bits of a wire from offset 0 up. -/
def SigSpec.of_wire (name width : Nat) : SigSpec :=
  (List.range width).map (fun o => SigBit.wire name o)

/-- Modelled from the spec: `SigSpec(const)`. -/
def SigSpec.of_const (c : Const) : SigSpec :=
  c.map SigBit.const

/-- Modelled from the spec: `SigSpec::is_fully_const`. -/
def SigSpec.is_fully_const (sig : SigSpec) : Bool :=
  sig.all (fun b => !b.is_wire)

/-- Modelled from the spec: `SigSpec::is_fully_def`, every bit is the constant 0 or 1. -/
def SigSpec.is_fully_def (sig : SigSpec) : Bool :=
  sig.all (fun b => b = SigBit.const State.S0 ∨ b = SigBit.const State.S1)

/-- Modelled from the spec: `SigSpec::is_fully_undef`, every bit is the constant x or z. -/
def SigSpec.is_fully_undef (sig : SigSpec) : Bool :=
  sig.all (fun b => b = SigBit.const State.Sx ∨ b = SigBit.const State.Sz)

/-- Modelled from the spec: `SigSpec::as_const`, which asserts `is_fully_const`. -/
def SigSpec.as_const : SigSpec → Option Const
  | [] => some []
  | SigBit.const d :: rest =>
    match SigSpec.as_const rest with
    | some c => some (d :: c)
    | none => none
  | SigBit.wire _ _ :: _ => none

/-- Modelled from the spec: `SigSpec::extend_u0(width, is_signed)`: truncation to
`width` bits, or padding with 0 (with the top bit when signed, with x when signed and
empty). -/
def SigSpec.extend_u0 (sig : SigSpec) (width : Nat) (is_signed : Bool) : SigSpec :=
  if sig.length > width then sig.take width
  else
    let padding :=
      if is_signed then (match sig.getLast? with | some b => b | none => SigBit.const State.Sx)
      else SigBit.const State.S0
    sig ++ List.replicate (width - sig.length) padding

/-- The dictionary `pattern_to_with` of `SigSpec::replace`, as a lookup: the
replacement of `bit` is the element of `with_` at the first position where `pattern`
holds `bit`; only wire bits are keys. -/
def pattern_to_with : SigSpec → SigSpec → SigBit → Option SigBit
  | p :: ps, w :: ws, bit =>
    if p.is_wire ∧ p = bit then some w else pattern_to_with ps ws bit
  | _, _, _ => none

/-- Modelled from the spec: `sig.replace(pattern, with, &other)` of the framework
kernel: every position of `other` where `sig` holds a bit of `pattern` receives the
corresponding bit of `with_`. The callers pass `pattern` and `with_` of equal width and
`other` of the width of `sig`. -/
def SigSpec.replace_into (sig pattern with_ : SigSpec) (other : SigSpec) : SigSpec :=
  List.zipWith (fun b o => match pattern_to_with pattern with_ b with
    | some w => w
    | none => o) sig other

/-- Modelled from the spec: `sig.replace(pattern, with)`, the replacement in place. -/
def SigSpec.replace (sig pattern with_ : SigSpec) : SigSpec :=
  sig.replace_into pattern with_ sig

/-- A chunk of a packed signal: `wire = none` for a run of constants. -/
structure SigChunk where
  wire : Option Nat
  offset : Nat
  width : Nat
  deriving DecidableEq, Repr

/-- Modelled from the spec: `SigSpec::chunks()`, the packed form: maximal runs of
constants and of bits of one wire with consecutive offsets. -/
def SigSpec.chunks : SigSpec → List SigChunk
  | [] => []
  | SigBit.const _ :: rest =>
    match SigSpec.chunks rest with
    | c :: cs => if c.wire = none then { c with width := c.width + 1 } :: cs
                 else ⟨none, 0, 1⟩ :: c :: cs
    | [] => [⟨none, 0, 1⟩]
  | SigBit.wire n o :: rest =>
    match SigSpec.chunks rest with
    | c :: cs => if c.wire = some n ∧ c.offset = o + 1 then ⟨some n, o, c.width + 1⟩ :: cs
                 else ⟨some n, o, 1⟩ :: c :: cs
    | [] => [⟨some n, o, 1⟩]

/-- The test of `SigSpec::extract(pattern)` whether a bit lies in a chunk of the
pattern; constant bits never do. -/
def SigChunk.has (c : SigChunk) : SigBit → Bool
  | SigBit.wire n o => c.wire = some n ∧ c.offset ≤ o ∧ o < c.offset + c.width
  | SigBit.const _ => false

/-- Modelled from the spec: `sig.extract(pattern)`: for every chunk of `pattern` in
turn, the bits of `sig` that lie in the chunk. -/
def SigSpec.extract_pattern (sig pattern : SigSpec) : SigSpec :=
  (pattern.chunks.map (fun c => sig.filter c.has)).flatten

/-- Insertion of a bit into a list sorted by `SigBit.lt`; an equal bit is kept once. -/
def sorted_insert (b : SigBit) : SigSpec → SigSpec
  | [] => [b]
  | x :: rest =>
    if b = x then x :: rest
    else if b.lt x then b :: x :: rest
    else x :: sorted_insert b rest

/-- Modelled from the spec: `SigSpec::sort_and_unify`: the bits sorted by
`SigBit::operator<` with duplicates removed. -/
def SigSpec.sort_and_unify (sig : SigSpec) : SigSpec :=
  sig.foldr sorted_insert []

/-- Modelled from the spec: `SigSpec::remove_const`. -/
def SigSpec.remove_const (sig : SigSpec) : SigSpec :=
  sig.filter SigBit.is_wire

/-- The canonicalising view `SigMap`, as the function on bits it computes. -/
abbrev SigMap := SigBit → SigBit

/-- The call `assign_map(sig)` (and `assign_map.apply(sig)`). -/
def SigMap.apply (assign_map : SigMap) (sig : SigSpec) : SigSpec :=
  sig.map assign_map

/-- The answers of `CellTypes` the passes ask for; `eval cell a b s` is the call
`ct.eval(cell, a, b, s)`. -/
structure CellTypes where
  cell_known : CellType → Bool
  cell_output : CellType → IdString → Bool
  cell_input : CellType → IdString → Bool
  eval : Cell → Const → Const → Const → Const

/-- Three-valued negation of a bit. -/
def State.not : State → State
  | State.S0 => State.S1
  | State.S1 => State.S0
  | _ => State.Sx

/-- Three-valued conjunction of two bits. -/
def State.and : State → State → State
  | State.S0, _ => State.S0
  | _, State.S0 => State.S0
  | State.S1, State.S1 => State.S1
  | _, _ => State.Sx

/-- Three-valued disjunction of two bits. -/
def State.or : State → State → State
  | State.S1, _ => State.S1
  | _, State.S1 => State.S1
  | State.S0, State.S0 => State.S0
  | _, _ => State.Sx

/-- Zero extension or truncation of a constant to `width` bits. -/
def Const.resize (c : Const) (width : Nat) : Const :=
  (c ++ List.replicate (width - c.length) State.S0).take width

/-- Three-valued equality of two constants of equal width: 0 when a pair of defined
bits differs, else x when a bit is undefined, else 1. -/
def Const.eq_state (a b : Const) : State :=
  if (a.zip b).any (fun p => (p.1 = State.S0 ∧ p.2 = State.S1) ∨ (p.1 = State.S1 ∧ p.2 = State.S0))
  then State.S0
  else if (a ++ b).all (fun x => x = State.S0 ∨ x = State.S1) then State.S1
  else State.Sx

/-- Modelled from the spec: `CellTypes::eval` for the driver cells the expander merges
(the constant evaluation of the framework is not among the sources), for unsigned
operands and a result of the width of port Y: `$not`, `$and`, `$or` bit by bit, `$eq`
in bit 0 with zeros above. -/
def eval_internals (cell : Cell) (a b _s : Const) : Const :=
  let width := (cell.getPort IdString.Y).length
  match cell.type with
  | CellType.not => (a.resize width).map State.not
  | CellType.and => List.zipWith State.and (a.resize width) (b.resize width)
  | CellType.or => List.zipWith State.or (a.resize width) (b.resize width)
  | CellType.eq =>
    Const.resize
      [Const.eq_state (a.resize (max a.length b.length)) (b.resize (max a.length b.length))]
      width
  | _ => []

/-- Modelled from the spec: the internal cell types as `CellTypes` registers them:
`$mux`, `$pmux` with inputs A, B, S, `$eq`, `$and`, `$or` with inputs A, B, `$not` with
input A, `$amt` with inputs A, S; the output is Y throughout; other types are unknown. -/
def ct_internals : CellTypes where
  cell_known := fun t => match t with
    | CellType.other _ => false
    | _ => true
  cell_output := fun t p => match t with
    | CellType.other _ => false
    | _ => p = IdString.Y
  cell_input := fun t p => match t with
    | CellType.mux | CellType.pmux => p = IdString.A ∨ p = IdString.B ∨ p = IdString.S
    | CellType.eq | CellType.and | CellType.or => p = IdString.A ∨ p = IdString.B
    | CellType.not => p = IdString.A
    | CellType.amt => p = IdString.A ∨ p = IdString.S
    | CellType.other _ => false
  eval := eval_internals

/-! ## Modules -/

/-- The parts of an `RTLIL::Wire` the passes read and write. -/
structure Wire where
  name : Nat
  width : Nat
  port_id : Nat
  fsm_encoding : Option String
  buggy : Bool
  deriving DecidableEq, Repr

/-- The parts of an `RTLIL::Module` the passes read and write. The lists hold the
wires and cells in the order the passes iterate over them. `autoidx` is the global
counter of the same name; a name built from it is new, and its index is the counter
value. -/
structure Module where
  name : String
  wires_ : List Wire
  cells_ : List Cell
  autoidx : Nat
  deriving DecidableEq, Repr

/-- The lookup `module->cells_.at(name)`. -/
def Module.cell (module : Module) (name : Nat) : Option Cell :=
  module.cells_.find? (fun c => c.name = name)

/-- Assignment to `connections_[port]` of the cell the lookup by `name` finds. -/
def set_cell_connection : List Cell → Nat → IdString → SigSpec → List Cell
  | [], _, _, _ => []
  | c :: rest, name, port, sig =>
    if c.name = name then c.setPort port sig :: rest
    else c :: set_cell_connection rest name port sig

/-- Assignment to `cell->connections_[port]` of the cell called `name`. -/
def Module.set_connection (module : Module) (name : Nat) (port : IdString) (sig : SigSpec) :
    Module :=
  { module with cells_ := set_cell_connection module.cells_ name port sig }

/-- The call `SigSpec(wire)` on a wire of the module. -/
def Wire.sig (wire : Wire) : SigSpec :=
  SigSpec.of_wire wire.name wire.width

/-- Whether `needle` occurs at the head of `text`. -/
def starts_with : List Char → List Char → Bool
  | [], _ => true
  | _ :: _, [] => false
  | a :: needle, b :: text => a = b ∧ starts_with needle text

/-- The test `text.find(needle) != std::string::npos`. -/
def has_substr (needle : List Char) : List Char → Bool
  | [] => starts_with needle []
  | c :: text => starts_with needle (c :: text) || has_substr needle text

/-! ## SigSet -/

/-- The container `SigSet<T>`: the data inserted for each wire bit. -/
abbrev SigSet (α : Type) := List (SigBit × α)

/-- The call `sigset.insert(sig, data)`: the data is stored for every wire bit. -/
def SigSet.insert {α : Type} (set : SigSet α) (sig : SigSpec) (data : α) : SigSet α :=
  set ++ (sig.filter SigBit.is_wire).map (fun b => (b, data))

/-- Insertion into a `std::set`, kept here in order of first insertion. -/
def set_insert {α : Type} [DecidableEq α] (data : α) (result : List α) : List α :=
  if data ∈ result then result else result ++ [data]

/-- The call `sigset.find(sig, result)`: the set of the data stored for the wire bits
of `sig`. -/
def SigSet.find {α : Type} [DecidableEq α] (set : SigSet α) (sig : SigSpec) : List α :=
  (set.filter (fun e => e.1 ∈ sig)).foldl (fun result e => set_insert e.2 result) []

/-- The entry type `sig2driver_entry_t` of inject_extract.cc: cell name and port name. -/
abbrev sig2driver_entry_t := Nat × IdString

/-! ## inject_extract.cc -/

/-- The struct `sig2val_t`. -/
structure sig2val_t where
  input_sig : SigSpec
  input_val : Const
  deriving DecidableEq, Repr

/-- The struct `selection_raw_t`. -/
structure selection_raw_t where
  select : List sig2val_t
  output : SigSpec
  deriving DecidableEq, Repr

/-- The by-reference parameters of `abstract_tree`. -/
structure tree_state where
  input : SigSpec
  select : SigSpec
  current_selection : List sig2val_t
  selections : List selection_raw_t
  deriving DecidableEq, Repr

/-- The loop of `abstract_tree` that appends the new bits of `sig_s` to `select`. -/
def add_select : SigSpec → SigSpec → SigSpec
  | [], select => select
  | sig_s_bit :: rest, select =>
    if (select.extract_pattern [sig_s_bit]).isEmpty then add_select rest (select ++ [sig_s_bit])
    else add_select rest select

/-- The signal `sig_aa` of `abstract_tree`. -/
def mux_sig_aa (assign_map : SigMap) (cell : Cell) (sig : SigSpec) : SigSpec :=
  sig.replace (assign_map.apply (cell.getPort IdString.Y))
    (assign_map.apply (cell.getPort IdString.A))

/-- The signal `sig_bb` of `abstract_tree`. In C++ the division by the width of
`sig_a` is undefined for an empty `sig_a`; here it yields no case. -/
def mux_sig_bb (assign_map : SigMap) (cell : Cell) (sig : SigSpec) : SigSpec :=
  let sig_a := assign_map.apply (cell.getPort IdString.A)
  let sig_b := assign_map.apply (cell.getPort IdString.B)
  let sig_y := assign_map.apply (cell.getPort IdString.Y)
  ((List.range (sig_b.length / sig_a.length)).map
    (fun i => sig.replace sig_y ((sig_b.drop (i * sig_a.length)).take sig_a.length))).flatten

/-- The second loop of `abstract_tree`, over the cases `i` of the B input. `recurse`
is the recursive call. -/
def abstract_cases (recurse : SigSpec → tree_state → Option (Bool × tree_state))
    (sig_s sig_bb : SigSpec) (width : Nat) :
    List Nat → tree_state → Option (Bool × tree_state)
  | [], st => some (true, st)
  | i :: rest, st =>
    let entry : sig2val_t := ⟨sig_s, Const.of_int (shl_one i) sig_s.length⟩
    let st := { st with current_selection := st.current_selection.dropLast ++ [entry] }
    match recurse ((sig_bb.drop (i * width)).take width) st with
    | none => none
    | some (false, st) => some (false, st)
    | some (true, st) => abstract_cases recurse sig_s sig_bb width rest st

/-- The function `abstract_tree`. The recursion of the source is not bounded; `fuel`
bounds its depth and `none` stands for a cone deeper than the fuel. -/
def abstract_tree (module : Module) (assign_map : SigMap) (sig2driver : SigSet sig2driver_entry_t)
    (output : SigSpec) : Nat → SigSpec → tree_state → Option (Bool × tree_state)
  | 0, _, _ => none
  | fuel + 1, sig, st =>
    let sig := assign_map.apply (sig.extend_u0 output.length false)
    if sig.is_fully_const then
      if sig.is_fully_def then
        some (true, { st with input := st.input ++ sig,
                              selections := st.selections ++ [⟨st.current_selection, sig⟩] })
      else some (true, st)
    else
      let cellport_list := sig2driver.find sig
      if cellport_list.length > 1 then some (false, st)
      else if cellport_list.length < 1 then some (false, st)
      else if st.selections.length > 48 then some (false, st)
      else
        match cellport_list with
        | [] => some (true, st)
        | cellport :: _ =>
          match module.cell cellport.1 with
          | none => none
          | some cell =>
            if (cell.type ≠ CellType.mux ∧ cell.type ≠ CellType.pmux) ∨ cellport.2 ≠ IdString.Y then
              some (true, { st with input := st.input ++ sig,
                                    selections := st.selections ++ [⟨st.current_selection, sig⟩] })
            else
              let sig_s := assign_map.apply (cell.getPort IdString.S)
              let sig_aa := mux_sig_aa assign_map cell sig
              let sig_bb := mux_sig_bb assign_map cell sig
              let st := { st with select := add_select sig_s st.select }
              let entry : sig2val_t := ⟨sig_s, Const.of_int 0 sig_s.length⟩
              let st := { st with current_selection := st.current_selection ++ [entry] }
              match abstract_tree module assign_map sig2driver output fuel sig_aa st with
              | none => none
              | some (false, st) => some (false, st)
              | some (true, st) =>
                match abstract_cases (abstract_tree module assign_map sig2driver output fuel)
                    sig_s sig_bb sig_aa.length (List.range (sig_bb.length / sig_aa.length)) st with
                | none => none
                | some (false, st) => some (false, st)
                | some (true, st) =>
                  some (true, { st with current_selection := st.current_selection.dropLast })

/-- The first inner loop of the unification in `extract_tree`: the select signals of a
raw row, concatenated. -/
def raw_pattern (raw_selection : selection_raw_t) : SigSpec :=
  (raw_selection.select.map (fun sig2val => sig2val.input_sig)).flatten

/-- The first inner loop of the unification in `extract_tree`: the select values of a
raw row, concatenated. -/
def raw_with (raw_selection : selection_raw_t) : SigSpec :=
  (raw_selection.select.map (fun sig2val => SigSpec.of_const sig2val.input_val)).flatten

/-- The second inner loop of the unification in `extract_tree`: every bit of `select`
the pattern lacks is appended with the value don't-care. -/
def fill_dont_care : SigSpec → SigSpec × SigSpec → SigSpec × SigSpec
  | [], pw => pw
  | select_bit :: rest, (pattern, with_) =>
    if (pattern.extract_pattern [select_bit]).isEmpty then
      fill_dont_care rest (pattern ++ [select_bit], with_ ++ [SigBit.const State.Sa])
    else fill_dont_care rest (pattern, with_)

/-- The body of the unification loop of `extract_tree` for one raw row. -/
def unify_selection (select : SigSpec) (raw_selection : selection_raw_t) : Option selection_t :=
  let pw := fill_dont_care select (raw_pattern raw_selection, raw_with raw_selection)
  match (select.replace_into pw.1 pw.2 select).as_const with
  | some c => some ⟨c, raw_selection.output, false⟩
  | none => none

/-- The unification loop of `extract_tree` over all raw rows. -/
def unify_selections (select : SigSpec) : List selection_raw_t → Option (List selection_t)
  | [] => some []
  | raw_selection :: rest =>
    match unify_selection select raw_selection, unify_selections select rest with
    | some s, some ss => some (s :: ss)
    | _, _ => none

/-- One iteration of the last loop of `extract_tree`: the bits of `output` in the port
of an old driver are replaced by a new wire. -/
def unconnect (assign_map : SigMap) (output : SigSpec) (module : Module)
    (cellport : sig2driver_entry_t) : Option Module :=
  match module.cell cellport.1 with
  | none => none
  | some cell =>
    let port_sig := assign_map.apply (cell.getPort cellport.2)
    let unconn_sig := port_sig.extract_pattern output
    let unconn_wire : Wire := ⟨module.autoidx, unconn_sig.length, 0, none, false⟩
    let module := { module with wires_ := module.wires_ ++ [unconn_wire],
                                autoidx := module.autoidx + 1 }
    some (module.set_connection cellport.1 cellport.2
      (port_sig.replace_into unconn_sig unconn_wire.sig (cell.getPort cellport.2)))

/-- The last loop of `extract_tree`. -/
def unconnect_all (assign_map : SigMap) (output : SigSpec) :
    List sig2driver_entry_t → Module → Option Module
  | [], module => some module
  | cellport :: rest, module =>
    match unconnect assign_map output module cellport with
    | none => none
    | some module => unconnect_all assign_map output rest module

/-- The `$amt` cell `extract_tree` creates, after `copy_to_cell`. -/
def new_amt_cell (name : Nat) (wire : Wire) (input select output : SigSpec)
    (selections : List selection_t) : Cell :=
  let amt_cell : Cell := ⟨name, CellType.amt, [], [], wire.buggy⟩
  let amt_cell := amt_cell.setPort IdString.A input
  let amt_cell := amt_cell.setPort IdString.S select
  let amt_cell := amt_cell.setPort IdString.Y output
  copy_to_cell amt_cell selections

/-- The function `extract_tree`; it returns the module as it leaves it. -/
def extract_tree (assign_map : SigMap) (sig2driver : SigSet sig2driver_entry_t) (fuel : Nat) (module : Module)
    (wire : Wire) : Option Module :=
  let output := assign_map.apply wire.sig
  match abstract_tree module assign_map sig2driver output fuel output ⟨[], [], [], []⟩ with
  | none => none
  | some (false, _) => some module
  | some (true, st) =>
    if st.selections.length < 4 then some module
    else
      let select := st.select.sort_and_unify
      match unify_selections select st.selections with
      | none => none
      | some selections =>
        let amt_cell := new_amt_cell module.autoidx wire st.input select output selections
        let module := { module with cells_ := module.cells_ ++ [amt_cell],
                                    autoidx := module.autoidx + 1 }
        unconnect_all assign_map output (sig2driver.find output) module

/-- The loop of `InjectExtractPass::execute` that fills `sig2driver`, for one cell. -/
def insert_drivers (ct : CellTypes) (assign_map : SigMap) (cell : Cell) :
    List (IdString × SigSpec) → SigSet sig2driver_entry_t → SigSet sig2driver_entry_t
  | [], sig2driver => sig2driver
  | conn_it :: rest, sig2driver =>
    if ct.cell_output cell.type conn_it.1 ∨ ¬ ct.cell_known cell.type then
      insert_drivers ct assign_map cell rest
        (sig2driver.insert (assign_map.apply conn_it.2) (cell.name, conn_it.1))
    else insert_drivers ct assign_map cell rest sig2driver

/-- The loop of `InjectExtractPass::execute` that fills `sig2driver`. -/
def build_sig2driver (ct : CellTypes) (assign_map : SigMap) : List Cell → SigSet sig2driver_entry_t → SigSet sig2driver_entry_t
  | [], sig2driver => sig2driver
  | cell :: rest, sig2driver =>
    build_sig2driver ct assign_map rest
      (insert_drivers ct assign_map cell cell.connections_ sig2driver)

/-- The loop `for (auto wire : wire_list) extract_tree(wire)`. -/
def extract_wires (assign_map : SigMap) (sig2driver : SigSet sig2driver_entry_t) (fuel : Nat) :
    List Wire → Module → Option Module
  | [], module => some module
  | wire :: rest, module =>
    match extract_tree assign_map sig2driver fuel module wire with
    | none => none
    | some module => extract_wires assign_map sig2driver fuel rest module

/-- The test of `InjectExtractPass::execute` whether a wire is marked. -/
def Wire.is_marked (wire : Wire) : Bool :=
  match wire.fsm_encoding with
  | some value => value ≠ "none"
  | none => false

/-- The body of `InjectExtractPass::execute` for one selected module. `assign_map` is
the view `assign_map.set(module)` computes. -/
def inject_extract (ct : CellTypes) (assign_map : SigMap) (fuel : Nat) (mod : Module) :
    Option Module :=
  if has_substr "id_stage".toList mod.name.toList then some mod
  else if has_substr "maptable".toList mod.name.toList then some mod
  else
    let sig2driver := build_sig2driver ct assign_map mod.cells_ []
    let wire_list := mod.wires_.filter Wire.is_marked
    extract_wires assign_map sig2driver fuel wire_list mod

/-- The `$amt` cells of a module. -/
def Module.amt_cells (module : Module) : List Cell :=
  module.cells_.filter (fun c => c.type = CellType.amt)

/-! ### Sample modules for the extractor -/

/-- A two-bit constant signal with the value `n`. -/
def const2 (n : Int) : SigSpec :=
  SigSpec.of_const (Const.of_int n 2)

/-- A `$mux` or `$pmux` cell. -/
def mk_mux (name : Nat) (type : CellType) (a b s y : SigSpec) : Cell :=
  ⟨name, type, [(IdString.A, a), (IdString.B, b), (IdString.S, s), (IdString.Y, y)], [], false⟩

/-- The module `y = s ? (s ? 3 : 2) : (s ? 1 : 0)`: wire 1 is the select `s`, wire 2
the marked two-bit output `y`, wires 3 and 4 the outputs of the inner muxes; the same
select bit controls both muxes of every root-to-leaf path. -/
def repeated_select_module : Module :=
  { name := "top",
    wires_ := [⟨1, 1, 0, none, false⟩, ⟨2, 2, 0, some "inject", false⟩,
      ⟨3, 2, 0, none, false⟩, ⟨4, 2, 0, none, false⟩],
    cells_ := [
      mk_mux 100 CellType.mux (SigSpec.of_wire 3 2) (SigSpec.of_wire 4 2) [SigBit.wire 1 0]
        (SigSpec.of_wire 2 2),
      mk_mux 101 CellType.mux (const2 0) (const2 1) [SigBit.wire 1 0] (SigSpec.of_wire 3 2),
      mk_mux 102 CellType.mux (const2 2) (const2 3) [SigBit.wire 1 0] (SigSpec.of_wire 4 2)],
    autoidx := 200 }

/-! ## Semantics of mux trees and of AMT tables -/

/-- The value of a signal bit under an assignment `σ` of the wire bits: the constants
0 and 1 have their value, the other constants have none. -/
def bit_value (σ : Nat → Nat → Bool) : SigBit → Option Bool
  | SigBit.const State.S0 => some false
  | SigBit.const State.S1 => some true
  | SigBit.const _ => none
  | SigBit.wire n o => some (σ n o)

/-- Modelled from the spec: the case a `$mux` or `$pmux` selects for the values of its
select bits (the cell library is not among the sources): `some none` is the default
input A (all bits 0), `some (some i)` is case `i` of input B (bit `i` is the only one
set), `none` is no defined case (an undefined bit, or several bits set). -/
def select_case : List (Option Bool) → Option (Option Nat)
  | [] => some none
  | none :: _ => none
  | some false :: rest =>
    match select_case rest with
    | some (some i) => some (some (i + 1))
    | some none => some none
    | none => none
  | some true :: rest => if rest.all (fun v => v = some false) then some (some 0) else none

/-- Modelled from the spec: the value of the signal `sig` of a mux tree under an
assignment `σ` of the select bits, as the leaf signal the muxes pass on to it. The
drivers are looked up as `abstract_tree` does; a `$mux` or `$pmux` passes on its input
A or case `i` of its input B according to `select_case`. `none` stands for no defined
value (also for a signal without a single driver, and for a cone deeper than `fuel`). -/
def tree_eval (module : Module) (assign_map : SigMap) (sig2driver : SigSet sig2driver_entry_t)
    (output : SigSpec) (σ : Nat → Nat → Bool) : Nat → SigSpec → Option SigSpec
  | 0, _ => none
  | fuel + 1, sig =>
    let sig := assign_map.apply (sig.extend_u0 output.length false)
    if sig.is_fully_const then some sig
    else
      match sig2driver.find sig with
      | [cellport] =>
        match module.cell cellport.1 with
        | none => none
        | some cell =>
          if (cell.type ≠ CellType.mux ∧ cell.type ≠ CellType.pmux) ∨ cellport.2 ≠ IdString.Y then
            some sig
          else
            let sig_s := assign_map.apply (cell.getPort IdString.S)
            let sig_aa := mux_sig_aa assign_map cell sig
            let sig_bb := mux_sig_bb assign_map cell sig
            match select_case (sig_s.map (bit_value σ)) with
            | none => none
            | some none => tree_eval module assign_map sig2driver output σ fuel sig_aa
            | some (some i) =>
              if i < sig_bb.length / sig_aa.length then
                tree_eval module assign_map sig2driver output σ fuel
                  ((sig_bb.drop (i * sig_aa.length)).take sig_aa.length)
              else none
      | _ => none

/-- Modelled from the spec: whether a selector bit agrees with one element of a row
pattern under `σ`: where the pattern is 0 or 1 the bit has that value; a don't-care
position is not compared. -/
def trit_matches (σ : Nat → Nat → Bool) (s : SigBit) (p : State) : Bool :=
  match p with
  | State.S0 => bit_value σ s = some false
  | State.S1 => bit_value σ s = some true
  | _ => true

/-- Modelled from the spec: whether a row pattern matches the selector `S` under `σ`:
every position agrees in the sense of `trit_matches`. -/
def pattern_matches (σ : Nat → Nat → Bool) : SigSpec → Const → Bool
  | s :: ss, p :: ps => trit_matches σ s p && pattern_matches σ ss ps
  | _, _ => true

/-- Modelled from the spec: the tabular semantics of an AMT (the `$amt` encoding is not
among the sources): the output of the first row whose pattern matches the selector;
`none` when no row matches. -/
def amt_eval (σ : Nat → Nat → Bool) (select : SigSpec) (selections : List selection_t) :
    Option SigSpec :=
  match selections.find? (fun r => pattern_matches σ select r.select) with
  | some r => some r.output
  | none => none

/-- The tabular semantics of an `$amt` cell: `amt_eval` on its decoded table. -/
def amt_cell_eval (σ : Nat → Nat → Bool) (cell : Cell) : Option SigSpec :=
  match copy_from_cell cell [] with
  | some selections => amt_eval σ (cell.getPort IdString.S) selections
  | none => none

/-- The constant of width `w` whose only set bit is bit `i`. -/
def onehot : Nat → Nat → Const
  | _, 0 => []
  | 0, w + 1 => State.S1 :: List.replicate w State.S0
  | i + 1, w + 1 => State.S0 :: onehot i w

/-- A `$mux` or `$pmux` cell has at most as many B cases as select bits and at most 32
select bits (the width of the `int` the case patterns are built from). -/
def mux_well_formed (cell : Cell) : Prop :=
  (cell.getPort IdString.B).length / (cell.getPort IdString.A).length
    ≤ (cell.getPort IdString.S).length ∧
  (cell.getPort IdString.S).length ≤ 32

/-- The select signals along the path of a raw row are wire bits and no bit occurs
twice. -/
def path_distinct (raw_selection : selection_raw_t) : Prop :=
  (raw_pattern raw_selection).Nodup ∧ ∀ b ∈ raw_pattern raw_selection, b.is_wire = true

/-- Whether the select signal of a path entry has the value of the entry under `σ`. -/
def entry_matches (σ : Nat → Nat → Bool) (p : sig2val_t) : Bool :=
  pattern_matches σ p.input_sig p.input_val

/-- What a successful call of `abstract_tree` on a signal with value `ev` does to its
by-reference parameters: rows are appended, each with an output of width `width` and a
path that extends the current one; `input` receives the outputs of the new rows;
`select` only grows and holds the select bits of the new paths; `current_selection` is
restored; and, when the cells are well formed (`wf`), under every assignment that
satisfies the added part of the path of a new row, the signal has the output of that
row as its value. -/
def tree_post (wf : Prop) (ev : (Nat → Nat → Bool) → Option SigSpec) (width : Nat)
    (st st' : tree_state) : Prop :=
  ∃ new : List selection_raw_t,
    st'.selections = st.selections ++ new ∧
    st'.current_selection = st.current_selection ∧
    st'.input = st.input ++ (new.map (fun r => r.output)).flatten ∧
    (∀ b ∈ st.select, b ∈ st'.select) ∧
    ∀ r ∈ new, r.output.length = width ∧
      ∃ path, r.select = st.current_selection ++ path ∧
        (∀ p ∈ path, (∀ b ∈ p.input_sig, b ∈ st'.select) ∧
          p.input_val.length = p.input_sig.length) ∧
        (wf → ∀ σ, (∀ p ∈ path, entry_matches σ p = true) → ev σ = some r.output)

/-- The bit `SigSpec::replace` puts where the signal holds `b`. -/
def replaced_bit (pattern with_ : SigSpec) (b : SigBit) : SigBit :=
  match pattern_to_with pattern with_ b with
  | some w => w
  | none => b

instance (cell : Cell) : Decidable (mux_well_formed cell) := by
  unfold mux_well_formed
  infer_instance

instance (raw_selection : selection_raw_t) : Decidable (path_distinct raw_selection) := by
  unfold path_distinct
  infer_instance

instance (cell : Cell) (n : Nat) : Decidable (amt_sizes cell n) := by
  unfold amt_sizes
  infer_instance

/-- The module `y = s1 ? (s0 ? 3 : 2) : (s0 ? 1 : 0)`: wire 1 is the select `s0`,
wire 5 the select `s1`, wire 2 the marked two-bit output `y`, wires 3 and 4 the outputs
of the inner muxes. -/
def two_select_module : Module :=
  { name := "top",
    wires_ := [⟨1, 1, 0, none, false⟩, ⟨2, 2, 0, some "inject", false⟩,
      ⟨3, 2, 0, none, false⟩, ⟨4, 2, 0, none, false⟩, ⟨5, 1, 0, none, false⟩],
    cells_ := [
      mk_mux 100 CellType.mux (SigSpec.of_wire 3 2) (SigSpec.of_wire 4 2) [SigBit.wire 5 0]
        (SigSpec.of_wire 2 2),
      mk_mux 101 CellType.mux (const2 0) (const2 1) [SigBit.wire 1 0] (SigSpec.of_wire 3 2),
      mk_mux 102 CellType.mux (const2 2) (const2 3) [SigBit.wire 1 0] (SigSpec.of_wire 4 2)],
    autoidx := 200 }

/-- The marked wire `y` of the sample modules. -/
def wire_y : Wire := ⟨2, 2, 0, some "inject", false⟩

/-- The driver index `InjectExtractPass::execute` builds for `two_select_module`. -/
def two_select_drivers : SigSet sig2driver_entry_t :=
  build_sig2driver ct_internals id two_select_module.cells_ []

/-- The state `abstract_tree` returns on the marked wire of `two_select_module`. -/
def two_select_state : tree_state :=
  match abstract_tree two_select_module id two_select_drivers wire_y.sig 10 wire_y.sig
      ⟨[], [], [], []⟩ with
  | some (_, st) => st
  | none => ⟨[], [], [], []⟩

/-- The rows `extract_tree` derives from `two_select_state`: the patterns 00, 10, 01, 11
over the select bits `s0`, `s1` with the outputs 0, 1, 2, 3. -/
def two_select_selections : List selection_t :=
  match unify_selections two_select_state.select.sort_and_unify two_select_state.selections with
  | some selections => selections
  | none => []

/-- A `$pmux` cell with `cases` select bits (wire `select_wire`), the default input 0
and every case input the two-bit constant 1. -/
def const_pmux (name select_wire cases : Nat) (y : SigSpec) : Cell :=
  mk_mux name CellType.pmux (const2 0) (List.replicate cases (const2 1)).flatten
    (SigSpec.of_wire select_wire cases) y

/-- A module whose marked wire `y` has a tree of 49 rows: `y = s ? n1 : n0`, where `n0`
is a `$pmux` of 24 constant cases and a constant default (25 rows) and `n1` a `$pmux` of
23 constant cases and a constant default (24 rows). -/
def rows49_module : Module :=
  { name := "top",
    wires_ := [⟨1, 1, 0, none, false⟩, wire_y, ⟨3, 2, 0, none, false⟩, ⟨4, 2, 0, none, false⟩,
      ⟨10, 24, 0, none, false⟩, ⟨11, 23, 0, none, false⟩],
    cells_ := [
      mk_mux 100 CellType.mux (SigSpec.of_wire 3 2) (SigSpec.of_wire 4 2) [SigBit.wire 1 0]
        (SigSpec.of_wire 2 2),
      const_pmux 101 10 24 (SigSpec.of_wire 3 2),
      const_pmux 102 11 23 (SigSpec.of_wire 4 2)],
    autoidx := 200 }

/-- The driver index `InjectExtractPass::execute` builds for `rows49_module`. -/
def rows49_drivers : SigSet sig2driver_entry_t :=
  build_sig2driver ct_internals id rows49_module.cells_ []

/-- The state `abstract_tree` returns on the marked wire of `rows49_module`. -/
def rows49_state : tree_state :=
  match abstract_tree rows49_module id rows49_drivers wire_y.sig 10 wire_y.sig
      ⟨[], [], [], []⟩ with
  | some (_, st) => st
  | none => ⟨[], [], [], []⟩

/-! ## inject_detect.cc -/

/-- The entry type `sig2driver_entry_t` of inject_detect.cc: the cell (a pointer in the
source) and the port name. -/
abbrev detect_entry_t := Cell × IdString

/-- The pool `sig_at_port`: the wire bits added to it. -/
abbrev SigPool := List SigBit

/-- The call `pool.check_any(sig)`. -/
def SigPool.check_any (pool : SigPool) (sig : SigSpec) : Bool :=
  sig.any (fun b => b.is_wire ∧ b ∈ pool)

/-- What `check_state_mux_tree` hands back: its result and the cache it has filled
(`none` when the recursion is deeper than the fuel). -/
abbrev mux_tree_result := Option (Bool × List (SigSpec × Bool))

/-- The loop of `check_state_mux_tree` over the cases of input B. `recurse` is the
recursive call. -/
def check_cases (recurse : SigSpec → List (SigSpec × Bool) → mux_tree_result)
    (sig_b : SigSpec) (width : Nat) : List Nat → List (SigSpec × Bool) → mux_tree_result
  | [], cache => some (true, cache)
  | i :: rest, cache =>
    match recurse ((sig_b.drop i).take width) cache with
    | none => none
    | some (false, cache) => some (false, cache)
    | some (true, cache) => check_cases recurse sig_b width rest cache

/-- The offsets `0, width, 2 * width, ..` below `size` the loop
`for (int i = 0; i < sig_b.size(); i += sig_a.size())` runs through; `count` bounds
their number. -/
def case_offsets (size width : Nat) : Nat → Nat → List Nat
  | 0, _ => []
  | count + 1, i => if i < size then i :: case_offsets size width count (i + width) else []

/-- The loop of `check_state_mux_tree` over the drivers of the signal. `recurse` is
the recursive call with the recursion monitor it is to see. The first component of the
result is `none` when the loop has run through, and the value passed to `ret_true` or
`ret_false` otherwise. -/
def check_drivers (assign_map : SigMap)
    (recurse : List Cell → SigSpec → List (SigSpec × Bool) → mux_tree_result)
    (recursion_monitor : List Cell) :
    List detect_entry_t → List (SigSpec × Bool) → Option (Option Bool × List (SigSpec × Bool))
  | [], cache => some (none, cache)
  | cellport :: rest, cache =>
    if (cellport.1.type ≠ CellType.mux ∧ cellport.1.type ≠ CellType.pmux)
        ∨ cellport.2 ≠ IdString.Y then
      if recursion_monitor.isEmpty then some (some false, cache) else some (some true, cache)
    else if cellport.1 ∈ recursion_monitor then some (some false, cache)
    else
      let monitor := cellport.1 :: recursion_monitor
      let sig_a := assign_map.apply (cellport.1.getPort IdString.A)
      let sig_b := assign_map.apply (cellport.1.getPort IdString.B)
      match recurse monitor sig_a cache with
      | none => none
      | some (false, cache) => some (some false, cache)
      | some (true, cache) =>
        match check_cases (recurse monitor) sig_b sig_a.length
            (case_offsets sig_b.length sig_a.length sig_b.length 0) cache with
        | none => none
        | some (false, cache) => some (some false, cache)
        | some (true, cache) => check_drivers assign_map recurse recursion_monitor rest cache

/-- The function `check_state_mux_tree`. The labels `ret_true` and `ret_false` store the
result in the cache. The recursion is bounded by `fuel`. -/
def check_state_mux_tree (assign_map : SigMap) (sig2driver : SigSet detect_entry_t)
    (sig_at_port : SigPool) :
    Nat → List Cell → SigSpec → List (SigSpec × Bool) → mux_tree_result
  | 0, _, _, _ => none
  | fuel + 1, recursion_monitor, sig, mux_tree_cache =>
    match mux_tree_cache.find? (fun e => e.1 = sig) with
    | some e => some (e.2, mux_tree_cache)
    | none =>
      if sig.is_fully_const then some (true, (sig, true) :: mux_tree_cache)
      else if sig_at_port.check_any (assign_map.apply sig) then
        some (false, (sig, false) :: mux_tree_cache)
      else
        match check_drivers assign_map (check_state_mux_tree assign_map sig2driver sig_at_port fuel)
            recursion_monitor (sig2driver.find sig) mux_tree_cache with
        | none => none
        | some (some result, cache) => some (result, (sig, result) :: cache)
        | some (none, cache) => some (true, (sig, true) :: cache)

/-- The function `check_state_users`. -/
def check_state_users (assign_map : SigMap) (sig2user : SigSet detect_entry_t)
    (sig_at_port : SigPool) (sig : SigSpec) : Bool :=
  if sig_at_port.check_any (assign_map.apply sig) then false
  else (sig2user.find sig).all
    (fun cellport => ¬ (cellport.1.type = CellType.mux ∨ cellport.1.type = CellType.pmux))

/-- Whether `detect_fsm` reaches the assignment of `"inject"` to `fsm_encoding` for the
wire (`none` when the mux tree is deeper than the fuel). -/
def detect_fsm_marks (assign_map : SigMap) (sig2driver sig2user : SigSet detect_entry_t)
    (sig_at_port : SigPool) (fuel : Nat) (wire : Wire) : Option Bool :=
  let has_fsm_encoding_none := wire.fsm_encoding = some "none"
  if has_fsm_encoding_none then some false
  else
    let cellport_list := sig2driver.find wire.sig
    if wire.sig ≠ assign_map.apply wire.sig then some false
    else if cellport_list.length > 1 then some false
    else if cellport_list.length = 0 then some false
    else
      match cellport_list with
      | [] => some false
      | cellport :: _ =>
        if (cellport.1.type ≠ CellType.mux ∧ cellport.1.type ≠ CellType.pmux)
            ∨ cellport.2 ≠ IdString.Y then some false
        else
          let sig := assign_map.apply wire.sig
          let looks_like_good_state_reg := check_state_users assign_map sig2user sig_at_port sig
          if ¬ looks_like_good_state_reg then some false
          else
            match check_state_mux_tree assign_map sig2driver sig_at_port fuel [] sig [] with
            | none => none
            | some (looks_like_state_reg, _) =>
              some (looks_like_state_reg ∧ looks_like_good_state_reg)

/-- The function `detect_fsm`: the wire as the function leaves it. -/
def detect_fsm (assign_map : SigMap) (sig2driver sig2user : SigSet detect_entry_t)
    (sig_at_port : SigPool) (fuel : Nat) (wire : Wire) : Option Wire :=
  match detect_fsm_marks assign_map sig2driver sig2user sig_at_port fuel wire with
  | none => none
  | some true => some { wire with fsm_encoding := some "inject" }
  | some false => some wire

/-- The loops of `InjectDetectPass::execute` that fill `sig2driver` and `sig2user`, for
one cell: the pair of the two sets. -/
def insert_detect (ct : CellTypes) (assign_map : SigMap) (cell : Cell) :
    List (IdString × SigSpec) → SigSet detect_entry_t × SigSet detect_entry_t →
    SigSet detect_entry_t × SigSet detect_entry_t
  | [], sets => sets
  | conn_it :: rest, (sig2driver, sig2user) =>
    let sig2driver :=
      if ct.cell_output cell.type conn_it.1 ∨ ¬ ct.cell_known cell.type then
        sig2driver.insert (assign_map.apply conn_it.2) (cell, conn_it.1)
      else sig2driver
    let sig2user :=
      if ¬ ct.cell_known cell.type ∨ ct.cell_input cell.type conn_it.1 then
        sig2user.insert (assign_map.apply conn_it.2) (cell, conn_it.1)
      else sig2user
    insert_detect ct assign_map cell rest (sig2driver, sig2user)

/-- The loops of `InjectDetectPass::execute` that fill `sig2driver` and `sig2user`. -/
def build_detect (ct : CellTypes) (assign_map : SigMap) :
    List Cell → SigSet detect_entry_t × SigSet detect_entry_t →
    SigSet detect_entry_t × SigSet detect_entry_t
  | [], sets => sets
  | cell :: rest, sets =>
    build_detect ct assign_map rest (insert_detect ct assign_map cell cell.connections_ sets)

/-- The loop of `InjectDetectPass::execute` that fills `sig_at_port`. -/
def build_sig_at_port (assign_map : SigMap) (wires : List Wire) : SigPool :=
  ((wires.filter (fun wire => wire.port_id ≠ 0)).map
    (fun wire => (assign_map.apply wire.sig).filter SigBit.is_wire)).flatten

/-- The loop of `InjectDetectPass::execute` over the wires of the module. -/
def detect_wires (assign_map : SigMap) (sig2driver sig2user : SigSet detect_entry_t)
    (sig_at_port : SigPool) (fuel : Nat) : List Wire → Option (List Wire)
  | [] => some []
  | wire :: rest =>
    match detect_fsm assign_map sig2driver sig2user sig_at_port fuel wire,
        detect_wires assign_map sig2driver sig2user sig_at_port fuel rest with
    | some wire, some rest => some (wire :: rest)
    | _, _ => none

/-- The body of `InjectDetectPass::execute` for one selected module. -/
def inject_detect (ct : CellTypes) (assign_map : SigMap) (fuel : Nat) (mod : Module) :
    Option Module :=
  let sets := build_detect ct assign_map mod.cells_ ([], [])
  let sig_at_port := build_sig_at_port assign_map mod.wires_
  match detect_wires assign_map sets.1 sets.2 sig_at_port fuel mod.wires_ with
  | some wires => some { mod with wires_ := wires }
  | none => none

/-- A module in which the two-bit wire 2 is driven by a `$mux` of two constants and is
used by an `$and` cell (and by no mux): wire 1 is the select, wires 3 and 4 the other
input and the output of the `$and`. -/
def and_user_module : Module :=
  { name := "top",
    wires_ := [⟨1, 1, 1, none, false⟩, ⟨2, 2, 0, none, false⟩, ⟨3, 2, 2, none, false⟩,
      ⟨4, 2, 3, none, false⟩],
    cells_ := [
      mk_mux 100 CellType.mux (const2 0) (const2 1) [SigBit.wire 1 0] (SigSpec.of_wire 2 2),
      ⟨101, CellType.and, [(IdString.A, SigSpec.of_wire 2 2), (IdString.B, SigSpec.of_wire 3 2),
        (IdString.Y, SigSpec.of_wire 4 2)], [], false⟩],
    autoidx := 200 }

/-- The second marked wire `u` of `nested_module`. -/
def wire_u : Wire := ⟨6, 2, 0, some "inject", false⟩

/-- A module with two marked wires, `y` (wire 2) listed before `u` (wire 6), in which
the tree of `y` contains the tree of `u`: `y` is driven by a `$pmux` (cell 100) with a
constant default and the three cases `n0`, `n1`, `u`; `n0` and `n1` are `$pmux` cells of
22 constant cases each (23 rows each); `u` is driven by a `$pmux` (cell 103) with a
constant default, a constant case and the case `n2`, and `n2` by a `$mux` of two
constants (cell 104). The tree of `u` has 4 rows, the tree of `y` has 51. -/
def nested_module : Module :=
  { name := "top",
    wires_ := [wire_y, wire_u, ⟨1, 3, 0, none, false⟩, ⟨3, 2, 0, none, false⟩,
      ⟨4, 2, 0, none, false⟩, ⟨7, 2, 0, none, false⟩, ⟨10, 22, 0, none, false⟩,
      ⟨11, 22, 0, none, false⟩, ⟨12, 2, 0, none, false⟩, ⟨13, 1, 0, none, false⟩],
    cells_ := [
      mk_mux 100 CellType.pmux (const2 0)
        (SigSpec.of_wire 3 2 ++ SigSpec.of_wire 4 2 ++ SigSpec.of_wire 6 2)
        (SigSpec.of_wire 1 3) (SigSpec.of_wire 2 2),
      const_pmux 101 10 22 (SigSpec.of_wire 3 2),
      const_pmux 102 11 22 (SigSpec.of_wire 4 2),
      mk_mux 103 CellType.pmux (const2 0) (const2 1 ++ SigSpec.of_wire 7 2)
        (SigSpec.of_wire 12 2) (SigSpec.of_wire 6 2),
      mk_mux 104 CellType.mux (const2 2) (const2 3) [SigBit.wire 13 0] (SigSpec.of_wire 7 2)],
    autoidx := 200 }

/-- The number of `$amt` cells after one run and after two runs of `inject_extract`
(`none` when a run does not finish within the fuel). -/
def amt_count_after_runs (ct : CellTypes) (assign_map : SigMap) (fuel : Nat) (mod : Module) :
    Option (Nat × Nat) :=
  match inject_extract ct assign_map fuel mod with
  | none => none
  | some mod1 =>
    match inject_extract ct assign_map fuel mod1 with
    | none => none
    | some mod2 => some (mod1.amt_cells.length, mod2.amt_cells.length)

/-- The module `two_select_module` after `extract_tree` on its marked wire. -/
def two_select_after : Module :=
  match extract_tree id two_select_drivers 10 two_select_module wire_y with
  | some m => m
  | none => two_select_module

/-! ## inject_expand.cc -/

/-- The signal the expander inserts into `sig2driver` for a port: the wire bits whose
wire has no public name. `is_public` tells whether a wire name starts with a backslash. -/
def filtered_signal (is_public : Nat → Bool) (signal : SigSpec) : SigSpec :=
  signal.filter (fun bit => match bit with
    | SigBit.wire name _ => !is_public name
    | SigBit.const _ => false)

/-- The loop of `InjectExpandPass::execute` that fills `sig2driver`, for one cell. -/
def insert_expand_drivers (ct : CellTypes) (assign_map : SigMap) (is_public : Nat → Bool)
    (cell : Cell) : List (IdString × SigSpec) → SigSet Cell → SigSet Cell
  | [], sig2driver => sig2driver
  | connection :: rest, sig2driver =>
    if ct.cell_output cell.type connection.1 then
      insert_expand_drivers ct assign_map is_public cell rest
        (sig2driver.insert (filtered_signal is_public (assign_map.apply connection.2)) cell)
    else insert_expand_drivers ct assign_map is_public cell rest sig2driver

/-- The loop of `InjectExpandPass::execute` that fills `sig2driver`: only `$eq`, `$and`,
`$or` and `$not` cells are entered. -/
def build_expand_drivers (ct : CellTypes) (assign_map : SigMap) (is_public : Nat → Bool) :
    List Cell → SigSet Cell → SigSet Cell
  | [], sig2driver => sig2driver
  | cell :: rest, sig2driver =>
    if cell.type = CellType.eq ∨ cell.type = CellType.and ∨ cell.type = CellType.or
        ∨ cell.type = CellType.not then
      build_expand_drivers ct assign_map is_public rest
        (insert_expand_drivers ct assign_map is_public cell cell.connections_ sig2driver)
    else build_expand_drivers ct assign_map is_public rest sig2driver

/-- Insertion into a list of cells sorted by name index. -/
def insert_by_name (cell : Cell) : List Cell → List Cell
  | [] => [cell]
  | c :: rest => if cell.name ≤ c.name then cell :: c :: rest else c :: insert_by_name cell rest

/-- The worklist `sig2driver.find(sig)` of the expander, a set ordered by
`sort_by_name_id`. -/
def find_worklist (sig2driver : SigSet Cell) (sig : SigSpec) : List Cell :=
  (sig2driver.find sig).foldr insert_by_name []

/-- The first loop of the merge of a cell: the inputs and the outputs of the cell. -/
def cell_input_output (ct : CellTypes) (assign_map : SigMap) (cell : Cell) :
    List (IdString × SigSpec) → SigSpec × SigSpec → SigSpec × SigSpec
  | [], io => io
  | p :: rest, (cell_input, cell_output) =>
    if ct.cell_input cell.type p.1 then
      cell_input_output ct assign_map cell rest (cell_input ++ assign_map.apply p.2, cell_output)
    else
      cell_input_output ct assign_map cell rest (cell_input, cell_output ++ assign_map.apply p.2)

/-- The loop over the output bits of an `$and` or `$or` cell: for every output bit that
is a selector bit, the input bits at the offsets `|Y| + i` (`left`) and `i` (`right`);
`none` when an offset is out of range. -/
def pair_inputs (select cell_input cell_output : SigSpec) :
    List Nat → SigSpec × SigSpec → Option (SigSpec × SigSpec)
  | [], lr => some lr
  | i :: rest, (left, right) =>
    if ¬ (select.extract_pattern ((cell_output.drop i).take 1)).isEmpty then
      match cell_input.extract (cell_output.length + i) 1, cell_input.extract i 1 with
      | some l, some r => pair_inputs select cell_input cell_output rest (left ++ l, right ++ r)
      | _, _ => none
    else pair_inputs select cell_input cell_output rest (left, right)

/-- The loop over the output bits of a `$not` cell: for every output bit that is a
selector bit, the input bit at the same offset; `none` when it is out of range. -/
def filter_inputs (select cell_input cell_output : SigSpec) :
    List Nat → SigSpec → Option SigSpec
  | [], filtered_input => some filtered_input
  | i :: rest, filtered_input =>
    if ¬ (select.extract_pattern ((cell_output.drop i).take 1)).isEmpty then
      match cell_input.extract i 1 with
      | some b => filter_inputs select cell_input cell_output rest (filtered_input ++ b)
      | none => none
    else filter_inputs select cell_input cell_output rest filtered_input

/-- The signal `cell_input` of the merge of a cell, up to `remove_const`, together with
the signal `cell_output` read from the ports. -/
def driver_input (ct : CellTypes) (assign_map : SigMap) (cell : Cell) (select : SigSpec) :
    Option (SigSpec × SigSpec) :=
  let io := cell_input_output ct assign_map cell cell.connections_ ([], [])
  let cell_input := io.1.sort_and_unify
  let cell_output := io.2
  if cell.type = CellType.and ∨ cell.type = CellType.or then
    match pair_inputs select cell_input cell_output (List.range cell_output.length) ([], []) with
    | some (left, right) => some ((left ++ right).remove_const, cell_output)
    | none => none
  else if cell.type = CellType.not then
    match filter_inputs select cell_input cell_output (List.range cell_output.length) [] with
    | some filtered_input => some (filtered_input.remove_const, cell_output)
    | none => none
  else some (cell_input.remove_const, cell_output)

/-- The constant a port of the driver takes for the input assignment `in_val`: the
bits of `cell_input` receive `in_val`, every other wire bit receives 0; an absent port
is the empty constant. -/
def port_const (assign_map : SigMap) (cell : Cell) (port : IdString) (cell_input : SigSpec)
    (in_val : Const) : Option Const :=
  if cell.hasPort port then
    let sig := assign_map.apply (cell.getPort port)
    let sig := sig.replace cell_input (SigSpec.of_const in_val)
    let sig := sig.replace (assign_map.apply (cell.getPort port))
      (SigSpec.of_const (Const.of_state State.S0 sig.length))
    sig.as_const
  else some []

/-- A row of the truth table of a driver: the pattern on the selector bits it drives
and the pattern on its inputs. -/
abbrev truth_row := Const × Const

/-- One iteration of the loop that fills `truth_tab`. -/
def truth_entry (ct : CellTypes) (assign_map : SigMap) (cell : Cell)
    (cell_input cell_output full_output : SigSpec) (i : Nat) : Option truth_row :=
  let in_val := Const.of_int (Int.ofNat i) cell_input.length
  match port_const assign_map cell IdString.A cell_input in_val,
      port_const assign_map cell IdString.B cell_input in_val,
      port_const assign_map cell IdString.S cell_input in_val with
  | some A, some B, some S =>
    match (cell_output.replace full_output (SigSpec.of_const (ct.eval cell A B S))).as_const with
    | some out_val => some (out_val, in_val)
    | none => none
  | _, _, _ => none

/-- The loop that fills `truth_tab`, over the given input assignments. -/
def truth_table (ct : CellTypes) (assign_map : SigMap) (cell : Cell)
    (cell_input cell_output full_output : SigSpec) : List Nat → Option (List truth_row)
  | [] => some []
  | i :: rest =>
    match truth_entry ct assign_map cell cell_input cell_output full_output i,
        truth_table ct assign_map cell cell_input cell_output full_output rest with
    | some row, some rows => some (row :: rows)
    | _, _ => none

/-- The counter `matching` of the merge loop: the number of positions at which two
input patterns hold the same element. -/
def count_matching : Const → Const → Nat
  | a :: as, b :: bs => (if a = b then 1 else 0) + count_matching as bs
  | _, _ => 0

/-- The variable `index` of the merge loop: the last position at which two input
patterns differ. -/
def last_mismatch : Const → Const → Nat → Nat → Nat
  | a :: as, b :: bs, k, index => last_mismatch as bs (k + 1) (if a = b then index else k)
  | _, _, _, index => index

/-- The inner loop over `j` of the merge loop for the row `row_i`: the first later row
with the same output pattern and exactly one differing input position is erased and
the position is set to don't-care in `row_i`. `none` when there is no such row. -/
def merge_row (width : Nat) (row_i : truth_row) : List truth_row → Option (truth_row × List truth_row)
  | [] => none
  | row_j :: rest =>
    if row_i.1 = row_j.1 ∧ count_matching row_i.2 row_j.2 + 1 = width then
      some ((row_i.1, row_i.2.set (last_mismatch row_i.2 row_j.2 0 0) State.Sa), rest)
    else
      match merge_row width row_i rest with
      | some (row, rest) => some (row, row_j :: rest)
      | none => none

/-- One run of the loop over `i` of the merge loop, from the given rows on; the flag
tells whether a merge took place. `count` bounds the number of rows. -/
def merge_pass (width : Nat) : Nat → List truth_row → List truth_row × Bool
  | 0, rows => (rows, false)
  | _, [] => ([], false)
  | count + 1, row_i :: rest =>
    match merge_row width row_i rest with
    | some (row, rest) => ((row :: (merge_pass width count rest).1), true)
    | none => ((row_i :: (merge_pass width count rest).1), (merge_pass width count rest).2)

/-- The loop `while (merged)`: every run but the last erases a row, `count` bounds the
number of runs. -/
def minimize (width : Nat) : Nat → List truth_row → List truth_row
  | 0, rows => rows
  | count + 1, rows =>
    let r := merge_pass width rows.length rows
    if r.2 then minimize width count r.1 else r.1

/-- The constant `selection_input` of a row: the inputs of the driver with the selector
bits replaced by the pattern of the row, every remaining wire bit as don't-care. -/
def selection_input (cell_input old_select : SigSpec) (selection : selection_t) : Const :=
  (cell_input.replace_into old_select (SigSpec.of_const selection.select) cell_input).map
    (fun bit => match bit with
      | SigBit.wire _ _ => State.Sa
      | SigBit.const data => data)

/-- The first inner loop over `k`: whether the output pattern of a truth-table row is
compatible with `selection_output`. -/
def outputs_compatible : Const → Const → Bool
  | t :: ts, s :: ss =>
    if t ≠ State.Sa ∧ s ≠ State.Sa ∧ t ≠ s then false else outputs_compatible ts ss
  | _, _ => true

/-- The second inner loop over `k`: the input pattern of a truth-table row is unified
with `selection_input` and written into `new_select` at the positions of the input
bits; the flag `matching` is cleared where both are defined and differ. -/
def unify_inputs (select : SigSpec) :
    SigSpec → Const → Const → SigSpec × Bool → SigSpec × Bool
  | bit :: bits, t :: ts, s :: ss, (new_select, matching) =>
    if t = State.Sa then
      unify_inputs select bits ts ss
        (select.replace_into [bit] [SigBit.const s] new_select, matching)
    else if s = State.Sa then
      unify_inputs select bits ts ss
        (select.replace_into [bit] [SigBit.const t] new_select, matching)
    else if t = s then
      unify_inputs select bits ts ss
        (select.replace_into [bit] [SigBit.const s] new_select, matching)
    else unify_inputs select bits ts ss (new_select, false)
  | _, _, _, r => r

/-- The loop over the truth-table rows `j` for one row of the AMT: the rows inserted
for it, in order. `new_select` is carried from one `j` to the next as in the source.
`none` when a product is not a constant (`as_const` asserts). -/
def product_rows (select cell_input : SigSpec) (selection_output selection_input : Const)
    (selection : selection_t) :
    List truth_row → SigSpec → Option (List selection_t)
  | [], _ => some []
  | row :: rest, new_select =>
    if ¬ outputs_compatible row.1 selection_output then
      product_rows select cell_input selection_output selection_input selection rest new_select
    else
      let r := unify_inputs select cell_input row.2 selection_input (new_select, true)
      if ¬ r.2 then
        product_rows select cell_input selection_output selection_input selection rest r.1
      else
        match r.1.as_const,
            product_rows select cell_input selection_output selection_input selection rest r.1 with
        | some c, some rows => some (⟨c, selection.output, selection.buggy⟩ :: rows)
        | _, _ => none

/-- The body of the loop over the rows `i` of the AMT: the rows that replace row `i`. -/
def expand_row (old_select select cell_input cell_output : SigSpec)
    (truth_tab : List truth_row) (selection : selection_t) : Option (List selection_t) :=
  match (cell_output.replace_into old_select (SigSpec.of_const selection.select)
      cell_output).as_const with
  | none => none
  | some selection_output =>
    let new_select := select.replace old_select (SigSpec.of_const selection.select)
    if selection_output = Const.of_state State.Sa selection_output.length then
      let new_select := new_select.replace cell_input
        (SigSpec.of_const (Const.of_state State.Sa cell_input.length))
      match new_select.as_const with
      | some c => some [⟨c, selection.output, selection.buggy⟩]
      | none => none
    else
      product_rows select cell_input selection_output
        (selection_input cell_input old_select selection) selection truth_tab new_select

/-- The loop over the rows `i` of the AMT: every row is replaced by its products. -/
def expand_rows (old_select select cell_input cell_output : SigSpec)
    (truth_tab : List truth_row) : List selection_t → Option (List selection_t)
  | [] => some []
  | selection :: rest =>
    match expand_row old_select select cell_input cell_output truth_tab selection,
        expand_rows old_select select cell_input cell_output truth_tab rest with
    | some rows, some more => some (rows ++ more)
    | _, _ => none

/-- The selector and the working table of the expander. -/
structure expand_state where
  select : SigSpec
  selections : List selection_t
  deriving DecidableEq, Repr

/-- The body of the loop over the cells of the worklist. The flag tells whether the
cell was merged (`false` for the `continue` of a cell with more than 8 input bits).
`none` when an assertion of the source fails. -/
def merge_cell (ct : CellTypes) (assign_map : SigMap) (cell : Cell) (st : expand_state) :
    Option (expand_state × Bool) :=
  match driver_input ct assign_map cell st.select with
  | none => none
  | some (cell_input, full_output) =>
    if cell_input.length > 8 then some (st, false)
    else
      let cell_output := full_output.extract_pattern st.select
      match truth_table ct assign_map cell cell_input cell_output full_output
          (List.range (2 ^ cell_input.length)) with
      | none => none
      | some truth_tab =>
        let truth_tab := minimize cell_input.length truth_tab.length truth_tab
        let old_select := st.select
        let select := add_select cell_input st.select
        match expand_rows old_select select cell_input cell_output truth_tab st.selections with
        | none => none
        | some selections => some (⟨select, selections⟩, true)

/-- The loop over the cells of the worklist; it is left as soon as a merge leaves more
than 100 rows. -/
def merge_worklist (ct : CellTypes) (assign_map : SigMap) :
    List Cell → expand_state → Option expand_state
  | [], st => some st
  | cell :: rest, st =>
    match merge_cell ct assign_map cell st with
    | none => none
    | some (st, merged) =>
      if merged ∧ st.selections.length > 100 then some st
      else merge_worklist ct assign_map rest st

/-- The outer loop over the worklists. `fuel` bounds the number of worklists; `none`
also when it is exhausted. -/
def expand_loop (ct : CellTypes) (assign_map : SigMap) (sig2driver : SigSet Cell) :
    Nat → Nat → expand_state → Option expand_state
  | 0, _, _ => none
  | fuel + 1, position, st =>
    let worklist := find_worklist sig2driver (assign_map.apply (st.select.drop position))
    if worklist.isEmpty then some st
    else
      let position := st.select.length
      match merge_worklist ct assign_map worklist st with
      | none => none
      | some st =>
        if st.selections.length > 100 then some st
        else expand_loop ct assign_map sig2driver fuel position st

/-- The test of the final filter: the projection of an expanded row onto the original
selector equals the pattern of the original row. -/
def projects_to (original_select select : SigSpec) (selection expanded_selection : selection_t) :
    Bool :=
  original_select.replace select (SigSpec.of_const expanded_selection.select)
    = SigSpec.of_const selection.select

/-- The final filter: the original rows onto which an expanded row projects. -/
def filtered_selections (original_select select : SigSpec)
    (original_selections selections : List selection_t) : List selection_t :=
  original_selections.filter (fun selection =>
    selections.any (fun expanded_selection =>
      projects_to original_select select selection expanded_selection))

/-- The end of the body for one AMT: the cell with its original selector and the
filtered table. -/
def expand_finish (amt_cell : Cell) (original_select : SigSpec)
    (original_selections : List selection_t) (st : expand_state) : Cell :=
  copy_to_cell ((amt_cell.unsetPort IdString.S).setPort IdString.S original_select)
    (filtered_selections original_select st.select original_selections st.selections)

/-- The expanded table of an AMT: the state the loops of the body end with. -/
def expand_table (ct : CellTypes) (assign_map : SigMap) (sig2driver : SigSet Cell)
    (fuel : Nat) (amt_cell : Cell) : Option expand_state :=
  match copy_from_cell amt_cell [] with
  | none => none
  | some selections =>
    expand_loop ct assign_map sig2driver fuel 0 ⟨amt_cell.getPort IdString.S, selections⟩

/-- The body of the loop of `InjectExpandPass::execute` over the AMT cells: the cell
as the pass leaves it. -/
def expand_amt (ct : CellTypes) (assign_map : SigMap) (sig2driver : SigSet Cell)
    (fuel : Nat) (amt_cell : Cell) : Option Cell :=
  match copy_from_cell amt_cell [], expand_table ct assign_map sig2driver fuel amt_cell with
  | some original_selections, some st =>
    some (expand_finish amt_cell (amt_cell.getPort IdString.S) original_selections st)
  | _, _ => none

/-- The loop of `InjectExpandPass::execute` over the cells of a module. -/
def expand_cells (ct : CellTypes) (assign_map : SigMap) (sig2driver : SigSet Cell)
    (fuel : Nat) : List Cell → Option (List Cell)
  | [] => some []
  | cell :: rest =>
    match (if cell.type = CellType.amt then expand_amt ct assign_map sig2driver fuel cell
        else some cell), expand_cells ct assign_map sig2driver fuel rest with
    | some cell, some rest => some (cell :: rest)
    | _, _ => none

/-- The body of `InjectExpandPass::execute` for one selected module. -/
def inject_expand (ct : CellTypes) (assign_map : SigMap) (is_public : Nat → Bool) (fuel : Nat)
    (module : Module) : Option Module :=
  let sig2driver := build_expand_drivers ct assign_map is_public module.cells_ []
  match expand_cells ct assign_map sig2driver fuel module.cells_ with
  | some cells => some { module with cells_ := cells }
  | none => none

/-! ### Sample module for the expander -/

/-- Wire names below 16 stand for public names (with a leading backslash). -/
def public_below_16 (name : Nat) : Bool :=
  decide (name < 16)

/-- The rows `00 -> 2, 10 -> 3, 01 -> 1, 11 -> 0` over the selector `(a, y)`. -/
def not_rows : List selection_t :=
  [⟨[State.S0, State.S0], const2 2, false⟩, ⟨[State.S0, State.S1], const2 3, false⟩,
   ⟨[State.S1, State.S0], const2 1, false⟩, ⟨[State.S1, State.S1], const2 0, false⟩]

/-- An `$amt` cell with the selector `(a, y)`, `a` the public wire 1 and `y` the private
wire 20, and the rows `not_rows`. -/
def not_amt_cell : Cell :=
  copy_to_cell ⟨150, CellType.amt, [(IdString.A, []), (IdString.S, [SigBit.wire 1 0,
    SigBit.wire 20 0]), (IdString.Y, SigSpec.of_wire 2 2)], [], false⟩ not_rows

/-- A module in which the selector bit `y` of `not_amt_cell` is driven by a `$not` cell
with the input `a`, the other selector bit: `y = ~a`. The rows with `a = y` can never
match. -/
def not_module : Module :=
  { name := "top",
    wires_ := [⟨1, 1, 1, none, false⟩, ⟨2, 2, 2, none, false⟩, ⟨20, 1, 0, none, false⟩],
    cells_ := [
      ⟨100, CellType.not, [(IdString.A, [SigBit.wire 1 0]), (IdString.Y, [SigBit.wire 20 0])],
        [], false⟩,
      not_amt_cell],
    autoidx := 200 }

/-- The driver index `InjectExpandPass::execute` builds for `not_module`. -/
def not_drivers : SigSet Cell :=
  build_expand_drivers ct_internals id public_below_16 not_module.cells_ []

/-! ## inject_amt.cc -/

/-- The call `v.erase(v.begin() + index)` of `std::vector`; it is defined for an index
below the size only (`none` otherwise). -/
def vector_erase {α : Type} (v : List α) (index : Nat) : Option (List α) :=
  if index < v.length then some (v.eraseIdx index) else none

/-- The state of the loops of `InjectAmtPass::execute` for one AMT: the table
`selections` (rows are changed and restored in place), the list `bugs`, and the number
of calls of `rand()` made so far. `rand n` is the value of call number `n`. -/
structure amt_state where
  selections : List selection_t
  bugs : List (List selection_t)
  calls : Nat
  deriving DecidableEq, Repr

/-- The divisor `one_in` of the mutation test. -/
def one_in (rows width bugs_per_cell : Nat) : Nat :=
  if rows * width / bugs_per_cell = 0 then 1 else rows * width / bugs_per_cell

/-- The body of the loop over the bits of a row: bit `k` of row `selection_index`. A
bit that is 0 or 1 yields the generalisation variant (the bit is don't-care, the row is
flagged and moved to the front), a don't-care bit the specialisation variant (the bit
is 0 or 1, the row is flagged). Afterwards the bit is restored and the flag of the row
is cleared. -/
def mutate_bit (rand : Nat → Nat) (bugs_per_cell selection_index k : Nat)
    (st : amt_state) : amt_state :=
  match st.selections[selection_index]? with
  | none => st
  | some selection =>
    if rand st.calls % one_in st.selections.length selection.select.length bugs_per_cell = 0 then
      match selection.select[k]? with
      | some State.Sa =>
        let bit := if rand (st.calls + 1) % 2 = 1 then State.S1 else State.S0
        let mutated : selection_t := { selection with select := selection.select.set k bit,
                                                      buggy := true }
        let restored : selection_t := { selection with buggy := false }
        { selections := st.selections.set selection_index restored,
          bugs := st.bugs ++ [st.selections.set selection_index mutated],
          calls := st.calls + 2 }
      | some bit =>
        if bit = State.S0 ∨ bit = State.S1 then
          let mutated : selection_t :=
            { selection with select := selection.select.set k State.Sa, buggy := true }
          let restored : selection_t := { selection with buggy := false }
          { selections := st.selections.set selection_index restored,
            bugs := st.bugs ++
              [mutated :: (st.selections.set selection_index mutated).eraseIdx selection_index],
            calls := st.calls + 1 }
        else { st with calls := st.calls + 1 }
      | none => { st with calls := st.calls + 1 }
    else { st with calls := st.calls + 1 }

/-- The loop over the bits of row `selection_index`, from the given positions on. -/
def mutate_bits (rand : Nat → Nat) (bugs_per_cell selection_index : Nat) :
    List Nat → amt_state → amt_state
  | [], st => st
  | k :: rest, st =>
    mutate_bits rand bugs_per_cell selection_index rest
      (mutate_bit rand bugs_per_cell selection_index k st)

/-- The body of the loop over the rows: a row whose output is fully undefined is
skipped. -/
def mutate_row (rand : Nat → Nat) (bugs_per_cell selection_index : Nat) (st : amt_state) :
    amt_state :=
  match st.selections[selection_index]? with
  | none => st
  | some selection =>
    if selection.output.is_fully_undef then st
    else mutate_bits rand bugs_per_cell selection_index (List.range selection.select.length) st

/-- The loop over the rows, from the given indices on. -/
def mutate_rows (rand : Nat → Nat) (bugs_per_cell : Nat) : List Nat → amt_state → amt_state
  | [], st => st
  | selection_index :: rest, st =>
    mutate_rows rand bugs_per_cell rest (mutate_row rand bugs_per_cell selection_index st)

/-- The index `rand() % (selections.size() + 1)` of the row the removal variant
erases. -/
def removal_index (rand : Nat → Nat) (st : amt_state) : Nat :=
  rand st.calls % (st.selections.length + 1)

/-- The loop that adds the removal variant (it runs once). -/
def add_removal (rand : Nat → Nat) (st : amt_state) : Option amt_state :=
  match vector_erase st.selections (removal_index rand st) with
  | some buggy_selections =>
    some { st with bugs := st.bugs ++ [buggy_selections], calls := st.calls + 1 }
  | none => none

/-- The list `bugs` and the restored table for an AMT with the decoded table
`selections`. -/
def amt_bugs (rand : Nat → Nat) (bugs_per_cell calls : Nat) (selections : List selection_t) :
    Option amt_state :=
  add_removal rand
    (mutate_rows rand bugs_per_cell (List.range selections.length) ⟨selections, [], calls⟩)

/-- The loop `for (auto &bug : bugs)`: the cell as `copy_to_cell` leaves it for each
bug, in the order the designs are written. -/
def write_bugs : Cell → List (List selection_t) → List Cell
  | _, [] => []
  | cell, bug :: rest => copy_to_cell cell bug :: write_bugs (copy_to_cell cell bug) rest

/-- What the body of the loop over the AMT cells produces: the cell as serialised for
each variant, the cell as the pass leaves it, and the number of calls of `rand()`. -/
structure amt_result where
  variants : List Cell
  cell : Cell
  calls : Nat
  deriving DecidableEq, Repr

/-- The body of the second loop of `InjectAmtPass::execute` over the cells, for an
`$amt` cell (the attribute on the wire behind port Y is set and erased together with the
one on the cell). `none` when the table cannot be decoded or the removal index is out of
range. -/
def inject_amt_cell (rand : Nat → Nat) (bugs_per_cell calls : Nat) (cell : Cell) :
    Option amt_result :=
  match copy_from_cell cell [] with
  | none => none
  | some selections =>
    if selections.length < 4 then some ⟨[], cell, calls⟩
    else
      match amt_bugs rand bugs_per_cell calls selections with
      | none => none
      | some st =>
        let marked := { cell with buggy := true }
        let variants := write_bugs marked st.bugs
        let last := match variants.getLast? with
          | some c => c
          | none => marked
        some ⟨variants, { copy_to_cell last st.selections with buggy := false }, st.calls⟩

/-- All rows have a pattern of width `k` and an output of width `m`. -/
def rows_sized (k m : Nat) (rows : List selection_t) : Prop :=
  ∀ r ∈ rows, r.select.length = k ∧ r.output.length = m

/-- The table and all variants collected so far have rows of the widths `k` and `m`. -/
def amt_state_sized (k m : Nat) (st : amt_state) : Prop :=
  rows_sized k m st.selections ∧ ∀ bug ∈ st.bugs, rows_sized k m bug

/-- The `$not` cell of `not_module`. -/
def not_cell : Cell :=
  ⟨100, CellType.not, [(IdString.A, [SigBit.wire 1 0]), (IdString.Y, [SigBit.wire 20 0])],
    [], false⟩

/-- A working table of 101 copies of the row `01 -> 3` over the selector `(a, y)` of
`not_amt_cell`. -/
def rows101 : expand_state :=
  ⟨[SigBit.wire 1 0, SigBit.wire 20 0],
    List.replicate 101 ⟨[State.S0, State.S1], const2 3, false⟩⟩

/-- An `$and` cell with operands of `width` bits: `y = a & b` with `a` the wire 1, `b`
the wire 3 and `y` the wire 20. -/
def and_cell (width : Nat) : Cell :=
  ⟨100, CellType.and, [(IdString.A, SigSpec.of_wire 1 width),
    (IdString.B, SigSpec.of_wire 3 width), (IdString.Y, SigSpec.of_wire 20 width)], [], false⟩

/-- A working table over the selector `select` with one row of don't-cares. -/
def dont_care_table (select : SigSpec) : expand_state :=
  ⟨select, [⟨Const.of_state State.Sa select.length, [SigBit.const State.S1], false⟩]⟩

/-- No row of the table carries the buggy flag. -/
def no_buggy (rows : List selection_t) : Prop :=
  ∀ r ∈ rows, r.buggy = false

/-- The state of the loops of `InjectAmtPass::execute` over the table `rows` when the
loop over the bits reaches bit `j` of row `i`. -/
def state_at (rand : Nat → Nat) (bugs_per_cell calls : Nat) (rows : List selection_t)
    (i j : Nat) : amt_state :=
  mutate_bits rand bugs_per_cell i (List.range j)
    (mutate_rows rand bugs_per_cell (List.range i) ⟨rows, [], calls⟩)

/-- The test `(rand() % one_in) == 0` the loop makes when it reaches bit `j` of row
`i`: whether the bit is chosen for mutation. -/
def chosen (rand : Nat → Nat) (bugs_per_cell calls : Nat) (rows : List selection_t)
    (i j : Nat) : Bool :=
  match rows[i]? with
  | some r =>
    decide (rand (state_at rand bugs_per_cell calls rows i j).calls
      % one_in rows.length r.select.length bugs_per_cell = 0)
  | none => false

/-- Rows with don't-care bits over a selector of two bits:
`-0 -> 0, 1- -> 1, 01 -> 2, -- -> 3` (patterns written from bit 0 on). -/
def dc_rows : List selection_t :=
  [⟨[State.Sa, State.S0], const2 0, false⟩, ⟨[State.S1, State.Sa], const2 1, false⟩,
   ⟨[State.S0, State.S1], const2 2, false⟩, ⟨[State.Sa, State.Sa], const2 3, false⟩]

/-- An `$amt` cell with the selector of `not_amt_cell` and the rows `dc_rows`. -/
def dc_amt_cell : Cell :=
  copy_to_cell ⟨151, CellType.amt, [(IdString.A, []), (IdString.S, [SigBit.wire 1 0,
    SigBit.wire 20 0]), (IdString.Y, SigSpec.of_wire 2 2)], [], false⟩ dc_rows

/-- The call `sig.as_wire()` on a signal of a module with the wires `wires`: the wire
the signal is the whole of. It asserts `is_wire()` (`none` when it does not hold). -/
def SigSpec.as_wire (wires : List Wire) (sig : SigSpec) : Option Wire :=
  match sig with
  | SigBit.wire name _ :: _ =>
    match wires.find? (fun w => w.name = name) with
    | some w => if w.sig = sig then some w else none
    | none => none
  | _ => none

/-- Assignment (`value = true`) and erasure (`value = false`) of the attribute `buggy`
of the wire called `name`. -/
def set_wire_buggy (wires : List Wire) (name : Nat) (value : Bool) : List Wire :=
  wires.map (fun w => if w.name = name then { w with buggy := value } else w)

/-- The first loop of `InjectAmtPass::execute` over the cells of a module: the number
of `$amt` cells with at least 4 rows. -/
def count_amt_cells : List Cell → Option Nat
  | [] => some 0
  | cell :: rest =>
    if cell.type = CellType.amt then
      match copy_from_cell cell [], count_amt_cells rest with
      | some selections, some n => some (if selections.length < 4 then n else n + 1)
      | _, _ => none
    else count_amt_cells rest

/-- The state of the second loop of `InjectAmtPass::execute` over the cells of a
module: the cells the loop has passed, as it left them, the wires, the module as
serialised for each variant so far, and the number of calls of `rand()`. -/
structure inject_amt_state where
  cells : List Cell
  wires : List Wire
  written : List Module
  calls : Nat
  deriving DecidableEq, Repr

/-- The module as `write_design` serialises it for the variant cell `v`: the cells
before and after are as they are, the wire behind port Y carries the attribute. -/
def variant_design (module : Module) (before after : List Cell) (wires : List Wire)
    (v : Cell) : Module :=
  { module with cells_ := before ++ v :: after, wires_ := wires }

/-- The second loop of `InjectAmtPass::execute` over the cells of a module, from the
given cells on. `none` when a table cannot be decoded, the removal index is out of
range or port Y of a cell with at least 4 rows is not a whole wire. -/
def inject_amt_cells (rand : Nat → Nat) (bugs_per_cell : Nat) (module : Module) :
    List Cell → inject_amt_state → Option inject_amt_state
  | [], st => some st
  | cell :: rest, st =>
    if cell.type = CellType.amt then
      match copy_from_cell cell [] with
      | none => none
      | some selections =>
        if selections.length < 4 then
          inject_amt_cells rand bugs_per_cell module rest { st with cells := st.cells ++ [cell] }
        else
          match inject_amt_cell rand bugs_per_cell st.calls cell,
              (cell.getPort IdString.Y).as_wire st.wires with
          | some res, some wire =>
            let marked := set_wire_buggy st.wires wire.name true
            let designs := res.variants.map (variant_design module st.cells rest marked)
            inject_amt_cells rand bugs_per_cell module rest
              ⟨st.cells ++ [res.cell], set_wire_buggy st.wires wire.name false,
                st.written ++ designs, res.calls⟩
          | _, _ => none
    else inject_amt_cells rand bugs_per_cell module rest { st with cells := st.cells ++ [cell] }

/-- The body of the loop of `InjectAmtPass::execute` over the selected modules, for one
module; `bugs_per_module` is at least 1. -/
def inject_amt (rand : Nat → Nat) (bugs_per_module calls : Nat) (module : Module) :
    Option inject_amt_state :=
  match count_amt_cells module.cells_ with
  | none => none
  | some num_amt_cells =>
    if num_amt_cells = 0 then some ⟨module.cells_, module.wires_, [], calls⟩
    else
      let bugs_per_cell :=
        if bugs_per_module / num_amt_cells = 0 then 1 else bugs_per_module / num_amt_cells
      inject_amt_cells rand bugs_per_cell module module.cells_ ⟨[], module.wires_, [], calls⟩

/-- The flag element of every row of the table of an AMT cell with `n` rows is 0. -/
def flags_zero (cell : Cell) (n : Nat) : Prop :=
  ∀ i, i < n →
    cell.STATE_TABLE[i * ((cell.getPort IdString.S).length + 1)
      + (cell.getPort IdString.S).length]? = some State.S0

/-! ## inject_driver.cc -/

/-- The test `sig.is_wire()` on a signal of a module with the wires `wires`. -/
def SigSpec.is_wire (wires : List Wire) (sig : SigSpec) : Bool :=
  (sig.as_wire wires).isSome

/-- A connection of a module (`RTLIL::SigSig`): the target (`first`) and its driver
(`second`). -/
abbrev SigSig := SigSpec × SigSpec

/-- The signal of a chunk (`SigSpec(chunk)`): the constant run is taken from the bits
`bits` of the signal the chunk belongs to. -/
def chunk_signal (bits : SigSpec) (offset : Nat) (chunk : SigChunk) : SigSpec :=
  (bits.drop offset).take chunk.width

/-- The loop over the chunks of the driver of a connection in
`InjectDriverPass::execute`: a chunk that is a constant or a wire with a public name
is a driver, and the slice of the target at its offset is a target; a chunk of a wire
without a public name stops the offset. `position` is the offset of the chunk in the
driver. `none` when the slice lies outside the target. -/
def collect_chunks (is_public : Nat → Bool) (driver target : SigSpec) :
    List SigChunk → Nat → Nat → List SigSpec × List SigSpec →
    Option (Nat × List SigSpec × List SigSpec)
  | [], _, offset, sets => some (offset, sets)
  | chunk :: rest, position, offset, (current_drivers, current_targets) =>
    let accepted := match chunk.wire with
      | none => true
      | some name => is_public name
    if accepted then
      match target.extract offset chunk.width with
      | some slice =>
        collect_chunks is_public driver target rest (position + chunk.width)
          (offset + chunk.width)
          (set_insert (chunk_signal driver position chunk) current_drivers,
            set_insert slice current_targets)
      | none => none
    else
      collect_chunks is_public driver target rest (position + chunk.width) offset
        (current_drivers, current_targets)

/-- The loop over the connections of the module that fills `drivers_set` and
`targets_set`. The sets are kept as lists without duplicates in the order of insertion;
the order in which `std::set` holds them is that of `SigSpec::operator<`, which is
not among the sources. -/
def collect_drivers (is_public : Nat → Bool) (wires : List Wire) :
    List SigSig → List SigSpec × List SigSpec → Option (List SigSpec × List SigSpec)
  | [], sets => some sets
  | connection :: rest, (drivers_set, targets_set) =>
    let driver := connection.2
    let target := connection.1
    if ¬ target.is_wire wires then collect_drivers is_public wires rest (drivers_set, targets_set)
    else if driver.length = 0 then
      collect_drivers is_public wires rest (drivers_set, targets_set)
    else
      match collect_chunks is_public driver target driver.chunks 0 0 ([], []) with
      | none => none
      | some (offset, current_drivers, current_targets) =>
        if offset ≠ driver.length then
          collect_drivers is_public wires rest (drivers_set, targets_set)
        else
          collect_drivers is_public wires rest
            (current_drivers.foldr set_insert drivers_set,
              current_targets.foldr set_insert targets_set)

/-- The width adjustment of the driver and the target in the loop of
`InjectDriverPass::execute`. `none` for `bits.back()` on an empty constant. -/
def adjust_widths (driver target : SigSpec) : Option (SigSpec × SigSpec) :=
  if driver.length < target.length then
    if driver.is_fully_const then
      match driver.as_const with
      | some c =>
        match c.getLast? with
        | some back =>
          some (driver ++ SigSpec.of_const (Const.of_state back (target.length - driver.length)),
            target)
        | none => none
      | none => none
    else
      match target.extract 0 driver.length with
      | some t => some (driver, t)
      | none => none
  else if driver.length > target.length then
    match driver.extract 0 target.length with
    | some d => some (d, target)
    | none => none
  else some (driver, target)

/-- The state of the loop `while (index-start_index < bugs_per_module)`: the bug
index, the number of calls of `rand()`, and for every pair of files written its index
and the connections of the host design (the reference design has the connections of
the module). -/
structure driver_state where
  index : Nat
  calls : Nat
  hosts : List (Nat × List SigSig)
  deriving DecidableEq, Repr

/-- The search of the loop over `module->connections_` for the first connection whose
target holds a bit of `target`: the connections before it, the connection, and those
after it. -/
def find_connection (target : SigSpec) : List SigSig → Option (List SigSig × SigSig × List SigSig)
  | [] => none
  | connection :: rest =>
    if (connection.1.extract_pattern target).isEmpty then
      match find_connection target rest with
      | some (before, c, after) => some (connection :: before, c, after)
      | none => none
    else some ([], connection, rest)

/-- The body of the loop `while (index-start_index < bugs_per_module)`. `none` for
`rand() % 0` and for a failed assertion. -/
def driver_step (rand : Nat → Nat) (wires : List Wire) (drivers targets : List SigSpec)
    (connections : List SigSig) (st : driver_state) : Option driver_state :=
  if drivers.length = 0 ∨ targets.length = 0 then none
  else
    match drivers[rand st.calls % drivers.length]?,
        targets[rand (st.calls + 1) % targets.length]? with
    | some driver, some target =>
      let st := { st with calls := st.calls + 2 }
      if ¬ (driver.extract_pattern target).isEmpty then some st
      else
        match adjust_widths driver target with
        | none => none
        | some (driver, target) =>
          if ¬ target.is_wire wires then some st
          else
            match find_connection target connections with
            | none => some st
            | some (before, connection, after) =>
              let index := st.index + 1
              let second := connection.1.replace_into target driver connection.2
              if second = connection.2 then some { st with index := index }
              else
                some { st with index := index,
                               hosts := st.hosts ++
                                 [(index, before ++ (connection.1, second) :: after)] }
    | _, _ => none

/-- The loop `while (index-start_index < bugs_per_module)`; `fuel` bounds the number
of iterations (`none` when it is exhausted). -/
def driver_loop (rand : Nat → Nat) (wires : List Wire) (drivers targets : List SigSpec)
    (connections : List SigSig) (bugs_per_module start_index : Nat) :
    Nat → driver_state → Option driver_state
  | 0, _ => none
  | fuel + 1, st =>
    if st.index - start_index < bugs_per_module then
      match driver_step rand wires drivers targets connections st with
      | some st => driver_loop rand wires drivers targets connections bugs_per_module
          start_index fuel st
      | none => none
    else some st

/-- The body of the loop of `InjectDriverPass::execute` over the selected modules, for a
module with the wires `wires` and the connections `connections` (those it has after
`expose_cells`), from the bug index `index` on. -/
def inject_driver (rand : Nat → Nat) (is_public : Nat → Bool) (wires : List Wire)
    (connections : List SigSig) (bugs_per_module index fuel : Nat) : Option driver_state :=
  match collect_drivers is_public wires connections ([], []) with
  | none => none
  | some (drivers, targets) =>
    driver_loop rand wires drivers targets connections bugs_per_module index fuel
      ⟨index, 0, []⟩

/-- A module with the public wires `a` (1) and `y` (2) of one bit each. -/
def driver_wires : List Wire :=
  [⟨1, 1, 1, none, false⟩, ⟨2, 1, 2, none, false⟩]

/-- The connection `y <- a`. -/
def driver_connections : List SigSig :=
  [([SigBit.wire 2 0], [SigBit.wire 1 0])]

/-- A module with the public wires `a` (1), `y` (2), `b` (3) and `z` (4) of one bit
each. -/
def mixup_wires : List Wire :=
  [⟨1, 1, 1, none, false⟩, ⟨2, 1, 2, none, false⟩, ⟨3, 1, 3, none, false⟩,
   ⟨4, 1, 4, none, false⟩]

/-- The connections `y <- a` and `z <- b`. -/
def mixup_connections : List SigSig :=
  [([SigBit.wire 2 0], [SigBit.wire 1 0]), ([SigBit.wire 4 0], [SigBit.wire 3 0])]

/-- A `rand()` whose calls return 1, 1, 0, 1 and then 0. -/
def mixup_rand (n : Nat) : Nat :=
  if n = 0 ∨ n = 1 ∨ n = 3 then 1 else 0

/-! ## inject_map.cc -/

/-- The loop over the bits of a row pattern in `map_amt`: the operands `eq_sig_a` (the
selector bits at the positions where the pattern is 0 or 1) and `eq_sig_b` (the pattern
bits at these positions) of the `$eq` cell of the row. `j` is the position;
`none` when a position lies outside the selector (`extract` asserts). -/
def eq_operands (amt_s : SigSpec) : Const → Nat → SigSpec × SigSpec → Option (SigSpec × SigSpec)
  | [], _, ab => some ab
  | bit :: rest, j, (eq_sig_a, eq_sig_b) =>
    if bit = State.S0 ∨ bit = State.S1 then
      match amt_s.extract j 1 with
      | some s => eq_operands amt_s rest (j + 1) (eq_sig_a ++ s, eq_sig_b ++ [SigBit.const bit])
      | none => none
    else eq_operands amt_s rest (j + 1) (eq_sig_a, eq_sig_b)

/-- The `$eq` cell `map_amt` adds for row `i` (the parameters `A_SIGNED`, `B_SIGNED`,
`A_WIDTH`, `B_WIDTH`, `Y_WIDTH` it sets are the signedness `false` and the widths of
the ports). -/
def eq_cell (name : Nat) (amt_s sig_s : SigSpec) (i : Nat) (selection : selection_t) :
    Option Cell :=
  match eq_operands amt_s selection.select 0 ([], []), sig_s.extract i 1 with
  | some (eq_sig_a, eq_sig_b), some y =>
    let cell : Cell := ⟨name, CellType.eq, [], [], false⟩
    let cell := cell.setPort IdString.A eq_sig_a
    let cell := cell.setPort IdString.B eq_sig_b
    some (cell.setPort IdString.Y y)
  | _, _ => none

/-- The loop over the rows in `map_amt`: the `$eq` cells from row `i` on; the cell of
row `i` gets the name `name`, the next new name. -/
def eq_cells (amt_s sig_s : SigSpec) : List selection_t → Nat → Nat → Option (List Cell)
  | [], _, _ => some []
  | selection :: rest, i, name =>
    match eq_cell name amt_s sig_s i selection, eq_cells amt_s sig_s rest (i + 1) (name + 1) with
    | some cell, some cells => some (cell :: cells)
    | _, _ => none

/-- The call `module->remove(cell)` for the cell called `name`. -/
def remove_cell : List Cell → Nat → List Cell
  | [], _ => []
  | c :: rest, name => if c.name = name then rest else c :: remove_cell rest name

/-- The function `map_amt`; it returns the module as it leaves it. `assign_map` is the
function-local static `SigMap`, built at the first call. The new names (`NEW_ID`) are
taken from `autoidx`: the wire of the match vector first, then the `$eq` cells in row
order, then the `$pmux`. -/
def map_amt (assign_map : SigMap) (amt_cell : Cell) (module : Module) : Option Module :=
  match copy_from_cell amt_cell [] with
  | none => none
  | some selections =>
    let amt_s := assign_map.apply (amt_cell.getPort IdString.S)
    let sig_y := assign_map.apply (amt_cell.getPort IdString.Y)
    let sig_a := SigSpec.of_const (Const.of_int 0 sig_y.length)
    let sig_b := assign_map.apply (amt_cell.getPort IdString.A)
    let wire : Wire := ⟨module.autoidx, selections.length, 0, none, false⟩
    let sig_s := wire.sig
    match eq_cells amt_s sig_s selections 0 (module.autoidx + 1) with
    | none => none
    | some cells =>
      let pmux := mk_mux (module.autoidx + 1 + selections.length) CellType.pmux sig_a sig_b
        sig_s sig_y
      some { module with wires_ := module.wires_ ++ [wire],
                         cells_ := remove_cell (module.cells_ ++ cells ++ [pmux]) amt_cell.name,
                         autoidx := module.autoidx + 2 + selections.length }

/-- The loop over the `$amt` cells in `InjectMapPass::execute`. -/
def map_amt_cells (assign_map : SigMap) : List Cell → Module → Option Module
  | [], module => some module
  | cell :: rest, module =>
    match map_amt assign_map cell module with
    | some module => map_amt_cells assign_map rest module
    | none => none

/-- The body of `InjectMapPass::execute` for one selected module. -/
def inject_map (assign_map : SigMap) (module : Module) : Option Module :=
  map_amt_cells assign_map module.amt_cells module

/-- The constant a signal takes under an assignment `σ` of the wire bits. -/
def sig_const (σ : Nat → Nat → Bool) (sig : SigSpec) : Const :=
  sig.map (fun bit => match bit with
    | SigBit.wire n o => if σ n o then State.S1 else State.S0
    | SigBit.const d => d)

/-- The output of a cell with the inputs A and B under an assignment `σ` of the wire
bits, as `CellTypes::eval` computes it from the constants its inputs take. -/
def cell_output (σ : Nat → Nat → Bool) (cell : Cell) : Const :=
  eval_internals cell (sig_const σ (cell.getPort IdString.A))
    (sig_const σ (cell.getPort IdString.B)) []

/-! ## satgen.h, verify_miter.cc, inject_verify.cc: the loop of the verifier -/

/-- The answer of one call of the solver. -/
inductive solve_result where
  | SAT
  | UNSAT
  | TIMEOUT
  deriving DecidableEq, Repr

/-- Modelled from the spec: the value `ez->solve(...)` returns, true for a model found. -/
def solve_result.success : solve_result → Bool
  | solve_result.SAT => true
  | _ => false

/-- Modelled from the spec: the value of `ez->getSolverTimoutStatus()` after the call. -/
def solve_result.timeout_status : solve_result → Bool
  | solve_result.TIMEOUT => true
  | _ => false

/-- The part of `SatHelper` the loop of the verifier reads: the sticky flag
`gotTimeout`, false after construction. -/
structure SatHelper where
  gotTimeout : Bool
  deriving DecidableEq, Repr

/-- `SatHelper::solve`: asserts `gotTimeout == false` (`none` when the assertion
fails), calls the solver, sets `gotTimeout` when the solver reports a timeout, and
returns the success of the solver. -/
def SatHelper.solve (sathelper : SatHelper) (answer : solve_result) :
    Option (Bool × SatHelper) :=
  if sathelper.gotTimeout = false then
    some (answer.success,
      if answer.timeout_status then { sathelper with gotTimeout := true } else sathelper)
  else none

/-- The two loops of the verifier. -/
inductive solve_phase where
  | sensitization
  | propagation
  deriving DecidableEq, Repr

/-- The messages the loops log. -/
inductive verify_message where
  | sensitized
  | propagated
  | timed_out
  | failed_to_sensitize
  deriving DecidableEq, Repr

/-- What a run of the verifier does, in order: calls of `sathelper.setup` with the time
step and the flag `initstate`, calls of `sathelper.solve` with the loop and the time
step they are made for, and messages logged. -/
inductive verify_event where
  | setup (timestep : Int) (initstate : Bool)
  | solve (phase : solve_phase) (timestep : Int)
  | log (message : verify_message)
  deriving DecidableEq, Repr

/-- The largest value of the type `int`. -/
def int_max : Int := 2147483647

/-- The smallest value of the type `int`. -/
def int_min : Int := -2147483648

/-- The sum of two values of the type `int`; a signed overflow is undefined behaviour
and has no value. -/
def int_add (a b : Int) : Option Int :=
  if int_min ≤ a + b ∧ a + b ≤ int_max then some (a + b) else none

/-- The state of a run of the verifier: the solver helper and what has been done. -/
structure verify_state where
  sathelper : SatHelper
  trace : List verify_event
  deriving DecidableEq, Repr

/-- The inner loop `for (int propagation_step = ...; propagation_step <=
max_propagation; ++propagation_step)`, entered with the value of `propagation_step`;
`solver` gives the answer of the solver for the formula of a loop at a time step. -/
def propagation_loop (solver : solve_phase → Int → solve_result) (max_propagation : Int) :
    Nat → Int → verify_state → Option verify_state
  | 0, _, _ => none
  | fuel + 1, propagation_step, st =>
    if propagation_step ≤ max_propagation then
      let trace := st.trace
        ++ [verify_event.setup propagation_step (decide (propagation_step = 1))]
      match st.sathelper.solve (solver solve_phase.propagation propagation_step) with
      | none => none
      | some (success, sathelper) =>
        let trace := trace ++ [verify_event.solve solve_phase.propagation propagation_step]
        if success then
          some ⟨sathelper, trace ++ [verify_event.log verify_message.propagated]⟩
        else if sathelper.gotTimeout then
          some ⟨sathelper, trace ++ [verify_event.log verify_message.timed_out]⟩
        else
          match int_add propagation_step 1 with
          | none => none
          | some next => propagation_loop solver max_propagation fuel next ⟨sathelper, trace⟩
    else some st

/-- The outer loop `for (int sensitization_step = 1; sensitization_step <=
max_sensitization; sensitization_step++)`, entered with the value of
`sensitization_step`. After a solve with a model the inner loop runs from
`sensitization_step + 1`, then `sensitization_step += max_sensitization` and the
increment of the loop follow. -/
def sensitization_loop (solver : solve_phase → Int → solve_result)
    (max_sensitization max_propagation : Int) :
    Nat → Int → verify_state → Option verify_state
  | 0, _, _ => none
  | fuel + 1, sensitization_step, st =>
    if sensitization_step ≤ max_sensitization then
      let trace := st.trace
        ++ [verify_event.setup sensitization_step (decide (sensitization_step = 1))]
      match st.sathelper.solve (solver solve_phase.sensitization sensitization_step) with
      | none => none
      | some (success, sathelper) =>
        let trace :=
          trace ++ [verify_event.solve solve_phase.sensitization sensitization_step]
        if success then
          match int_add sensitization_step 1 with
          | none => none
          | some propagation_step =>
            match propagation_loop solver max_propagation fuel propagation_step
                ⟨sathelper, trace ++ [verify_event.log verify_message.sensitized]⟩ with
            | none => none
            | some st1 =>
              match int_add sensitization_step max_sensitization with
              | none => none
              | some step =>
                match int_add step 1 with
                | none => none
                | some next =>
                  sensitization_loop solver max_sensitization max_propagation fuel next st1
        else if sathelper.gotTimeout then
          some ⟨sathelper, trace ++ [verify_event.log verify_message.timed_out]⟩
        else
          let trace1 :=
            if sensitization_step = max_sensitization then
              trace ++ [verify_event.log verify_message.failed_to_sensitize]
            else trace
          match int_add sensitization_step 1 with
          | none => none
          | some next =>
            sensitization_loop solver max_sensitization max_propagation fuel next
              ⟨sathelper, trace1⟩
    else some st

/-- The loops of `VerifyMiterPass::execute` on a new `SatHelper`; `none` when the fuel
runs out, an assertion fails or an `int` overflows. -/
def verify_miter (solver : solve_phase → Int → solve_result)
    (max_sensitization max_propagation : Int) (fuel : Nat) : Option verify_state :=
  sensitization_loop solver max_sensitization max_propagation fuel 1 ⟨⟨false⟩, []⟩

/-- The loops of `InjectVerifyPass::execute`: statement for statement those of
`VerifyMiterPass::execute`; the passes differ in the formula of the sensitization
solve, which `solver` answers. -/
def inject_verify (solver : solve_phase → Int → solve_result)
    (max_sensitization max_propagation : Int) (fuel : Nat) : Option verify_state :=
  sensitization_loop solver max_sensitization max_propagation fuel 1 ⟨⟨false⟩, []⟩

/-- A solver that finds no model in the sensitization loop. -/
def never_sensitized : solve_phase → Int → solve_result
  | solve_phase.sensitization, _ => solve_result.UNSAT
  | solve_phase.propagation, _ => solve_result.SAT

/-- A solver that finds a model in every solve. -/
def always_sat : solve_phase → Int → solve_result :=
  fun _ _ => solve_result.SAT

/-- A solver that finds a model in every sensitization solve and runs into the timeout
in every propagation solve. -/
def propagation_timeout : solve_phase → Int → solve_result
  | solve_phase.sensitization, _ => solve_result.SAT
  | solve_phase.propagation, _ => solve_result.TIMEOUT

/-- A solver that finds a model in the sensitization solve of step 2 and in the
propagation solve of step 4, and no model in the other solves. -/
def sat_2_4 : solve_phase → Int → solve_result
  | solve_phase.sensitization, t => if t = 2 then solve_result.SAT else solve_result.UNSAT
  | solve_phase.propagation, t => if t = 4 then solve_result.SAT else solve_result.UNSAT

/-- A solver that finds a model in the sensitization solve of step 2 and runs into the
timeout in the propagation solve of step 4; no model in the other solves. -/
def timeout_2_4 : solve_phase → Int → solve_result
  | solve_phase.sensitization, t => if t = 2 then solve_result.SAT else solve_result.UNSAT
  | solve_phase.propagation, t =>
    if t = 4 then solve_result.TIMEOUT else solve_result.UNSAT

/-- The events of `k` iterations of a loop of the verifier for the consecutive time
steps from `step` on: a call of `setup` and a call of `solve` each. -/
def loop_events (phase : solve_phase) (step : Int) : Nat → List verify_event
  | 0 => []
  | k + 1 =>
    verify_event.setup step (decide (step = 1)) :: verify_event.solve phase step
      :: loop_events phase (step + 1) k

/-- The time steps of the solves of a loop in a trace, in order. -/
def solve_steps (phase : solve_phase) : List verify_event → List Int
  | [] => []
  | verify_event.solve p t :: rest =>
    if p = phase then t :: solve_steps phase rest else solve_steps phase rest
  | _ :: rest => solve_steps phase rest

/-- The arguments of the calls of `setup` in a trace, in order. -/
def setup_calls : List verify_event → List (Int × Bool)
  | [] => []
  | verify_event.setup t initstate :: rest => (t, initstate) :: setup_calls rest
  | _ :: rest => setup_calls rest

/-- The consecutive time steps `step`, `step + 1`, .., `k` of them. -/
def steps_from (step : Int) : Nat → List Int
  | 0 => []
  | k + 1 => step :: steps_from (step + 1) k

/-- How a completed run of the inner loop from `step` on ends after `m` iterations:
`tail` holds the message logged and `timeout` the flag `gotTimeout`. All solves but the
last found no model; the loop ends past `max_propagation` without a message, or with
a model and the message `propagated`, or with a timeout and the message `timed_out`. -/
def propagation_outcome (solver : solve_phase → Int → solve_result) (max_propagation : Int)
    (step : Int) (m : Nat) (tail : List verify_event) (timeout : Bool) : Prop :=
  (∀ i : Nat, i < m → step + i ≤ max_propagation) ∧
  (∀ i : Nat, i + 1 < m → solver solve_phase.propagation (step + i) = solve_result.UNSAT) ∧
  ((tail = [] ∧ timeout = false ∧ max_propagation < step + m ∧
      ∀ i : Nat, i < m → solver solve_phase.propagation (step + i) = solve_result.UNSAT) ∨
    (tail = [verify_event.log verify_message.propagated] ∧ timeout = false ∧
      ∃ j : Nat, m = j + 1 ∧ solver solve_phase.propagation (step + j) = solve_result.SAT) ∨
    (tail = [verify_event.log verify_message.timed_out] ∧ timeout = true ∧
      ∃ j : Nat, m = j + 1 ∧
        solver solve_phase.propagation (step + j) = solve_result.TIMEOUT))

/-- How a completed run of the outer loop from `step` on ends after `k` iterations.
All sensitization solves but the last found no model; the loop ends past
`max_sensitization` with the message of the failure (when it made a solve at all), or
with a timeout, or with a model at the step `step + j`, the message `sensitized` and a
run of the inner loop from the step `step + j + 1` on. -/
def sensitization_outcome (solver : solve_phase → Int → solve_result)
    (max_sensitization max_propagation : Int)
    (step : Int) (k : Nat) (tail : List verify_event) (timeout : Bool) : Prop :=
  (∀ i : Nat, i < k → step + i ≤ max_sensitization) ∧
  (∀ i : Nat, i + 1 < k →
    solver solve_phase.sensitization (step + i) = solve_result.UNSAT) ∧
  ((tail = (if k = 0 then [] else [verify_event.log verify_message.failed_to_sensitize]) ∧
      timeout = false ∧ max_sensitization < step + k ∧
      ∀ i : Nat, i < k → solver solve_phase.sensitization (step + i) = solve_result.UNSAT) ∨
    (tail = [verify_event.log verify_message.timed_out] ∧ timeout = true ∧
      ∃ j : Nat, k = j + 1 ∧
        solver solve_phase.sensitization (step + j) = solve_result.TIMEOUT) ∨
    (∃ (j m : Nat) (tail1 : List verify_event), k = j + 1 ∧
      solver solve_phase.sensitization (step + j) = solve_result.SAT ∧
      tail = verify_event.log verify_message.sensitized
        :: (loop_events solve_phase.propagation (step + j + 1) m ++ tail1) ∧
      propagation_outcome solver max_propagation (step + j + 1) m tail1 timeout))

/-- The discipline of the timeout along a trace: a solve that ran into the timeout is
followed by the message of the timeout and by nothing else, and when it is a
propagation solve the message `sensitized` has been logged before it (`seen`). -/
def timeout_discipline (solver : solve_phase → Int → solve_result) :
    Bool → List verify_event → Prop
  | _, [] => True
  | seen, verify_event.solve p t :: rest =>
    (solver p t = solve_result.TIMEOUT →
      rest = [verify_event.log verify_message.timed_out] ∧
      (p = solve_phase.propagation → seen = true)) ∧
    timeout_discipline solver seen rest
  | _, verify_event.log verify_message.sensitized :: rest =>
    timeout_discipline solver true rest
  | seen, _ :: rest => timeout_discipline solver seen rest

/-- A list of events that holds messages only. -/
def logs_only (events : List verify_event) : Prop :=
  ∀ e ∈ events, ∃ message, e = verify_event.log message

/-! ## satgen.h: `SatGen::signals_eq`; inject_verify.cc: the sensitization formula -/

/-- Modelled from the spec: a literal of the solver front end `ezSAT`. A literal made by
`frozen_literal(name)` is the same for the same name; the names `importSigSpecWorker`
builds are told apart by the marker `undef:`, the time step (`-1` for none), the wire
and, for a wire wider than one bit, the offset. A literal made by `frozen_literal()` is
one of its own, with the number it is given. -/
inductive ez_literal where
  | named (undef : Bool) (timestep : Int) (wire offset : Nat)
  | anonymous (id : Nat)
  deriving DecidableEq, Repr

/-- Modelled from the spec: the expressions of `ezSAT` the verifier builds, with the
constants `CONST_TRUE` and `CONST_FALSE`. -/
inductive ez_expr where
  | CONST_TRUE
  | CONST_FALSE
  | literal (l : ez_literal)
  | NOT (a : ez_expr)
  | AND (a b : ez_expr)
  | OR (a b : ez_expr)
  | IFF (a b : ez_expr)
  deriving DecidableEq, Repr

/-- Modelled from the spec: the value of an expression under an assignment of the
literals. -/
def ez_expr.eval (assignment : ez_literal → Bool) : ez_expr → Bool
  | ez_expr.CONST_TRUE => true
  | ez_expr.CONST_FALSE => false
  | ez_expr.literal l => assignment l
  | ez_expr.NOT a => !(a.eval assignment)
  | ez_expr.AND a b => a.eval assignment && b.eval assignment
  | ez_expr.OR a b => a.eval assignment || b.eval assignment
  | ez_expr.IFF a b => a.eval assignment == b.eval assignment

/-- Modelled from the spec: `ez->expression(ezSAT::OpAnd, vec)`, the conjunction of a
vector of expressions. -/
def ez_expr.and_list : List ez_expr → ez_expr
  | [] => ez_expr.CONST_TRUE
  | e :: rest => ez_expr.AND e (ez_expr.and_list rest)

/-- Modelled from the spec: `ez->expression(ezSAT::OpOr, vec)`, the disjunction of a
vector of expressions. -/
def ez_expr.or_list : List ez_expr → ez_expr
  | [] => ez_expr.CONST_FALSE
  | e :: rest => ez_expr.OR e (ez_expr.or_list rest)

/-- Modelled from the spec: `ez->vec_eq(vec1, vec2)`, the conjunction of the
equivalences of the elements; the vectors must have the same size. -/
def vec_eq (vec1 vec2 : List ez_expr) : Option ez_expr :=
  if vec1.length = vec2.length then
    some (ez_expr.and_list (List.zipWith ez_expr.IFF vec1 vec2))
  else none

/-- The loop of `SatGen::importSigSpecWorker` over the bits of the signal; `fresh` is
the number of the next literal `frozen_literal()` makes. -/
def import_bits (model_undef undef_mode dup_undef : Bool) (timestep : Int) :
    SigSpec → Nat → List ez_expr
  | [], _ => []
  | SigBit.const bit :: rest, fresh =>
    if model_undef ∧ dup_undef ∧ bit = State.Sx then
      ez_expr.literal (ez_literal.anonymous fresh)
        :: import_bits model_undef undef_mode dup_undef timestep rest (fresh + 1)
    else
      (if bit = (if undef_mode then State.Sx else State.S1) then ez_expr.CONST_TRUE
        else ez_expr.CONST_FALSE)
        :: import_bits model_undef undef_mode dup_undef timestep rest fresh
  | SigBit.wire name offset :: rest, fresh =>
    ez_expr.literal (ez_literal.named undef_mode timestep name offset)
      :: import_bits model_undef undef_mode dup_undef timestep rest fresh

/-- `SatGen::importSigSpecWorker`: it asserts `!undef_mode || model_undef`, applies the
signal map and imports the bits. The marker `undef:` and the time step in `pf` are the
arguments `undef_mode` and `timestep`. -/
def importSigSpecWorker (sigmap : SigMap) (model_undef : Bool) (sig : SigSpec)
    (timestep : Int) (undef_mode dup_undef : Bool) (fresh : Nat) : Option (List ez_expr) :=
  if undef_mode ∧ ¬ model_undef then none
  else some (import_bits model_undef undef_mode dup_undef timestep (sigmap.apply sig) fresh)

/-- `SatGen::importSigSpec`; it asserts `timestep != 0`. -/
def importSigSpec (sigmap : SigMap) (model_undef : Bool) (sig : SigSpec) (timestep : Int) :
    Option (List ez_expr) :=
  if timestep = 0 then none
  else importSigSpecWorker sigmap model_undef sig timestep false false 0

/-- `SatGen::importUndefSigSpec`; it asserts `timestep != 0`. -/
def importUndefSigSpec (sigmap : SigMap) (model_undef : Bool) (sig : SigSpec)
    (timestep : Int) : Option (List ez_expr) :=
  if timestep = 0 then none
  else importSigSpecWorker sigmap model_undef sig timestep true false 0

/-- The loop of `SatGen::signals_eq` that fills `eq_bits`; `none` stands for an `at(i)`
outside a vector. -/
def eq_bits : List ez_expr → List ez_expr → List ez_expr → List ez_expr →
    Option (List ez_expr)
  | [], _, _, _ => some []
  | vl :: vec_lhs, vr :: vec_rhs, ul :: undef_lhs, ur :: undef_rhs =>
    match eq_bits vec_lhs vec_rhs undef_lhs undef_rhs with
    | some rest =>
      some (ez_expr.AND (ez_expr.IFF ul ur)
        (ez_expr.IFF (ez_expr.OR vl ul) (ez_expr.OR vr ur)) :: rest)
    | none => none
  | _ :: _, _, _, _ => none

/-- `SatGen::signals_eq(lhs, rhs, timestep_lhs, timestep_rhs)`; the loop over the
positions runs over `lhs`. -/
def signals_eq (sigmap : SigMap) (model_undef : Bool) (lhs rhs : SigSpec)
    (timestep_lhs timestep_rhs : Int) : Option ez_expr :=
  let timestep_rhs := if timestep_rhs < 0 then timestep_lhs else timestep_rhs
  if lhs.length ≠ rhs.length then none
  else
    match importSigSpec sigmap model_undef lhs timestep_lhs,
        importSigSpec sigmap model_undef rhs timestep_rhs with
    | some vec_lhs, some vec_rhs =>
      if ¬ model_undef then vec_eq vec_lhs vec_rhs
      else
        match importUndefSigSpec sigmap model_undef lhs timestep_lhs,
            importUndefSigSpec sigmap model_undef rhs timestep_rhs with
        | some undef_lhs, some undef_rhs =>
          match eq_bits vec_lhs vec_rhs undef_lhs undef_rhs with
          | some bits => some (ez_expr.and_list bits)
          | none => none
        | _, _ => none
    | _, _ => none

/-- The value of a bit of a signal at a time step under an assignment: that of the
literal of a wire bit, and of a constant whether it is 1. -/
def bit_at (assignment : ez_literal → Bool) (timestep : Int) : SigBit → Bool
  | SigBit.wire name offset => assignment (ez_literal.named false timestep name offset)
  | SigBit.const bit => decide (bit = State.S1)

/-- Whether a bit of a signal is undefined at a time step under an assignment: the
value of the `undef:` literal of a wire bit, and of a constant whether it is x. -/
def undef_at (assignment : ez_literal → Bool) (timestep : Int) : SigBit → Bool
  | SigBit.wire name offset => assignment (ez_literal.named true timestep name offset)
  | SigBit.const bit => decide (bit = State.Sx)

/-- Four-valued agreement of two bits: both undefined, or both defined with the same
value. -/
def four_valued_eq (assignment : ez_literal → Bool) (timestep_lhs timestep_rhs : Int)
    (l r : SigBit) : Prop :=
  (undef_at assignment timestep_lhs l = true ∧ undef_at assignment timestep_rhs r = true) ∨
  (undef_at assignment timestep_lhs l = false ∧ undef_at assignment timestep_rhs r = false ∧
    bit_at assignment timestep_lhs l = bit_at assignment timestep_rhs r)

/-- The inner loop of the construction of `selects` in `InjectVerifyPass::execute`, over
the positions `j` of the pattern of a row: a position that is 0 or 1 appends the bit
`j` of the wire `host_select` to `select_circuit` and the element to
`select_selection`. -/
def select_condition (select_port : Nat) : Const → Nat → SigSig → SigSig
  | [], _, select => select
  | bit :: rest, j, (select_circuit, select_selection) =>
    if bit = State.S0 ∨ bit = State.S1 then
      select_condition select_port rest (j + 1)
        (select_circuit ++ [SigBit.wire select_port j],
          select_selection ++ [SigBit.const bit])
    else select_condition select_port rest (j + 1) (select_circuit, select_selection)

/-- The loop of `InjectVerifyPass::execute` that builds `selects` from the rows of the
host table: one pair for every row flagged buggy. -/
def verify_selects (select_port : Nat) : List selection_t → List SigSig
  | [] => []
  | selection :: rest =>
    if ¬ selection.buggy then verify_selects select_port rest
    else select_condition select_port selection.select 0 ([], [])
      :: verify_selects select_port rest

/-- The loop of `InjectVerifyPass::execute` that fills `clause` at a sensitization
step. The helper is built with `enable_undef = false`. -/
def verify_clause (sigmap : SigMap) (sensitization_step : Int) :
    List SigSig → Option (List ez_expr)
  | [] => some []
  | select :: rest =>
    match signals_eq sigmap false select.1 select.2 sensitization_step (-1),
        verify_clause sigmap sensitization_step rest with
    | some e, some clause => some (e :: clause)
    | _, _ => none

/-- The formula `InjectVerifyPass::execute` passes to `sathelper.solve` at a
sensitization step. -/
def inject_verify_formula (sigmap : SigMap) (selects : List SigSig)
    (host_output reference_output : SigSpec) (sensitization_step : Int) : Option ez_expr :=
  match verify_clause sigmap sensitization_step selects,
      signals_eq sigmap false host_output reference_output sensitization_step (-1) with
  | some clause, some eq => some (ez_expr.AND (ez_expr.or_list clause) (ez_expr.NOT eq))
  | _, _ => none

/-- The formula `VerifyMiterPass::execute` passes to `sathelper.solve` at a
sensitization step. -/
def verify_miter_formula (sigmap : SigMap) (host_output reference_output : SigSpec)
    (sensitization_step : Int) : Option ez_expr :=
  match signals_eq sigmap false host_output reference_output sensitization_step (-1) with
  | some eq => some (ez_expr.NOT eq)
  | none => none

/-- Whether the selector of the host at a time step agrees with the pattern of a row on
every position where the pattern is 0 or 1. -/
def row_matches_at (sigmap : SigMap) (assignment : ez_literal → Bool) (timestep : Int)
    (select_port : Nat) (pattern : Const) : Prop :=
  ∀ (j : Nat) (bit : State), pattern[j]? = some bit →
    (bit = State.S0 → bit_at assignment timestep (sigmap (SigBit.wire select_port j)) = false) ∧
    (bit = State.S1 → bit_at assignment timestep (sigmap (SigBit.wire select_port j)) = true)

/-- A host table with one row, flagged buggy, with the pattern `1`. -/
def one_buggy_row : List selection_t :=
  [⟨[State.S1], [SigBit.const State.S0], true⟩]

/-- An assignment under which every literal is false but that of bit 0 of the wire 31
at the time step 1. -/
def output_differs : ez_literal → Bool
  | ez_literal.named false 1 31 0 => true
  | _ => false

/-- A module whose marked wire `y` is driven by a `$pmux` with 33 select bits (wire 10),
the default input 0 and 33 constant cases: a tree of 34 rows. -/
def pmux33_module : Module :=
  { name := "top",
    wires_ := [wire_y, ⟨10, 33, 0, none, false⟩],
    cells_ := [const_pmux 100 10 33 (SigSpec.of_wire 2 2)],
    autoidx := 200 }

/-- The driver index `InjectExtractPass::execute` builds for `pmux33_module`. -/
def pmux33_drivers : SigSet sig2driver_entry_t :=
  build_sig2driver ct_internals id pmux33_module.cells_ []

/-- The select patterns of the raw rows `abstract_tree` returns. -/
def raw_patterns (res : Option (Bool × tree_state)) : Option (Bool × List (List Const)) :=
  res.map (fun r => (r.1, r.2.selections.map
    (fun row => row.select.map (fun sig2val => sig2val.input_val))))

/-- A signal is a slice of a whole wire of the module: `width` bits of the wire from
`offset` up. -/
def wire_slice (wires : List Wire) (sig : SigSpec) : Prop :=
  ∃ (whole : SigSpec) (offset : Nat), whole.is_wire wires = true ∧
    offset + sig.length ≤ whole.length ∧ sig = (whole.drop offset).take sig.length

/-- A module with the public wires `a` (1) and `z` (4) of one bit and `y` (2) and `b`
(3) of two bits. -/
def slice_wires : List Wire :=
  [⟨1, 1, 1, none, false⟩, ⟨2, 2, 2, none, false⟩, ⟨3, 2, 3, none, false⟩,
   ⟨4, 1, 4, none, false⟩]

/-- The connections `y <- b` and `z <- a`. -/
def slice_connections : List SigSig :=
  [(SigSpec.of_wire 2 2, SigSpec.of_wire 3 2), ([SigBit.wire 4 0], [SigBit.wire 1 0])]

/-- A `rand()` whose first call returns 1 and every other call 0. -/
def slice_rand (n : Nat) : Nat :=
  if n = 0 then 1 else 0

/-- Whether the input pattern of a truth-table row matches the input assignment
`in_val`: at every position the pattern holds don't-care or the value the assignment
has there (the loops that read `truth_tab` treat `State::Sa` in a pattern as
compatible with every value). -/
def input_matches : Const → Const → Bool
  | p :: ps, v :: vs => (p = State.Sa ∨ p = v) && input_matches ps vs
  | [], [] => true
  | _, _ => false

/-- The outputs of the rows of a truth table whose input pattern matches `in_val`, in
the order of the rows. -/
def matching_outputs (rows : List truth_row) (in_val : Const) : List Const :=
  (rows.filter (fun row => input_matches row.2 in_val)).map (fun row => row.1)

/-- An `$and` cell that drives the selector bit `s` (wire 20) from the inputs `a`
(wire 1) and `b` (wire 3). -/
def and_driver : Cell :=
  ⟨110, CellType.and, [(IdString.A, [SigBit.wire 1 0]), (IdString.B, [SigBit.wire 3 0]),
    (IdString.Y, [SigBit.wire 20 0])], [], false⟩

/-- The cell `not_amt_cell` with the flag element of its first row set to `x`: the rows
it decodes to are those of `not_amt_cell`, none of them flagged. -/
def undef_flag_amt_cell : Cell :=
  { not_amt_cell with STATE_TABLE := not_amt_cell.STATE_TABLE.set 2 State.Sx }

/-- The module `not_module` with `undef_flag_amt_cell` in the place of `not_amt_cell`. -/
def undef_flag_module : Module :=
  { not_module with cells_ := not_module.cells_.set 1 undef_flag_amt_cell }

/-- A wire is driven by an `$amt` cell among `cells`: a wire bit of its signal is a bit
of port Y of the cell. -/
def amt_driven (assign_map : SigMap) (cells : List Cell) (wire : Wire) : Prop :=
  ∃ c ∈ cells, c.type = CellType.amt ∧
    ∃ b ∈ assign_map.apply (c.getPort IdString.Y),
      b.is_wire = true ∧ b ∈ assign_map.apply wire.sig

instance (assign_map : SigMap) (cells : List Cell) (wire : Wire) :
    Decidable (amt_driven assign_map cells wire) := by
  unfold amt_driven
  infer_instance

/-- Port Y of the cell called `name` after two runs of `inject_extract`, next to the
port after the first run (`none` when a run does not finish within the fuel or the cell
is missing). -/
def port_y_after_runs (ct : CellTypes) (assign_map : SigMap) (fuel : Nat) (mod : Module)
    (name : Nat) : Option (SigSpec × SigSpec) :=
  match inject_extract ct assign_map fuel mod with
  | none => none
  | some mod1 =>
    match inject_extract ct assign_map fuel mod1 with
    | none => none
    | some mod2 =>
      match mod1.cell name, mod2.cell name with
      | some c1, some c2 => some (c1.getPort IdString.Y, c2.getPort IdString.Y)
      | _, _ => none

/-! ## Live rows of an AMT under expansion -/

/-- The index of the truth-table row of an input assignment: the number whose binary
digits are the elements of the constant, bit 0 first. -/
def const_index : Const → Nat
  | [] => 0
  | b :: rest => (if b = State.S1 then 1 else 0) + 2 * const_index rest

/-- An assignment `σ` of the wire bits agrees with the truth table the expander builds
for a driver at the selector `select`: the row of the values the inputs of the driver
have under `σ` holds the values its selector outputs have under `σ`. -/
def agrees_with_driver (ct : CellTypes) (assign_map : SigMap) (σ : Nat → Nat → Bool)
    (cell : Cell) (select : SigSpec) : Prop :=
  match driver_input ct assign_map cell select with
  | some (cell_input, full_output) =>
    truth_entry ct assign_map cell cell_input (full_output.extract_pattern select) full_output
        (const_index (sig_const σ cell_input))
      = some (sig_const σ (full_output.extract_pattern select), sig_const σ cell_input)
  | none => True

instance (ct : CellTypes) (assign_map : SigMap) (σ : Nat → Nat → Bool) (cell : Cell)
    (select : SigSpec) : Decidable (agrees_with_driver ct assign_map σ cell select) := by
  unfold agrees_with_driver
  split <;> infer_instance

/-- No input of the driver, as the expander reads it at the selector `select`, is a bit
of the signal `original_select`. -/
def inputs_outside (ct : CellTypes) (assign_map : SigMap) (original_select : SigSpec)
    (cell : Cell) (select : SigSpec) : Prop :=
  match driver_input ct assign_map cell select with
  | some (cell_input, _) => ∀ b ∈ cell_input, b ∉ original_select
  | none => True

instance (ct : CellTypes) (assign_map : SigMap) (original_select : SigSpec) (cell : Cell)
    (select : SigSpec) : Decidable (inputs_outside ct assign_map original_select cell select) := by
  unfold inputs_outside
  split <;> infer_instance

/-- The drivers the loop over a worklist merges, each with the selector it is merged
at: the cells for which the body of the loop runs through to the new table. -/
def worklist_merges (ct : CellTypes) (assign_map : SigMap) :
    List Cell → expand_state → List (Cell × SigSpec)
  | [], _ => []
  | cell :: rest, st =>
    match merge_cell ct assign_map cell st with
    | none => []
    | some (st', merged) =>
      (if merged then [(cell, st.select)] else []) ++
        (if merged ∧ st'.selections.length > 100 then []
         else worklist_merges ct assign_map rest st')

/-- The drivers the loop over the worklists merges, each with the selector it is merged
at. -/
def expand_merges (ct : CellTypes) (assign_map : SigMap) (sig2driver : SigSet Cell) :
    Nat → Nat → expand_state → List (Cell × SigSpec)
  | 0, _, _ => []
  | fuel + 1, position, st =>
    let worklist := find_worklist sig2driver (assign_map.apply (st.select.drop position))
    if worklist.isEmpty then []
    else
      worklist_merges ct assign_map worklist st ++
        (match merge_worklist ct assign_map worklist st with
         | none => []
         | some st' =>
           if st'.selections.length > 100 then []
           else expand_merges ct assign_map sig2driver fuel st.select.length st')

/-- The rows `00 -> 0, 10 -> 1, 01 -> 2, 11 -> 3` over a selector of two bits. -/
def and_rows : List selection_t :=
  [⟨[State.S0, State.S0], const2 0, false⟩, ⟨[State.S1, State.S0], const2 1, false⟩,
   ⟨[State.S0, State.S1], const2 2, false⟩, ⟨[State.S1, State.S1], const2 3, false⟩]

/-- An `$amt` cell with the selector `(s, t)`, `s` the private wire 20 and `t` the public
wire 5, and the rows `and_rows`. -/
def and_amt_cell : Cell :=
  copy_to_cell ⟨152, CellType.amt, [(IdString.A, []), (IdString.S, [SigBit.wire 20 0,
    SigBit.wire 5 0]), (IdString.Y, SigSpec.of_wire 2 2)], [], false⟩ and_rows

/-- The driver index `InjectExpandPass::execute` builds for a module with the cells
`and_driver` and `and_amt_cell`. -/
def and_drivers : SigSet Cell :=
  build_expand_drivers ct_internals id public_below_16 [and_driver, and_amt_cell] []

/-- A pattern element fits a selector bit under `σ`: it is 0, 1 or don't-care, and
where it is 0 or 1 the bit has that value. -/
def fits (σ : Nat → Nat → Bool) (b : SigBit) (v : State) : Prop :=
  (v = State.S0 ∨ v = State.S1 ∨ v = State.Sa) ∧ trit_matches σ b v = true

/-- The invariant of the loops of the expander for one original row with the pattern
`pattern` and an assignment `σ`: the selector is the original selector `S` followed by
further bits, its bits are pairwise different wire bits, and the table holds a row that
fits `σ` and has the pattern `pattern` on the bits of `S`. -/
def row_tracked (σ : Nat → Nat → Bool) (S : SigSpec) (pattern : Const) (st : expand_state) :
    Prop :=
  (∃ ext, st.select = S ++ ext) ∧ st.select.Nodup ∧ (∀ b ∈ st.select, b.is_wire = true) ∧
  ∃ e ∈ st.selections, List.Forall₂ (fits σ) st.select e.select ∧
    e.select.take S.length = pattern

/-- The rows `0- -> 0, 10 -> 2, 11 -> 3` of the tree `y = t ? (c ? 3 : 2) : 0`. -/
def const_select_rows : List selection_t :=
  [⟨[State.S0, State.Sa], const2 0, false⟩, ⟨[State.S1, State.S0], const2 2, false⟩,
   ⟨[State.S1, State.S1], const2 3, false⟩]

/-- An `$amt` cell whose selector `(t, c)` holds the public wire 5 and the constant 1,
with the rows `const_select_rows`. -/
def const_select_amt_cell : Cell :=
  copy_to_cell ⟨153, CellType.amt, [(IdString.A, []), (IdString.S, [SigBit.wire 5 0,
    SigBit.const State.S1]), (IdString.Y, SigSpec.of_wire 2 2)], [], false⟩ const_select_rows

/-! ## Port dictionary lemmas -/

theorem find_setConn (l : List (IdString × SigSpec)) (p q : IdString) (sig : SigSpec) :
    (setConn l p sig).find? (fun c => c.1 = q) =
      if q = p then some (p, sig) else l.find? (fun c => c.1 = q) := by
  induction l with
  | nil =>
    by_cases h : q = p
    · simp [setConn, h]
    · have h2 : ¬ p = q := fun e => h e.symm
      simp [setConn, h, h2]
  | cons c rest ih =>
    by_cases hc : c.1 = p
    · by_cases h : q = p
      · simp [setConn, hc, h]
      · have h2 : ¬ p = q := fun e => h e.symm
        simp [setConn, hc, h, h2]
    · by_cases h : q = p
      · subst h
        simp [setConn, hc, ih]
      · by_cases h3 : c.1 = q
        · simp [setConn, hc, h, h3]
        · simp [setConn, hc, h, h3, ih]

theorem find_unsetConn_ne (l : List (IdString × SigSpec)) (p q : IdString) (h : q ≠ p) :
    (unsetConn l p).find? (fun c => c.1 = q) = l.find? (fun c => c.1 = q) := by
  induction l with
  | nil => rfl
  | cons c rest ih =>
    by_cases hc : c.1 = p
    · have h3 : ¬ c.1 = q := fun e => h (e.symm.trans hc)
      rw [unsetConn, if_pos hc, ih, List.find?_cons]
      simp [h3]
    · rw [unsetConn, if_neg hc, List.find?_cons, List.find?_cons, ih]

theorem getPort_copy_to_cell_A (cell : Cell) (sels : List selection_t) :
    (copy_to_cell cell sels).getPort IdString.A = new_input sels := by
  simp [copy_to_cell, Cell.getPort, Cell.setPort, Cell.unsetPort, find_setConn]

theorem getPort_copy_to_cell_ne (cell : Cell) (sels : List selection_t) (q : IdString)
    (h : q ≠ IdString.A) :
    (copy_to_cell cell sels).getPort q = cell.getPort q := by
  simp [copy_to_cell, Cell.getPort, Cell.setPort, Cell.unsetPort, find_setConn, h,
    find_unsetConn_ne _ _ _ h]

theorem table_copy_to_cell (cell : Cell) (sels : List selection_t) :
    (copy_to_cell cell sels).STATE_TABLE = table_bits sels := by
  simp [copy_to_cell, Cell.setPort, Cell.unsetPort]

/-! ## Layout lemmas of the codec -/

theorem table_bits_length (k : Nat) (sels : List selection_t)
    (h : ∀ s ∈ sels, s.select.length = k) :
    (table_bits sels).length = sels.length * (k + 1) := by
  induction sels with
  | nil => simp [table_bits]
  | cons s rest ih =>
    have hs : s.select.length = k := h s (List.mem_cons_self _ _)
    have hr := ih (fun t ht => h t (List.mem_cons_of_mem _ ht))
    simp only [table_bits, List.length_append, List.length_cons, hs, hr]
    ring

theorem table_bits_drop (k : Nat) (sels : List selection_t)
    (h : ∀ s ∈ sels, s.select.length = k) (i : Nat) :
    (table_bits sels).drop (i * (k + 1)) = table_bits (sels.drop i) := by
  induction i generalizing sels with
  | zero => simp
  | succ i ih =>
    cases sels with
    | nil => simp [table_bits]
    | cons s rest =>
      have hs : s.select.length = k := h s (List.mem_cons_self _ _)
      have hr := ih rest (fun t ht => h t (List.mem_cons_of_mem _ ht))
      have e : (i + 1) * (k + 1) = (s.select ++ [if s.buggy then State.S1 else State.S0]).length
          + i * (k + 1) := by
        simp [hs]; ring
      have e2 : table_bits (s :: rest) =
          (s.select ++ [if s.buggy then State.S1 else State.S0]) ++ table_bits rest := by
        simp [table_bits]
      rw [e2, e, List.drop_append, hr]
      simp

theorem new_input_length (m : Nat) (sels : List selection_t)
    (h : ∀ s ∈ sels, s.output.length = m) :
    (new_input sels).length = sels.length * m := by
  induction sels with
  | nil => simp [new_input]
  | cons s rest ih =>
    have hs : s.output.length = m := h s (List.mem_cons_self _ _)
    have hr := ih (fun t ht => h t (List.mem_cons_of_mem _ ht))
    simp only [new_input, List.length_append, List.length_cons, hs, hr]
    ring

theorem new_input_drop (m : Nat) (sels : List selection_t)
    (h : ∀ s ∈ sels, s.output.length = m) (i : Nat) :
    (new_input sels).drop (i * m) = new_input (sels.drop i) := by
  induction i generalizing sels with
  | zero => simp
  | succ i ih =>
    cases sels with
    | nil => simp [new_input]
    | cons s rest =>
      have hs : s.output.length = m := h s (List.mem_cons_self _ _)
      have hr := ih rest (fun t ht => h t (List.mem_cons_of_mem _ ht))
      have e : (i + 1) * m = s.output.length + i * m := by
        simp [hs]; ring
      rw [new_input, e, List.drop_append, hr]
      simp

theorem drop_eq_cons_of_getElem? {α : Type} (l : List α) (i : Nat) (a : α)
    (h : l[i]? = some a) : l.drop i = a :: l.drop (i + 1) := by
  induction l generalizing i with
  | nil => simp at h
  | cons b rest ih =>
    cases i with
    | zero => simp at h; simp [h]
    | succ i => simp at h; simpa using ih i h

theorem decode_row_copy_to_cell (cell : Cell) (sels : List selection_t) (k m : Nat)
    (hS : (cell.getPort IdString.S).length = k) (hY : (cell.getPort IdString.Y).length = m)
    (hk : ∀ s ∈ sels, s.select.length = k) (hm : ∀ s ∈ sels, s.output.length = m)
    (i : Nat) (s : selection_t) (hi : sels[i]? = some s) :
    decode_row (copy_to_cell cell sels) i = some s := by
  have hd := drop_eq_cons_of_getElem? sels i s hi
  have hmem : s ∈ sels := List.getElem?_mem hi
  have hlt : i < sels.length := by
    rcases List.getElem?_eq_some_iff.mp hi with ⟨h, _⟩
    exact h
  have hsk := hk s hmem
  have hsm := hm s hmem
  have hA : ((new_input sels).drop (i * m)).take m = s.output := by
    rw [new_input_drop m sels hm, hd, new_input, ← hsm]
    simp
  have hlenA : i * m + m ≤ (new_input sels).length := by
    rw [new_input_length m sels hm]
    calc i * m + m = (i + 1) * m := by ring
      _ ≤ sels.length * m := Nat.mul_le_mul_right m hlt
  have hT : ((table_bits sels).drop (i * (k + 1))).take k = s.select := by
    rw [table_bits_drop k sels hk, hd, table_bits, ← hsk]
    simp
  have hF : (table_bits sels)[i * (k + 1) + k]? =
      some (if s.buggy then State.S1 else State.S0) := by
    have e := table_bits_drop k sels hk i
    rw [hd, table_bits] at e
    have e3 : ((table_bits sels).drop (i * (k + 1)))[k]? =
        some (if s.buggy then State.S1 else State.S0) := by
      rw [e, ← hsk, List.getElem?_append_right (le_refl _)]
      simp
    simpa [List.getElem?_drop] using e3
  unfold decode_row
  rw [getPort_copy_to_cell_ne cell sels IdString.S (by decide),
    getPort_copy_to_cell_ne cell sels IdString.Y (by decide),
    getPort_copy_to_cell_A, table_copy_to_cell, hS, hY]
  simp only [SigSpec.extract, hlenA, if_true, hA, hT, hF]
  cases s with
  | mk sel out b => cases b <;> simp

theorem copy_from_cell_loop_copy_to_cell (cell : Cell) (sels : List selection_t) (k m : Nat)
    (hS : (cell.getPort IdString.S).length = k) (hY : (cell.getPort IdString.Y).length = m)
    (hk : ∀ s ∈ sels, s.select.length = k) (hm : ∀ s ∈ sels, s.output.length = m)
    (count i : Nat) (acc : List selection_t) (h : i + count ≤ sels.length) :
    copy_from_cell_loop (copy_to_cell cell sels) count i acc =
      some (acc ++ (sels.drop i).take count) := by
  induction count generalizing i acc with
  | zero => simp [copy_from_cell_loop]
  | succ count ih =>
    have hlt : i < sels.length := by omega
    have hi : sels[i]? = some sels[i] := List.getElem?_eq_getElem hlt
    rw [copy_from_cell_loop, decode_row_copy_to_cell cell sels k m hS hY hk hm i _ hi]
    simp only
    rw [ih (i + 1) _ (by omega), drop_eq_cons_of_getElem? sels i _ hi, List.take_succ_cons]
    simp

theorem table_bits_append (xs ys : List selection_t) :
    table_bits (xs ++ ys) = table_bits xs ++ table_bits ys := by
  induction xs with
  | nil => simp [table_bits]
  | cons s rest ih => simp [table_bits, ih]

theorem new_input_append (xs ys : List selection_t) :
    new_input (xs ++ ys) = new_input xs ++ new_input ys := by
  induction xs with
  | nil => simp [new_input]
  | cons s rest ih => simp [new_input, ih]

/-- What one successful iteration of the decoding loop returns. -/
theorem decode_row_some (cell : Cell) (i : Nat) (row : selection_t)
    (h : decode_row cell i = some row) :
    ∃ flag,
      cell.STATE_TABLE[i * ((cell.getPort IdString.S).length + 1)
        + (cell.getPort IdString.S).length]? = some flag ∧
      i * (cell.getPort IdString.Y).length + (cell.getPort IdString.Y).length
        ≤ (cell.getPort IdString.A).length ∧
      row = ⟨(cell.STATE_TABLE.drop (i * ((cell.getPort IdString.S).length + 1))).take
              (cell.getPort IdString.S).length,
            ((cell.getPort IdString.A).drop (i * (cell.getPort IdString.Y).length)).take
              (cell.getPort IdString.Y).length,
            decide (flag = State.S1)⟩ := by
  unfold decode_row at h
  simp only [SigSpec.extract] at h
  split at h
  · rename_i output flag ho hf
    refine ⟨flag, hf, ?_, ?_⟩
    · by_contra hc
      simp [hc] at ho
    · split at ho
      · simp at ho h
        rw [← h, ← ho]
      · simp at ho
  · simp at h

/-- The decoding loop only appends, one row per iteration, each the row `decode_row`
returns at its index. -/
theorem copy_from_cell_loop_some (cell : Cell) (count i : Nat) (acc out : List selection_t)
    (h : copy_from_cell_loop cell count i acc = some out) :
    ∃ rows, out = acc ++ rows ∧ rows.length = count ∧
      ∀ j, j < count → decode_row cell (i + j) = rows[j]? := by
  induction count generalizing i acc with
  | zero =>
    simp [copy_from_cell_loop] at h
    exact ⟨[], by simp [h], rfl, by intro j hj; omega⟩
  | succ count ih =>
    rw [copy_from_cell_loop] at h
    split at h
    · rename_i s hs
      obtain ⟨rows, h1, h2, h3⟩ := ih (i + 1) _ h
      refine ⟨s :: rows, by simp [h1], by simp [h2], ?_⟩
      intro j hj
      cases j with
      | zero => simpa using hs
      | succ j =>
        have := h3 j (by omega)
        simp only [List.getElem?_cons_succ]
        rw [← this]
        congr 1
        omega
    · simp at h

theorem decode_row_total (cell : Cell) (i : Nat)
    (hT : i * ((cell.getPort IdString.S).length + 1) + (cell.getPort IdString.S).length
      < cell.STATE_TABLE.length)
    (hA : i * (cell.getPort IdString.Y).length + (cell.getPort IdString.Y).length
      ≤ (cell.getPort IdString.A).length) :
    ∃ row, decode_row cell i = some row := by
  unfold decode_row
  simp only [SigSpec.extract, hA, if_true, List.getElem?_eq_getElem hT]
  exact ⟨_, rfl⟩

theorem copy_from_cell_loop_total (cell : Cell) (count i : Nat) (acc : List selection_t)
    (hT : (i + count) * ((cell.getPort IdString.S).length + 1) ≤ cell.STATE_TABLE.length)
    (hA : (i + count) * (cell.getPort IdString.Y).length ≤ (cell.getPort IdString.A).length) :
    ∃ out, copy_from_cell_loop cell count i acc = some out := by
  induction count generalizing i acc with
  | zero => exact ⟨acc, rfl⟩
  | succ count ih =>
    have h1 : i * ((cell.getPort IdString.S).length + 1) + (cell.getPort IdString.S).length
        < cell.STATE_TABLE.length := by
      have : (i + (count + 1)) * ((cell.getPort IdString.S).length + 1)
          = i * ((cell.getPort IdString.S).length + 1) + (cell.getPort IdString.S).length + 1
            + count * ((cell.getPort IdString.S).length + 1) := by ring
      omega
    have h2 : i * (cell.getPort IdString.Y).length + (cell.getPort IdString.Y).length
        ≤ (cell.getPort IdString.A).length := by
      have : (i + (count + 1)) * (cell.getPort IdString.Y).length
          = i * (cell.getPort IdString.Y).length + (cell.getPort IdString.Y).length
            + count * (cell.getPort IdString.Y).length := by ring
      omega
    obtain ⟨row, hrow⟩ := decode_row_total cell i h1 h2
    rw [copy_from_cell_loop, hrow]
    exact ih (i + 1) _ (by rw [show i + 1 + count = i + (count + 1) by omega]; exact hT)
      (by rw [show i + 1 + count = i + (count + 1) by omega]; exact hA)

theorem take_block {α : Type} (l : List α) (a k c : Nat) (x : α) (h : l[a + k]? = some x) :
    (l.drop a).take ((c + 1) * (k + 1)) =
      (l.drop a).take k ++ [x] ++ (l.drop (a + (k + 1))).take (c * (k + 1)) := by
  have e : (c + 1) * (k + 1) = (k + 1) + c * (k + 1) := by ring
  rw [e, List.take_add, List.drop_drop, List.take_succ]
  have e2 : (l.drop a)[k]? = some x := by
    rw [List.getElem?_drop]; exact h
  rw [e2]
  simp [Nat.add_comm]

theorem copy_from_cell_loop_input (cell : Cell) (count i : Nat) (acc out : List selection_t)
    (h : copy_from_cell_loop cell count i acc = some out) :
    new_input out = new_input acc ++
      ((cell.getPort IdString.A).drop (i * (cell.getPort IdString.Y).length)).take
        (count * (cell.getPort IdString.Y).length) := by
  induction count generalizing i acc with
  | zero =>
    simp [copy_from_cell_loop] at h
    simp [h]
  | succ count ih =>
    rw [copy_from_cell_loop] at h
    split at h
    · rename_i s hs
      obtain ⟨flag, _, _, hrow⟩ := decode_row_some cell i s hs
      rw [ih (i + 1) _ h, new_input_append]
      have e : (count + 1) * (cell.getPort IdString.Y).length
          = (cell.getPort IdString.Y).length + count * (cell.getPort IdString.Y).length := by
        ring
      have e2 : (i + 1) * (cell.getPort IdString.Y).length
          = (cell.getPort IdString.Y).length + i * (cell.getPort IdString.Y).length := by
        ring
      rw [e, List.take_add, List.drop_drop, e2, hrow]
      simp [new_input, Nat.add_comm]
    · simp at h

theorem copy_from_cell_loop_table (cell : Cell) (count i : Nat) (acc out : List selection_t)
    (h : copy_from_cell_loop cell count i acc = some out)
    (hflag : ∀ j, i ≤ j → j < i + count →
      cell.STATE_TABLE[j * ((cell.getPort IdString.S).length + 1)
        + (cell.getPort IdString.S).length]? = some State.S0 ∨
      cell.STATE_TABLE[j * ((cell.getPort IdString.S).length + 1)
        + (cell.getPort IdString.S).length]? = some State.S1) :
    table_bits out = table_bits acc ++
      (cell.STATE_TABLE.drop (i * ((cell.getPort IdString.S).length + 1))).take
        (count * ((cell.getPort IdString.S).length + 1)) := by
  induction count generalizing i acc with
  | zero =>
    simp [copy_from_cell_loop] at h
    simp [h]
  | succ count ih =>
    rw [copy_from_cell_loop] at h
    split at h
    · rename_i s hs
      obtain ⟨flag, hf, _, hrow⟩ := decode_row_some cell i s hs
      have hfl := hflag i (le_refl _) (by omega)
      rw [ih (i + 1) _ h (fun j h1 h2 => hflag j (by omega) (by omega)), table_bits_append,
        take_block cell.STATE_TABLE _ _ count flag hf]
      have e2 : (i + 1) * ((cell.getPort IdString.S).length + 1)
          = i * ((cell.getPort IdString.S).length + 1) + ((cell.getPort IdString.S).length + 1) := by
        ring
      rw [e2, hrow]
      rw [hf] at hfl
      rcases hfl with hfl | hfl
      · have : flag = State.S0 := by simpa using hfl
        subst this
        simp [table_bits]
      · have : flag = State.S1 := by simpa using hfl
        subst this
        simp [table_bits]
    · simp at h

/-! ## The codec claims -/

/-- C2: decode undoes encode. For a cell with selector width `|S|` and output width
`|Y|` and every list of selections whose patterns all have width `|S|` and whose
outputs all have width `|Y|`, `copy_to_cell` followed by `copy_from_cell` into an
empty list returns exactly that list. -/
theorem C2_decode_encode (cell : Cell) (selections : List selection_t)
    (hk : ∀ s ∈ selections, s.select.length = (cell.getPort IdString.S).length)
    (hm : ∀ s ∈ selections, s.output.length = (cell.getPort IdString.Y).length) :
    copy_from_cell (copy_to_cell cell selections) [] = some selections := by
  unfold copy_from_cell
  simp only
  rw [getPort_copy_to_cell_ne cell selections IdString.S (by decide), table_copy_to_cell,
    table_bits_length _ selections hk, Nat.mul_div_cancel _ (Nat.succ_pos _),
    copy_from_cell_loop_copy_to_cell cell selections _ _ rfl rfl hk hm _ 0 [] (by omega)]
  simp

/-- C4: bit-exact table layout. `copy_to_cell` writes `n * (k + 1)` elements, element
`i * (k + 1) + j` is bit `j` of row `i` for `j < k`, element `i * (k + 1) + k` is the
buggy flag of row `i`; `copy_from_cell` reads row `i` from these positions. -/
theorem C4_state_table_layout (cell : Cell) (selections : List selection_t) (k : Nat)
    (hk : ∀ s ∈ selections, s.select.length = k) :
    (copy_to_cell cell selections).STATE_TABLE.length = selections.length * (k + 1) ∧
    (∀ i row, selections[i]? = some row →
      (∀ j, j < k →
        (copy_to_cell cell selections).STATE_TABLE[i * (k + 1) + j]? = row.select[j]?) ∧
      (copy_to_cell cell selections).STATE_TABLE[i * (k + 1) + k]? =
        some (if row.buggy then State.S1 else State.S0)) ∧
    (∀ (c : Cell) (rows : List selection_t), copy_from_cell c [] = some rows →
      rows.length = c.STATE_TABLE.length / ((c.getPort IdString.S).length + 1) ∧
      ∀ i row, rows[i]? = some row →
        row.select.length = (c.getPort IdString.S).length ∧
        (∀ j, j < (c.getPort IdString.S).length →
          row.select[j]? = c.STATE_TABLE[i * ((c.getPort IdString.S).length + 1) + j]?) ∧
        (row.buggy = true ↔
          c.STATE_TABLE[i * ((c.getPort IdString.S).length + 1)
            + (c.getPort IdString.S).length]? = some State.S1)) := by
  refine ⟨?_, ?_, ?_⟩
  · rw [table_copy_to_cell, table_bits_length k selections hk]
  · intro i row hi
    have hd := drop_eq_cons_of_getElem? selections i row hi
    have hrow : row.select.length = k := hk row (List.getElem?_mem hi)
    have e := table_bits_drop k selections hk i
    rw [hd, table_bits] at e
    rw [table_copy_to_cell]
    constructor
    · intro j hj
      have : ((table_bits selections).drop (i * (k + 1)))[j]? = row.select[j]? := by
        rw [e, List.getElem?_append_left (by omega)]
      simpa [List.getElem?_drop] using this
    · have : ((table_bits selections).drop (i * (k + 1)))[k]? =
          some (if row.buggy then State.S1 else State.S0) := by
        rw [e, ← hrow, List.getElem?_append_right (le_refl _)]
        simp
      simpa [List.getElem?_drop] using this
  · intro c rows hc
    unfold copy_from_cell at hc
    obtain ⟨rows', h1, h2, h3⟩ := copy_from_cell_loop_some c _ 0 [] rows hc
    simp only [List.nil_append] at h1
    subst h1
    refine ⟨h2, ?_⟩
    intro i row hi
    have hlt : i < rows.length := by
      rcases List.getElem?_eq_some_iff.mp hi with ⟨h, _⟩
      exact h
    have hdec := h3 i (by omega)
    rw [Nat.zero_add, hi] at hdec
    obtain ⟨flag, hf, _, hr⟩ := decode_row_some c i row hdec
    have hlen : i * ((c.getPort IdString.S).length + 1) + (c.getPort IdString.S).length
        < c.STATE_TABLE.length := by
      rcases List.getElem?_eq_some_iff.mp hf with ⟨h, _⟩
      exact h
    refine ⟨?_, ?_, ?_⟩
    · rw [hr]
      simp only [List.length_take, List.length_drop]
      omega
    · intro j hj
      rw [hr]
      simp only
      rw [List.getElem?_take_of_lt hj, List.getElem?_drop]
    · rw [hr, hf]
      simp

/-- Witness of C2 on `sample_cell` with `sample_selections`. -/
theorem C2_decode_encode_witness :
    copy_from_cell (copy_to_cell sample_cell sample_selections) [] = some sample_selections :=
  C2_decode_encode sample_cell sample_selections (by decide) (by decide)

/-- Witness of C4 on `sample_cell` with `sample_selections` (patterns of width 1). -/
theorem C4_state_table_layout_witness :
    (copy_to_cell sample_cell sample_selections).STATE_TABLE
      = [State.S0, State.S0, State.Sa, State.S1] ∧
    (copy_to_cell sample_cell sample_selections).STATE_TABLE.length
      = sample_selections.length * (1 + 1) :=
  ⟨by decide, (C4_state_table_layout sample_cell sample_selections 1 (by decide)).1⟩

/-- Counterexample to C3 as stated: `undef_flag_cell` satisfies both size conditions
with `n = 1`, decoding succeeds, and re-encoding changes `STATE_TABLE` from `[0, x]`
to `[0, 0]`. -/
theorem C3_counterexample :
    amt_sizes undef_flag_cell 1 ∧
    copy_from_cell undef_flag_cell []
      = some [⟨[State.S0], [SigBit.const State.S0], false⟩] ∧
    (copy_to_cell undef_flag_cell
      [⟨[State.S0], [SigBit.const State.S0], false⟩]).STATE_TABLE = [State.S0, State.S0] ∧
    (copy_to_cell undef_flag_cell
      [⟨[State.S0], [SigBit.const State.S0], false⟩]).STATE_TABLE
        ≠ undef_flag_cell.STATE_TABLE := by
  refine ⟨?_, ?_, ?_, ?_⟩
  · unfold amt_sizes; decide
  · decide
  · decide
  · decide

/-- C3 (amended): encode undoes decode on binary flags. For every AMT cell with
`|STATE_TABLE| = n * (|S| + 1)` and `|A| = n * |Y|` in which the flag element of every
row is `S0` or `S1`, decoding with `copy_from_cell` into an empty list succeeds and
re-encoding the result with `copy_to_cell` leaves `STATE_TABLE` and port `A` as they
were. -/
theorem C3_encode_decode (cell : Cell) (n : Nat) (hsz : amt_sizes cell n)
    (hflag : flags_binary cell n) :
    ∃ selections, copy_from_cell cell [] = some selections ∧
      (copy_to_cell cell selections).STATE_TABLE = cell.STATE_TABLE ∧
      (copy_to_cell cell selections).getPort IdString.A = cell.getPort IdString.A := by
  obtain ⟨hA, hT⟩ := hsz
  have hn : cell.STATE_TABLE.length / ((cell.getPort IdString.S).length + 1) = n := by
    rw [hT, Nat.mul_div_cancel _ (Nat.succ_pos _)]
  obtain ⟨out, hout⟩ := copy_from_cell_loop_total cell n 0 []
    (by rw [Nat.zero_add, hT]) (by rw [Nat.zero_add, hA])
  refine ⟨out, ?_, ?_, ?_⟩
  · unfold copy_from_cell
    simp only [hn]
    exact hout
  · rw [table_copy_to_cell, copy_from_cell_loop_table cell n 0 [] out hout
      (fun j _ h2 => hflag j (by omega))]
    simp [table_bits, ← hT]
  · rw [getPort_copy_to_cell_A, copy_from_cell_loop_input cell n 0 [] out hout]
    simp [new_input, ← hA]

/-- Witness of C3 (amended) on the encoding of `sample_selections`. -/
theorem C3_encode_decode_witness :
    amt_sizes (copy_to_cell sample_cell sample_selections) 2 ∧
    ∃ selections, copy_from_cell (copy_to_cell sample_cell sample_selections) [] = some selections ∧
      (copy_to_cell (copy_to_cell sample_cell sample_selections) selections).STATE_TABLE
        = (copy_to_cell sample_cell sample_selections).STATE_TABLE ∧
      (copy_to_cell (copy_to_cell sample_cell sample_selections) selections).getPort IdString.A
        = (copy_to_cell sample_cell sample_selections).getPort IdString.A :=
  ⟨by unfold amt_sizes; decide,
   C3_encode_decode (copy_to_cell sample_cell sample_selections) 2
    (by unfold amt_sizes; decide)
    (by
      intro i hi
      have : i = 0 ∨ i = 1 := by omega
      rcases this with h | h <;> subst h <;> decide)⟩

/-! ## Lemmas on the helpers of the extractor -/

set_option maxRecDepth 1000000 in
theorem of_int_shl_one :
    ∀ w, w < 33 → ∀ i, i < w → Const.of_int (shl_one i) w = onehot i w := by
  decide

theorem of_int_zero (w : Nat) : Const.of_int 0 w = List.replicate w State.S0 := by
  induction w with
  | zero => rfl
  | succ w ih =>
    show (if (0:Int) % 2 = 1 then State.S1 else State.S0) :: Const.of_int (0 / 2) w = _
    simp [List.replicate_succ, ih]

theorem of_int_length (v : Int) (w : Nat) : (Const.of_int v w).length = w := by
  induction w generalizing v with
  | zero => rfl
  | succ w ih => simp [Const.of_int, ih]

theorem bit_value_wire (σ : Nat → Nat → Bool) (b : SigBit) (h : b.is_wire = true) :
    ∃ v, bit_value σ b = some v := by
  cases b with
  | const d => simp [SigBit.is_wire] at h
  | wire n o => exact ⟨σ n o, rfl⟩

theorem all_false_of_matches (σ : Nat → Nat → Bool) (sig_s : SigSpec)
    (h : pattern_matches σ sig_s (List.replicate sig_s.length State.S0) = true) :
    (sig_s.map (bit_value σ)).all (fun v => v = some false) = true := by
  induction sig_s with
  | nil => rfl
  | cons b rest ih =>
    simp only [List.length_cons, List.replicate_succ, pattern_matches, trit_matches, Bool.and_eq_true,
      decide_eq_true_eq] at h
    simp only [List.map_cons, List.all_cons, Bool.and_eq_true, decide_eq_true_eq]
    exact ⟨h.1, ih h.2⟩

theorem select_case_all_false (vals : List (Option Bool))
    (h : vals.all (fun v => v = some false) = true) : select_case vals = some none := by
  induction vals with
  | nil => rfl
  | cons v rest ih =>
    simp only [List.all_cons, Bool.and_eq_true, decide_eq_true_eq] at h
    rw [h.1, select_case, ih h.2]

theorem select_case_zero (σ : Nat → Nat → Bool) (sig_s : SigSpec)
    (h : pattern_matches σ sig_s (Const.of_int 0 sig_s.length) = true) :
    select_case (sig_s.map (bit_value σ)) = some none := by
  rw [of_int_zero] at h
  exact select_case_all_false _ (all_false_of_matches σ sig_s h)

theorem select_case_onehot (σ : Nat → Nat → Bool) (sig_s : SigSpec) (i : Nat)
    (hi : i < sig_s.length)
    (h : pattern_matches σ sig_s (onehot i sig_s.length) = true) :
    select_case (sig_s.map (bit_value σ)) = some (some i) := by
  induction sig_s generalizing i with
  | nil => simp at hi
  | cons b rest ih =>
    cases i with
    | zero =>
      simp only [List.length_cons, onehot, pattern_matches, trit_matches, Bool.and_eq_true,
        decide_eq_true_eq] at h
      simp only [List.map_cons, h.1, select_case, all_false_of_matches σ rest h.2, if_true]
    | succ i =>
      simp only [List.length_cons, onehot, pattern_matches, trit_matches, Bool.and_eq_true,
        decide_eq_true_eq] at h
      simp only [List.length_cons, Nat.add_lt_add_iff_right] at hi
      simp only [List.map_cons, h.1, select_case, ih i hi h.2]

theorem select_case_shl_one (σ : Nat → Nat → Bool) (sig_s : SigSpec) (i : Nat)
    (hi : i < sig_s.length) (hw : sig_s.length ≤ 32)
    (h : pattern_matches σ sig_s (Const.of_int (shl_one i) sig_s.length) = true) :
    select_case (sig_s.map (bit_value σ)) = some (some i) := by
  rw [of_int_shl_one sig_s.length (by omega) i hi] at h
  exact select_case_onehot σ sig_s i hi h

theorem extend_u0_length (sig : SigSpec) (width : Nat) (is_signed : Bool) :
    (sig.extend_u0 width is_signed).length = width := by
  unfold SigSpec.extend_u0
  split
  · simp; omega
  · simp; omega

theorem extract_pattern_single (select : SigSpec) (b : SigBit) :
    (select.extract_pattern [b]).isEmpty = true ↔ (b.is_wire = true → b ∉ select) := by
  cases b with
  | const d =>
    simp only [SigSpec.extract_pattern, SigSpec.chunks, List.map_cons, List.map_nil,
      List.flatten_cons, List.flatten_nil, List.append_nil, SigBit.is_wire]
    have : select.filter (SigChunk.has ⟨none, 0, 1⟩) = [] := by
      rw [List.filter_eq_nil_iff]
      intro a _
      cases a <;> simp [SigChunk.has]
    simp [this]
  | wire n o =>
    simp only [SigSpec.extract_pattern, SigSpec.chunks, List.map_cons, List.map_nil,
      List.flatten_cons, List.flatten_nil, List.append_nil, SigBit.is_wire]
    rw [List.isEmpty_iff, List.filter_eq_nil_iff]
    constructor
    · intro h _ hmem
      have := h _ hmem
      simp [SigChunk.has] at this
    · intro h a ha
      cases a with
      | const d => simp [SigChunk.has]
      | wire n' o' =>
        simp only [SigChunk.has, Bool.not_eq_true, decide_eq_false_iff_not]
        intro hc
        obtain ⟨h1, h2, h3⟩ := hc
        have e1 : n' = n := by simpa using h1.symm
        have e2 : o' = o := by omega
        subst e1 e2
        exact h trivial ha

theorem add_select_mono (sig_s select : SigSpec) : ∀ b ∈ select, b ∈ add_select sig_s select := by
  induction sig_s generalizing select with
  | nil => intro b hb; exact hb
  | cons x rest ih =>
    intro b hb
    simp only [add_select]
    split
    · exact ih _ b (List.mem_append_left _ hb)
    · exact ih _ b hb

theorem add_select_mem (sig_s select : SigSpec) : ∀ b ∈ sig_s, b ∈ add_select sig_s select := by
  induction sig_s generalizing select with
  | nil => intro b hb; simp at hb
  | cons x rest ih =>
    intro b hb
    simp only [add_select]
    rcases List.mem_cons.mp hb with hx | hx
    · subst hx
      split
      · exact add_select_mono rest _ b (by simp)
      · rename_i hne
        apply add_select_mono rest _ b
        by_contra hc
        apply hne
        rw [extract_pattern_single]
        intro _
        exact hc
    · split
      · exact ih _ b hx
      · exact ih _ b hx

theorem abstract_cases_post
    (recurse : SigSpec → tree_state → Option (Bool × tree_state))
    (wf : Prop) (ev : (Nat → Nat → Bool) → SigSpec → Option SigSpec) (W : Nat)
    (Hrec : ∀ sig st st', recurse sig st = some (true, st') →
      tree_post wf (fun σ => ev σ sig) W st st')
    (sig_s sig_bb : SigSpec) (width : Nat) :
    ∀ (idxs : List Nat) (st st' : tree_state) (base : List sig2val_t) (e : sig2val_t),
      st.current_selection = base ++ [e] →
      abstract_cases recurse sig_s sig_bb width idxs st = some (true, st') →
      ∃ (new : List selection_raw_t) (e' : sig2val_t),
        st'.selections = st.selections ++ new ∧
        st'.current_selection = base ++ [e'] ∧
        st'.input = st.input ++ (new.map (fun r => r.output)).flatten ∧
        (∀ b ∈ st.select, b ∈ st'.select) ∧
        ∀ r ∈ new, r.output.length = W ∧
          ∃ i ∈ idxs, ∃ path,
            r.select = base ++ ⟨sig_s, Const.of_int (shl_one i) sig_s.length⟩ :: path ∧
            (∀ p ∈ path, (∀ b ∈ p.input_sig, b ∈ st'.select) ∧
              p.input_val.length = p.input_sig.length) ∧
            (wf → ∀ σ, (∀ p ∈ path, entry_matches σ p = true) →
              ev σ ((sig_bb.drop (i * width)).take width) = some r.output) := by
  intro idxs
  induction idxs with
  | nil =>
    intro st st' base e hcs h
    simp only [abstract_cases, Option.some.injEq, Prod.mk.injEq, true_and] at h
    subst h
    exact ⟨[], e, by simp, hcs, by simp, fun b hb => hb, by simp⟩
  | cons i rest ih =>
    intro st st' base e hcs h
    rw [abstract_cases] at h
    split at h
    · simp at h
    · simp at h
    · rename_i st2 hrec
      have hpost := Hrec _ _ _ hrec
      obtain ⟨new1, h1, h2, h3, h4, h5⟩ := hpost
      simp only [hcs, List.dropLast_concat] at h2 h5
      obtain ⟨new2, e', g1, g2, g3, g4, g5⟩ := ih st2 st' base _ h2 h
      refine ⟨new1 ++ new2, e', ?_, g2, ?_, ?_, ?_⟩
      · rw [g1, h1]; simp
      · rw [g3, h3]; simp
      · intro b hb; exact g4 b (h4 b hb)
      · intro r hr
        rcases List.mem_append.mp hr with hr | hr
        · obtain ⟨hlen, path, hp1, hp2, hp3⟩ := h5 r hr
          refine ⟨hlen, i, List.mem_cons_self _ _, path, ?_, ?_, hp3⟩
          · rw [hp1]; simp
          · intro p hp
            exact ⟨fun b hb => g4 b ((hp2 p hp).1 b hb), (hp2 p hp).2⟩
        · obtain ⟨hlen, j, hj, path, hp1, hp2, hp3⟩ := g5 r hr
          exact ⟨hlen, j, List.mem_cons_of_mem _ hj, path, hp1, hp2, hp3⟩

theorem replace_length (sig pattern with_ : SigSpec) :
    (sig.replace pattern with_).length = sig.length := by
  simp [SigSpec.replace, SigSpec.replace_into]

theorem mux_sig_aa_length (assign_map : SigMap) (cell : Cell) (sig : SigSpec) :
    (mux_sig_aa assign_map cell sig).length = sig.length := by
  simp [mux_sig_aa, replace_length]

theorem flatten_length_const {α : Type} (ls : List (List α)) (n : Nat)
    (h : ∀ l ∈ ls, l.length = n) : ls.flatten.length = ls.length * n := by
  induction ls with
  | nil => simp
  | cons l rest ih =>
    have h1 := h l (List.mem_cons_self _ _)
    have h2 := ih (fun l' hl' => h l' (List.mem_cons_of_mem _ hl'))
    simp only [List.flatten_cons, List.length_append, List.length_cons, h1, h2]
    ring

theorem mux_sig_bb_length (assign_map : SigMap) (cell : Cell) (sig : SigSpec) :
    (mux_sig_bb assign_map cell sig).length =
      ((cell.getPort IdString.B).length / (cell.getPort IdString.A).length) * sig.length := by
  unfold mux_sig_bb
  simp only
  rw [flatten_length_const _ sig.length]
  · simp [SigMap.apply]
  · intro l hl
    simp only [List.mem_map] at hl
    obtain ⟨i, _, rfl⟩ := hl
    exact replace_length _ _ _

theorem not_const_length_pos (sig : SigSpec) (h : ¬ sig.is_fully_const = true) :
    0 < sig.length := by
  cases sig with
  | nil => simp [SigSpec.is_fully_const] at h
  | cons b rest => simp

theorem tree_eval_const (module : Module) (assign_map : SigMap) (sig2driver : SigSet sig2driver_entry_t)
    (output : SigSpec) (σ : Nat → Nat → Bool) (fuel : Nat) (sig : SigSpec)
    (h : (assign_map.apply (sig.extend_u0 output.length false)).is_fully_const = true) :
    tree_eval module assign_map sig2driver output σ (fuel + 1) sig =
      some (assign_map.apply (sig.extend_u0 output.length false)) := by
  rw [tree_eval]
  simp only [h, if_true]

theorem tree_eval_cell (module : Module) (assign_map : SigMap) (sig2driver : SigSet sig2driver_entry_t)
    (output : SigSpec) (σ : Nat → Nat → Bool) (fuel : Nat) (sig : SigSpec)
    (cellport : sig2driver_entry_t) (cell : Cell)
    (h : ¬ (assign_map.apply (sig.extend_u0 output.length false)).is_fully_const = true)
    (hf : sig2driver.find (assign_map.apply (sig.extend_u0 output.length false)) = [cellport])
    (hc : module.cell cellport.1 = some cell) :
    tree_eval module assign_map sig2driver output σ (fuel + 1) sig =
      if (cell.type ≠ CellType.mux ∧ cell.type ≠ CellType.pmux) ∨ cellport.2 ≠ IdString.Y then
        some (assign_map.apply (sig.extend_u0 output.length false))
      else
        match select_case ((assign_map.apply (cell.getPort IdString.S)).map (bit_value σ)) with
        | none => none
        | some none => tree_eval module assign_map sig2driver output σ fuel
            (mux_sig_aa assign_map cell (assign_map.apply (sig.extend_u0 output.length false)))
        | some (some i) =>
          if i < (mux_sig_bb assign_map cell
                (assign_map.apply (sig.extend_u0 output.length false))).length /
              (mux_sig_aa assign_map cell
                (assign_map.apply (sig.extend_u0 output.length false))).length then
            tree_eval module assign_map sig2driver output σ fuel
              (((mux_sig_bb assign_map cell
                  (assign_map.apply (sig.extend_u0 output.length false))).drop
                (i * (mux_sig_aa assign_map cell
                  (assign_map.apply (sig.extend_u0 output.length false))).length)).take
                (mux_sig_aa assign_map cell
                  (assign_map.apply (sig.extend_u0 output.length false))).length)
          else none := by
  rw [tree_eval]
  simp only [h, hf, hc]
  rfl

theorem module_cell_mem (module : Module) (name : Nat) (cell : Cell)
    (h : module.cell name = some cell) : cell ∈ module.cells_ :=
  List.mem_of_find?_eq_some h

theorem abstract_tree_post (module : Module) (assign_map : SigMap) (sig2driver : SigSet sig2driver_entry_t)
    (output : SigSpec) :
    ∀ (fuel : Nat) (sig : SigSpec) (st st' : tree_state),
      abstract_tree module assign_map sig2driver output fuel sig st = some (true, st') →
      tree_post (∀ c ∈ module.cells_, c.type = CellType.mux ∨ c.type = CellType.pmux →
          mux_well_formed c)
        (fun σ => tree_eval module assign_map sig2driver output σ fuel sig)
        output.length st st' := by
  intro fuel
  induction fuel with
  | zero =>
    intro sig st st' h
    simp [abstract_tree] at h
  | succ fuel ih =>
    intro sig st st' h
    rw [abstract_tree] at h
    have hlen : (assign_map.apply (sig.extend_u0 output.length false)).length
        = output.length := by
      simp [SigMap.apply, extend_u0_length]
    have hev_const := fun σ => tree_eval_const module assign_map sig2driver output σ fuel sig
    have hev_cell := fun σ => tree_eval_cell module assign_map sig2driver output σ fuel sig
    generalize assign_map.apply (sig.extend_u0 output.length false) = sig' at h hlen hev_const hev_cell
    simp only at h
    split at h
    · rename_i hconst
      split at h
      · simp only [Option.some.injEq, Prod.mk.injEq, true_and] at h
        subst h
        refine ⟨[⟨st.current_selection, sig'⟩], rfl, rfl, by simp, fun b hb => hb, ?_⟩
        intro r hr
        simp only [List.mem_singleton] at hr
        subst hr
        refine ⟨hlen, [], by simp, by simp, ?_⟩
        intro _ σ _
        exact hev_const σ hconst
      · simp only [Option.some.injEq, Prod.mk.injEq, true_and] at h
        subst h
        exact ⟨[], by simp, rfl, by simp, fun b hb => hb, by simp⟩
    · rename_i hconst
      split at h
      · simp at h
      · split at h
        · simp at h
        · split at h
          · simp at h
          · rename_i hgt hlt hsz
            split at h
            · simp only [Option.some.injEq, Prod.mk.injEq, true_and] at h
              subst h
              exact ⟨[], by simp, rfl, by simp, fun b hb => hb, by simp⟩
            · rename_i cellport tl hfind
              have htl : tl = [] := by
                rw [hfind] at hgt
                cases tl with
                | nil => rfl
                | cons x xs => simp at hgt
              subst htl
              split at h
              · simp at h
              · rename_i cell hcell
                have hev := fun σ => hev_cell σ cellport cell hconst hfind hcell
                split at h
                · rename_i hleaf
                  simp only [Option.some.injEq, Prod.mk.injEq, true_and] at h
                  subst h
                  refine ⟨[⟨st.current_selection, sig'⟩], rfl, rfl, by simp, fun b hb => hb, ?_⟩
                  intro r hr
                  simp only [List.mem_singleton] at hr
                  subst hr
                  refine ⟨hlen, [], by simp, by simp, ?_⟩
                  intro _ σ _
                  beta_reduce
                  rw [hev σ, if_pos hleaf]
                · rename_i hmux
                  have htype : cell.type = CellType.mux ∨ cell.type = CellType.pmux := by
                    by_contra hc
                    apply hmux
                    left
                    exact ⟨fun e => hc (Or.inl e), fun e => hc (Or.inr e)⟩
                  split at h
                  · simp at h
                  · simp at h
                  · rename_i st2 hA
                    split at h
                    · simp at h
                    · simp at h
                    · rename_i st3 hB
                      simp only [Option.some.injEq, Prod.mk.injEq, true_and] at h
                      subst h
                      obtain ⟨newA, a1, a2, a3, a4, a5⟩ := ih _ _ _ hA
                      simp only at a1 a2 a3 a4 a5
                      obtain ⟨newB, e', b1, b2, b3, b4, b5⟩ :=
                        abstract_cases_post _ _
                          (fun σ sig => tree_eval module assign_map sig2driver output σ fuel sig)
                          output.length ih _ _ _ _ st2 st3 st.current_selection _ a2 hB
                      have hsel : ∀ b ∈ assign_map.apply (cell.getPort IdString.S),
                          b ∈ st3.select := fun b hb =>
                        b4 b (a4 b (add_select_mem _ _ b hb))
                      have hn : (mux_sig_bb assign_map cell sig').length /
                          (mux_sig_aa assign_map cell sig').length =
                          (cell.getPort IdString.B).length / (cell.getPort IdString.A).length := by
                        rw [mux_sig_bb_length, mux_sig_aa_length]
                        exact Nat.mul_div_cancel _ (not_const_length_pos sig' hconst)
                      refine ⟨newA ++ newB, ?_, ?_, ?_, ?_, ?_⟩
                      · simp only [b1, a1, List.append_assoc]
                      · simp only [b2, List.dropLast_concat]
                      · simp only [b3, a3, List.map_append, List.flatten_append,
                          List.append_assoc]
                      · intro b hb
                        exact b4 b (a4 b (add_select_mono _ _ b hb))
                      · intro r hr
                        rcases List.mem_append.mp hr with hr | hr
                        · obtain ⟨rlen, path, p1, p2, p3⟩ := a5 r hr
                          refine ⟨rlen, (⟨assign_map.apply (cell.getPort IdString.S),
                            Const.of_int 0 (assign_map.apply (cell.getPort IdString.S)).length⟩
                              : sig2val_t) :: path, ?_, ?_, ?_⟩
                          · rw [p1]; simp
                          · intro p hp
                            rcases List.mem_cons.mp hp with hp | hp
                            · subst hp
                              exact ⟨hsel, of_int_length _ _⟩
                            · exact ⟨fun b hb => b4 b ((p2 p hp).1 b hb), (p2 p hp).2⟩
                          · intro hwf σ hσ
                            have h0 := hσ _ (List.mem_cons_self _ _)
                            simp only [entry_matches] at h0
                            beta_reduce
                            rw [hev σ, if_neg hmux, select_case_zero σ _ h0]
                            exact p3 hwf σ (fun p hp => hσ p (List.mem_cons_of_mem _ hp))
                        · obtain ⟨rlen, i, hi, path, p1, p2, p3⟩ := b5 r hr
                          refine ⟨rlen, _ :: path, p1, ?_, ?_⟩
                          · intro p hp
                            rcases List.mem_cons.mp hp with hp | hp
                            · subst hp
                              exact ⟨hsel, of_int_length _ _⟩
                            · exact p2 p hp
                          · intro hwf σ hσ
                            have hcwf := hwf cell (module_cell_mem module _ cell hcell) htype
                            have h0 := hσ _ (List.mem_cons_self _ _)
                            simp only [entry_matches] at h0
                            have hi' : i < (cell.getPort IdString.B).length /
                                (cell.getPort IdString.A).length := by
                              rw [← hn]; exact List.mem_range.mp hi
                            have hS : (assign_map.apply (cell.getPort IdString.S)).length
                                = (cell.getPort IdString.S).length := by
                              simp [SigMap.apply]
                            beta_reduce
                            rw [hev σ, if_neg hmux, select_case_shl_one σ _ i
                              (by rw [hS]; exact lt_of_lt_of_le hi' hcwf.1)
                              (by rw [hS]; exact hcwf.2) h0]
                            simp only
                            rw [if_pos (by rw [hn]; exact hi')]
                            exact p3 hwf σ (fun p hp => hσ p (List.mem_cons_of_mem _ hp))

/-! ## Lemmas on the unification of the select order -/

theorem replace_into_self (sig pattern with_ : SigSpec) :
    sig.replace_into pattern with_ sig = sig.map (replaced_bit pattern with_) := by
  unfold SigSpec.replace_into
  induction sig with
  | nil => rfl
  | cons b rest ih =>
    simp only [List.zipWith_cons_cons, List.map_cons, ih]
    rfl

theorem pattern_matches_iff (σ : Nat → Nat → Bool) (sig : SigSpec) (c : Const) :
    pattern_matches σ sig c = true ↔ ∀ bv ∈ sig.zip c, trit_matches σ bv.1 bv.2 = true := by
  induction sig generalizing c with
  | nil => simp [pattern_matches]
  | cons b rest ih =>
    cases c with
    | nil => simp [pattern_matches]
    | cons v vs =>
      simp only [pattern_matches, Bool.and_eq_true, List.zip_cons_cons, List.mem_cons,
        forall_eq_or_imp, ih]

theorem as_const_map (f : SigBit → SigBit) (sig : SigSpec) (c : Const)
    (h : SigSpec.as_const (sig.map f) = some c) :
    c.length = sig.length ∧ ∀ bv ∈ sig.zip c, f bv.1 = SigBit.const bv.2 := by
  induction sig generalizing c with
  | nil =>
    simp only [List.map_nil, SigSpec.as_const, Option.some.injEq] at h
    subst h
    simp
  | cons b rest ih =>
    simp only [List.map_cons] at h
    cases hf : f b with
    | wire n o =>
      rw [hf] at h
      simp [SigSpec.as_const] at h
    | const d =>
      rw [hf] at h
      simp only [SigSpec.as_const] at h
      split at h
      · rename_i c' hc'
        simp only [Option.some.injEq] at h
        subst h
        obtain ⟨h1, h2⟩ := ih c' hc'
        refine ⟨by simp [h1], ?_⟩
        intro bv hbv
        simp only [List.zip_cons_cons, List.mem_cons] at hbv
        rcases hbv with hbv | hbv
        · subst hbv
          exact hf
        · exact h2 bv hbv
      · simp at h

theorem pattern_to_with_zip (pattern with_ ext ext' : SigSpec) (b w : SigBit)
    (hnd : pattern.Nodup) (hw : b.is_wire = true) (hmem : (b, w) ∈ pattern.zip with_) :
    pattern_to_with (pattern ++ ext) (with_ ++ ext') b = some w := by
  induction pattern generalizing with_ with
  | nil => simp at hmem
  | cons p ps ih =>
    cases with_ with
    | nil => simp at hmem
    | cons x xs =>
      simp only [List.zip_cons_cons, List.mem_cons, Prod.mk.injEq] at hmem
      simp only [List.cons_append, pattern_to_with]
      rcases hmem with ⟨h1, h2⟩ | hmem
      · subst h1 h2
        simp [hw]
      · have hb : b ∈ ps := (List.of_mem_zip hmem).1
        have hne : ¬ p = b := by
          intro e
          subst e
          exact (List.nodup_cons.mp hnd).1 hb
        simp only [hne, and_false, if_false]
        exact ih xs (List.nodup_cons.mp hnd).2 hmem

theorem fill_dont_care_eq (select : SigSpec) (pw : SigSpec × SigSpec) :
    ∃ ext ext', fill_dont_care select pw = (pw.1 ++ ext, pw.2 ++ ext') := by
  induction select generalizing pw with
  | nil => exact ⟨[], [], by simp [fill_dont_care]⟩
  | cons b rest ih =>
    obtain ⟨pattern, with_⟩ := pw
    simp only [fill_dont_care]
    split
    · obtain ⟨ext, ext', h⟩ := ih (pattern ++ [b], with_ ++ [SigBit.const State.Sa])
      exact ⟨b :: ext, SigBit.const State.Sa :: ext', by simp [h]⟩
    · exact ih (pattern, with_)

theorem zip_raw_mem (l : List sig2val_t)
    (hlen : ∀ p ∈ l, p.input_val.length = p.input_sig.length)
    (p : sig2val_t) (hp : p ∈ l) (b : SigBit) (v : State)
    (hbv : (b, v) ∈ p.input_sig.zip p.input_val) :
    (b, SigBit.const v) ∈
      ((l.map (fun q => q.input_sig)).flatten).zip
        ((l.map (fun q => SigSpec.of_const q.input_val)).flatten) := by
  induction l with
  | nil => simp at hp
  | cons q rest ih =>
    have hq : (SigSpec.of_const q.input_val).length = q.input_sig.length := by
      simp [SigSpec.of_const, hlen q (List.mem_cons_self _ _)]
    simp only [List.map_cons, List.flatten_cons]
    rw [List.zip_append hq.symm]
    rcases List.mem_cons.mp hp with hp | hp
    · subst hp
      apply List.mem_append_left
      simp only [SigSpec.of_const, List.zip_map_right, List.mem_map, Prod.map_apply, id_eq]
      exact ⟨(b, v), hbv, rfl⟩
    · exact List.mem_append_right _
        (ih (fun p' hp' => hlen p' (List.mem_cons_of_mem _ hp')) hp)

theorem exists_zip_of_mem {α β : Type} (l1 : List α) (l2 : List β) (a : α)
    (hlen : l2.length = l1.length) (ha : a ∈ l1) : ∃ b, (a, b) ∈ l1.zip l2 := by
  induction l1 generalizing l2 with
  | nil => simp at ha
  | cons x xs ih =>
    cases l2 with
    | nil => simp at hlen
    | cons y ys =>
      rcases List.mem_cons.mp ha with h | h
      · subst h
        exact ⟨y, by simp⟩
      · obtain ⟨b, hb⟩ := ih ys (by simpa using hlen) h
        exact ⟨b, by simp [hb]⟩

theorem unify_selection_spec (select : SigSpec) (raw : selection_raw_t) (s : selection_t)
    (h : unify_selection select raw = some s) :
    s.output = raw.output ∧ s.buggy = false ∧ s.select.length = select.length := by
  unfold unify_selection at h
  simp only at h
  split at h
  · rename_i c hc
    simp only [Option.some.injEq] at h
    subst h
    rw [replace_into_self] at hc
    exact ⟨rfl, rfl, (as_const_map _ _ _ hc).1⟩
  · simp at h

theorem unify_selection_matches (select : SigSpec) (raw : selection_raw_t) (s : selection_t)
    (h : unify_selection select raw = some s) (hd : path_distinct raw)
    (hsel : ∀ p ∈ raw.select, (∀ b ∈ p.input_sig, b ∈ select) ∧
      p.input_val.length = p.input_sig.length)
    (σ : Nat → Nat → Bool) (hm : pattern_matches σ select s.select = true) :
    ∀ p ∈ raw.select, entry_matches σ p = true := by
  unfold unify_selection at h
  simp only at h
  split at h
  · rename_i c hc
    simp only [Option.some.injEq] at h
    subst h
    simp only at hm
    obtain ⟨ext, ext', hfill⟩ := fill_dont_care_eq select (raw_pattern raw, raw_with raw)
    rw [replace_into_self, hfill] at hc
    simp only at hc
    obtain ⟨hclen, hcz⟩ := as_const_map _ _ _ hc
    rw [pattern_matches_iff] at hm
    intro p hp
    unfold entry_matches
    rw [pattern_matches_iff]
    rintro ⟨b, v⟩ hbv
    have hb : b ∈ p.input_sig := (List.of_mem_zip hbv).1
    have hbsel : b ∈ select := (hsel p hp).1 b hb
    have hz := zip_raw_mem raw.select (fun q hq => (hsel q hq).2) p hp b v hbv
    have hbpat : b ∈ raw_pattern raw := (List.of_mem_zip hz).1
    have hlook := pattern_to_with_zip (raw_pattern raw) (raw_with raw) ext ext' b
      (SigBit.const v) hd.1 (hd.2 b hbpat) hz
    obtain ⟨d, hd'⟩ := exists_zip_of_mem select c b hclen hbsel
    have h1 := hcz _ hd'
    simp only [replaced_bit, hlook, SigBit.const.injEq] at h1
    subst h1
    exact hm _ hd'
  · simp at h

theorem unify_selections_mem (select : SigSpec) (raws : List selection_raw_t)
    (sels : List selection_t) (h : unify_selections select raws = some sels) :
    sels.length = raws.length ∧
    ∀ s ∈ sels, ∃ raw ∈ raws, unify_selection select raw = some s := by
  induction raws generalizing sels with
  | nil =>
    simp only [unify_selections, Option.some.injEq] at h
    subst h
    simp
  | cons raw rest ih =>
    rw [unify_selections] at h
    split at h
    · rename_i s ss hs hss
      simp only [Option.some.injEq] at h
      subst h
      obtain ⟨h1, h2⟩ := ih ss hss
      refine ⟨by simp [h1], ?_⟩
      intro s' hs'
      rcases List.mem_cons.mp hs' with e | e
      · subst e
        exact ⟨raw, List.mem_cons_self _ _, hs⟩
      · obtain ⟨raw', hr1, hr2⟩ := h2 s' e
        exact ⟨raw', List.mem_cons_of_mem _ hr1, hr2⟩
    · simp at h

theorem sorted_insert_mem (b x : SigBit) (l : SigSpec) :
    x ∈ sorted_insert b l ↔ x = b ∨ x ∈ l := by
  induction l with
  | nil => simp [sorted_insert]
  | cons y rest ih =>
    simp only [sorted_insert]
    split
    · rename_i e
      subst e
      simp
    · split
      · simp
      · simp only [List.mem_cons, ih]
        tauto

theorem sort_and_unify_mem (sig : SigSpec) (x : SigBit) :
    x ∈ sig.sort_and_unify ↔ x ∈ sig := by
  unfold SigSpec.sort_and_unify
  induction sig with
  | nil => simp
  | cons b rest ih =>
    simp only [List.foldr_cons, sorted_insert_mem, ih, List.mem_cons]

/-- Decoding the cell `copy_to_cell` has written returns the rows written. -/
theorem copy_from_cell_copy_to_cell (cell : Cell) (selections : List selection_t)
    (hk : ∀ s ∈ selections, s.select.length = (cell.getPort IdString.S).length)
    (hm : ∀ s ∈ selections, s.output.length = (cell.getPort IdString.Y).length) :
    copy_from_cell (copy_to_cell cell selections) [] = some selections := by
  unfold copy_from_cell
  simp only
  rw [getPort_copy_to_cell_ne cell selections IdString.S (by decide), table_copy_to_cell,
    table_bits_length _ selections hk, Nat.mul_div_cancel _ (Nat.succ_pos _),
    copy_from_cell_loop_copy_to_cell cell selections _ _ rfl rfl hk hm _ 0 [] (by omega)]
  simp

theorem new_amt_cell_ports (name : Nat) (wire : Wire) (input select output : SigSpec)
    (selections : List selection_t) :
    (new_amt_cell name wire input select output selections).getPort IdString.S = select ∧
    (new_amt_cell name wire input select output selections).getPort IdString.Y = output ∧
    (new_amt_cell name wire input select output selections).getPort IdString.A
      = new_input selections ∧
    (new_amt_cell name wire input select output selections).STATE_TABLE
      = table_bits selections ∧
    (new_amt_cell name wire input select output selections).type = CellType.amt ∧
    (new_amt_cell name wire input select output selections).name = name := by
  unfold new_amt_cell
  simp only
  refine ⟨?_, ?_, ?_, ?_, ?_, ?_⟩
  · rw [getPort_copy_to_cell_ne _ _ _ (by decide)]
    simp [Cell.getPort, Cell.setPort, setConn]
  · rw [getPort_copy_to_cell_ne _ _ _ (by decide)]
    simp [Cell.getPort, Cell.setPort, setConn]
  · rw [getPort_copy_to_cell_A]
  · rw [table_copy_to_cell]
  · simp [copy_to_cell, Cell.setPort, Cell.unsetPort]
  · simp [copy_to_cell, Cell.setPort, Cell.unsetPort]

/-! ## The extractor claims -/

/-- C1 at the failing input: in `repeated_select_module` the select bit `s` controls
both muxes of every path of `y = s ? (s ? 3 : 2) : (s ? 1 : 0)`. `abstract_tree` pushes
the select of every mux onto the path without the check whether it is there already,
and the pass creates one `$amt` cell with the rows `0 -> 0, 0 -> 1, 1 -> 2, 1 -> 3`;
under `s = 1`, which matches rows 2 and 3, the first matching row yields 2 while the
tree yields 3. -/
theorem C1_repeated_select :
    (inject_extract ct_internals id 10 repeated_select_module).map
        (fun m => m.amt_cells.map (fun c => (copy_from_cell c [], amt_cell_eval (fun _ _ => true) c)))
      = some [(some [⟨[State.S0], const2 0, false⟩, ⟨[State.S0], const2 1, false⟩,
                ⟨[State.S1], const2 2, false⟩, ⟨[State.S1], const2 3, false⟩],
              some (const2 2))] ∧
    tree_eval repeated_select_module id
        (build_sig2driver ct_internals id repeated_select_module.cells_ []) wire_y.sig
        (fun _ _ => true) 10 wire_y.sig = some (const2 3) ∧
    const2 2 ≠ const2 3 := by
  refine ⟨?_, ?_, ?_⟩
  · decide
  · decide
  · decide

/-- Away from the repeated select bit the table refines the tree: for every mux tree
that `extract_tree` turns into an AMT, whose `$mux`/`$pmux` cells have at most 32 select
bits and at most as many cases as select bits, and in which the select signals along
every root-to-leaf path are wire bits none of which occurs twice on the path: for every
assignment of the selector bits that matches at least one table row, the first matching
row of the AMT cell yields the value the original tree gives its output under that
assignment. -/
theorem amt_refines_tree (module : Module) (assign_map : SigMap) (sig2driver : SigSet sig2driver_entry_t)
    (wire : Wire) (fuel : Nat) (st : tree_state) (selections : List selection_t) (name : Nat)
    (hwf : ∀ c ∈ module.cells_, c.type = CellType.mux ∨ c.type = CellType.pmux →
      mux_well_formed c)
    (habs : abstract_tree module assign_map sig2driver (assign_map.apply wire.sig) fuel
      (assign_map.apply wire.sig) ⟨[], [], [], []⟩ = some (true, st))
    (hun : unify_selections st.select.sort_and_unify st.selections = some selections)
    (hpath : ∀ raw ∈ st.selections, path_distinct raw)
    (σ : Nat → Nat → Bool) (v : SigSpec)
    (hv : amt_cell_eval σ (new_amt_cell name wire st.input st.select.sort_and_unify
      (assign_map.apply wire.sig) selections) = some v) :
    tree_eval module assign_map sig2driver (assign_map.apply wire.sig) σ fuel
      (assign_map.apply wire.sig) = some v := by
  obtain ⟨new, n1, _, _, _, n5⟩ := abstract_tree_post module assign_map sig2driver _
    fuel _ _ _ habs
  simp only [List.nil_append] at n1 n5
  obtain ⟨_, hmem⟩ := unify_selections_mem _ _ _ hun
  obtain ⟨pS, pY, _, _, _, _⟩ := new_amt_cell_ports name wire st.input
    st.select.sort_and_unify (assign_map.apply wire.sig) selections
  have hwidth : ∀ s ∈ selections,
      s.select.length = st.select.sort_and_unify.length ∧
      s.output.length = (assign_map.apply wire.sig).length := by
    intro s hs
    obtain ⟨raw, hr1, hr2⟩ := hmem s hs
    obtain ⟨u1, _, u3⟩ := unify_selection_spec _ _ _ hr2
    rw [n1] at hr1
    exact ⟨u3, by rw [u1]; exact (n5 raw hr1).1⟩
  have hdec : copy_from_cell (new_amt_cell name wire st.input st.select.sort_and_unify
      (assign_map.apply wire.sig) selections) [] = some selections := by
    unfold new_amt_cell
    apply copy_from_cell_copy_to_cell
    · intro s hs
      rw [(hwidth s hs).1]
      simp [Cell.getPort, Cell.setPort, setConn]
    · intro s hs
      rw [(hwidth s hs).2]
      simp [Cell.getPort, Cell.setPort, setConn]
  unfold amt_cell_eval at hv
  rw [hdec, pS] at hv
  simp only [amt_eval] at hv
  split at hv
  · rename_i r hr
    simp only [Option.some.injEq] at hv
    subst hv
    have hrm : r ∈ selections := List.mem_of_find?_eq_some hr
    have hmatch := List.find?_some hr
    obtain ⟨raw, hr1, hr2⟩ := hmem r hrm
    obtain ⟨u1, _, _⟩ := unify_selection_spec _ _ _ hr2
    have hraw := hr1
    rw [n1] at hr1
    obtain ⟨_, path, p1, p2, p3⟩ := n5 raw hr1
    have hall := unify_selection_matches _ raw r hr2 (hpath raw hraw)
      (by
        intro p hp
        rw [p1] at hp
        exact ⟨fun b hb => (sort_and_unify_mem _ _).mpr ((p2 p hp).1 b hb), (p2 p hp).2⟩)
      σ hmatch
    rw [u1]
    exact p3 hwf σ (fun p hp => hall p (by rw [p1]; exact hp))
  · simp at hv

set_option maxRecDepth 100000 in
/-- On `two_select_module`, where no select bit is repeated, under `s0 = s1 = 1` the AMT
cell and the tree both yield 3. -/
theorem amt_refines_tree_two_select :
    tree_eval two_select_module id two_select_drivers (SigMap.apply id wire_y.sig)
      (fun _ _ => true) 10 (SigMap.apply id wire_y.sig) = some (const2 3) :=
  amt_refines_tree two_select_module id two_select_drivers wire_y 10 two_select_state
    two_select_selections 200 (by decide) (by decide) (by decide) (by decide)
    (fun _ _ => true) (const2 3) (by decide)

/-! ## Totality of the unification and of the rewiring -/

theorem raw_with_length_aux (l : List sig2val_t)
    (h : ∀ p ∈ l, p.input_val.length = p.input_sig.length) :
    ((l.map (fun q => SigSpec.of_const q.input_val)).flatten).length =
      ((l.map (fun q => q.input_sig)).flatten).length := by
  induction l with
  | nil => rfl
  | cons p rest ih =>
    have h1 := h p (List.mem_cons_self _ _)
    have h2 := ih (fun q hq => h q (List.mem_cons_of_mem _ hq))
    simp only [List.map_cons, List.flatten_cons, List.length_append, h2]
    simp [SigSpec.of_const, h1]

theorem raw_with_length (raw : selection_raw_t)
    (h : ∀ p ∈ raw.select, p.input_val.length = p.input_sig.length) :
    (raw_with raw).length = (raw_pattern raw).length :=
  raw_with_length_aux raw.select h

theorem raw_with_const (raw : selection_raw_t) :
    ∀ x ∈ raw_with raw, ∃ d, x = SigBit.const d := by
  intro x hx
  unfold raw_with at hx
  simp only [List.mem_flatten, List.mem_map] at hx
  obtain ⟨l, ⟨p, _, rfl⟩, hxl⟩ := hx
  simp only [SigSpec.of_const, List.mem_map] at hxl
  obtain ⟨d, _, rfl⟩ := hxl
  exact ⟨d, rfl⟩

theorem fill_dont_care_props (select : SigSpec) (pw : SigSpec × SigSpec)
    (hlen : pw.2.length = pw.1.length) (hconst : ∀ x ∈ pw.2, ∃ d, x = SigBit.const d) :
    (fill_dont_care select pw).2.length = (fill_dont_care select pw).1.length ∧
    (∀ x ∈ (fill_dont_care select pw).2, ∃ d, x = SigBit.const d) ∧
    (∀ b ∈ pw.1, b ∈ (fill_dont_care select pw).1) ∧
    ∀ b ∈ select, b.is_wire = true → b ∈ (fill_dont_care select pw).1 := by
  induction select generalizing pw with
  | nil =>
    simp only [fill_dont_care]
    exact ⟨hlen, hconst, fun b hb => hb, by simp⟩
  | cons x rest ih =>
    obtain ⟨pattern, with_⟩ := pw
    simp only at hlen hconst
    simp only [fill_dont_care]
    split
    · obtain ⟨h1, h2, h3, h4⟩ := ih (pattern ++ [x], with_ ++ [SigBit.const State.Sa])
        (by simp [hlen])
        (by
          intro y hy
          rcases List.mem_append.mp hy with hy | hy
          · exact hconst y hy
          · exact ⟨State.Sa, by simpa using hy⟩)
      refine ⟨h1, h2, fun b hb => h3 b (List.mem_append_left _ hb), ?_⟩
      intro b hb hw
      rcases List.mem_cons.mp hb with e | e
      · subst e
        exact h3 b (by simp)
      · exact h4 b e hw
    · rename_i hne
      obtain ⟨h1, h2, h3, h4⟩ := ih (pattern, with_) hlen hconst
      refine ⟨h1, h2, h3, ?_⟩
      intro b hb hw
      rcases List.mem_cons.mp hb with e | e
      · subst e
        apply h3
        by_contra hc
        apply hne
        rw [extract_pattern_single]
        intro _
        exact hc
      · exact h4 b e hw

theorem pattern_to_with_some (pattern with_ : SigSpec) (b : SigBit)
    (hlen : with_.length = pattern.length) (hb : b ∈ pattern) (hw : b.is_wire = true) :
    ∃ w ∈ with_, pattern_to_with pattern with_ b = some w := by
  induction pattern generalizing with_ with
  | nil => simp at hb
  | cons p ps ih =>
    cases with_ with
    | nil => simp at hlen
    | cons x xs =>
      simp only [pattern_to_with]
      by_cases hp : p = b
      · subst hp
        exact ⟨x, List.mem_cons_self _ _, by simp [hw]⟩
      · have hb' : b ∈ ps := by
          rcases List.mem_cons.mp hb with e | e
          · exact absurd e.symm hp
          · exact e
        obtain ⟨w, hw1, hw2⟩ := ih xs (by simpa using hlen) hb'
        exact ⟨w, List.mem_cons_of_mem _ hw1, by simp [hp, hw2]⟩

theorem pattern_to_with_const (pattern with_ : SigSpec) (d : State) :
    pattern_to_with pattern with_ (SigBit.const d) = none := by
  induction pattern generalizing with_ with
  | nil => simp [pattern_to_with]
  | cons p ps ih =>
    cases with_ with
    | nil => simp [pattern_to_with]
    | cons x xs =>
      simp only [pattern_to_with]
      have : ¬ (p.is_wire = true ∧ p = SigBit.const d) := by
        rintro ⟨h1, h2⟩
        subst h2
        simp [SigBit.is_wire] at h1
      simp only [this, if_false]
      exact ih xs

theorem as_const_total (f : SigBit → SigBit) (sig : SigSpec)
    (h : ∀ b ∈ sig, ∃ d, f b = SigBit.const d) : ∃ c, SigSpec.as_const (sig.map f) = some c := by
  induction sig with
  | nil => exact ⟨[], rfl⟩
  | cons b rest ih =>
    obtain ⟨d, hd⟩ := h b (List.mem_cons_self _ _)
    obtain ⟨c, hc⟩ := ih (fun x hx => h x (List.mem_cons_of_mem _ hx))
    exact ⟨d :: c, by simp [SigSpec.as_const, hd, hc]⟩

theorem unify_selection_total (select : SigSpec) (raw : selection_raw_t)
    (h : ∀ p ∈ raw.select, p.input_val.length = p.input_sig.length) :
    ∃ s, unify_selection select raw = some s := by
  obtain ⟨f1, f2, _, f4⟩ := fill_dont_care_props select (raw_pattern raw, raw_with raw)
    (raw_with_length raw h) (raw_with_const raw)
  have hc := as_const_total
    (replaced_bit (fill_dont_care select (raw_pattern raw, raw_with raw)).1
      (fill_dont_care select (raw_pattern raw, raw_with raw)).2) select
    (by
      intro b hb
      cases hbw : b with
      | const d =>
        exact ⟨d, by simp [replaced_bit, pattern_to_with_const]⟩
      | wire n o =>
        obtain ⟨w, hw1, hw2⟩ := pattern_to_with_some _ _ b f1 (f4 b hb (by simp [hbw, SigBit.is_wire]))
          (by simp [hbw, SigBit.is_wire])
        obtain ⟨d, hd⟩ := f2 w hw1
        rw [hbw] at hw2
        exact ⟨d, by simp [replaced_bit, hw2, hd]⟩)
  obtain ⟨c, hc⟩ := hc
  refine ⟨⟨c, raw.output, false⟩, ?_⟩
  unfold unify_selection
  simp only
  rw [replace_into_self, hc]

theorem unify_selections_total (select : SigSpec) (raws : List selection_raw_t)
    (h : ∀ raw ∈ raws, ∀ p ∈ raw.select, p.input_val.length = p.input_sig.length) :
    ∃ sels, unify_selections select raws = some sels := by
  induction raws with
  | nil => exact ⟨[], rfl⟩
  | cons raw rest ih =>
    obtain ⟨s, hs⟩ := unify_selection_total select raw (h raw (List.mem_cons_self _ _))
    obtain ⟨ss, hss⟩ := ih (fun r hr => h r (List.mem_cons_of_mem _ hr))
    exact ⟨s :: ss, by simp [unify_selections, hs, hss]⟩

theorem extend_u0_self (sig : SigSpec) : sig.extend_u0 sig.length false = sig := by
  unfold SigSpec.extend_u0
  simp

theorem apply_idem (assign_map : SigMap) (hmap : ∀ b, assign_map (assign_map b) = assign_map b)
    (sig : SigSpec) : assign_map.apply (assign_map.apply sig) = assign_map.apply sig := by
  simp [SigMap.apply, hmap]

/-- A call of `abstract_tree` that appends two rows or more has found the signal driven
by exactly one cell, a `$mux` or `$pmux`, at its port Y. -/
theorem abstract_tree_root (module : Module) (assign_map : SigMap) (sig2driver : SigSet sig2driver_entry_t)
    (output : SigSpec) (fuel : Nat) (sig : SigSpec) (st st' : tree_state)
    (h : abstract_tree module assign_map sig2driver output fuel sig st = some (true, st'))
    (hn : st.selections.length + 2 ≤ st'.selections.length) :
    ¬ (assign_map.apply (sig.extend_u0 output.length false)).is_fully_const = true ∧
    ∃ cellport cell,
      sig2driver.find (assign_map.apply (sig.extend_u0 output.length false)) = [cellport] ∧
      module.cell cellport.1 = some cell ∧
      (cell.type = CellType.mux ∨ cell.type = CellType.pmux) ∧ cellport.2 = IdString.Y := by
  cases fuel with
  | zero => simp [abstract_tree] at h
  | succ fuel =>
    rw [abstract_tree] at h
    generalize assign_map.apply (sig.extend_u0 output.length false) = sig' at h
    simp only at h
    split at h
    · exfalso
      split at h
      · simp only [Option.some.injEq, Prod.mk.injEq, true_and] at h
        subst h
        simp at hn
      · simp only [Option.some.injEq, Prod.mk.injEq, true_and] at h
        subst h
        omega
    · rename_i hconst
      refine ⟨hconst, ?_⟩
      split at h
      · simp at h
      · split at h
        · simp at h
        · split at h
          · simp at h
          · rename_i hgt hlt hsz
            split at h
            · exfalso
              simp only [Option.some.injEq, Prod.mk.injEq, true_and] at h
              subst h
              omega
            · rename_i cellport tl hfind
              have htl : tl = [] := by
                rw [hfind] at hgt
                cases tl with
                | nil => rfl
                | cons x xs => simp at hgt
              subst htl
              split at h
              · simp at h
              · rename_i cell hcell
                split at h
                · exfalso
                  simp only [Option.some.injEq, Prod.mk.injEq, true_and] at h
                  subst h
                  simp at hn
                · rename_i hmux
                  refine ⟨cellport, cell, hfind, hcell, ?_, ?_⟩
                  · by_contra hc
                    apply hmux
                    left
                    exact ⟨fun e => hc (Or.inl e), fun e => hc (Or.inr e)⟩
                  · by_contra hc
                    exact hmux (Or.inr hc)

theorem set_cell_connection_append (l r : List Cell) (name : Nat) (port : IdString)
    (sig : SigSpec) (cell : Cell) (h : l.find? (fun c => c.name = name) = some cell) :
    set_cell_connection (l ++ r) name port sig = set_cell_connection l name port sig ++ r ∧
    (l ++ r).find? (fun c => c.name = name) = some cell := by
  induction l with
  | nil => simp at h
  | cons c rest ih =>
    by_cases hc : c.name = name
    · simp [set_cell_connection, hc]
      simpa [List.find?_cons, hc] using h
    · simp only [List.find?_cons, hc, decide_False] at h
      obtain ⟨h1, h2⟩ := ih h
      simp [set_cell_connection, hc, h1, List.find?_cons, h2]

theorem set_cell_connection_amt (l : List Cell) (name : Nat) (port : IdString) (sig : SigSpec)
    (cell : Cell) (h : l.find? (fun c => c.name = name) = some cell)
    (ht : cell.type ≠ CellType.amt) :
    (set_cell_connection l name port sig).filter (fun c => c.type = CellType.amt) =
      l.filter (fun c => c.type = CellType.amt) := by
  induction l with
  | nil => rfl
  | cons c rest ih =>
    by_cases hc : c.name = name
    · simp only [List.find?_cons, hc, decide_True, Option.some.injEq] at h
      subst h
      simp [set_cell_connection, hc, List.filter_cons, Cell.setPort, ht]
    · simp only [List.find?_cons, hc, decide_False] at h
      simp [set_cell_connection, hc, List.filter_cons, ih h]

/-- Fewer than 4 rows: `extract_tree` returns the module as it was. -/
theorem extract_tree_small (assign_map : SigMap) (sig2driver : SigSet sig2driver_entry_t) (fuel : Nat)
    (module : Module) (wire : Wire) (st : tree_state)
    (habs : abstract_tree module assign_map sig2driver (assign_map.apply wire.sig) fuel
      (assign_map.apply wire.sig) ⟨[], [], [], []⟩ = some (true, st))
    (hn : st.selections.length < 4) :
    extract_tree assign_map sig2driver fuel module wire = some module := by
  unfold extract_tree
  simp only [habs, hn, if_true]

/-- Abstraction failed: `extract_tree` returns the module as it was. -/
theorem extract_tree_failed (assign_map : SigMap) (sig2driver : SigSet sig2driver_entry_t) (fuel : Nat)
    (module : Module) (wire : Wire) (st : tree_state)
    (habs : abstract_tree module assign_map sig2driver (assign_map.apply wire.sig) fuel
      (assign_map.apply wire.sig) ⟨[], [], [], []⟩ = some (false, st)) :
    extract_tree assign_map sig2driver fuel module wire = some module := by
  unfold extract_tree
  simp only [habs]

/-- Four rows or more: `extract_tree` adds the `$amt` cell after the old cells, rewires
port Y of the single old driver to a new wire, and changes nothing else. -/
theorem extract_tree_large (assign_map : SigMap) (sig2driver : SigSet sig2driver_entry_t) (fuel : Nat)
    (module : Module) (wire : Wire) (st : tree_state)
    (hmap : ∀ b, assign_map (assign_map b) = assign_map b)
    (habs : abstract_tree module assign_map sig2driver (assign_map.apply wire.sig) fuel
      (assign_map.apply wire.sig) ⟨[], [], [], []⟩ = some (true, st))
    (hn : 4 ≤ st.selections.length) :
    ∃ selections cellport cell new_sig,
      unify_selections st.select.sort_and_unify st.selections = some selections ∧
      sig2driver.find (assign_map.apply wire.sig) = [cellport] ∧
      module.cell cellport.1 = some cell ∧
      (cell.type = CellType.mux ∨ cell.type = CellType.pmux) ∧ cellport.2 = IdString.Y ∧
      ¬ (assign_map.apply wire.sig).is_fully_const = true ∧
      extract_tree assign_map sig2driver fuel module wire = some
        { name := module.name,
          wires_ := module.wires_ ++ [⟨module.autoidx + 1,
            ((assign_map.apply (cell.getPort cellport.2)).extract_pattern
              (assign_map.apply wire.sig)).length, 0, none, false⟩],
          cells_ := set_cell_connection module.cells_ cellport.1 cellport.2 new_sig ++
            [new_amt_cell module.autoidx wire st.input st.select.sort_and_unify
              (assign_map.apply wire.sig) selections],
          autoidx := module.autoidx + 1 + 1 } := by
  obtain ⟨new, n1, _, _, _, n5⟩ := abstract_tree_post module assign_map sig2driver _
    fuel _ _ _ habs
  simp only [List.nil_append] at n1 n5
  obtain ⟨selections, hsel⟩ := unify_selections_total st.select.sort_and_unify st.selections
    (by
      intro raw hraw p hp
      rw [n1] at hraw
      obtain ⟨_, path, p1, p2, _⟩ := n5 raw hraw
      rw [p1] at hp
      exact (p2 p hp).2)
  obtain ⟨hconst, cellport, cell, hfind, hcell, htype, hport⟩ :=
    abstract_tree_root module assign_map sig2driver _ fuel _ _ _ habs
      (by simp only [List.length_nil]; omega)
  rw [extend_u0_self, apply_idem assign_map hmap] at hconst hfind
  obtain ⟨hset, hfind2⟩ := set_cell_connection_append module.cells_
    [new_amt_cell module.autoidx wire st.input st.select.sort_and_unify
      (assign_map.apply wire.sig) selections] cellport.1 cellport.2
    ((assign_map.apply (cell.getPort cellport.2)).replace_into
      ((assign_map.apply (cell.getPort cellport.2)).extract_pattern (assign_map.apply wire.sig))
      (Wire.sig ⟨module.autoidx + 1,
        ((assign_map.apply (cell.getPort cellport.2)).extract_pattern
          (assign_map.apply wire.sig)).length, 0, none, false⟩)
      (cell.getPort cellport.2)) cell hcell
  refine ⟨selections, cellport, cell,
    ((assign_map.apply (cell.getPort cellport.2)).replace_into
      ((assign_map.apply (cell.getPort cellport.2)).extract_pattern (assign_map.apply wire.sig))
      (Wire.sig ⟨module.autoidx + 1,
        ((assign_map.apply (cell.getPort cellport.2)).extract_pattern
          (assign_map.apply wire.sig)).length, 0, none, false⟩)
      (cell.getPort cellport.2)), hsel, hfind, hcell, htype, hport, hconst, ?_⟩
  unfold extract_tree
  simp only [habs, hsel, hfind, not_lt.mpr hn, if_false, unconnect_all, unconnect, Module.cell,
    hfind2, Module.set_connection, hset]

/-- The cell `extract_tree` creates decodes to the unified rows, one per raw row, and
satisfies the size invariant. -/
theorem new_amt_cell_decodes (module : Module) (assign_map : SigMap) (sig2driver : SigSet sig2driver_entry_t)
    (wire : Wire) (fuel : Nat) (st : tree_state) (selections : List selection_t) (name : Nat)
    (habs : abstract_tree module assign_map sig2driver (assign_map.apply wire.sig) fuel
      (assign_map.apply wire.sig) ⟨[], [], [], []⟩ = some (true, st))
    (hun : unify_selections st.select.sort_and_unify st.selections = some selections) :
    copy_from_cell (new_amt_cell name wire st.input st.select.sort_and_unify
      (assign_map.apply wire.sig) selections) [] = some selections ∧
    selections.length = st.selections.length ∧
    amt_sizes (new_amt_cell name wire st.input st.select.sort_and_unify
      (assign_map.apply wire.sig) selections) selections.length := by
  obtain ⟨new, n1, _, _, _, n5⟩ := abstract_tree_post module assign_map sig2driver _
    fuel _ _ _ habs
  simp only [List.nil_append] at n1 n5
  obtain ⟨hlen, hmem⟩ := unify_selections_mem _ _ _ hun
  obtain ⟨pS, pY, pA, pT, _, _⟩ := new_amt_cell_ports name wire st.input
    st.select.sort_and_unify (assign_map.apply wire.sig) selections
  have hwidth : ∀ s ∈ selections,
      s.select.length = st.select.sort_and_unify.length ∧
      s.output.length = (assign_map.apply wire.sig).length := by
    intro s hs
    obtain ⟨raw, hr1, hr2⟩ := hmem s hs
    obtain ⟨u1, _, u3⟩ := unify_selection_spec _ _ _ hr2
    rw [n1] at hr1
    exact ⟨u3, by rw [u1]; exact (n5 raw hr1).1⟩
  refine ⟨?_, hlen, ?_⟩
  · unfold new_amt_cell
    apply copy_from_cell_copy_to_cell
    · intro s hs
      rw [(hwidth s hs).1]
      simp [Cell.getPort, Cell.setPort, setConn]
    · intro s hs
      rw [(hwidth s hs).2]
      simp [Cell.getPort, Cell.setPort, setConn]
  · unfold amt_sizes
    rw [pA, pY, pT, pS]
    exact ⟨new_input_length _ _ (fun s hs => (hwidth s hs).2),
      table_bits_length _ _ (fun s hs => (hwidth s hs).1)⟩

/-- With four rows or more `extract_tree` returns a module with exactly one more `$amt`
cell, named by `autoidx`, whose table has one row per raw row. -/
theorem extract_tree_creates (assign_map : SigMap) (sig2driver : SigSet sig2driver_entry_t) (fuel : Nat)
    (module : Module) (wire : Wire) (st : tree_state)
    (hmap : ∀ b, assign_map (assign_map b) = assign_map b)
    (habs : abstract_tree module assign_map sig2driver (assign_map.apply wire.sig) fuel
      (assign_map.apply wire.sig) ⟨[], [], [], []⟩ = some (true, st))
    (hn : 4 ≤ st.selections.length) :
    ∃ module' cell rows, extract_tree assign_map sig2driver fuel module wire = some module' ∧
      module'.amt_cells = module.amt_cells ++ [cell] ∧ cell.name = module.autoidx ∧
      copy_from_cell cell [] = some rows ∧ rows.length = st.selections.length ∧
      amt_sizes cell rows.length := by
  obtain ⟨selections, cellport, cell, new_sig, hsel, _, hcell, htype, _, _, hex⟩ :=
    extract_tree_large assign_map sig2driver fuel module wire st hmap habs hn
  obtain ⟨hdec, hlen, hsz⟩ := new_amt_cell_decodes module assign_map sig2driver wire fuel st
    selections module.autoidx habs hsel
  obtain ⟨_, _, _, _, ptype, pname⟩ := new_amt_cell_ports module.autoidx wire st.input
    st.select.sort_and_unify (assign_map.apply wire.sig) selections
  refine ⟨_, _, selections, hex, ?_, pname, hdec, hlen, hsz⟩
  have hne : cell.type ≠ CellType.amt := by
    rcases htype with h | h <;> rw [h] <;> decide
  simp only [Module.amt_cells, List.filter_append,
    set_cell_connection_amt module.cells_ cellport.1 cellport.2 new_sig cell hcell hne]
  simp [List.filter_cons, ptype]

/-- C7: lower size bound of the extractor. When `abstract_tree` succeeds with `n` rows,
`extract_tree` leaves the module unchanged (no `$amt` cell) for `n <= 3`, and for
`n >= 4`, in particular `n = 4`, it returns a module with exactly one more `$amt` cell,
named by `autoidx`, whose table has `n` rows. -/
theorem C7_lower_bound (assign_map : SigMap) (sig2driver : SigSet sig2driver_entry_t) (fuel : Nat)
    (module : Module) (wire : Wire) (st : tree_state)
    (hmap : ∀ b, assign_map (assign_map b) = assign_map b)
    (habs : abstract_tree module assign_map sig2driver (assign_map.apply wire.sig) fuel
      (assign_map.apply wire.sig) ⟨[], [], [], []⟩ = some (true, st)) :
    (st.selections.length ≤ 3 →
      extract_tree assign_map sig2driver fuel module wire = some module) ∧
    (4 ≤ st.selections.length →
      ∃ module' cell rows, extract_tree assign_map sig2driver fuel module wire = some module' ∧
        module'.amt_cells = module.amt_cells ++ [cell] ∧ cell.name = module.autoidx ∧
        copy_from_cell cell [] = some rows ∧ rows.length = st.selections.length) := by
  constructor
  · intro hn
    exact extract_tree_small assign_map sig2driver fuel module wire st habs (by omega)
  · intro hn
    obtain ⟨module', cell, rows, h1, h2, h3, h4, h5, _⟩ :=
      extract_tree_creates assign_map sig2driver fuel module wire st hmap habs hn
    exact ⟨module', cell, rows, h1, h2, h3, h4, h5⟩

set_option maxRecDepth 100000 in
/-- Witness of C7 on `two_select_module`, whose tree has exactly 4 rows. -/
theorem C7_lower_bound_witness :
    ∃ module' cell rows,
      extract_tree id two_select_drivers 10 two_select_module wire_y = some module' ∧
      module'.amt_cells = two_select_module.amt_cells ++ [cell] ∧
      cell.name = two_select_module.autoidx ∧
      copy_from_cell cell [] = some rows ∧ rows.length = two_select_state.selections.length :=
  (C7_lower_bound id two_select_drivers 10 two_select_module wire_y two_select_state
    (fun _ => rfl) (by decide)).2 (by decide)

set_option maxRecDepth 1000000 in
/-- C6 at the failing input: on `rows49_module`, whose tree yields 49 rows, the size
test of `abstract_tree` never fires (it is made on entry to a driven signal, and the
last such entry happens with 25 rows collected), `abstract_tree` succeeds with 49 rows
and `extract_tree` creates an `$amt` cell with 49 rows. -/
theorem C6_rows49_extracted :
    abstract_tree rows49_module id rows49_drivers (SigMap.apply id wire_y.sig) 10
      (SigMap.apply id wire_y.sig) ⟨[], [], [], []⟩ = some (true, rows49_state) ∧
    rows49_state.selections.length = 49 ∧
    ∃ module' cell rows,
      extract_tree id rows49_drivers 10 rows49_module wire_y = some module' ∧
      module'.amt_cells = rows49_module.amt_cells ++ [cell] ∧
      cell.name = rows49_module.autoidx ∧
      copy_from_cell cell [] = some rows ∧ rows.length = 49 := by
  have habs : abstract_tree rows49_module id rows49_drivers (SigMap.apply id wire_y.sig) 10
      (SigMap.apply id wire_y.sig) ⟨[], [], [], []⟩ = some (true, rows49_state) := by
    decide
  have hlen : rows49_state.selections.length = 49 := by decide
  refine ⟨habs, hlen, ?_⟩
  obtain ⟨module', cell, rows, h1, h2, h3, h4, h5, _⟩ :=
    extract_tree_creates id rows49_drivers 10 rows49_module wire_y rows49_state
      (fun _ => rfl) habs (by omega)
  exact ⟨module', cell, rows, h1, h2, h3, h4, h5.trans hlen⟩

/-! ## The detector -/

theorem mem_foldl_set_insert {α β : Type} [DecidableEq β] (g : α → β) (l : List α)
    (init : List β) (x : β) :
    x ∈ l.foldl (fun result e => set_insert (g e) result) init ↔
      x ∈ init ∨ ∃ e ∈ l, g e = x := by
  induction l generalizing init with
  | nil => simp
  | cons a rest ih =>
    simp only [List.foldl_cons, ih, List.mem_cons, exists_eq_or_imp]
    unfold set_insert
    split
    · rename_i hmem
      constructor
      · rintro (h | h)
        · exact Or.inl h
        · exact Or.inr (Or.inr h)
      · rintro (h | h | h)
        · exact Or.inl h
        · exact Or.inl (h ▸ hmem)
        · exact Or.inr h
    · simp only [List.mem_append, List.mem_singleton]
      constructor
      · rintro ((h | h) | h)
        · exact Or.inl h
        · exact Or.inr (Or.inl h.symm)
        · exact Or.inr (Or.inr h)
      · rintro (h | h | h)
        · exact Or.inl (Or.inl h)
        · exact Or.inl (Or.inr h.symm)
        · exact Or.inr h

theorem mem_find {α : Type} [DecidableEq α] (set : SigSet α) (sig : SigSpec) (x : α) :
    x ∈ set.find sig ↔ ∃ b, b ∈ sig ∧ (b, x) ∈ set := by
  unfold SigSet.find
  have := mem_foldl_set_insert (fun e : SigBit × α => e.2)
    (set.filter (fun e => e.1 ∈ sig)) [] x
  rw [this]
  simp only [List.not_mem_nil, false_or, List.mem_filter, decide_eq_true_eq]
  constructor
  · rintro ⟨⟨b, y⟩, ⟨h1, h2⟩, h3⟩
    simp only at h2 h3
    subst h3
    exact ⟨b, h2, h1⟩
  · rintro ⟨b, h1, h2⟩
    exact ⟨(b, x), ⟨h2, h1⟩, rfl⟩

theorem mem_insert {α : Type} (set : SigSet α) (sig : SigSpec) (data : α) (e : SigBit × α) :
    e ∈ set.insert sig data ↔ e ∈ set ∨ (e.1 ∈ sig ∧ e.1.is_wire = true ∧ e.2 = data) := by
  unfold SigSet.insert
  simp only [List.mem_append, List.mem_map, List.mem_filter]
  constructor
  · rintro (h | ⟨b, ⟨h1, h2⟩, rfl⟩)
    · exact Or.inl h
    · exact Or.inr ⟨h1, h2, rfl⟩
  · rintro (h | ⟨h1, h2, h3⟩)
    · exact Or.inl h
    · exact Or.inr ⟨e.1, ⟨h1, h2⟩, by rw [← h3]⟩

theorem insert_detect_user (ct : CellTypes) (assign_map : SigMap) (cell : Cell)
    (conns : List (IdString × SigSpec))
    (sets : SigSet detect_entry_t × SigSet detect_entry_t) (e : SigBit × detect_entry_t) :
    (e ∈ sets.2 ∨ ∃ conn ∈ conns,
        (¬ ct.cell_known cell.type = true ∨ ct.cell_input cell.type conn.1 = true) ∧
        e.1 ∈ assign_map.apply conn.2 ∧ e.1.is_wire = true ∧ e.2 = (cell, conn.1)) →
      e ∈ (insert_detect ct assign_map cell conns sets).2 := by
  induction conns generalizing sets with
  | nil =>
    rintro (h | ⟨c, hc, _⟩)
    · exact h
    · simp at hc
  | cons conn rest ih =>
    obtain ⟨sd, su⟩ := sets
    intro h
    simp only [insert_detect]
    apply ih
    rcases h with h | ⟨c, hc, h1, h2, h3, h4⟩
    · left
      simp only at h ⊢
      split
      · exact (mem_insert _ _ _ _).mpr (Or.inl h)
      · exact h
    · rcases List.mem_cons.mp hc with hc | hc
      · subst hc
        left
        simp only
        rw [if_pos h1]
        exact (mem_insert _ _ _ _).mpr (Or.inr ⟨h2, h3, h4⟩)
      · exact Or.inr ⟨c, hc, h1, h2, h3, h4⟩

theorem build_detect_user (ct : CellTypes) (assign_map : SigMap) (cells : List Cell)
    (sets : SigSet detect_entry_t × SigSet detect_entry_t) (e : SigBit × detect_entry_t) :
    (e ∈ sets.2 ∨ ∃ cell ∈ cells, ∃ conn ∈ cell.connections_,
        (¬ ct.cell_known cell.type = true ∨ ct.cell_input cell.type conn.1 = true) ∧
        e.1 ∈ assign_map.apply conn.2 ∧ e.1.is_wire = true ∧ e.2 = (cell, conn.1)) →
      e ∈ (build_detect ct assign_map cells sets).2 := by
  induction cells generalizing sets with
  | nil =>
    rintro (h | ⟨c, hc, _⟩)
    · exact h
    · simp at hc
  | cons cell rest ih =>
    intro h
    simp only [build_detect]
    apply ih
    rcases h with h | ⟨c, hc, conn, h1, h2⟩
    · exact Or.inl (insert_detect_user ct assign_map cell _ sets e (Or.inl h))
    · rcases List.mem_cons.mp hc with hc | hc
      · subst hc
        exact Or.inl (insert_detect_user ct assign_map c _ sets e (Or.inr ⟨conn, h1, h2⟩))
      · exact Or.inr ⟨c, hc, conn, h1, h2⟩

theorem detect_fsm_marks_users (assign_map : SigMap)
    (sig2driver sig2user : SigSet detect_entry_t) (sig_at_port : SigPool) (fuel : Nat)
    (wire : Wire)
    (h : detect_fsm_marks assign_map sig2driver sig2user sig_at_port fuel wire = some true) :
    check_state_users assign_map sig2user sig_at_port (assign_map.apply wire.sig) = true := by
  unfold detect_fsm_marks at h
  simp only at h
  split at h
  · simp at h
  · split at h
    · simp at h
    · split at h
      · simp at h
      · split at h
        · simp at h
        · split at h
          · simp at h
          · split at h
            · simp at h
            · split at h
              · simp at h
              · rename_i hgood
                simpa using hgood

/-- Counterexample to C9 as stated: in `and_user_module` the wire 2 is used as input A
of an `$and` cell, which is no mux, and `inject_detect` sets `fsm_encoding = "inject"`
on it. -/
theorem C9_counterexample :
    (inject_detect ct_internals id 10 and_user_module).map
        (fun m => m.wires_.map (fun w => (w.name, w.fsm_encoding)))
      = some [(1, none), (2, some "inject"), (3, none), (4, none)] ∧
    and_user_module.cells_.any (fun c => c.type = CellType.and ∧
      c.getPort IdString.A = SigSpec.of_wire 2 2 ∧
      ct_internals.cell_input c.type IdString.A) = true := by
  constructor
  · decide
  · decide

/-- C9 (amended): detector user condition. `detect_fsm` sets `fsm_encoding = "inject"`
on a wire `w` only if no cell that uses a bit of `w` as an input is a `$mux` or `$pmux`
(and no bit of `w` is at a module port). -/
theorem C9_detect_users (ct : CellTypes) (assign_map : SigMap) (fuel : Nat) (mod : Module)
    (wire : Wire)
    (h : detect_fsm_marks assign_map (build_detect ct assign_map mod.cells_ ([], [])).1
      (build_detect ct assign_map mod.cells_ ([], [])).2
      (build_sig_at_port assign_map mod.wires_) fuel wire = some true) :
    (∀ cell ∈ mod.cells_, ∀ conn ∈ cell.connections_,
      (¬ ct.cell_known cell.type = true ∨ ct.cell_input cell.type conn.1 = true) →
      (∃ b ∈ assign_map.apply conn.2, b.is_wire = true ∧ b ∈ assign_map.apply wire.sig) →
      cell.type ≠ CellType.mux ∧ cell.type ≠ CellType.pmux) ∧
    (build_sig_at_port assign_map mod.wires_).check_any
      (assign_map.apply (assign_map.apply wire.sig)) = false := by
  have hu := detect_fsm_marks_users _ _ _ _ _ _ h
  unfold check_state_users at hu
  split at hu
  · simp at hu
  · rename_i hport
    refine ⟨?_, by simpa using hport⟩
    intro cell hcell conn hconn hin ⟨b, hb1, hb2, hb3⟩
    have hmem : (cell, conn.1) ∈
        (build_detect ct assign_map mod.cells_ ([], [])).2.find (assign_map.apply wire.sig) := by
      rw [mem_find]
      refine ⟨b, hb3, ?_⟩
      apply build_detect_user
      right
      exact ⟨cell, hcell, conn, hconn, hin, hb1, hb2, rfl⟩
    have := List.all_eq_true.mp hu _ hmem
    simp only [decide_eq_true_eq, not_or] at this
    exact this

set_option maxRecDepth 100000 in
/-- Witness of C9 (amended) on `and_user_module` and its wire 2, which the detector
marks: its only user, the `$and` cell, is no mux. -/
theorem C9_detect_users_witness :
    (∀ cell ∈ and_user_module.cells_, ∀ conn ∈ cell.connections_,
      (¬ ct_internals.cell_known cell.type = true ∨
        ct_internals.cell_input cell.type conn.1 = true) →
      (∃ b ∈ SigMap.apply id conn.2, b.is_wire = true ∧
        b ∈ SigMap.apply id (Wire.sig ⟨2, 2, 0, none, false⟩)) →
      cell.type ≠ CellType.mux ∧ cell.type ≠ CellType.pmux) ∧
    (build_sig_at_port id and_user_module.wires_).check_any
      (SigMap.apply id (SigMap.apply id (Wire.sig ⟨2, 2, 0, none, false⟩))) = false :=
  C9_detect_users ct_internals id 10 and_user_module ⟨2, 2, 0, none, false⟩ (by decide)

/-! ## A second extraction of the same wire -/

theorem insert_drivers_mem (ct : CellTypes) (assign_map : SigMap) (cell : Cell)
    (conns : List (IdString × SigSpec)) (set : SigSet sig2driver_entry_t)
    (e : SigBit × sig2driver_entry_t) :
    (e ∈ set ∨ ∃ conn ∈ conns,
        (ct.cell_output cell.type conn.1 = true ∨ ¬ ct.cell_known cell.type = true) ∧
        e.1 ∈ assign_map.apply conn.2 ∧ e.1.is_wire = true ∧ e.2 = (cell.name, conn.1)) →
      e ∈ insert_drivers ct assign_map cell conns set := by
  induction conns generalizing set with
  | nil =>
    rintro (h | ⟨c, hc, _⟩)
    · exact h
    · simp at hc
  | cons conn rest ih =>
    intro h
    simp only [insert_drivers]
    rcases h with h | ⟨c, hc, h1, h2, h3, h4⟩
    · split
      · exact ih _ (Or.inl ((mem_insert _ _ _ _).mpr (Or.inl h)))
      · exact ih _ (Or.inl h)
    · rcases List.mem_cons.mp hc with hc | hc
      · subst hc
        rw [if_pos h1]
        exact ih _ (Or.inl ((mem_insert _ _ _ _).mpr (Or.inr ⟨h2, h3, h4⟩)))
      · split
        · exact ih _ (Or.inr ⟨c, hc, h1, h2, h3, h4⟩)
        · exact ih _ (Or.inr ⟨c, hc, h1, h2, h3, h4⟩)

theorem build_sig2driver_mem (ct : CellTypes) (assign_map : SigMap) (cells : List Cell)
    (set : SigSet sig2driver_entry_t) (e : SigBit × sig2driver_entry_t) :
    (e ∈ set ∨ ∃ cell ∈ cells, ∃ conn ∈ cell.connections_,
        (ct.cell_output cell.type conn.1 = true ∨ ¬ ct.cell_known cell.type = true) ∧
        e.1 ∈ assign_map.apply conn.2 ∧ e.1.is_wire = true ∧ e.2 = (cell.name, conn.1)) →
      e ∈ build_sig2driver ct assign_map cells set := by
  induction cells generalizing set with
  | nil =>
    rintro (h | ⟨c, hc, _⟩)
    · exact h
    · simp at hc
  | cons cell rest ih =>
    intro h
    simp only [build_sig2driver]
    apply ih
    rcases h with h | ⟨c, hc, conn, h1, h2⟩
    · exact Or.inl (insert_drivers_mem ct assign_map cell _ set e (Or.inl h))
    · rcases List.mem_cons.mp hc with hc | hc
      · subst hc
        exact Or.inl (insert_drivers_mem ct assign_map c _ set e (Or.inr ⟨conn, h1, h2⟩))
      · exact Or.inr ⟨c, hc, conn, h1, h2⟩

theorem getPort_mem (cell : Cell) (port : IdString) (h : cell.getPort port ≠ []) :
    (port, cell.getPort port) ∈ cell.connections_ := by
  unfold Cell.getPort at h ⊢
  split at h
  · rename_i c hc
    have h1 := List.mem_of_find?_eq_some hc
    have h2 := List.find?_some hc
    simp only [decide_eq_true_eq] at h2
    rw [← h2]
    exact h1
  · simp at h

theorem exists_wire_of_not_const (sig : SigSpec) (h : ¬ sig.is_fully_const = true) :
    ∃ b ∈ sig, b.is_wire = true := by
  unfold SigSpec.is_fully_const at h
  rw [List.all_eq_true] at h
  push_neg at h
  obtain ⟨b, hb1, hb2⟩ := h
  exact ⟨b, hb1, by simpa using hb2⟩

theorem not_const_of_wire (sig : SigSpec) (b : SigBit) (hb : b ∈ sig) (hw : b.is_wire = true) :
    ¬ sig.is_fully_const = true := by
  unfold SigSpec.is_fully_const
  rw [List.all_eq_true]
  intro h
  have := h b hb
  simp [hw] at this

/-- A wire whose signal shares a bit with port Y of an `$amt` cell of the module the
driver index is built from is not extracted: with any fuel `extract_tree` returns the
module as it was. The wire is seen as a single leaf behind a non-mux cell and rejected
as too small, or as multiply driven. -/
theorem extract_tree_amt_driven (ct : CellTypes) (assign_map : SigMap) (fuel : Nat)
    (module : Module) (cells0 : List Cell) (wire : Wire) (c : Cell) (b : SigBit)
    (hmap : ∀ b, assign_map (assign_map b) = assign_map b)
    (hout : ct.cell_output CellType.amt IdString.Y = true ∨
      ¬ ct.cell_known CellType.amt = true)
    (hc : c ∈ cells0) (htype : c.type = CellType.amt)
    (hb : b ∈ assign_map.apply (c.getPort IdString.Y)) (hbw : b.is_wire = true)
    (hbo : b ∈ assign_map.apply wire.sig)
    (hcur : ∃ c', module.cell c.name = some c' ∧
      ¬ (c'.type = CellType.mux ∨ c'.type = CellType.pmux)) :
    extract_tree assign_map (build_sig2driver ct assign_map cells0 []) (fuel + 1) module wire
      = some module := by
  have hY : c.getPort IdString.Y ≠ [] := by
    intro e
    rw [e] at hb
    simp [SigMap.apply] at hb
  have hmem : (c.name, IdString.Y) ∈
      (build_sig2driver ct assign_map cells0 []).find (assign_map.apply wire.sig) := by
    rw [mem_find]
    refine ⟨b, hbo, ?_⟩
    apply build_sig2driver_mem
    right
    refine ⟨c, hc, (IdString.Y, c.getPort IdString.Y), getPort_mem c _ hY, ?_, hb, hbw, rfl⟩
    rw [htype]
    exact hout
  have hconst := not_const_of_wire _ b hbo hbw
  obtain ⟨c', hc', hnm⟩ := hcur
  have habs : ∃ ok st, abstract_tree module assign_map
      (build_sig2driver ct assign_map cells0 []) (assign_map.apply wire.sig) (fuel + 1)
      (assign_map.apply wire.sig) ⟨[], [], [], []⟩ = some (ok, st) ∧
      (ok = true → st.selections.length < 4) := by
    rw [abstract_tree]
    simp only [extend_u0_self, apply_idem assign_map hmap, hconst]
    generalize hfl : (build_sig2driver ct assign_map cells0 []).find (assign_map.apply wire.sig)
      = found at hmem
    cases found with
    | nil => simp at hmem
    | cons cellport tl =>
      cases tl with
      | cons x xs =>
        exact ⟨false, ⟨[], [], [], []⟩, by simp, by simp⟩
      | nil =>
        simp only [List.mem_singleton] at hmem
        subst hmem
        have h1 : ¬ c'.type = CellType.mux := fun e => hnm (Or.inl e)
        have h2 : ¬ c'.type = CellType.pmux := fun e => hnm (Or.inr e)
        simp only [List.length_cons, List.length_nil, hc']
        exact ⟨true, ⟨assign_map.apply wire.sig, [], [],
          [⟨[], assign_map.apply wire.sig⟩]⟩, by simp [h1, h2], by simp⟩
  obtain ⟨ok, st, habs, hlt⟩ := habs
  cases ok with
  | false => exact extract_tree_failed _ _ _ _ _ st habs
  | true => exact extract_tree_small _ _ _ _ _ st habs (hlt rfl)

theorem set_cell_connection_names (l : List Cell) (name : Nat) (port : IdString)
    (sig : SigSpec) :
    ∀ x ∈ set_cell_connection l name port sig, ∃ y ∈ l, x.name = y.name := by
  induction l with
  | nil => simp [set_cell_connection]
  | cons c rest ih =>
    intro x hx
    simp only [set_cell_connection] at hx
    split at hx
    · rcases List.mem_cons.mp hx with e | e
      · subst e
        exact ⟨c, List.mem_cons_self _ _, rfl⟩
      · exact ⟨x, List.mem_cons_of_mem _ e, rfl⟩
    · rcases List.mem_cons.mp hx with e | e
      · subst e
        exact ⟨x, List.mem_cons_self _ _, rfl⟩
      · obtain ⟨y, hy1, hy2⟩ := ih x e
        exact ⟨y, List.mem_cons_of_mem _ hy1, hy2⟩

theorem find_append_of_none {α : Type} (l r : List α) (p : α → Bool)
    (h : ∀ x ∈ l, p x = false) : (l ++ r).find? p = r.find? p := by
  induction l with
  | nil => rfl
  | cons a rest ih =>
    have h1 := h a (List.mem_cons_self _ _)
    simp only [List.cons_append, List.find?_cons, h1]
    exact ih (fun x hx => h x (List.mem_cons_of_mem _ hx))

/-- The extraction of a wire a second time. For every module and marked wire for which
`extract_tree` has created an `$amt` cell, running `extract_tree` on that wire again
directly afterwards, with the driver index built anew as a second run of the pass does,
creates no `$amt` cell and returns the module unchanged, all cells, wires and ports
included: the wire, now driven by the AMT, is seen as a single non-mux leaf and rejected
as too small (or as multiply driven). -/
theorem extract_tree_again (ct : CellTypes) (assign_map : SigMap) (fuel fuel' : Nat)
    (module module1 : Module) (wire : Wire)
    (hmap : ∀ b, assign_map (assign_map b) = assign_map b)
    (hout : ct.cell_output CellType.amt IdString.Y = true ∨
      ¬ ct.cell_known CellType.amt = true)
    (hfresh : ∀ c ∈ module.cells_, c.name ≠ module.autoidx)
    (h1 : extract_tree assign_map (build_sig2driver ct assign_map module.cells_ []) fuel
      module wire = some module1)
    (hnew : module1.amt_cells ≠ module.amt_cells) :
    extract_tree assign_map (build_sig2driver ct assign_map module1.cells_ []) (fuel' + 1)
      module1 wire = some module1 := by
  cases habs : abstract_tree module assign_map (build_sig2driver ct assign_map module.cells_ [])
      (assign_map.apply wire.sig) fuel (assign_map.apply wire.sig) ⟨[], [], [], []⟩ with
  | none =>
    unfold extract_tree at h1
    simp [habs] at h1
  | some r =>
    obtain ⟨ok, st⟩ := r
    cases ok with
    | false =>
      rw [extract_tree_failed _ _ _ _ _ st habs] at h1
      exact absurd (by rw [← Option.some.inj h1]) hnew
    | true =>
      by_cases hn : st.selections.length < 4
      · rw [extract_tree_small _ _ _ _ _ st habs hn] at h1
        exact absurd (by rw [← Option.some.inj h1]) hnew
      · obtain ⟨selections, cellport, cell, new_sig, _, _, _, _, _, hconst, hex⟩ :=
          extract_tree_large assign_map _ fuel module wire st hmap habs (by omega)
        rw [hex] at h1
        have hm1 := (Option.some.inj h1).symm
        obtain ⟨_, pY, _, _, ptype, pname⟩ := new_amt_cell_ports module.autoidx wire st.input
          st.select.sort_and_unify (assign_map.apply wire.sig) selections
        obtain ⟨b, hb, hbw⟩ := exists_wire_of_not_const _ hconst
        have hcells : module1.cells_ =
            set_cell_connection module.cells_ cellport.1 cellport.2 new_sig ++
              [new_amt_cell module.autoidx wire st.input st.select.sort_and_unify
                (assign_map.apply wire.sig) selections] := by
          rw [hm1]
        apply extract_tree_amt_driven ct assign_map fuel' module1 module1.cells_ wire
          (new_amt_cell module.autoidx wire st.input st.select.sort_and_unify
            (assign_map.apply wire.sig) selections) b hmap hout
        · rw [hcells]
          simp
        · exact ptype
        · rw [pY, apply_idem assign_map hmap]
          exact hb
        · exact hbw
        · exact hb
        · refine ⟨_, ?_, by rw [ptype]; decide⟩
          unfold Module.cell
          rw [hcells, find_append_of_none]
          · simp [pname]
          · intro x hx
            obtain ⟨y, hy1, hy2⟩ := set_cell_connection_names _ _ _ _ x hx
            rw [pname, hy2]
            simpa using hfresh y hy1

set_option maxRecDepth 100000 in
/-- On `two_select_module` the second extraction of the marked wire returns the module
the first extraction has left. -/
theorem extract_tree_again_two_select :
    extract_tree id (build_sig2driver ct_internals id two_select_after.cells_ []) (0 + 1)
      two_select_after wire_y = some two_select_after :=
  extract_tree_again ct_internals id 10 0 two_select_module two_select_after wire_y
    (fun _ => rfl) (by decide) (by decide) (by decide) (by decide)

/-! ## A second run of the extractor -/

/-- What a call of `extract_tree` that returns does to the module: nothing, or it
rewires one port of a `$mux` or `$pmux` cell, appends one `$amt` cell whose port Y is
the signal of the wire, and appends one wire that is not marked. -/
theorem extract_tree_cases (assign_map : SigMap) (sig2driver : SigSet sig2driver_entry_t)
    (fuel : Nat) (module module' : Module) (wire : Wire)
    (hmap : ∀ b, assign_map (assign_map b) = assign_map b)
    (h : extract_tree assign_map sig2driver fuel module wire = some module') :
    module' = module ∨
    ∃ (cellport : sig2driver_entry_t) (cell : Cell) (new_sig : SigSpec) (amt : Cell)
        (width : Nat),
      module.cell cellport.1 = some cell ∧
      (cell.type = CellType.mux ∨ cell.type = CellType.pmux) ∧
      amt.type = CellType.amt ∧ amt.name = module.autoidx ∧
      amt.getPort IdString.Y = assign_map.apply wire.sig ∧
      ¬ (assign_map.apply wire.sig).is_fully_const = true ∧
      module' = { name := module.name,
                  wires_ := module.wires_ ++ [⟨module.autoidx + 1, width, 0, none, false⟩],
                  cells_ := set_cell_connection module.cells_ cellport.1 cellport.2 new_sig
                    ++ [amt],
                  autoidx := module.autoidx + 1 + 1 } := by
  cases habs : abstract_tree module assign_map sig2driver (assign_map.apply wire.sig) fuel
      (assign_map.apply wire.sig) ⟨[], [], [], []⟩ with
  | none =>
    unfold extract_tree at h
    simp [habs] at h
  | some r =>
    obtain ⟨ok, st⟩ := r
    cases ok with
    | false =>
      rw [extract_tree_failed _ _ _ _ _ st habs] at h
      exact Or.inl (Option.some.inj h).symm
    | true =>
      by_cases hn : st.selections.length < 4
      · rw [extract_tree_small _ _ _ _ _ st habs hn] at h
        exact Or.inl (Option.some.inj h).symm
      · obtain ⟨selections, cellport, cell, new_sig, _, _, hcell, htype, _, hconst, hex⟩ :=
          extract_tree_large assign_map _ fuel module wire st hmap habs (by omega)
        rw [hex] at h
        obtain ⟨_, pY, _, _, ptype, pname⟩ := new_amt_cell_ports module.autoidx wire st.input
          st.select.sort_and_unify (assign_map.apply wire.sig) selections
        exact Or.inr ⟨cellport, cell, new_sig, _, _, hcell, htype, ptype, pname, pY, hconst,
          (Option.some.inj h).symm⟩

theorem mem_set_cell_connection (l : List Cell) (name : Nat) (port : IdString)
    (sig : SigSpec) (c : Cell) (hc : c ∈ l)
    (hne : ∀ cell, l.find? (fun x => x.name = name) = some cell → cell ≠ c) :
    c ∈ set_cell_connection l name port sig := by
  induction l with
  | nil => simp at hc
  | cons x rest ih =>
    rw [set_cell_connection]
    by_cases hx : x.name = name
    · rw [if_pos hx]
      have hxc : x ≠ c := hne x (by simp [List.find?_cons, hx])
      rcases List.mem_cons.mp hc with e | e
      · exact absurd e.symm hxc
      · exact List.mem_cons_of_mem _ e
    · rw [if_neg hx]
      rcases List.mem_cons.mp hc with e | e
      · rw [e]
        exact List.mem_cons_self _ _
      · apply List.mem_cons_of_mem
        apply ih e
        intro cell hf
        exact hne cell (by simpa [List.find?_cons, hx] using hf)

theorem find_set_cell_connection (l : List Cell) (name : Nat) (port : IdString)
    (sig : SigSpec) (x : Nat) (c : Cell) (h : l.find? (fun y => y.name = x) = some c) :
    ∃ c', (set_cell_connection l name port sig).find? (fun y => y.name = x) = some c' ∧
      c'.type = c.type := by
  induction l with
  | nil => simp at h
  | cons y rest ih =>
    rw [set_cell_connection]
    by_cases hy : y.name = name
    · rw [if_pos hy]
      by_cases hyx : y.name = x
      · simp only [List.find?_cons, hyx, decide_True, Option.some.injEq] at h
        subst h
        exact ⟨y.setPort port sig, by simp [List.find?_cons, Cell.setPort, hyx], rfl⟩
      · simp only [List.find?_cons, hyx, decide_False] at h
        exact ⟨c, by simpa [List.find?_cons, Cell.setPort, hyx] using h, rfl⟩
    · rw [if_neg hy]
      by_cases hyx : y.name = x
      · simp only [List.find?_cons, hyx, decide_True, Option.some.injEq] at h
        subst h
        exact ⟨y, by simp [List.find?_cons, hyx], rfl⟩
      · simp only [List.find?_cons, hyx, decide_False] at h
        obtain ⟨c', h1, h2⟩ := ih h
        exact ⟨c', by simpa [List.find?_cons, hyx] using h1, h2⟩

/-- A call of `extract_tree` keeps every cell that is no `$mux` and no `$pmux`, keeps
the type of the cell a name is looked up to, and keeps the marked wires. -/
theorem extract_tree_keeps (assign_map : SigMap) (sig2driver : SigSet sig2driver_entry_t)
    (fuel : Nat) (module module' : Module) (wire : Wire)
    (hmap : ∀ b, assign_map (assign_map b) = assign_map b)
    (h : extract_tree assign_map sig2driver fuel module wire = some module') :
    (∀ c ∈ module.cells_, c.type ≠ CellType.mux → c.type ≠ CellType.pmux →
      c ∈ module'.cells_) ∧
    (∀ x c, module.cell x = some c → ∃ c', module'.cell x = some c' ∧ c'.type = c.type) ∧
    module'.wires_.filter Wire.is_marked = module.wires_.filter Wire.is_marked := by
  rcases extract_tree_cases assign_map sig2driver fuel module module' wire hmap h with
    e | ⟨cellport, cell, new_sig, amt, width, hcell, htype, _, _, _, _, e⟩
  · rw [e]
    exact ⟨fun c hc _ _ => hc, fun x c hx => ⟨c, hx, rfl⟩, rfl⟩
  · rw [e]
    refine ⟨?_, ?_, ?_⟩
    · intro c hc h1 h2
      apply List.mem_append_left
      apply mem_set_cell_connection _ _ _ _ c hc
      intro cell' hf e'
      unfold Module.cell at hcell
      rw [hcell] at hf
      rw [← e', ← Option.some.inj hf] at h1 h2
      rcases htype with t | t
      · exact h1 t
      · exact h2 t
    · intro x c hx
      unfold Module.cell at hx ⊢
      obtain ⟨c', h1, h2⟩ := find_set_cell_connection module.cells_ cellport.1 cellport.2
        new_sig x c hx
      exact ⟨c', by simp only [List.find?_append, h1]; rfl, h2⟩
    · simp [List.filter_append, List.filter_cons, Wire.is_marked]

theorem extract_wires_append (assign_map : SigMap) (sig2driver : SigSet sig2driver_entry_t)
    (fuel : Nat) (pre post : List Wire) (module : Module) :
    extract_wires assign_map sig2driver fuel (pre ++ post) module
      = (extract_wires assign_map sig2driver fuel pre module).bind
          (extract_wires assign_map sig2driver fuel post) := by
  induction pre generalizing module with
  | nil => rfl
  | cons w rest ih =>
    simp only [List.cons_append, extract_wires]
    cases extract_tree assign_map sig2driver fuel module w with
    | none => rfl
    | some m => exact ih m

/-- The loop over the wires keeps every cell that is no `$mux` and no `$pmux`, and the
marked wires. -/
theorem extract_wires_keeps (assign_map : SigMap) (sig2driver : SigSet sig2driver_entry_t)
    (fuel : Nat) (hmap : ∀ b, assign_map (assign_map b) = assign_map b) :
    ∀ (wires : List Wire) (module module' : Module),
      extract_wires assign_map sig2driver fuel wires module = some module' →
      (∀ c ∈ module.cells_, c.type ≠ CellType.mux → c.type ≠ CellType.pmux →
        c ∈ module'.cells_) ∧
      module'.wires_.filter Wire.is_marked = module.wires_.filter Wire.is_marked := by
  intro wires
  induction wires with
  | nil =>
    intro module module' h
    simp only [extract_wires, Option.some.injEq] at h
    rw [← h]
    exact ⟨fun c hc _ _ => hc, rfl⟩
  | cons w rest ih =>
    intro module module' h
    rw [extract_wires] at h
    split at h
    · simp at h
    · rename_i m hm
      obtain ⟨k1, _, k3⟩ := extract_tree_keeps assign_map sig2driver fuel module m w hmap hm
      obtain ⟨i1, i2⟩ := ih m module' h
      exact ⟨fun c hc h1 h2 => i1 c (k1 c hc h1 h2) h1 h2, by rw [i2, k3]⟩

/-- A run of the loop over the wires with the driver index of `module1` skips every wire
that is driven by an `$amt` cell of `module1`: it is the run over the other wires. -/
theorem extract_wires_skip (ct : CellTypes) (assign_map : SigMap) (fuel : Nat)
    (module1 : Module)
    (hmap : ∀ b, assign_map (assign_map b) = assign_map b)
    (hout : ct.cell_output CellType.amt IdString.Y = true ∨
      ¬ ct.cell_known CellType.amt = true) :
    ∀ (wires : List Wire) (module : Module),
      (∀ c ∈ module1.cells_, c.type = CellType.amt →
        ∃ c', module.cell c.name = some c' ∧ c'.type = CellType.amt) →
      extract_wires assign_map (build_sig2driver ct assign_map module1.cells_ []) (fuel + 1)
          wires module
        = extract_wires assign_map (build_sig2driver ct assign_map module1.cells_ [])
            (fuel + 1)
            (wires.filter (fun w => ¬ amt_driven assign_map module1.cells_ w)) module := by
  intro wires
  induction wires with
  | nil => intro module _; rfl
  | cons w rest ih =>
    intro module hinv
    by_cases hd : amt_driven assign_map module1.cells_ w
    · rw [List.filter_cons, if_neg (by simpa using hd), extract_wires]
      obtain ⟨c, hc, htype, b, hb, hbw, hbo⟩ := hd
      obtain ⟨c', hc1, hc2⟩ := hinv c hc htype
      rw [extract_tree_amt_driven ct assign_map fuel module module1.cells_ w c b hmap hout hc
        htype hb hbw hbo ⟨c', hc1, by rw [hc2]; decide⟩]
      exact ih module hinv
    · rw [List.filter_cons, if_pos (by simpa using hd), extract_wires, extract_wires]
      cases hm : extract_tree assign_map (build_sig2driver ct assign_map module1.cells_ [])
          (fuel + 1) module w with
      | none => rfl
      | some m =>
        apply ih m
        intro c hc htype
        obtain ⟨c', hc1, hc2⟩ := hinv c hc htype
        obtain ⟨c'', k1, k2⟩ :=
          (extract_tree_keeps assign_map _ (fuel + 1) module m w hmap hm).2.1 c.name c' hc1
        exact ⟨c'', k1, by rw [k2, hc2]⟩

/-- Counterexample to C8 as stated: on `nested_module` the first run of
`inject_extract` rejects `y` as too large (its tree contains the tree of `u`) and
creates the AMT of `u`; the second run, directly after it, sees `u` as a leaf, finds 48
rows for `y` and creates a second `$amt` cell, and it rewires port Y of the `$pmux` cell
100, the driver of `y`, from `y` to a new wire. -/
theorem C8_counterexample :
    amt_count_after_runs ct_internals id 10 nested_module = some (1, 2) ∧
    port_y_after_runs ct_internals id 10 nested_module 100
      = some (SigSpec.of_wire 2 2, SigSpec.of_wire 203 2) := by
  constructor
  · decide!
  · decide!

/-- C8 (amended): a second run of the extractor. For every module `mod1` in which a
cell is looked up by its name (in particular the module a first run of `inject_extract`
leaves): (1) every marked wire for which the first run created its `$amt` cell is a
marked wire of `mod1` that is driven by an `$amt` cell; (2) a second run of
`inject_extract` directly afterwards is the run over the marked wires that are not
driven by an `$amt` cell alone: for a wire driven by an AMT `extract_tree` returns the
module unchanged (the wire is seen as a single non-mux leaf and rejected as too small,
or as multiply driven); (3) the second run keeps the marked wires and every cell that
is no `$mux` and no `$pmux`, among them the `$amt` cells of the first run, as they are;
(4) when every marked wire is driven by an `$amt` cell, the second run returns the
module unchanged: no cell, wire or port differs. -/
theorem C8_second_run (ct : CellTypes) (assign_map : SigMap) (fuel fuel' : Nat)
    (mod mod1 : Module)
    (hmap : ∀ b, assign_map (assign_map b) = assign_map b)
    (hout : ct.cell_output CellType.amt IdString.Y = true ∨
      ¬ ct.cell_known CellType.amt = true)
    (hnames : ∀ c ∈ mod1.cells_, mod1.cell c.name = some c)
    (h1 : inject_extract ct assign_map fuel mod = some mod1) :
    (has_substr "id_stage".toList mod.name.toList = false →
      has_substr "maptable".toList mod.name.toList = false →
      ∀ (pre post : List Wire) (w : Wire) (m m' : Module),
        mod.wires_.filter Wire.is_marked = pre ++ w :: post →
        extract_wires assign_map (build_sig2driver ct assign_map mod.cells_ []) fuel pre mod
          = some m →
        extract_tree assign_map (build_sig2driver ct assign_map mod.cells_ []) fuel m w
          = some m' →
        m' ≠ m →
        w ∈ mod1.wires_.filter Wire.is_marked ∧ amt_driven assign_map mod1.cells_ w) ∧
    inject_extract ct assign_map (fuel' + 1) mod1
      = (if has_substr "id_stage".toList mod1.name.toList then some mod1
        else if has_substr "maptable".toList mod1.name.toList then some mod1
        else extract_wires assign_map (build_sig2driver ct assign_map mod1.cells_ [])
          (fuel' + 1)
          ((mod1.wires_.filter Wire.is_marked).filter
            (fun w => ¬ amt_driven assign_map mod1.cells_ w)) mod1) ∧
    (∀ mod2, inject_extract ct assign_map (fuel' + 1) mod1 = some mod2 →
      (∀ c ∈ mod1.cells_, c.type ≠ CellType.mux → c.type ≠ CellType.pmux →
        c ∈ mod2.cells_) ∧
      mod2.wires_.filter Wire.is_marked = mod1.wires_.filter Wire.is_marked) ∧
    ((∀ w ∈ mod1.wires_.filter Wire.is_marked, amt_driven assign_map mod1.cells_ w) →
      inject_extract ct assign_map (fuel' + 1) mod1 = some mod1) := by
  have hskip : inject_extract ct assign_map (fuel' + 1) mod1
      = (if has_substr "id_stage".toList mod1.name.toList then some mod1
        else if has_substr "maptable".toList mod1.name.toList then some mod1
        else extract_wires assign_map (build_sig2driver ct assign_map mod1.cells_ [])
          (fuel' + 1)
          ((mod1.wires_.filter Wire.is_marked).filter
            (fun w => ¬ amt_driven assign_map mod1.cells_ w)) mod1) := by
    unfold inject_extract
    split
    · rfl
    · split
      · rfl
      · exact extract_wires_skip ct assign_map fuel' mod1 hmap hout _ mod1
          (fun c hc htype => ⟨c, hnames c hc, htype⟩)
  refine ⟨?_, hskip, ?_, ?_⟩
  · intro hs1 hs2 pre post w m m' hw hpre htree hne
    unfold inject_extract at h1
    rw [if_neg (by rw [hs1]; decide), if_neg (by rw [hs2]; decide)] at h1
    simp only at h1
    have hall := (extract_wires_keeps assign_map _ fuel hmap _ mod mod1 h1).2
    rw [hw, extract_wires_append, hpre] at h1
    simp only [Option.bind, extract_wires, htree] at h1
    obtain ⟨k1, _⟩ := extract_wires_keeps assign_map _ fuel hmap post m' mod1 h1
    constructor
    · rw [hall, hw]
      simp
    · rcases extract_tree_cases assign_map _ fuel m m' w hmap htree with
        e | ⟨cellport, cell, new_sig, amt, width, _, _, atype, _, aY, hconst, e⟩
      · exact absurd e hne
      · obtain ⟨b, hb, hbw⟩ := exists_wire_of_not_const _ hconst
        refine ⟨amt, ?_, atype, b, ?_, hbw, hb⟩
        · apply k1 amt
          · rw [e]
            simp
          · rw [atype]
            decide
          · rw [atype]
            decide
        · rw [aY, apply_idem assign_map hmap]
          exact hb
  · intro mod2 h2
    unfold inject_extract at h2
    split at h2
    · rw [← Option.some.inj h2]
      exact ⟨fun c hc _ _ => hc, rfl⟩
    · split at h2
      · rw [← Option.some.inj h2]
        exact ⟨fun c hc _ _ => hc, rfl⟩
      · exact extract_wires_keeps assign_map _ (fuel' + 1) hmap _ mod1 mod2 h2
  · intro hall
    rw [hskip]
    have hnil : (mod1.wires_.filter Wire.is_marked).filter
        (fun w => ¬ amt_driven assign_map mod1.cells_ w) = [] := by
      rw [List.filter_eq_nil_iff]
      intro w hw
      simpa using hall w hw
    rw [hnil]
    simp [extract_wires]

set_option maxRecDepth 100000 in
/-- Witness of C8 (amended) on `two_select_module`: the first run extracts the AMT of the
only marked wire, and the second run returns the module the first run has left. -/
theorem C8_second_run_witness :
    inject_extract ct_internals id 10 two_select_module = some two_select_after ∧
    (∀ w ∈ two_select_after.wires_.filter Wire.is_marked,
      amt_driven id two_select_after.cells_ w) ∧
    inject_extract ct_internals id (0 + 1) two_select_after = some two_select_after :=
  ⟨by decide, by decide,
    (C8_second_run ct_internals id 10 0 two_select_module two_select_after (fun _ => rfl)
      (by decide) (by decide) (by decide)).2.2.2 (by decide)⟩

/-! ## The expander -/

theorem getPort_setPort (cell : Cell) (p q : IdString) (sig : SigSpec) :
    (cell.setPort p sig).getPort q = if q = p then sig else cell.getPort q := by
  simp only [Cell.getPort, Cell.setPort, find_setConn]
  by_cases h : q = p
  · simp [h]
  · simp [h]

theorem getPort_unsetPort_ne (cell : Cell) (p q : IdString) (h : q ≠ p) :
    (cell.unsetPort p).getPort q = cell.getPort q := by
  simp only [Cell.getPort, Cell.unsetPort, find_unsetConn_ne _ _ _ h]

/-- Every row `copy_from_cell` returns has a pattern of the width of S and an output of
the width of Y. -/
theorem copy_from_cell_widths (cell : Cell) (rows : List selection_t)
    (h : copy_from_cell cell [] = some rows) :
    ∀ r ∈ rows, r.select.length = (cell.getPort IdString.S).length ∧
      r.output.length = (cell.getPort IdString.Y).length := by
  unfold copy_from_cell at h
  obtain ⟨rows', h1, h2, h3⟩ := copy_from_cell_loop_some cell _ 0 [] rows h
  simp only [List.nil_append] at h1
  subst h1
  intro r hr
  obtain ⟨i, hi, hget⟩ := List.getElem_of_mem hr
  have hdec := h3 i (by omega)
  rw [Nat.zero_add, List.getElem?_eq_getElem hi, hget] at hdec
  obtain ⟨flag, hf, hA, hrow⟩ := decode_row_some cell i r hdec
  have hlen : i * ((cell.getPort IdString.S).length + 1) + (cell.getPort IdString.S).length
      < cell.STATE_TABLE.length := by
    rcases List.getElem?_eq_some_iff.mp hf with ⟨h, _⟩
    exact h
  rw [hrow]
  simp only [List.length_take, List.length_drop]
  constructor <;> omega

/-- What `expand_amt` leaves: the original selector and output, and the table of the
original rows onto which a row of the expanded table projects. -/
theorem expand_amt_spec (ct : CellTypes) (assign_map : SigMap) (sig2driver : SigSet Cell)
    (fuel : Nat) (amt_cell cell' : Cell)
    (h : expand_amt ct assign_map sig2driver fuel amt_cell = some cell') :
    ∃ original st, copy_from_cell amt_cell [] = some original ∧
      expand_table ct assign_map sig2driver fuel amt_cell = some st ∧
      cell'.getPort IdString.S = amt_cell.getPort IdString.S ∧
      cell'.getPort IdString.Y = amt_cell.getPort IdString.Y ∧
      copy_from_cell cell' [] = some
        (filtered_selections (amt_cell.getPort IdString.S) st.select original st.selections) ∧
      amt_sizes cell'
        (filtered_selections (amt_cell.getPort IdString.S) st.select original st.selections).length := by
  unfold expand_amt at h
  split at h
  · rename_i original st ho hst
    simp only [Option.some.injEq] at h
    subst h
    have hS : ((amt_cell.unsetPort IdString.S).setPort IdString.S
        (amt_cell.getPort IdString.S)).getPort IdString.S = amt_cell.getPort IdString.S := by
      rw [getPort_setPort]; simp
    have hY : ((amt_cell.unsetPort IdString.S).setPort IdString.S
        (amt_cell.getPort IdString.S)).getPort IdString.Y = amt_cell.getPort IdString.Y := by
      rw [getPort_setPort, if_neg (by decide), getPort_unsetPort_ne _ _ _ (by decide)]
    have hw := copy_from_cell_widths amt_cell original ho
    have hsub : ∀ s ∈ filtered_selections (amt_cell.getPort IdString.S) st.select original
        st.selections, s ∈ original := by
      intro s hs
      unfold filtered_selections at hs
      exact (List.mem_filter.mp hs).1
    refine ⟨original, st, ho, hst, ?_, ?_, ?_, ?_⟩
    · unfold expand_finish
      rw [getPort_copy_to_cell_ne _ _ _ (by decide), hS]
    · unfold expand_finish
      rw [getPort_copy_to_cell_ne _ _ _ (by decide), hY]
    · unfold expand_finish
      apply copy_from_cell_copy_to_cell
      · intro s hs
        rw [hS]
        exact (hw s (hsub s hs)).1
      · intro s hs
        rw [hY]
        exact (hw s (hsub s hs)).2
    · unfold expand_finish amt_sizes
      rw [getPort_copy_to_cell_A, getPort_copy_to_cell_ne _ _ _ (by decide : IdString.Y ≠ IdString.A),
        getPort_copy_to_cell_ne _ _ _ (by decide : IdString.S ≠ IdString.A), table_copy_to_cell,
        hS, hY]
      exact ⟨new_input_length _ _ (fun s hs => (hw s (hsub s hs)).2),
        table_bits_length _ _ (fun s hs => (hw s (hsub s hs)).1)⟩
  · simp at h

/-! ## The size invariant -/

theorem copy_to_cell_sized (cell : Cell) (rows : List selection_t)
    (h : rows_sized (cell.getPort IdString.S).length (cell.getPort IdString.Y).length rows) :
    copy_from_cell (copy_to_cell cell rows) [] = some rows ∧
    amt_sizes (copy_to_cell cell rows) rows.length := by
  constructor
  · exact copy_from_cell_copy_to_cell cell rows (fun s hs => (h s hs).1) (fun s hs => (h s hs).2)
  · unfold amt_sizes
    rw [getPort_copy_to_cell_A, getPort_copy_to_cell_ne _ _ _ (by decide : IdString.Y ≠ IdString.A),
      getPort_copy_to_cell_ne _ _ _ (by decide : IdString.S ≠ IdString.A), table_copy_to_cell]
    exact ⟨new_input_length _ _ (fun s hs => (h s hs).2),
      table_bits_length _ _ (fun s hs => (h s hs).1)⟩

theorem rows_sized_set (k m : Nat) (rows : List selection_t) (i : Nat) (r : selection_t)
    (h : rows_sized k m rows) (hr : r.select.length = k ∧ r.output.length = m) :
    rows_sized k m (rows.set i r) := by
  intro x hx
  rcases List.mem_or_eq_of_mem_set hx with e | e
  · exact h x e
  · rw [e]; exact hr

theorem rows_sized_eraseIdx (k m : Nat) (rows : List selection_t) (i : Nat)
    (h : rows_sized k m rows) : rows_sized k m (rows.eraseIdx i) := by
  intro x hx
  exact h x (List.mem_of_mem_eraseIdx hx)

theorem mutate_bit_sized (rand : Nat → Nat) (bugs_per_cell selection_index j k m : Nat)
    (st : amt_state) (h : amt_state_sized k m st) :
    amt_state_sized k m (mutate_bit rand bugs_per_cell selection_index j st) := by
  obtain ⟨h1, h2⟩ := h
  unfold mutate_bit
  split
  · exact ⟨h1, h2⟩
  · rename_i selection hsel
    have hs := h1 selection (List.getElem?_mem hsel)
    have hrest : rows_sized k m (st.selections.set selection_index
        { selection with buggy := false }) :=
      rows_sized_set k m _ _ _ h1 hs
    have hmut : ∀ bit, rows_sized k m (st.selections.set selection_index
        { selection with select := selection.select.set j bit, buggy := true }) :=
      fun bit => rows_sized_set k m _ _ _ h1 ⟨by simp [hs.1], hs.2⟩
    split
    · split
      · refine ⟨hrest, ?_⟩
        intro bug hbug
        rcases List.mem_append.mp hbug with e | e
        · exact h2 bug e
        · simp only [List.mem_singleton] at e
          rw [e]
          exact hmut _
      · split
        · refine ⟨hrest, ?_⟩
          intro bug hbug
          rcases List.mem_append.mp hbug with e | e
          · exact h2 bug e
          · simp only [List.mem_singleton] at e
            rw [e]
            intro x hx
            rcases List.mem_cons.mp hx with e' | e'
            · rw [e']
              exact ⟨by simp [hs.1], hs.2⟩
            · exact rows_sized_eraseIdx k m _ _ (hmut _) x e'
        · exact ⟨h1, h2⟩
      · exact ⟨h1, h2⟩
    · exact ⟨h1, h2⟩

theorem mutate_bits_sized (rand : Nat → Nat) (bugs_per_cell selection_index k m : Nat)
    (ks : List Nat) (st : amt_state) (h : amt_state_sized k m st) :
    amt_state_sized k m (mutate_bits rand bugs_per_cell selection_index ks st) := by
  induction ks generalizing st with
  | nil => exact h
  | cons j rest ih => exact ih _ (mutate_bit_sized rand bugs_per_cell selection_index j k m st h)

theorem mutate_rows_sized (rand : Nat → Nat) (bugs_per_cell k m : Nat)
    (is : List Nat) (st : amt_state) (h : amt_state_sized k m st) :
    amt_state_sized k m (mutate_rows rand bugs_per_cell is st) := by
  induction is generalizing st with
  | nil => exact h
  | cons i rest ih =>
    apply ih
    unfold mutate_row
    split
    · exact h
    · split
      · exact h
      · exact mutate_bits_sized rand bugs_per_cell i k m _ st h

theorem amt_bugs_sized (rand : Nat → Nat) (bugs_per_cell calls k m : Nat)
    (selections : List selection_t) (st : amt_state) (h : rows_sized k m selections)
    (hb : amt_bugs rand bugs_per_cell calls selections = some st) :
    amt_state_sized k m st := by
  unfold amt_bugs add_removal vector_erase at hb
  have hinv := mutate_rows_sized rand bugs_per_cell k m (List.range selections.length)
    ⟨selections, [], calls⟩ ⟨h, by simp⟩
  generalize mutate_rows rand bugs_per_cell (List.range selections.length)
    ⟨selections, [], calls⟩ = st0 at hb hinv
  split at hb
  · rename_i buggy_selections he
    simp only [Option.some.injEq] at hb
    subst hb
    split at he
    · simp only [Option.some.injEq] at he
      subst he
      refine ⟨hinv.1, ?_⟩
      intro bug hbug
      rcases List.mem_append.mp hbug with e | e
      · exact hinv.2 bug e
      · simp only [List.mem_singleton] at e
        rw [e]
        exact rows_sized_eraseIdx k m _ _ hinv.1
    · simp at he
  · simp at hb

theorem write_bugs_sized (cell : Cell) (bugs : List (List selection_t))
    (h : ∀ bug ∈ bugs,
      rows_sized (cell.getPort IdString.S).length (cell.getPort IdString.Y).length bug) :
    (∀ v ∈ write_bugs cell bugs, ∃ rows, copy_from_cell v [] = some rows ∧
      amt_sizes v rows.length) ∧
    ∀ c, (write_bugs cell bugs).getLast? = some c →
      c.getPort IdString.S = cell.getPort IdString.S ∧
      c.getPort IdString.Y = cell.getPort IdString.Y := by
  induction bugs generalizing cell with
  | nil => simp [write_bugs]
  | cons bug rest ih =>
    have hS := getPort_copy_to_cell_ne cell bug IdString.S (by decide)
    have hY := getPort_copy_to_cell_ne cell bug IdString.Y (by decide)
    have hb := h bug (List.mem_cons_self _ _)
    obtain ⟨i1, i2⟩ := ih (copy_to_cell cell bug) (by
      intro b hb'
      rw [hS, hY]
      exact h b (List.mem_cons_of_mem _ hb'))
    constructor
    · intro v hv
      simp only [write_bugs, List.mem_cons] at hv
      rcases hv with e | e
      · rw [e]
        exact ⟨bug, (copy_to_cell_sized cell bug hb).1, (copy_to_cell_sized cell bug hb).2⟩
      · exact i1 v e
    · intro c hc
      simp only [write_bugs] at hc
      cases hrest : write_bugs (copy_to_cell cell bug) rest with
      | nil =>
        rw [hrest] at hc
        simp only [List.getLast?_singleton, Option.some.injEq] at hc
        rw [← hc]
        exact ⟨hS, hY⟩
      | cons x xs =>
        rw [hrest, List.getLast?_cons_cons] at hc
        rw [← hrest] at hc
        obtain ⟨j1, j2⟩ := i2 c hc
        exact ⟨j1.trans hS, j2.trans hY⟩

theorem copy_from_cell_length (cell : Cell) (n : Nat) (rows : List selection_t)
    (hsz : amt_sizes cell n) (h : copy_from_cell cell [] = some rows) : rows.length = n := by
  unfold copy_from_cell at h
  obtain ⟨rows', h1, h2, _⟩ := copy_from_cell_loop_some cell _ 0 [] rows h
  simp only [List.nil_append] at h1
  subst h1
  rw [h2, hsz.2, Nat.mul_div_cancel _ (Nat.succ_pos _)]

theorem copy_from_cell_loop_buggy (cell : Cell) (b : Bool) (count i : Nat)
    (acc : List selection_t) :
    copy_from_cell_loop { cell with buggy := b } count i acc
      = copy_from_cell_loop cell count i acc := by
  induction count generalizing i acc with
  | zero => rfl
  | succ count ih =>
    rw [copy_from_cell_loop, copy_from_cell_loop]
    have hd : decode_row { cell with buggy := b } i = decode_row cell i := rfl
    rw [hd]
    split
    · exact ih _ _
    · rfl

theorem copy_from_cell_buggy (cell : Cell) (b : Bool) :
    copy_from_cell { cell with buggy := b } [] = copy_from_cell cell [] :=
  copy_from_cell_loop_buggy cell b _ 0 []

theorem inject_amt_cell_sized (rand : Nat → Nat) (bugs_per_cell calls : Nat) (cell : Cell)
    (n : Nat) (res : amt_result) (hsz : amt_sizes cell n)
    (h : inject_amt_cell rand bugs_per_cell calls cell = some res) :
    (∃ rows, copy_from_cell res.cell [] = some rows ∧ amt_sizes res.cell rows.length) ∧
    ∀ v ∈ res.variants, ∃ rows, copy_from_cell v [] = some rows ∧ amt_sizes v rows.length := by
  unfold inject_amt_cell at h
  split at h
  · simp at h
  · rename_i selections hdec
    split at h
    · simp only [Option.some.injEq] at h
      subst h
      refine ⟨⟨selections, hdec, ?_⟩, by simp⟩
      rw [copy_from_cell_length cell n selections hsz hdec]
      exact hsz
    · split at h
      · simp at h
      · rename_i st hst
        simp only [Option.some.injEq] at h
        subst h
        have hw := copy_from_cell_widths cell selections hdec
        obtain ⟨s1, s2⟩ := amt_bugs_sized rand bugs_per_cell calls _ _ selections st hw hst
        have hmS : ({ cell with buggy := true } : Cell).getPort IdString.S
            = cell.getPort IdString.S := rfl
        have hmY : ({ cell with buggy := true } : Cell).getPort IdString.Y
            = cell.getPort IdString.Y := rfl
        obtain ⟨w1, w2⟩ := write_bugs_sized { cell with buggy := true } st.bugs
          (by rw [hmS, hmY]; exact s2)
        refine ⟨?_, w1⟩
        simp only
        have hlast : ∃ last : Cell,
            (match (write_bugs { cell with buggy := true } st.bugs).getLast? with
              | some c => c
              | none => { cell with buggy := true }) = last ∧
            last.getPort IdString.S = cell.getPort IdString.S ∧
            last.getPort IdString.Y = cell.getPort IdString.Y := by
          cases hl : (write_bugs { cell with buggy := true } st.bugs).getLast? with
          | none => exact ⟨_, rfl, hmS, hmY⟩
          | some c =>
            obtain ⟨j1, j2⟩ := w2 c hl
            exact ⟨c, rfl, j1.trans hmS, j2.trans hmY⟩
        obtain ⟨last, hl, lS, lY⟩ := hlast
        rw [hl]
        obtain ⟨c1, c2⟩ := copy_to_cell_sized last st.selections (by rw [lS, lY]; exact s1)
        exact ⟨st.selections, by rw [copy_from_cell_buggy]; exact c1, c2⟩

/-- C5: AMT size invariant. (a) When `extract_tree` returns, it has left the `$amt`
cells as they were or added exactly one, and the added cell satisfies
`|A| = n * |Y|` and `|STATE_TABLE| = n * (|S| + 1)` for the number `n` of its rows;
(b) every AMT cell `inject_expand` leaves satisfies it; (c) for an AMT cell that
satisfies it, so do the cell `inject_amt` leaves and every variant table `inject_amt`
writes into the cell before serialising. -/
theorem C5_size_invariant :
    (∀ (assign_map : SigMap) (sig2driver : SigSet sig2driver_entry_t) (fuel : Nat)
        (module module' : Module) (wire : Wire),
      (∀ b, assign_map (assign_map b) = assign_map b) →
      extract_tree assign_map sig2driver fuel module wire = some module' →
      module'.amt_cells = module.amt_cells ∨
      ∃ cell rows, module'.amt_cells = module.amt_cells ++ [cell] ∧
        copy_from_cell cell [] = some rows ∧ amt_sizes cell rows.length) ∧
    (∀ (ct : CellTypes) (assign_map : SigMap) (sig2driver : SigSet Cell) (fuel : Nat)
        (amt_cell cell' : Cell),
      expand_amt ct assign_map sig2driver fuel amt_cell = some cell' →
      ∃ rows, copy_from_cell cell' [] = some rows ∧ amt_sizes cell' rows.length) ∧
    (∀ (rand : Nat → Nat) (bugs_per_cell calls : Nat) (cell : Cell) (n : Nat)
        (res : amt_result),
      amt_sizes cell n → inject_amt_cell rand bugs_per_cell calls cell = some res →
      (∃ rows, copy_from_cell res.cell [] = some rows ∧ amt_sizes res.cell rows.length) ∧
      ∀ v ∈ res.variants, ∃ rows, copy_from_cell v [] = some rows ∧
        amt_sizes v rows.length) := by
  refine ⟨?_, ?_, ?_⟩
  · intro assign_map sig2driver fuel module module' wire hmap h
    cases habs : abstract_tree module assign_map sig2driver
        (assign_map.apply wire.sig) fuel (assign_map.apply wire.sig) ⟨[], [], [], []⟩ with
    | none =>
      unfold extract_tree at h
      simp [habs] at h
    | some r =>
      obtain ⟨ok, st⟩ := r
      cases ok with
      | false =>
        rw [extract_tree_failed _ _ _ _ _ st habs] at h
        left
        rw [← Option.some.inj h]
      | true =>
        by_cases hn : st.selections.length < 4
        · rw [extract_tree_small _ _ _ _ _ st habs hn] at h
          left
          rw [← Option.some.inj h]
        · obtain ⟨m, cell, rows, h1, h2, _, h4, _, h6⟩ :=
            extract_tree_creates assign_map sig2driver fuel module wire st hmap habs (by omega)
          rw [h1] at h
          right
          rw [← Option.some.inj h]
          exact ⟨cell, rows, h2, h4, h6⟩
  · intro ct assign_map sig2driver fuel amt_cell cell' h
    obtain ⟨original, st, _, _, _, _, h5, h6⟩ :=
      expand_amt_spec ct assign_map sig2driver fuel amt_cell cell' h
    exact ⟨_, h5, h6⟩
  · intro rand bugs_per_cell calls cell n res hsz h
    exact inject_amt_cell_sized rand bugs_per_cell calls cell n res hsz h

set_option maxRecDepth 100000 in
/-- Witness of C5 on the sample cells: the cell `inject_expand` leaves for
`not_amt_cell`, and the cell and the variants `inject_amt` produces for it with a
`rand()` that always returns 0. -/
theorem C5_size_invariant_witness :
    (∃ cell', expand_amt ct_internals id not_drivers 10 not_amt_cell = some cell' ∧
      ∃ rows, copy_from_cell cell' [] = some rows ∧ amt_sizes cell' rows.length) ∧
    (∃ res, inject_amt_cell (fun _ => 0) 1 0 not_amt_cell = some res ∧
      res.variants.length = 9 ∧
      (∃ rows, copy_from_cell res.cell [] = some rows ∧ amt_sizes res.cell rows.length) ∧
      ∀ v ∈ res.variants, ∃ rows, copy_from_cell v [] = some rows ∧
        amt_sizes v rows.length) := by
  constructor
  · have h : expand_amt ct_internals id not_drivers 10 not_amt_cell
        = some (expand_finish not_amt_cell (not_amt_cell.getPort IdString.S) not_rows
          ⟨[SigBit.wire 1 0, SigBit.wire 20 0],
            [⟨[State.S0, State.S1], const2 3, false⟩,
              ⟨[State.S1, State.S0], const2 1, false⟩]⟩) := by decide
    exact ⟨_, h, C5_size_invariant.2.1 ct_internals id not_drivers 10 not_amt_cell _ h⟩
  · cases hres : inject_amt_cell (fun _ => 0) 1 0 not_amt_cell with
    | none => exact absurd hres (by decide)
    | some res =>
      have hlen : (inject_amt_cell (fun _ => 0) 1 0 not_amt_cell).map
          (fun r => r.variants.length) = some 9 := by decide
      rw [hres] at hlen
      have h := C5_size_invariant.2.2 (fun _ => 0) 1 0 not_amt_cell 4 res (by decide) hres
      exact ⟨res, rfl, by simpa using hlen, h.1, h.2⟩

/-! ## Expansion keeps the AMT -/

theorem filtered_selections_sublist (original_select select : SigSpec)
    (original selections : List selection_t) :
    (filtered_selections original_select select original selections).Sublist original := by
  unfold filtered_selections
  exact List.filter_sublist _

/-- The loop over the worklist is left at the first merge that leaves more than 100
rows: the cells after it are not looked at. -/
theorem merge_worklist_abort (ct : CellTypes) (assign_map : SigMap) (cell : Cell)
    (rest : List Cell) (st st' : expand_state)
    (h : merge_cell ct assign_map cell st = some (st', true))
    (hlen : st'.selections.length > 100) :
    merge_worklist ct assign_map (cell :: rest) st = some st' := by
  simp only [merge_worklist, h, hlen, and_self, if_true]

/-- The loop over the worklists is left after a worklist that leaves more than 100
rows: no further worklist is computed. -/
theorem expand_loop_abort (ct : CellTypes) (assign_map : SigMap) (sig2driver : SigSet Cell)
    (fuel position : Nat) (st st' : expand_state)
    (hne : (find_worklist sig2driver (assign_map.apply (st.select.drop position))).isEmpty = false)
    (h : merge_worklist ct assign_map
      (find_worklist sig2driver (assign_map.apply (st.select.drop position))) st = some st')
    (hlen : st'.selections.length > 100) :
    expand_loop ct assign_map sig2driver (fuel + 1) position st = some st' := by
  simp only [expand_loop, hne, h, hlen, if_true, Bool.false_eq_true, if_false]

/-- C11: expansion never corrupts an AMT. Whenever the body of `inject_expand` for an
AMT cell completes, on the path that ends with an empty worklist as well as on the
abort, the cell written has the S port and the Y port of the original cell, its table
encodes an order-preserving sub-list of the original rows, and its A port is the
concatenation of the outputs of exactly those rows. The abort: as soon as the merge of
a driver leaves more than 100 rows, the loop over the worklist returns with that table
whatever cells follow, and the loop over the worklists returns with it without
computing a further worklist. -/
theorem C11_expansion_keeps_amt (ct : CellTypes) (assign_map : SigMap)
    (sig2driver : SigSet Cell) :
    (∀ (fuel : Nat) (amt_cell cell' : Cell),
      expand_amt ct assign_map sig2driver fuel amt_cell = some cell' →
      ∃ original kept, copy_from_cell amt_cell [] = some original ∧
        kept.Sublist original ∧
        cell'.getPort IdString.S = amt_cell.getPort IdString.S ∧
        cell'.getPort IdString.Y = amt_cell.getPort IdString.Y ∧
        cell'.STATE_TABLE = table_bits kept ∧
        cell'.getPort IdString.A = new_input kept ∧
        copy_from_cell cell' [] = some kept) ∧
    (∀ (cell : Cell) (rest : List Cell) (st st' : expand_state),
      merge_cell ct assign_map cell st = some (st', true) →
      st'.selections.length > 100 →
      merge_worklist ct assign_map (cell :: rest) st = some st') ∧
    (∀ (fuel position : Nat) (st st' : expand_state),
      (find_worklist sig2driver (assign_map.apply (st.select.drop position))).isEmpty = false →
      merge_worklist ct assign_map
        (find_worklist sig2driver (assign_map.apply (st.select.drop position))) st = some st' →
      st'.selections.length > 100 →
      expand_loop ct assign_map sig2driver (fuel + 1) position st = some st') := by
  refine ⟨?_, ?_, ?_⟩
  · intro fuel amt_cell cell' h
    obtain ⟨original, st, h1, h2, h3, h4, h5, _⟩ :=
      expand_amt_spec ct assign_map sig2driver fuel amt_cell cell' h
    have hc : cell' = expand_finish amt_cell (amt_cell.getPort IdString.S) original st := by
      simp only [expand_amt, h1, h2, Option.some.injEq] at h
      exact h.symm
    refine ⟨original, _, h1, filtered_selections_sublist _ st.select original st.selections,
      h3, h4, ?_, ?_, h5⟩
    · rw [hc]
      unfold expand_finish
      rw [table_copy_to_cell]
    · rw [hc]
      unfold expand_finish
      rw [getPort_copy_to_cell_A]
  · intro cell rest st st' h hlen
    exact merge_worklist_abort ct assign_map cell rest st st' h hlen
  · intro fuel position st st' hne h hlen
    exact expand_loop_abort ct assign_map sig2driver fuel position st st' hne h hlen

set_option maxRecDepth 1000000 in
/-- Witness of C11: the cell `inject_expand` writes for `not_amt_cell` in `not_module`,
and the abort on a working table that has 101 rows after the merge of `not_cell`: the
cell that follows in the worklist is not merged. -/
theorem C11_expansion_keeps_amt_witness :
    (∃ original kept, copy_from_cell not_amt_cell [] = some original ∧
      kept.Sublist original ∧
      (expand_finish not_amt_cell (not_amt_cell.getPort IdString.S) not_rows
        ⟨[SigBit.wire 1 0, SigBit.wire 20 0],
          [⟨[State.S0, State.S1], const2 3, false⟩,
            ⟨[State.S1, State.S0], const2 1, false⟩]⟩).getPort IdString.S
        = not_amt_cell.getPort IdString.S ∧
      (expand_finish not_amt_cell (not_amt_cell.getPort IdString.S) not_rows
        ⟨[SigBit.wire 1 0, SigBit.wire 20 0],
          [⟨[State.S0, State.S1], const2 3, false⟩,
            ⟨[State.S1, State.S0], const2 1, false⟩]⟩).getPort IdString.Y
        = not_amt_cell.getPort IdString.Y ∧
      (expand_finish not_amt_cell (not_amt_cell.getPort IdString.S) not_rows
        ⟨[SigBit.wire 1 0, SigBit.wire 20 0],
          [⟨[State.S0, State.S1], const2 3, false⟩,
            ⟨[State.S1, State.S0], const2 1, false⟩]⟩).STATE_TABLE = table_bits kept ∧
      (expand_finish not_amt_cell (not_amt_cell.getPort IdString.S) not_rows
        ⟨[SigBit.wire 1 0, SigBit.wire 20 0],
          [⟨[State.S0, State.S1], const2 3, false⟩,
            ⟨[State.S1, State.S0], const2 1, false⟩]⟩).getPort IdString.A = new_input kept ∧
      copy_from_cell (expand_finish not_amt_cell (not_amt_cell.getPort IdString.S) not_rows
        ⟨[SigBit.wire 1 0, SigBit.wire 20 0],
          [⟨[State.S0, State.S1], const2 3, false⟩,
            ⟨[State.S1, State.S0], const2 1, false⟩]⟩) [] = some kept) ∧
    merge_cell ct_internals id not_cell rows101 = some (rows101, true) ∧
    rows101.selections.length > 100 ∧
    merge_worklist ct_internals id [not_cell, not_cell] rows101 = some rows101 :=
  ⟨(C11_expansion_keeps_amt ct_internals id not_drivers).1 10 not_amt_cell _ (by decide),
    by decide, by decide,
    (C11_expansion_keeps_amt ct_internals id not_drivers).2.1 not_cell [not_cell] rows101
      rows101 (by decide) (by decide)⟩

/-! ## The width limit of the expander -/

set_option maxRecDepth 100000 in
/-- Counterexample to C12 as stated: the `$and` cell `and_cell 8` has input ports of
8 + 8 = 16 bits, more than 8. Of its output bits only `y[0]` is a selector bit, the
input the expander builds for the cell is `(b[0], a[0])`, and the cell is merged: the
selector becomes `(y[0], b[0], a[0])`. -/
theorem C12_counterexample :
    ((and_cell 8).getPort IdString.A).length + ((and_cell 8).getPort IdString.B).length = 16 ∧
    driver_input ct_internals id (and_cell 8) [SigBit.wire 20 0]
      = some ([SigBit.wire 3 0, SigBit.wire 1 0], SigSpec.of_wire 20 8) ∧
    merge_cell ct_internals id (and_cell 8)
        ⟨[SigBit.wire 20 0], [⟨[State.S0], [SigBit.const State.S1], false⟩,
          ⟨[State.S1], [SigBit.const State.S0], false⟩]⟩
      = some (⟨[SigBit.wire 20 0, SigBit.wire 3 0, SigBit.wire 1 0],
          [⟨[State.S0, State.Sa, State.S0], [SigBit.const State.S1], false⟩,
           ⟨[State.S0, State.S0, State.S1], [SigBit.const State.S1], false⟩,
           ⟨[State.S1, State.S1, State.S1], [SigBit.const State.S0], false⟩]⟩, true) := by
  refine ⟨by decide, by decide, by decide⟩

/-- C12 (amended): the width limit of the expander applies to the input signal the
expander builds for the candidate driver (`cell_input`: the distinct input bits of the
cell, for `$and`, `$or` and `$not` only those at the positions that belong to output
bits which are selector bits, constant bits removed). The cell is skipped, the selector
and the table staying as they are, exactly when that signal has more than 8 bits; a
merge that completes has a signal of at most 8 bits, and it extends the selector by the
bits of the signal that are not selector bits yet. -/
theorem C12_width_limit (ct : CellTypes) (assign_map : SigMap) (cell : Cell)
    (st : expand_state) (cell_input full_output : SigSpec)
    (h : driver_input ct assign_map cell st.select = some (cell_input, full_output)) :
    (merge_cell ct assign_map cell st = some (st, false) ↔ cell_input.length > 8) ∧
    ∀ st' merged, merge_cell ct assign_map cell st = some (st', merged) →
      (merged = true ↔ cell_input.length ≤ 8) ∧
      (merged = true → st'.select = add_select cell_input st.select) := by
  unfold merge_cell
  simp only [h]
  by_cases hw : cell_input.length > 8
  · simp only [hw, if_true, true_iff, iff_true]
    refine ⟨trivial, ?_⟩
    intro st' merged hm
    simp only [Option.some.injEq, Prod.mk.injEq] at hm
    rw [← hm.2]
    simp
    omega
  · simp only [hw, if_false, iff_false]
    have hmerged : ∀ st' merged,
        (match truth_table ct assign_map cell cell_input (full_output.extract_pattern st.select)
            full_output (List.range (2 ^ cell_input.length)) with
          | none => none
          | some truth_tab =>
            match expand_rows st.select (add_select cell_input st.select) cell_input
                (full_output.extract_pattern st.select)
                (minimize cell_input.length truth_tab.length truth_tab) st.selections with
            | none => none
            | some selections =>
              some ((⟨add_select cell_input st.select, selections⟩ : expand_state), true))
          = some (st', merged) →
        merged = true ∧ st'.select = add_select cell_input st.select := by
      intro st' merged hm
      split at hm
      · simp at hm
      · split at hm
        · simp at hm
        · simp only [Option.some.injEq, Prod.mk.injEq] at hm
          exact ⟨hm.2.symm, by rw [← hm.1]⟩
    refine ⟨?_, ?_⟩
    · intro hm
      have := (hmerged st false hm).1
      simp at this
    · intro st' merged hm
      obtain ⟨h1, h2⟩ := hmerged st' merged hm
      exact ⟨⟨fun _ => by omega, fun _ => h1⟩, fun _ => h2⟩

set_option maxRecDepth 1000000 in
/-- Witness of C12 (amended): `and_cell 8` with one output bit in the selector (2 input
bits) and `and_cell 4` with all output bits in the selector (8 input bits) are merged,
`and_cell 5` with all output bits in the selector (10 input bits) is skipped. -/
theorem C12_width_limit_witness :
    ((merge_cell ct_internals id (and_cell 8) (dont_care_table [SigBit.wire 20 0])
        = some (dont_care_table [SigBit.wire 20 0], false)
      ↔ ([SigBit.wire 3 0, SigBit.wire 1 0] : SigSpec).length > 8) ∧
    ∀ st' merged, merge_cell ct_internals id (and_cell 8) (dont_care_table [SigBit.wire 20 0])
        = some (st', merged) →
      (merged = true ↔ ([SigBit.wire 3 0, SigBit.wire 1 0] : SigSpec).length ≤ 8) ∧
      (merged = true → st'.select = add_select [SigBit.wire 3 0, SigBit.wire 1 0]
        (dont_care_table [SigBit.wire 20 0]).select)) ∧
    (merge_cell ct_internals id (and_cell 4) (dont_care_table (SigSpec.of_wire 20 4))).map
      (fun r => (r.2, r.1.select.length)) = some (true, 12) ∧
    merge_cell ct_internals id (and_cell 5) (dont_care_table (SigSpec.of_wire 20 5))
      = some (dont_care_table (SigSpec.of_wire 20 5), false) :=
  ⟨C12_width_limit ct_internals id (and_cell 8) (dont_care_table [SigBit.wire 20 0])
      [SigBit.wire 3 0, SigBit.wire 1 0] (SigSpec.of_wire 20 8) (by decide),
    by decide, by decide⟩

/-! ## The variants of the AMT injector -/

theorem unsetConn_of_no_key (l : List (IdString × SigSpec)) (p : IdString)
    (h : ∀ c ∈ l, c.1 ≠ p) : unsetConn l p = l := by
  induction l with
  | nil => rfl
  | cons c rest ih =>
    rw [unsetConn, if_neg (h c (List.mem_cons_self _ _)),
      ih (fun c hc => h c (List.mem_cons_of_mem _ hc))]

theorem unsetConn_no_key (l : List (IdString × SigSpec)) (p : IdString) :
    ∀ c ∈ unsetConn l p, c.1 ≠ p := by
  induction l with
  | nil => simp [unsetConn]
  | cons c rest ih =>
    rw [unsetConn]
    split
    · exact ih
    · rename_i hne
      intro x hx
      rcases List.mem_cons.mp hx with e | e
      · rw [e]; exact hne
      · exact ih x e

theorem unsetConn_setConn (l : List (IdString × SigSpec)) (p : IdString) (sig : SigSpec)
    (h : ∀ c ∈ l, c.1 ≠ p) : unsetConn (setConn l p sig) p = l := by
  induction l with
  | nil => simp [setConn, unsetConn]
  | cons c rest ih =>
    have hc := h c (List.mem_cons_self _ _)
    rw [setConn, if_neg hc, unsetConn, if_neg hc,
      ih (fun c hc => h c (List.mem_cons_of_mem _ hc))]

/-- A second `copy_to_cell` overwrites what the first wrote. -/
theorem copy_to_cell_copy_to_cell (cell : Cell) (a b : List selection_t) :
    copy_to_cell (copy_to_cell cell a) b = copy_to_cell cell b := by
  simp only [copy_to_cell, Cell.unsetPort, Cell.setPort]
  rw [unsetConn_setConn _ _ _ (unsetConn_no_key _ _)]

theorem write_bugs_eq_map (cell : Cell) (bugs : List (List selection_t)) :
    write_bugs cell bugs = bugs.map (copy_to_cell cell) := by
  induction bugs generalizing cell with
  | nil => rfl
  | cons bug rest ih =>
    rw [write_bugs, ih, List.map_cons, List.map_congr_left]
    intro x _
    exact copy_to_cell_copy_to_cell cell bug x

theorem mutate_bits_append (rand : Nat → Nat) (bugs_per_cell i : Nat) (xs ys : List Nat)
    (st : amt_state) :
    mutate_bits rand bugs_per_cell i (xs ++ ys) st
      = mutate_bits rand bugs_per_cell i ys (mutate_bits rand bugs_per_cell i xs st) := by
  induction xs generalizing st with
  | nil => rfl
  | cons x rest ih => exact ih _

theorem mutate_rows_append (rand : Nat → Nat) (bugs_per_cell : Nat) (xs ys : List Nat)
    (st : amt_state) :
    mutate_rows rand bugs_per_cell (xs ++ ys) st
      = mutate_rows rand bugs_per_cell ys (mutate_rows rand bugs_per_cell xs st) := by
  induction xs generalizing st with
  | nil => rfl
  | cons x rest ih => exact ih _

theorem range_split (n i : Nat) (h : i < n) :
    List.range n = List.range i ++ i :: (List.range n).drop (i + 1) := by
  have h1 : (List.range n).take i = List.range i := by
    rw [List.take_range, Nat.min_eq_left (Nat.le_of_lt h)]
  have h2 : (List.range n).drop i = i :: (List.range n).drop (i + 1) := by
    apply drop_eq_cons_of_getElem?
    rw [List.getElem?_range h]
  rw [← h1, ← h2, List.take_append_drop]

theorem set_self_of_getElem? {α : Type} (l : List α) (i : Nat) (a : α)
    (h : l[i]? = some a) : l.set i a = l := by
  induction l generalizing i with
  | nil => rfl
  | cons b rest ih =>
    cases i with
    | zero => simp at h; simp [h]
    | succ i => simp at h; simp [ih i h]

theorem unflag_self (r : selection_t) (h : r.buggy = false) :
    ({ r with buggy := false } : selection_t) = r := by
  cases r
  simp at h
  simp [h]

/-- A step of the loop over the bits leaves a table without flagged rows as it is and
only appends to the list of variants. -/
theorem mutate_bit_inv (rand : Nat → Nat) (bugs_per_cell i j : Nat) (st : amt_state)
    (h : no_buggy st.selections) :
    (mutate_bit rand bugs_per_cell i j st).selections = st.selections ∧
    ∃ more, (mutate_bit rand bugs_per_cell i j st).bugs = st.bugs ++ more := by
  unfold mutate_bit
  split
  · exact ⟨rfl, [], by simp⟩
  · rename_i r hr
    have hb := h r (List.getElem?_mem hr)
    have hset : st.selections.set i { r with buggy := false } = st.selections := by
      rw [unflag_self r hb]
      exact set_self_of_getElem? _ _ _ hr
    split
    · split
      · exact ⟨hset, _, rfl⟩
      · split
        · exact ⟨hset, _, rfl⟩
        · exact ⟨rfl, [], by simp⟩
      · exact ⟨rfl, [], by simp⟩
    · exact ⟨rfl, [], by simp⟩

theorem mutate_bits_inv (rand : Nat → Nat) (bugs_per_cell i : Nat) (js : List Nat)
    (st : amt_state) (h : no_buggy st.selections) :
    (mutate_bits rand bugs_per_cell i js st).selections = st.selections ∧
    ∃ more, (mutate_bits rand bugs_per_cell i js st).bugs = st.bugs ++ more := by
  induction js generalizing st with
  | nil => exact ⟨rfl, [], by simp [mutate_bits]⟩
  | cons j rest ih =>
    obtain ⟨h1, m1, h2⟩ := mutate_bit_inv rand bugs_per_cell i j st h
    obtain ⟨h3, m2, h4⟩ := ih (mutate_bit rand bugs_per_cell i j st) (by rw [h1]; exact h)
    refine ⟨?_, m1 ++ m2, ?_⟩
    · rw [mutate_bits, h3, h1]
    · rw [mutate_bits, h4, h2, List.append_assoc]

theorem mutate_row_inv (rand : Nat → Nat) (bugs_per_cell i : Nat)
    (st : amt_state) (h : no_buggy st.selections) :
    (mutate_row rand bugs_per_cell i st).selections = st.selections ∧
    ∃ more, (mutate_row rand bugs_per_cell i st).bugs = st.bugs ++ more := by
  unfold mutate_row
  split
  · exact ⟨rfl, [], by simp⟩
  · split
    · exact ⟨rfl, [], by simp⟩
    · exact mutate_bits_inv rand bugs_per_cell i _ st h

theorem mutate_rows_inv (rand : Nat → Nat) (bugs_per_cell : Nat) (is : List Nat)
    (st : amt_state) (h : no_buggy st.selections) :
    (mutate_rows rand bugs_per_cell is st).selections = st.selections ∧
    ∃ more, (mutate_rows rand bugs_per_cell is st).bugs = st.bugs ++ more := by
  induction is generalizing st with
  | nil => exact ⟨rfl, [], by simp [mutate_rows]⟩
  | cons i rest ih =>
    obtain ⟨h1, m1, h2⟩ := mutate_row_inv rand bugs_per_cell i st h
    obtain ⟨h3, m2, h4⟩ := ih (mutate_row rand bugs_per_cell i st) (by rw [h1]; exact h)
    refine ⟨?_, m1 ++ m2, ?_⟩
    · rw [mutate_rows, h3, h1]
    · rw [mutate_rows, h4, h2, List.append_assoc]

theorem state_at_selections (rand : Nat → Nat) (bugs_per_cell calls : Nat)
    (rows : List selection_t) (i j : Nat) (h : no_buggy rows) :
    (state_at rand bugs_per_cell calls rows i j).selections = rows := by
  unfold state_at
  obtain ⟨h1, _⟩ := mutate_rows_inv rand bugs_per_cell (List.range i) ⟨rows, [], calls⟩ h
  obtain ⟨h2, _⟩ := mutate_bits_inv rand bugs_per_cell i (List.range j)
    (mutate_rows rand bugs_per_cell (List.range i) ⟨rows, [], calls⟩) (by rw [h1]; exact h)
  rw [h2, h1]

/-- The table and the variants when the loops over the rows and bits have ended, in
terms of the state at bit `j` of row `i`: the table is the original one, the variants
are those collected up to the bit, what the step for the bit appends, and later ones. -/
theorem mutate_rows_at (rand : Nat → Nat) (bugs_per_cell calls : Nat)
    (rows : List selection_t) (i j : Nat) (r : selection_t) (h : no_buggy rows)
    (hr : rows[i]? = some r) (hj : j < r.select.length)
    (hu : r.output.is_fully_undef = false) :
    (mutate_rows rand bugs_per_cell (List.range rows.length) ⟨rows, [], calls⟩).selections
      = rows ∧
    ∃ more, (mutate_rows rand bugs_per_cell (List.range rows.length) ⟨rows, [], calls⟩).bugs
      = (mutate_bit rand bugs_per_cell i j (state_at rand bugs_per_cell calls rows i j)).bugs
        ++ more := by
  have hi : i < rows.length := (List.getElem?_eq_some_iff.mp hr).1
  constructor
  · exact (mutate_rows_inv rand bugs_per_cell _ ⟨rows, [], calls⟩ h).1
  · obtain ⟨rtail, hrt⟩ : ∃ t, List.range rows.length = List.range i ++ i :: t :=
      ⟨_, range_split rows.length i hi⟩
    obtain ⟨btail, hbt⟩ : ∃ t, List.range r.select.length = List.range j ++ j :: t :=
      ⟨_, range_split r.select.length j hj⟩
    rw [hrt, mutate_rows_append, mutate_rows]
    obtain ⟨s1, _⟩ := mutate_rows_inv rand bugs_per_cell (List.range i) ⟨rows, [], calls⟩ h
    have hrow : mutate_row rand bugs_per_cell i
        (mutate_rows rand bugs_per_cell (List.range i) ⟨rows, [], calls⟩)
        = mutate_bits rand bugs_per_cell i btail
          (mutate_bit rand bugs_per_cell i j (state_at rand bugs_per_cell calls rows i j)) := by
      unfold mutate_row
      rw [s1, hr]
      simp only [hu, Bool.false_eq_true, if_false]
      rw [hbt, mutate_bits_append, mutate_bits]
      rfl
    rw [hrow]
    have hsel := state_at_selections rand bugs_per_cell calls rows i j h
    obtain ⟨b1, _⟩ := mutate_bit_inv rand bugs_per_cell i j
      (state_at rand bugs_per_cell calls rows i j) (by rw [hsel]; exact h)
    obtain ⟨c1, m1, c2⟩ := mutate_bits_inv rand bugs_per_cell i btail
      (mutate_bit rand bugs_per_cell i j (state_at rand bugs_per_cell calls rows i j))
      (by rw [b1, hsel]; exact h)
    obtain ⟨_, m2, d2⟩ := mutate_rows_inv rand bugs_per_cell rtail
      (mutate_bits rand bugs_per_cell i btail
        (mutate_bit rand bugs_per_cell i j (state_at rand bugs_per_cell calls rows i j)))
      (by rw [c1, b1, hsel]; exact h)
    exact ⟨m1 ++ m2, by rw [d2, c2, List.append_assoc]⟩
theorem eraseIdx_set_self {α : Type} (l : List α) (i : Nat) (a : α) :
    (l.set i a).eraseIdx i = l.eraseIdx i := by
  induction l generalizing i with
  | nil => rfl
  | cons b rest ih =>
    cases i with
    | zero => rfl
    | succ i => simp [ih i]

/-- What the body of the loop for one `$amt` cell with at least 4 rows produces, in
terms of the list of variants: each variant is written into the marked cell, and the
table left after the loops is written back at the end. -/
theorem inject_amt_cell_some (rand : Nat → Nat) (bugs_per_cell calls : Nat) (cell : Cell)
    (rows : List selection_t) (res : amt_result)
    (hdec : copy_from_cell cell [] = some rows) (hn : 4 ≤ rows.length)
    (h : inject_amt_cell rand bugs_per_cell calls cell = some res) :
    ∃ st, amt_bugs rand bugs_per_cell calls rows = some st ∧
      res.variants = st.bugs.map (copy_to_cell { cell with buggy := true }) ∧
      res.cell = { copy_to_cell { cell with buggy := true } st.selections with buggy := false } ∧
      res.calls = st.calls := by
  unfold inject_amt_cell at h
  rw [hdec] at h
  simp only [show ¬ rows.length < 4 by omega, if_false] at h
  split at h
  · simp at h
  · rename_i st hst
    simp only [Option.some.injEq] at h
    subst h
    refine ⟨st, hst, write_bugs_eq_map _ _, ?_, rfl⟩
    simp only [write_bugs_eq_map]
    cases hl : (st.bugs.map (copy_to_cell { cell with buggy := true })).getLast? with
    | none => rfl
    | some c =>
      simp only
      obtain ⟨bug, _, hb⟩ := List.mem_map.mp (List.mem_of_getLast?_eq_some hl)
      rw [← hb, copy_to_cell_copy_to_cell]

/-- The table and the variants `amt_bugs` returns, for a table without flagged rows, in
terms of the state at bit `j` of row `i`. -/
theorem amt_bugs_at (rand : Nat → Nat) (bugs_per_cell calls : Nat)
    (rows : List selection_t) (i j : Nat) (r : selection_t) (st : amt_state)
    (h : no_buggy rows) (hr : rows[i]? = some r) (hj : j < r.select.length)
    (hu : r.output.is_fully_undef = false)
    (hst : amt_bugs rand bugs_per_cell calls rows = some st) :
    st.selections = rows ∧
    ∃ more, st.bugs
      = (mutate_bit rand bugs_per_cell i j (state_at rand bugs_per_cell calls rows i j)).bugs
        ++ more := by
  obtain ⟨h1, m, h2⟩ := mutate_rows_at rand bugs_per_cell calls rows i j r h hr hj hu
  unfold amt_bugs add_removal at hst
  split at hst
  · rename_i erased _
    simp only [Option.some.injEq] at hst
    subst hst
    exact ⟨h1, m ++ [erased], by simp only [h2, List.append_assoc]⟩
  · simp at hst

/-- The step for a chosen bit that is 0 or 1: the generalisation variant is appended. -/
theorem mutate_bit_generalise (rand : Nat → Nat) (bugs_per_cell i j : Nat) (st : amt_state)
    (r : selection_t) (bit : State) (hr : st.selections[i]? = some r)
    (hbit : r.select[j]? = some bit) (h01 : bit = State.S0 ∨ bit = State.S1)
    (hch : rand st.calls % one_in st.selections.length r.select.length bugs_per_cell = 0) :
    (mutate_bit rand bugs_per_cell i j st).bugs = st.bugs ++
      [⟨r.select.set j State.Sa, r.output, true⟩
        :: (st.selections.take i ++ st.selections.drop (i + 1))] := by
  unfold mutate_bit
  rw [hr]
  simp only [hch, if_true, hbit]
  rcases h01 with e | e
  · subst e
    simp only [true_or, if_true, eraseIdx_set_self]
    rw [List.eraseIdx_eq_take_drop_succ]
  · subst e
    simp only [or_true, if_true, eraseIdx_set_self]
    rw [List.eraseIdx_eq_take_drop_succ]

/-- The step for a chosen don't-care bit: the specialisation variant is appended. -/
theorem mutate_bit_specialise (rand : Nat → Nat) (bugs_per_cell i j : Nat) (st : amt_state)
    (r : selection_t) (hr : st.selections[i]? = some r)
    (hbit : r.select[j]? = some State.Sa)
    (hch : rand st.calls % one_in st.selections.length r.select.length bugs_per_cell = 0) :
    (mutate_bit rand bugs_per_cell i j st).bugs = st.bugs ++
      [st.selections.set i
        ⟨r.select.set j (if rand (st.calls + 1) % 2 = 1 then State.S1 else State.S0),
          r.output, true⟩] := by
  unfold mutate_bit
  rw [hr]
  simp only [hch, if_true, hbit]

theorem chosen_spec (rand : Nat → Nat) (bugs_per_cell calls : Nat) (rows : List selection_t)
    (i j : Nat) (r : selection_t) (hr : rows[i]? = some r) (h : no_buggy rows)
    (hch : chosen rand bugs_per_cell calls rows i j = true) :
    rand (state_at rand bugs_per_cell calls rows i j).calls
      % one_in (state_at rand bugs_per_cell calls rows i j).selections.length
        r.select.length bugs_per_cell = 0 := by
  unfold chosen at hch
  rw [hr] at hch
  rw [state_at_selections rand bugs_per_cell calls rows i j h]
  simpa using hch

/-- The variant with the index `idx` in the list of variants is written as a cell whose
table and A port encode it, and which decodes to it. -/
theorem variant_written (cell : Cell) (res : amt_result) (st : amt_state) (idx : Nat)
    (bug : List selection_t)
    (hv : res.variants = st.bugs.map (copy_to_cell { cell with buggy := true }))
    (hidx : st.bugs[idx]? = some bug)
    (hsz : rows_sized (cell.getPort IdString.S).length (cell.getPort IdString.Y).length bug) :
    ∃ v, res.variants[idx]? = some v ∧ copy_from_cell v [] = some bug ∧
      v.STATE_TABLE = table_bits bug ∧ v.getPort IdString.A = new_input bug ∧
      v.getPort IdString.S = cell.getPort IdString.S ∧
      v.getPort IdString.Y = cell.getPort IdString.Y ∧ v.buggy = true := by
  refine ⟨copy_to_cell { cell with buggy := true } bug, ?_, ?_, ?_, ?_, ?_, ?_, ?_⟩
  · rw [hv, List.getElem?_map, hidx]
    rfl
  · exact (copy_to_cell_sized { cell with buggy := true } bug hsz).1
  · exact table_copy_to_cell _ _
  · exact getPort_copy_to_cell_A _ _
  · exact getPort_copy_to_cell_ne _ _ _ (by decide)
  · exact getPort_copy_to_cell_ne _ _ _ (by decide)
  · rfl
theorem rows_sized_variant (k m : Nat) (rows : List selection_t) (i j : Nat)
    (r : selection_t) (bit : State) (hw : rows_sized k m rows) (hr : rows[i]? = some r) :
    rows_sized k m (⟨r.select.set j bit, r.output, true⟩ :: (rows.take i ++ rows.drop (i + 1)))
    ∧ rows_sized k m (rows.set i ⟨r.select.set j bit, r.output, true⟩) := by
  have hrk := hw r (List.getElem?_mem hr)
  have hmut : (⟨r.select.set j bit, r.output, true⟩ : selection_t).select.length = k ∧
      (⟨r.select.set j bit, r.output, true⟩ : selection_t).output.length = m :=
    ⟨by simp [hrk.1], hrk.2⟩
  constructor
  · intro x hx
    rcases List.mem_cons.mp hx with e | e
    · rw [e]; exact hmut
    · rcases List.mem_append.mp e with e' | e'
      · exact hw x (List.mem_of_mem_take e')
      · exact hw x (List.mem_of_mem_drop e')
  · exact rows_sized_set k m rows i _ hw hmut

/-- C13: the generalisation variant of `inject_amt`. For an `$amt` cell whose table
decodes to the rows `r_0 .. r_(n-1)` with `n >= 4` and no row flagged buggy, a row `i`
whose output is not fully undefined and a bit `j` of its pattern that is 0 or 1: when
the test `rand() % one_in == 0` succeeds as the loop reaches the bit, the pass writes a
variant (it is the next one in the order of emission) whose table is
`[r_i', r_0, .., r_(i-1), r_(i+1), .., r_(n-1)]`, where `r_i'` is `r_i` with bit `j`
set to don't-care and the buggy flag set. The variant has `n` rows; the entry at index
`i` of the original table is dropped (when the original rows are pairwise distinct,
`r_i` is no member of the variant); the other rows are unchanged and in their order. -/
theorem C13_generalisation_variant (rand : Nat → Nat) (bugs_per_cell calls : Nat)
    (cell : Cell) (rows : List selection_t) (i j : Nat) (r : selection_t) (bit : State)
    (res : amt_result)
    (hdec : copy_from_cell cell [] = some rows) (hn : 4 ≤ rows.length) (hnb : no_buggy rows)
    (hr : rows[i]? = some r) (hu : r.output.is_fully_undef = false)
    (hbit : r.select[j]? = some bit) (h01 : bit = State.S0 ∨ bit = State.S1)
    (hch : chosen rand bugs_per_cell calls rows i j = true)
    (h : inject_amt_cell rand bugs_per_cell calls cell = some res) :
    ∃ v, res.variants[(state_at rand bugs_per_cell calls rows i j).bugs.length]? = some v ∧
      copy_from_cell v [] = some
        (⟨r.select.set j State.Sa, r.output, true⟩ :: (rows.take i ++ rows.drop (i + 1))) ∧
      v.STATE_TABLE = table_bits
        (⟨r.select.set j State.Sa, r.output, true⟩ :: (rows.take i ++ rows.drop (i + 1))) ∧
      v.getPort IdString.A = new_input
        (⟨r.select.set j State.Sa, r.output, true⟩ :: (rows.take i ++ rows.drop (i + 1))) ∧
      ((⟨r.select.set j State.Sa, r.output, true⟩ : selection_t)
        :: (rows.take i ++ rows.drop (i + 1))).length = rows.length ∧
      (rows.Nodup → r ∉ ((⟨r.select.set j State.Sa, r.output, true⟩ : selection_t)
        :: (rows.take i ++ rows.drop (i + 1)))) := by
  have hi : i < rows.length := (List.getElem?_eq_some_iff.mp hr).1
  have hj : j < r.select.length := (List.getElem?_eq_some_iff.mp hbit).1
  obtain ⟨st, hst, hv, _, _⟩ := inject_amt_cell_some rand bugs_per_cell calls cell rows res hdec hn h
  obtain ⟨_, more, hbugs⟩ := amt_bugs_at rand bugs_per_cell calls rows i j r st hnb hr hj hu hst
  have hsel := state_at_selections rand bugs_per_cell calls rows i j hnb
  have hstep := mutate_bit_generalise rand bugs_per_cell i j
    (state_at rand bugs_per_cell calls rows i j) r bit (by rw [hsel]; exact hr) hbit h01
    (chosen_spec rand bugs_per_cell calls rows i j r hr hnb hch)
  rw [hsel] at hstep
  have hidx : st.bugs[(state_at rand bugs_per_cell calls rows i j).bugs.length]? = some
      (⟨r.select.set j State.Sa, r.output, true⟩ :: (rows.take i ++ rows.drop (i + 1))) := by
    rw [hbugs, hstep, List.append_assoc, List.getElem?_append_right (le_refl _)]
    simp
  have hw := copy_from_cell_widths cell rows hdec
  obtain ⟨v, v1, v2, v3, v4, _⟩ := variant_written cell res st _ _ hv hidx
    (rows_sized_variant _ _ rows i j r State.Sa hw hr).1
  refine ⟨v, v1, v2, v3, v4, ?_, ?_⟩
  · simp only [List.length_cons, List.length_append, List.length_take, List.length_drop]
    omega
  · intro hnd hmem
    have hsplit : rows = rows.take i ++ r :: rows.drop (i + 1) := by
      rw [← drop_eq_cons_of_getElem? rows i r hr, List.take_append_drop]
    have hnd' : (rows.take i ++ r :: rows.drop (i + 1)).Nodup := by
      rw [← hsplit]
      exact hnd
    rw [List.nodup_middle, List.nodup_cons] at hnd'
    rcases List.mem_cons.mp hmem with e | e
    · have hb := hnb r (List.getElem?_mem hr)
      rw [e] at hb
      simp at hb
    · exact hnd'.1 e

/-- C14: the specialisation variant of `inject_amt`. For an `$amt` cell whose table
decodes to `n >= 4` rows with no row flagged buggy, a row `i` whose output is not fully
undefined and a don't-care bit `j` of its pattern: when the test
`rand() % one_in == 0` succeeds as the loop reaches the bit, the pass writes a variant
(the next one in the order of emission) whose table is the original table except that
the row at index `i` has bit `j` equal to 0 or 1 (the parity of the next `rand()`) and
its buggy flag set; the other rows, the other bits of row `i` and the order of the rows
are those of the original table. -/
theorem C14_specialisation_variant (rand : Nat → Nat) (bugs_per_cell calls : Nat)
    (cell : Cell) (rows : List selection_t) (i j : Nat) (r : selection_t)
    (res : amt_result)
    (hdec : copy_from_cell cell [] = some rows) (hn : 4 ≤ rows.length) (hnb : no_buggy rows)
    (hr : rows[i]? = some r) (hu : r.output.is_fully_undef = false)
    (hbit : r.select[j]? = some State.Sa)
    (hch : chosen rand bugs_per_cell calls rows i j = true)
    (h : inject_amt_cell rand bugs_per_cell calls cell = some res) :
    ∃ v bit, (bit = State.S0 ∨ bit = State.S1) ∧
      res.variants[(state_at rand bugs_per_cell calls rows i j).bugs.length]? = some v ∧
      copy_from_cell v [] = some (rows.set i ⟨r.select.set j bit, r.output, true⟩) ∧
      v.STATE_TABLE = table_bits (rows.set i ⟨r.select.set j bit, r.output, true⟩) ∧
      v.getPort IdString.A = new_input (rows.set i ⟨r.select.set j bit, r.output, true⟩) ∧
      (rows.set i ⟨r.select.set j bit, r.output, true⟩).length = rows.length ∧
      (∀ i', i' ≠ i → (rows.set i ⟨r.select.set j bit, r.output, true⟩)[i']? = rows[i']?) ∧
      (rows.set i ⟨r.select.set j bit, r.output, true⟩)[i]?
        = some ⟨r.select.set j bit, r.output, true⟩ ∧
      (∀ j', j' ≠ j → (r.select.set j bit)[j']? = r.select[j']?) ∧
      (r.select.set j bit)[j]? = some bit := by
  have hi : i < rows.length := (List.getElem?_eq_some_iff.mp hr).1
  have hj : j < r.select.length := (List.getElem?_eq_some_iff.mp hbit).1
  obtain ⟨st, hst, hv, _, _⟩ := inject_amt_cell_some rand bugs_per_cell calls cell rows res hdec hn h
  obtain ⟨_, more, hbugs⟩ := amt_bugs_at rand bugs_per_cell calls rows i j r st hnb hr hj hu hst
  have hsel := state_at_selections rand bugs_per_cell calls rows i j hnb
  have hstep := mutate_bit_specialise rand bugs_per_cell i j
    (state_at rand bugs_per_cell calls rows i j) r (by rw [hsel]; exact hr) hbit
    (chosen_spec rand bugs_per_cell calls rows i j r hr hnb hch)
  rw [hsel] at hstep
  generalize hb : (if rand ((state_at rand bugs_per_cell calls rows i j).calls + 1) % 2 = 1
    then State.S1 else State.S0) = bit at hstep
  have hbit01 : bit = State.S0 ∨ bit = State.S1 := by
    rw [← hb]
    split
    · exact Or.inr rfl
    · exact Or.inl rfl
  have hidx : st.bugs[(state_at rand bugs_per_cell calls rows i j).bugs.length]? = some
      (rows.set i ⟨r.select.set j bit, r.output, true⟩) := by
    rw [hbugs, hstep, List.append_assoc, List.getElem?_append_right (le_refl _)]
    simp
  have hw := copy_from_cell_widths cell rows hdec
  obtain ⟨v, v1, v2, v3, v4, _⟩ := variant_written cell res st _ _ hv hidx
    (rows_sized_variant _ _ rows i j r bit hw hr).2
  refine ⟨v, bit, hbit01, v1, v2, v3, v4, by simp, ?_, ?_, ?_, ?_⟩
  · intro i' hne
    rw [List.getElem?_set_ne (Ne.symm hne)]
  · rw [List.getElem?_set_self hi]
  · intro j' hne
    rw [List.getElem?_set_ne (Ne.symm hne)]
  · rw [List.getElem?_set_self hj]
set_option maxRecDepth 100000 in
/-- Witness of C13 on `not_amt_cell` with a `rand()` that always returns 0 (every bit is
chosen): bit 0 of row 1, `01 -> 3`. Two variants precede, those of the bits of row 0. -/
theorem C13_generalisation_variant_witness :
    (state_at (fun _ => 0) 1 0 not_rows 1 0).bugs.length = 2 ∧
    ∃ res, inject_amt_cell (fun _ => 0) 1 0 not_amt_cell = some res ∧
    ∃ v, res.variants[(state_at (fun _ => 0) 1 0 not_rows 1 0).bugs.length]? = some v ∧
      copy_from_cell v [] = some
        (⟨[State.S0, State.S1].set 0 State.Sa, const2 3, true⟩
          :: (not_rows.take 1 ++ not_rows.drop (1 + 1))) ∧
      v.STATE_TABLE = table_bits
        (⟨[State.S0, State.S1].set 0 State.Sa, const2 3, true⟩
          :: (not_rows.take 1 ++ not_rows.drop (1 + 1))) ∧
      v.getPort IdString.A = new_input
        (⟨[State.S0, State.S1].set 0 State.Sa, const2 3, true⟩
          :: (not_rows.take 1 ++ not_rows.drop (1 + 1))) ∧
      ((⟨[State.S0, State.S1].set 0 State.Sa, const2 3, true⟩ : selection_t)
        :: (not_rows.take 1 ++ not_rows.drop (1 + 1))).length = not_rows.length ∧
      (not_rows.Nodup → (⟨[State.S0, State.S1], const2 3, false⟩ : selection_t) ∉
        ((⟨[State.S0, State.S1].set 0 State.Sa, const2 3, true⟩ : selection_t)
          :: (not_rows.take 1 ++ not_rows.drop (1 + 1)))) := by
  refine ⟨by decide, ?_⟩
  cases hres : inject_amt_cell (fun _ => 0) 1 0 not_amt_cell with
  | none => exact absurd hres (by decide)
  | some res =>
    exact ⟨res, rfl, C13_generalisation_variant (fun _ => 0) 1 0 not_amt_cell not_rows 1 0
      ⟨[State.S0, State.S1], const2 3, false⟩ State.S0 res (by decide) (by decide)
      (by unfold no_buggy; decide) (by decide) (by decide) (by decide) (Or.inl rfl)
      (by decide) hres⟩

set_option maxRecDepth 100000 in
/-- Witness of C14 on `dc_amt_cell` with a `rand()` that always returns 0: bit 0 of row
0, `-0 -> 0`; the bit becomes 0. -/
theorem C14_specialisation_variant_witness :
    ∃ res, inject_amt_cell (fun _ => 0) 1 0 dc_amt_cell = some res ∧
    ∃ v bit, (bit = State.S0 ∨ bit = State.S1) ∧
      res.variants[(state_at (fun _ => 0) 1 0 dc_rows 0 0).bugs.length]? = some v ∧
      copy_from_cell v [] = some
        (dc_rows.set 0 ⟨[State.Sa, State.S0].set 0 bit, const2 0, true⟩) ∧
      v.STATE_TABLE = table_bits
        (dc_rows.set 0 ⟨[State.Sa, State.S0].set 0 bit, const2 0, true⟩) ∧
      v.getPort IdString.A = new_input
        (dc_rows.set 0 ⟨[State.Sa, State.S0].set 0 bit, const2 0, true⟩) ∧
      (dc_rows.set 0 ⟨[State.Sa, State.S0].set 0 bit, const2 0, true⟩).length
        = dc_rows.length ∧
      (∀ i', i' ≠ 0 →
        (dc_rows.set 0 ⟨[State.Sa, State.S0].set 0 bit, const2 0, true⟩)[i']? = dc_rows[i']?) ∧
      (dc_rows.set 0 ⟨[State.Sa, State.S0].set 0 bit, const2 0, true⟩)[0]?
        = some ⟨[State.Sa, State.S0].set 0 bit, const2 0, true⟩ ∧
      (∀ j', j' ≠ 0 → ([State.Sa, State.S0].set 0 bit)[j']? = [State.Sa, State.S0][j']?) ∧
      ([State.Sa, State.S0].set 0 bit)[0]? = some bit := by
  cases hres : inject_amt_cell (fun _ => 0) 1 0 dc_amt_cell with
  | none => exact absurd hres (by decide)
  | some res =>
    exact ⟨res, rfl, C14_specialisation_variant (fun _ => 0) 1 0 dc_amt_cell dc_rows 0 0
      ⟨[State.Sa, State.S0], const2 0, false⟩ res (by decide) (by decide)
      (by unfold no_buggy; decide) (by decide) (by decide) (by decide) (by decide) hres⟩

set_option maxRecDepth 100000 in
/-- C15 fails on the code: the row-removal variant of `inject_amt` erases the row at
the index `rand() % (selections.size() + 1)`, which can equal the number of rows. For
`not_amt_cell` (4 rows) and a `rand()` that returns 4, no bit is chosen for mutation
(`4 % 8 != 0`), the removal index is `4 % 5 = 4`, no valid row index, and the call
`erase(begin() + 4)` on a vector of 4 rows is undefined: no removal variant with 3 rows
is produced. -/
theorem C15_removal_out_of_range :
    copy_from_cell not_amt_cell [] = some not_rows ∧ not_rows.length = 4 ∧
    mutate_rows (fun _ => 4) 1 (List.range 4) ⟨not_rows, [], 0⟩ = ⟨not_rows, [], 8⟩ ∧
    removal_index (fun _ => 4) ⟨not_rows, [], 8⟩ = 4 ∧
    vector_erase not_rows 4 = none ∧
    inject_amt_cell (fun _ => 4) 1 0 not_amt_cell = none := by
  refine ⟨by decide, by decide, by decide, by decide, by decide, by decide⟩

/-! ## The AMT injector restores the design -/

/-- The rows decoded from a table whose flag elements are all 0 are not flagged. -/
theorem flags_zero_no_buggy (cell : Cell) (n : Nat) (rows : List selection_t)
    (hsz : amt_sizes cell n) (hflag : flags_zero cell n)
    (hdec : copy_from_cell cell [] = some rows) : no_buggy rows := by
  have hn := copy_from_cell_length cell n rows hsz hdec
  unfold copy_from_cell at hdec
  obtain ⟨rows', h1, h2, h3⟩ := copy_from_cell_loop_some cell _ 0 [] rows hdec
  simp only [List.nil_append] at h1
  subst h1
  intro r hr
  obtain ⟨i, hi, hget⟩ := List.getElem_of_mem hr
  have hd := h3 i (by omega)
  rw [Nat.zero_add, List.getElem?_eq_getElem hi, hget] at hd
  obtain ⟨flag, hf, _, hrow⟩ := decode_row_some cell i r hd
  have hz := hflag i (by omega)
  rw [hz] at hf
  rw [hrow, ← Option.some.inj hf]
  rfl

/-- Encoding the rows decoded from a table of the right sizes whose flag elements are
all 0 gives the table and the A port back. -/
theorem encode_decoded (cell : Cell) (n : Nat) (rows : List selection_t)
    (hsz : amt_sizes cell n) (hflag : flags_zero cell n)
    (hdec : copy_from_cell cell [] = some rows) :
    table_bits rows = cell.STATE_TABLE ∧ new_input rows = cell.getPort IdString.A := by
  obtain ⟨hA, hT⟩ := hsz
  have hn : cell.STATE_TABLE.length / ((cell.getPort IdString.S).length + 1) = n := by
    rw [hT, Nat.mul_div_cancel _ (Nat.succ_pos _)]
  unfold copy_from_cell at hdec
  simp only [hn] at hdec
  constructor
  · rw [copy_from_cell_loop_table cell n 0 [] rows hdec
      (fun j _ h2 => Or.inl (hflag j (by omega)))]
    simp [table_bits, ← hT]
  · rw [copy_from_cell_loop_input cell n 0 [] rows hdec]
    simp [new_input, ← hA]

theorem amt_bugs_selections (rand : Nat → Nat) (bugs_per_cell calls : Nat)
    (rows : List selection_t) (st : amt_state) (h : no_buggy rows)
    (hst : amt_bugs rand bugs_per_cell calls rows = some st) : st.selections = rows := by
  unfold amt_bugs add_removal at hst
  split at hst
  · simp only [Option.some.injEq] at hst
    subst hst
    exact (mutate_rows_inv rand bugs_per_cell _ ⟨rows, [], calls⟩ h).1
  · simp at hst

/-- The cell the body of the loop leaves for an `$amt` cell with at least 4 rows, the
right sizes and no flagged row: the table and every port are those of the cell before,
and the attribute `buggy` is absent. -/
theorem inject_amt_cell_restores (rand : Nat → Nat) (bugs_per_cell calls : Nat) (cell : Cell)
    (n : Nat) (rows : List selection_t) (res : amt_result)
    (hsz : amt_sizes cell n) (hflag : flags_zero cell n)
    (hdec : copy_from_cell cell [] = some rows) (hn : 4 ≤ rows.length)
    (h : inject_amt_cell rand bugs_per_cell calls cell = some res) :
    res.cell.STATE_TABLE = cell.STATE_TABLE ∧
    (∀ p, res.cell.getPort p = cell.getPort p) ∧
    res.cell.name = cell.name ∧ res.cell.type = cell.type ∧ res.cell.buggy = false := by
  obtain ⟨st, hst, _, hc, _⟩ :=
    inject_amt_cell_some rand bugs_per_cell calls cell rows res hdec hn h
  have hsel := amt_bugs_selections rand bugs_per_cell calls rows st
    (flags_zero_no_buggy cell n rows hsz hflag hdec) hst
  obtain ⟨e1, e2⟩ := encode_decoded cell n rows hsz hflag hdec
  rw [hc, hsel]
  refine ⟨?_, ?_, rfl, rfl, rfl⟩
  · show (copy_to_cell { cell with buggy := true } rows).STATE_TABLE = cell.STATE_TABLE
    rw [table_copy_to_cell, e1]
  · intro p
    show (copy_to_cell { cell with buggy := true } rows).getPort p = cell.getPort p
    by_cases hp : p = IdString.A
    · rw [hp, getPort_copy_to_cell_A, e2]
    · rw [getPort_copy_to_cell_ne _ _ _ hp]
      rfl

theorem find_set_wire_buggy (wires : List Wire) (n name : Nat) (value : Bool) :
    (set_wire_buggy wires n value).find? (fun w => w.name = name)
      = (wires.find? (fun w => w.name = name)).map
        (fun w => if w.name = n then { w with buggy := value } else w) := by
  unfold set_wire_buggy
  induction wires with
  | nil => rfl
  | cons w rest ih =>
    simp only [List.map_cons, List.find?_cons]
    have hname : (if w.name = n then { w with buggy := value } else w).name = w.name := by
      split <;> rfl
    rw [hname]
    by_cases hw : w.name = name
    · simp [hw]
    · simp only [hw, decide_False]
      exact ih

/-- The wire `as_wire` finds for a signal is the same, up to the attribute `buggy`,
when the attribute of a wire has been assigned or erased. -/
theorem as_wire_set_wire_buggy (wires : List Wire) (n : Nat) (value : Bool) (sig : SigSpec) :
    (sig.as_wire (set_wire_buggy wires n value)).map (fun w => w.name)
      = (sig.as_wire wires).map (fun w => w.name) := by
  unfold SigSpec.as_wire
  cases sig with
  | nil => rfl
  | cons b rest =>
    cases b with
    | const d => rfl
    | wire name offset =>
      simp only [find_set_wire_buggy]
      cases hf : wires.find? (fun w => w.name = name) with
      | none => rfl
      | some w =>
        simp only [Option.map_some']
        have hsig : (if w.name = n then { w with buggy := value } else w).sig = w.sig := by
          split <;> rfl
        have hname : (if w.name = n then { w with buggy := value } else w).name = w.name := by
          split <;> rfl
        rw [hsig]
        split
        · simp [hname]
        · rfl

theorem set_wire_buggy_false (wires : List Wire) (n name : Nat)
    (h : ∀ w ∈ wires, w.name = name → w.buggy = false) :
    ∀ w ∈ set_wire_buggy wires n false, w.name = name → w.buggy = false := by
  intro w hw hname
  unfold set_wire_buggy at hw
  obtain ⟨w0, hw0, e⟩ := List.mem_map.mp hw
  by_cases hn : w0.name = n
  · rw [if_pos hn] at e
    rw [← e]
  · rw [if_neg hn] at e
    rw [← e]
    rw [← e] at hname
    exact h w0 hw0 hname

theorem set_wire_buggy_erased (wires : List Wire) (n : Nat) :
    ∀ w ∈ set_wire_buggy wires n false, w.name = n → w.buggy = false := by
  intro w hw hname
  unfold set_wire_buggy at hw
  obtain ⟨w0, hw0, e⟩ := List.mem_map.mp hw
  by_cases hn : w0.name = n
  · rw [if_pos hn] at e
    rw [← e]
  · rw [if_neg hn] at e
    rw [← e] at hname
    exact absurd hname hn
theorem count_amt_cells_zero (cells : List Cell) (h : count_amt_cells cells = some 0) :
    ∀ cell ∈ cells, cell.type = CellType.amt →
      ∃ rows, copy_from_cell cell [] = some rows ∧ rows.length < 4 := by
  induction cells with
  | nil => simp
  | cons c rest ih =>
    rw [count_amt_cells] at h
    intro cell hcell ht
    by_cases hc : c.type = CellType.amt
    · rw [if_pos hc] at h
      split at h
      · rename_i selections n hs hrest
        simp only [Option.some.injEq] at h
        by_cases hlt : selections.length < 4
        · rw [if_pos hlt] at h
          subst h
          rcases List.mem_cons.mp hcell with e | e
          · rw [e]
            exact ⟨selections, hs, hlt⟩
          · exact ih hrest cell e ht
        · rw [if_neg hlt] at h
          omega
      · simp at h
    · rw [if_neg hc] at h
      rcases List.mem_cons.mp hcell with e | e
      · rw [e] at ht
        exact absurd ht hc
      · exact ih h cell e ht

/-- What the second loop over the cells leaves: one cell for each cell it passes; a
wire without the attribute `buggy` does not have it afterwards; a cell that is no
`$amt` cell or has fewer than 4 rows is left as it is; for an `$amt` cell with at least
4 rows the cell left is the one `inject_amt_cell` returns, port Y is a whole wire, and
that wire does not carry the attribute afterwards. -/
theorem inject_amt_cells_spec (rand : Nat → Nat) (bugs_per_cell : Nat) (module : Module)
    (todo : List Cell) (st st' : inject_amt_state)
    (h : inject_amt_cells rand bugs_per_cell module todo st = some st') :
    ∃ passed : List Cell, st'.cells = st.cells ++ passed ∧ passed.length = todo.length ∧
      (∀ name, (∀ w ∈ st.wires, w.name = name → w.buggy = false) →
        ∀ w ∈ st'.wires, w.name = name → w.buggy = false) ∧
      (∀ sig : SigSpec, (sig.as_wire st'.wires).map (fun w => w.name)
        = (sig.as_wire st.wires).map (fun w => w.name)) ∧
      ∀ (i : Nat) (cell : Cell), todo[i]? = some cell →
        (cell.type ≠ CellType.amt → passed[i]? = some cell) ∧
        (cell.type = CellType.amt → ∃ rows, copy_from_cell cell [] = some rows ∧
          (rows.length < 4 → passed[i]? = some cell) ∧
          (4 ≤ rows.length → ∃ (calls : Nat) (res : amt_result) (wname : Nat),
            inject_amt_cell rand bugs_per_cell calls cell = some res ∧
            passed[i]? = some res.cell ∧
            ((cell.getPort IdString.Y).as_wire st.wires).map (fun w => w.name) = some wname ∧
            ∀ w ∈ st'.wires, w.name = wname → w.buggy = false)) := by
  induction todo generalizing st with
  | nil =>
    simp only [inject_amt_cells, Option.some.injEq] at h
    subst h
    exact ⟨[], by simp, rfl, fun _ hw => hw, fun _ => rfl, by simp⟩
  | cons c rest ih =>
    rw [inject_amt_cells] at h
    -- the case of a cell that is passed as it is
    have hskip : ∀ (hk : inject_amt_cells rand bugs_per_cell module rest
          { st with cells := st.cells ++ [c] } = some st')
        (hc : c.type = CellType.amt → ∃ rows, copy_from_cell c [] = some rows ∧
          rows.length < 4),
        ∃ passed : List Cell, st'.cells = st.cells ++ passed ∧ passed.length = (c :: rest).length ∧
          (∀ name, (∀ w ∈ st.wires, w.name = name → w.buggy = false) →
            ∀ w ∈ st'.wires, w.name = name → w.buggy = false) ∧
          (∀ sig : SigSpec, (sig.as_wire st'.wires).map (fun w => w.name)
            = (sig.as_wire st.wires).map (fun w => w.name)) ∧
          ∀ (i : Nat) (cell : Cell), (c :: rest)[i]? = some cell →
            (cell.type ≠ CellType.amt → passed[i]? = some cell) ∧
            (cell.type = CellType.amt → ∃ rows, copy_from_cell cell [] = some rows ∧
              (rows.length < 4 → passed[i]? = some cell) ∧
              (4 ≤ rows.length → ∃ (calls : Nat) (res : amt_result) (wname : Nat),
                inject_amt_cell rand bugs_per_cell calls cell = some res ∧
                passed[i]? = some res.cell ∧
                ((cell.getPort IdString.Y).as_wire st.wires).map (fun w => w.name)
                  = some wname ∧
                ∀ w ∈ st'.wires, w.name = wname → w.buggy = false)) := by
      intro hk hc
      obtain ⟨passed, h1, h2, h3, h4, h5⟩ := ih _ hk
      refine ⟨c :: passed, by simp [h1], by simp [h2], h3, h4, ?_⟩
      intro i cell hi
      cases i with
      | zero =>
        simp only [List.getElem?_cons_zero, Option.some.injEq] at hi
        subst hi
        refine ⟨fun _ => by simp, fun ht => ?_⟩
        obtain ⟨rows, hr1, hr2⟩ := hc ht
        exact ⟨rows, hr1, fun _ => by simp, fun hge => by omega⟩
      | succ i =>
        simp only [List.getElem?_cons_succ] at hi ⊢
        exact h5 i cell hi
    by_cases hc : c.type = CellType.amt
    · rw [if_pos hc] at h
      split at h
      · simp at h
      · rename_i selections hs
        by_cases hlt : selections.length < 4
        · rw [if_pos hlt] at h
          exact hskip h (fun _ => ⟨selections, hs, hlt⟩)
        · rw [if_neg hlt] at h
          split at h
          · rename_i res wire hres hwire
            obtain ⟨passed, h1, h2, h3, h4, h5⟩ := ih _ h
            simp only at h1 h3 h4 h5
            refine ⟨res.cell :: passed, by simp [h1], by simp [h2], ?_, ?_, ?_⟩
            · intro name hname
              exact h3 name (set_wire_buggy_false st.wires wire.name name hname)
            · intro sig
              rw [h4 sig, as_wire_set_wire_buggy]
            · intro i cell hi
              cases i with
              | zero =>
                simp only [List.getElem?_cons_zero, Option.some.injEq] at hi
                subst hi
                refine ⟨fun hne => absurd hc hne, fun _ => ⟨selections, hs,
                  fun hl => absurd hl hlt, fun _ => ⟨st.calls, res, wire.name, hres, by simp,
                    by rw [hwire]; rfl, ?_⟩⟩⟩
                exact h3 wire.name (set_wire_buggy_erased st.wires wire.name)
              | succ i =>
                simp only [List.getElem?_cons_succ] at hi ⊢
                obtain ⟨g1, g2⟩ := h5 i cell hi
                refine ⟨g1, fun ht => ?_⟩
                obtain ⟨rows, r1, r2, r3⟩ := g2 ht
                refine ⟨rows, r1, r2, fun hge => ?_⟩
                obtain ⟨calls, res', wname, q1, q2, q3, q4⟩ := r3 hge
                exact ⟨calls, res', wname, q1, q2, by rw [← q3, as_wire_set_wire_buggy], q4⟩
          · simp at h
    · rw [if_neg hc] at h
      exact hskip h (fun ht => absurd ht hc)
/-- In a table whose flag elements are all 0 or 1 and whose decoded rows are not
flagged, every flag element is 0. -/
theorem no_buggy_flags_zero (cell : Cell) (n : Nat) (rows : List selection_t)
    (hsz : amt_sizes cell n) (hflag : flags_binary cell n)
    (hdec : copy_from_cell cell [] = some rows) (hnb : no_buggy rows) :
    flags_zero cell n := by
  have hn := copy_from_cell_length cell n rows hsz hdec
  unfold copy_from_cell at hdec
  obtain ⟨rows', h1, h2, h3⟩ := copy_from_cell_loop_some cell _ 0 [] rows hdec
  simp only [List.nil_append] at h1
  subst h1
  intro i hi
  have hlt : i < rows.length := by omega
  have hd := h3 i (by omega)
  rw [Nat.zero_add, List.getElem?_eq_getElem hlt] at hd
  obtain ⟨flag, hf, _, hrow⟩ := decode_row_some cell i _ hd
  have hb := hnb _ (List.getElem_mem hlt)
  rw [hrow] at hb
  simp only [decide_eq_false_iff_not] at hb
  rcases hflag i hi with h | h
  · exact h
  · rw [h] at hf
    exact absurd (Option.some.inj hf).symm hb

set_option maxRecDepth 100000 in
/-- Counterexample to C16 as stated: `undef_flag_amt_cell` satisfies the size invariant
with 4 rows, its port Y is the whole wire 2, and the rows it decodes to are not flagged
(the flag element `x` of its first row is read as `false`); the pass completes and leaves
the cell with the flag element 0 in the place of `x`, a `STATE_TABLE` other than the one
before the pass. -/
theorem C16_counterexample :
    amt_sizes undef_flag_amt_cell 4 ∧
    undef_flag_module.cells_[1]? = some undef_flag_amt_cell ∧
    copy_from_cell undef_flag_amt_cell [] = some not_rows ∧ no_buggy not_rows ∧
    (undef_flag_amt_cell.getPort IdString.Y).as_wire undef_flag_module.wires_
      = some ⟨2, 2, 2, none, false⟩ ∧
    undef_flag_amt_cell.STATE_TABLE[2]? = some State.Sx ∧
    (inject_amt (fun _ => 0) 1 0 undef_flag_module).map
        (fun st => st.cells[1]?.map (fun c => c.STATE_TABLE))
      = some (some not_amt_cell.STATE_TABLE) ∧
    not_amt_cell.STATE_TABLE[2]? = some State.S0 ∧
    not_amt_cell.STATE_TABLE ≠ undef_flag_amt_cell.STATE_TABLE := by
  refine ⟨?_, by decide, by decide, ?_, by decide, by decide, by decide, by decide, by decide⟩
  · unfold amt_sizes
    decide
  · unfold no_buggy
    decide

/-- C16 (amended): `inject_amt` restores the design. When the body of `inject_amt` for a
module completes, every cell is in its place; a cell that is no `$amt` cell is as it
was, and so is an `$amt` cell with fewer than 4 rows (it is not modified at all). For an
`$amt` cell with at least 4 rows that satisfies the size invariant, whose flag elements
are all 0 or 1, that has no row flagged buggy and whose port Y is a whole wire, the cell
left has the `STATE_TABLE` and the A port (and every other port) it had before the
pass, and neither the cell nor the wire behind port Y carries the attribute `buggy`. -/
theorem C16_inject_amt_restores (rand : Nat → Nat) (bugs_per_module calls : Nat)
    (module : Module) (st : inject_amt_state)
    (h : inject_amt rand bugs_per_module calls module = some st) :
    st.cells.length = module.cells_.length ∧
    ∀ (i : Nat) (cell : Cell), module.cells_[i]? = some cell →
      (cell.type ≠ CellType.amt → st.cells[i]? = some cell) ∧
      (cell.type = CellType.amt → ∃ rows, copy_from_cell cell [] = some rows ∧
        (rows.length < 4 → st.cells[i]? = some cell) ∧
        (4 ≤ rows.length → ∀ n, amt_sizes cell n → flags_binary cell n → no_buggy rows →
          ∃ (cell' : Cell) (wire : Wire), st.cells[i]? = some cell' ∧
            cell'.STATE_TABLE = cell.STATE_TABLE ∧
            cell'.getPort IdString.A = cell.getPort IdString.A ∧
            (∀ p, cell'.getPort p = cell.getPort p) ∧
            cell'.name = cell.name ∧ cell'.type = cell.type ∧ cell'.buggy = false ∧
            (cell.getPort IdString.Y).as_wire module.wires_ = some wire ∧
            ∀ w ∈ st.wires, w.name = wire.name → w.buggy = false)) := by
  unfold inject_amt at h
  split at h
  · simp at h
  · rename_i num hnum
    by_cases hz : num = 0
    · rw [if_pos hz] at h
      simp only [Option.some.injEq] at h
      subst h
      subst hz
      refine ⟨rfl, ?_⟩
      intro i cell hi
      refine ⟨fun _ => hi, fun ht => ?_⟩
      obtain ⟨rows, r1, r2⟩ :=
        count_amt_cells_zero module.cells_ hnum cell (List.getElem?_mem hi) ht
      exact ⟨rows, r1, fun _ => hi, fun hge => by omega⟩
    · rw [if_neg hz] at h
      obtain ⟨passed, h1, h2, _, _, h5⟩ := inject_amt_cells_spec rand _ module module.cells_ _ st h
      simp only [List.nil_append] at h1
      rw [h1]
      refine ⟨h2, ?_⟩
      intro i cell hi
      obtain ⟨g1, g2⟩ := h5 i cell hi
      refine ⟨g1, fun ht => ?_⟩
      obtain ⟨rows, r1, r2, r3⟩ := g2 ht
      refine ⟨rows, r1, r2, fun hge n hsz hbin hnb => ?_⟩
      have hflag := no_buggy_flags_zero cell n rows hsz hbin r1 hnb
      obtain ⟨c, res, wname, q1, q2, q3, q4⟩ := r3 hge
      obtain ⟨e1, e2, e3, e4, e5⟩ :=
        inject_amt_cell_restores rand _ c cell n rows res hsz hflag r1 hge q1
      simp only at q3
      cases hw : (cell.getPort IdString.Y).as_wire module.wires_ with
      | none => rw [hw] at q3; simp at q3
      | some wire =>
        rw [hw] at q3
        simp only [Option.map_some', Option.some.injEq] at q3
        exact ⟨res.cell, wire, q2, e1, e2 IdString.A, e2, e3, e4, e5, rfl, by rw [q3]; exact q4⟩

set_option maxRecDepth 100000 in
/-- Witness of C16 (amended) on `not_module` with a `rand()` that always returns 0: the
pass writes 9 variants of `not_amt_cell` (4 rows, sizes right, every flag element 0 or
1, no row flagged, port Y the whole wire 2), completes, and leaves the cell and the wire
restored. -/
theorem C16_inject_amt_restores_witness :
    ∃ st, inject_amt (fun _ => 0) 1 0 not_module = some st ∧ st.written.length = 9 ∧
      st.cells.length = not_module.cells_.length ∧
      amt_sizes not_amt_cell 4 ∧ flags_binary not_amt_cell 4 ∧ no_buggy not_rows ∧
      ∃ (cell' : Cell) (wire : Wire), st.cells[1]? = some cell' ∧
        cell'.STATE_TABLE = not_amt_cell.STATE_TABLE ∧
        cell'.getPort IdString.A = not_amt_cell.getPort IdString.A ∧
        (∀ p, cell'.getPort p = not_amt_cell.getPort p) ∧
        cell'.name = not_amt_cell.name ∧ cell'.type = not_amt_cell.type ∧
        cell'.buggy = false ∧
        (not_amt_cell.getPort IdString.Y).as_wire not_module.wires_ = some wire ∧
        ∀ w ∈ st.wires, w.name = wire.name → w.buggy = false := by
  cases hres : inject_amt (fun _ => 0) 1 0 not_module with
  | none => exact absurd hres (by decide)
  | some st =>
    have hlen : (inject_amt (fun _ => 0) 1 0 not_module).map (fun s => s.written.length)
        = some 9 := by decide
    rw [hres] at hlen
    have hsz : amt_sizes not_amt_cell 4 := by unfold amt_sizes; decide
    have hflag : flags_binary not_amt_cell 4 := by
      intro i hi
      have : i = 0 ∨ i = 1 ∨ i = 2 ∨ i = 3 := by omega
      rcases this with e | e | e | e <;> subst e <;> decide
    have hnb : no_buggy not_rows := by unfold no_buggy; decide
    obtain ⟨c1, c2⟩ := C16_inject_amt_restores (fun _ => 0) 1 0 not_module st hres
    obtain ⟨rows, r1, _, r3⟩ := (c2 1 not_amt_cell (by decide)).2 (by decide)
    have hrows : rows = not_rows := by
      have hd : copy_from_cell not_amt_cell [] = some not_rows := by decide
      rw [hd] at r1
      exact (Option.some.inj r1).symm
    subst hrows
    exact ⟨st, rfl, by simpa using hlen, c1, hsz, hflag, hnb,
      r3 (by decide) 4 hsz hflag hnb⟩

/-! ## The driver mix-up injector -/

theorem as_const_of_fully_const (sig : SigSpec) (h : sig.is_fully_const = true) :
    ∃ c, sig.as_const = some c ∧ sig = SigSpec.of_const c := by
  induction sig with
  | nil => exact ⟨[], rfl, rfl⟩
  | cons b rest ih =>
    cases b with
    | wire n o => simp [SigSpec.is_fully_const, SigBit.is_wire] at h
    | const d =>
      have hrest : SigSpec.is_fully_const rest = true := by
        simp only [SigSpec.is_fully_const, List.all_cons] at h ⊢
        simp only [Bool.and_eq_true] at h
        exact h.2
      obtain ⟨c, h1, h2⟩ := ih hrest
      refine ⟨d :: c, ?_, ?_⟩
      · simp only [SigSpec.as_const, h1]
      · simp only [SigSpec.of_const, List.map_cons] at h2 ⊢
        rw [← h2]

theorem of_const_getLast? (c : Const) :
    (SigSpec.of_const c).getLast? = c.getLast?.map SigBit.const := by
  unfold SigSpec.of_const
  induction c with
  | nil => rfl
  | cons d rest ih =>
    cases rest with
    | nil => rfl
    | cons e rest' =>
      simp only [List.map_cons, List.getLast?_cons_cons] at ih ⊢
      exact ih

/-- C17: the width adjustment of `inject_driver`. For a non-empty driver `d` and a
target `t` the adjustment returns `d'` and `t'` with `|d'| = |t'|`, where (a) if
`|d| < |t|` and `d` is fully constant, `d'` is `d` followed by `|t| - |d|` copies of its
most significant (last) bit and `t' = t`; (b) if `|d| < |t|` and `d` is not fully
constant, `t'` is the lowest `|d|` bits of `t` and `d' = d`; (c) if `|d| > |t|`, `d'`
is the lowest `|t|` bits of `d` and `t' = t`; (d) if `|d| = |t|`, both are unchanged. -/
theorem C17_width_adjustment (d t : SigSpec) (hne : d ≠ []) :
    ∃ d' t', adjust_widths d t = some (d', t') ∧ d'.length = t'.length ∧
      (d.length < t.length → d.is_fully_const = true →
        ∃ back, d.getLast? = some (SigBit.const back) ∧
          d' = d ++ List.replicate (t.length - d.length) (SigBit.const back) ∧ t' = t) ∧
      (d.length < t.length → d.is_fully_const = false → d' = d ∧ t' = t.take d.length) ∧
      (d.length > t.length → d' = d.take t.length ∧ t' = t) ∧
      (d.length = t.length → d' = d ∧ t' = t) := by
  unfold adjust_widths
  by_cases hlt : d.length < t.length
  · rw [if_pos hlt]
    by_cases hc : d.is_fully_const = true
    · rw [if_pos hc]
      obtain ⟨c, h1, h2⟩ := as_const_of_fully_const d hc
      rw [h1]
      have hcne : c ≠ [] := by
        intro e
        rw [e] at h2
        exact hne h2
      obtain ⟨back, hback⟩ : ∃ back, c.getLast? = some back := by
        cases hl : c.getLast? with
        | none => exact absurd (List.getLast?_eq_none_iff.mp hl) hcne
        | some b => exact ⟨b, rfl⟩
      simp only [hback]
      have hrep : SigSpec.of_const (Const.of_state back (t.length - d.length))
          = List.replicate (t.length - d.length) (SigBit.const back) := by
        simp [SigSpec.of_const, Const.of_state]
      refine ⟨_, _, rfl, ?_, ?_, ?_, ?_, ?_⟩
      · rw [hrep, List.length_append, List.length_replicate]
        omega
      · intro _ _
        refine ⟨back, ?_, by rw [hrep], rfl⟩
        rw [h2, of_const_getLast?, hback]
        rfl
      · intro _ hf
        rw [hc] at hf
        exact absurd hf (by decide)
      · intro hgt
        omega
      · intro he
        omega
    · rw [if_neg hc]
      have hex : t.extract 0 d.length = some (t.take d.length) := by
        unfold SigSpec.extract
        rw [if_pos (by omega)]
        rfl
      rw [hex]
      refine ⟨_, _, rfl, ?_, ?_, ?_, ?_, ?_⟩
      · rw [List.length_take]
        omega
      · intro _ hf
        exact absurd hf hc
      · intro _ _
        exact ⟨rfl, rfl⟩
      · intro hgt
        omega
      · intro he
        omega
  · rw [if_neg hlt]
    by_cases hgt : d.length > t.length
    · rw [if_pos hgt]
      have hex : d.extract 0 t.length = some (d.take t.length) := by
        unfold SigSpec.extract
        rw [if_pos (by omega)]
        rfl
      rw [hex]
      refine ⟨_, _, rfl, ?_, ?_, ?_, ?_, ?_⟩
      · rw [List.length_take]
        omega
      · intro h
        omega
      · intro h
        omega
      · intro _
        exact ⟨rfl, rfl⟩
      · intro he
        omega
    · rw [if_neg hgt]
      refine ⟨_, _, rfl, by omega, ?_, ?_, ?_, ?_⟩
      · intro h
        omega
      · intro h
        omega
      · intro h
        omega
      · intro _
        exact ⟨rfl, rfl⟩

/-- Witness of C17: the constant `2'01` (bits 1, 0 from bit 0 on) as the driver of a
target of 4 bits is extended by two copies of its last bit 0. -/
theorem C17_width_adjustment_witness :
    ([SigBit.const State.S1, SigBit.const State.S0] : SigSpec) ≠ [] ∧
    adjust_widths [SigBit.const State.S1, SigBit.const State.S0] (SigSpec.of_wire 5 4)
      = some ([SigBit.const State.S1, SigBit.const State.S0, SigBit.const State.S0,
          SigBit.const State.S0], SigSpec.of_wire 5 4) ∧
    ∃ d' t', adjust_widths [SigBit.const State.S1, SigBit.const State.S0] (SigSpec.of_wire 5 4)
        = some (d', t') ∧ d'.length = t'.length ∧
      (([SigBit.const State.S1, SigBit.const State.S0] : SigSpec).length
          < (SigSpec.of_wire 5 4).length →
        SigSpec.is_fully_const [SigBit.const State.S1, SigBit.const State.S0] = true →
        ∃ back, ([SigBit.const State.S1, SigBit.const State.S0] : SigSpec).getLast?
            = some (SigBit.const back) ∧
          d' = [SigBit.const State.S1, SigBit.const State.S0]
            ++ List.replicate ((SigSpec.of_wire 5 4).length
              - ([SigBit.const State.S1, SigBit.const State.S0] : SigSpec).length)
              (SigBit.const back) ∧ t' = SigSpec.of_wire 5 4) ∧
      (([SigBit.const State.S1, SigBit.const State.S0] : SigSpec).length
          < (SigSpec.of_wire 5 4).length →
        SigSpec.is_fully_const [SigBit.const State.S1, SigBit.const State.S0] = false →
        d' = [SigBit.const State.S1, SigBit.const State.S0] ∧
        t' = (SigSpec.of_wire 5 4).take
          ([SigBit.const State.S1, SigBit.const State.S0] : SigSpec).length) ∧
      (([SigBit.const State.S1, SigBit.const State.S0] : SigSpec).length
          > (SigSpec.of_wire 5 4).length →
        d' = ([SigBit.const State.S1, SigBit.const State.S0] : SigSpec).take
          (SigSpec.of_wire 5 4).length ∧ t' = SigSpec.of_wire 5 4) ∧
      (([SigBit.const State.S1, SigBit.const State.S0] : SigSpec).length
          = (SigSpec.of_wire 5 4).length →
        d' = [SigBit.const State.S1, SigBit.const State.S0] ∧ t' = SigSpec.of_wire 5 4) :=
  ⟨by decide, by decide,
    C17_width_adjustment [SigBit.const State.S1, SigBit.const State.S0] (SigSpec.of_wire 5 4)
      (by decide)⟩

set_option maxRecDepth 100000 in
/-- C18 fails on the code: in the loop of `inject_driver` the bug index is incremented
before the test whether the splice changed the connection. For the module with the
connections `y <- a` and `z <- b` and `bugs_per_module = 2`, the first pair picked is
the driver `b` and the target `z`: `b` already drives `z`, the connection is unchanged,
and the pair is dropped after it has consumed the index 1, for which no file is
written. The second pair (`a`, `z`) yields the variant with the index 2, and the loop
ends: one variant is produced, not two. With the single connection `y <- a` the loop
ends without any variant. -/
theorem C18_index_without_variant :
    collect_drivers public_below_16 mixup_wires mixup_connections ([], [])
      = some ([[SigBit.wire 1 0], [SigBit.wire 3 0]], [[SigBit.wire 2 0], [SigBit.wire 4 0]]) ∧
    driver_step mixup_rand mixup_wires [[SigBit.wire 1 0], [SigBit.wire 3 0]]
        [[SigBit.wire 2 0], [SigBit.wire 4 0]] mixup_connections ⟨0, 0, []⟩
      = some ⟨1, 2, []⟩ ∧
    inject_driver mixup_rand public_below_16 mixup_wires mixup_connections 2 0 10
      = some ⟨2, 4, [(2, [([SigBit.wire 2 0], [SigBit.wire 1 0]),
          ([SigBit.wire 4 0], [SigBit.wire 1 0])])]⟩ ∧
    inject_driver (fun _ => 0) public_below_16 driver_wires driver_connections 2 0 10
      = some ⟨2, 4, []⟩ := by
  refine ⟨by decide, by decide, by decide, by decide⟩

/-! ## The mapping of an AMT to `$eq` cells and a `$pmux` -/

/-- Two bits are the same defined value. -/
theorem eq_state_one_iff (a b : Const) (h : a.length = b.length) :
    Const.eq_state a b = State.S1 ↔
      ∀ p ∈ a.zip b, (p.1 = State.S0 ∧ p.2 = State.S0) ∨ (p.1 = State.S1 ∧ p.2 = State.S1) := by
  have key : ∀ (a b : Const), a.length = b.length →
      (((a.zip b).any (fun p => (p.1 = State.S0 ∧ p.2 = State.S1) ∨
          (p.1 = State.S1 ∧ p.2 = State.S0)) = false ∧
        (a ++ b).all (fun x => x = State.S0 ∨ x = State.S1) = true) ↔
      ∀ p ∈ a.zip b, (p.1 = State.S0 ∧ p.2 = State.S0) ∨ (p.1 = State.S1 ∧ p.2 = State.S1)) := by
    intro a
    induction a with
    | nil =>
      intro b hb
      cases b with
      | nil => simp
      | cons y ys => simp at hb
    | cons x xs ih =>
      intro b hb
      cases b with
      | nil => simp at hb
      | cons y ys =>
        have hlen : xs.length = ys.length := by simpa using hb
        have ih' := ih ys hlen
        simp only [List.zip_cons_cons, List.any_cons, List.cons_append, List.all_cons,
          List.all_append, List.mem_cons, forall_eq_or_imp, Bool.or_eq_false_iff,
          Bool.and_eq_true, decide_eq_true_eq, decide_eq_false_iff_not] at ih' ⊢
        constructor
        · rintro ⟨⟨hd, hany⟩, hx, hall1, hy, hall2⟩
          refine ⟨?_, ih'.mp ⟨hany, hall1, hall2⟩⟩
          rcases hx with hx | hx <;> rcases hy with hy | hy
          · exact Or.inl ⟨hx, hy⟩
          · exact absurd (Or.inl ⟨hx, hy⟩) hd
          · exact absurd (Or.inr ⟨hx, hy⟩) hd
          · exact Or.inr ⟨hx, hy⟩
        · rintro ⟨hxy, hrest⟩
          obtain ⟨hany, hall1, hall2⟩ := ih'.mpr hrest
          refine ⟨⟨?_, hany⟩, ?_, hall1, ?_, hall2⟩
          · rcases hxy with ⟨h1, h2⟩ | ⟨h1, h2⟩ <;> simp [h1, h2]
          · rcases hxy with ⟨h1, _⟩ | ⟨h1, _⟩
            · exact Or.inl h1
            · exact Or.inr h1
          · rcases hxy with ⟨_, h2⟩ | ⟨_, h2⟩
            · exact Or.inl h2
            · exact Or.inr h2
  unfold Const.eq_state
  by_cases hany : (a.zip b).any (fun p => (p.1 = State.S0 ∧ p.2 = State.S1) ∨
      (p.1 = State.S1 ∧ p.2 = State.S0)) = true
  · rw [if_pos hany]
    constructor
    · intro hc
      exact absurd hc (by decide)
    · intro hp
      have hk := ((key a b h).mpr hp).1
      rw [hk] at hany
      exact absurd hany (by decide)
  · rw [if_neg hany]
    have hf : (a.zip b).any (fun p => (p.1 = State.S0 ∧ p.2 = State.S1) ∨
        (p.1 = State.S1 ∧ p.2 = State.S0)) = false := by
      simpa using hany
    by_cases hall : (a ++ b).all (fun x => x = State.S0 ∨ x = State.S1) = true
    · rw [if_pos hall]
      exact ⟨fun _ => (key a b h).mp ⟨hf, hall⟩, fun _ => rfl⟩
    · rw [if_neg hall]
      constructor
      · intro hc
        exact absurd hc (by decide)
      · intro hp
        exact absurd ((key a b h).mpr hp).2 hall

theorem pattern_matches_nil (σ : Nat → Nat → Bool) (pattern : Const) :
    pattern_matches σ [] pattern = true := by
  cases pattern <;> rfl

theorem sig_const_append (σ : Nat → Nat → Bool) (a b : SigSpec) :
    sig_const σ (a ++ b) = sig_const σ a ++ sig_const σ b := by
  simp [sig_const]

theorem sig_const_length (σ : Nat → Nat → Bool) (a : SigSpec) :
    (sig_const σ a).length = a.length := by
  simp [sig_const]

/-- The operand bit a selector bit gives under `σ` equals a pattern bit that is 0 or 1
exactly when the selector bit agrees with the pattern bit. -/
theorem same_value_iff (σ : Nat → Nat → Bool) (s : SigBit) (bit : State)
    (h : bit = State.S0 ∨ bit = State.S1) :
    ((sig_const σ [s] = [State.S0] ∧ bit = State.S0) ∨
      (sig_const σ [s] = [State.S1] ∧ bit = State.S1)) ↔ trit_matches σ s bit = true := by
  rcases h with e | e <;> subst e
  · cases s with
    | wire n o =>
      cases hv : σ n o <;> simp [sig_const, trit_matches, bit_value, hv]
    | const d =>
      cases d <;> simp [sig_const, trit_matches, bit_value]
  · cases s with
    | wire n o =>
      cases hv : σ n o <;> simp [sig_const, trit_matches, bit_value, hv]
    | const d =>
      cases d <;> simp [sig_const, trit_matches, bit_value]

/-- The operands of the `$eq` cell of a row: what the loop appends has equal widths,
and under every assignment the appended operands agree bit by bit, as defined values,
exactly when the pattern matches the selector from position `j` on. -/
theorem eq_operands_spec (σ : Nat → Nat → Bool) (amt_s : SigSpec) (pattern : Const) :
    ∀ (j : Nat) (a b a' b' : SigSpec),
      eq_operands amt_s pattern j (a, b) = some (a', b') →
      ∃ a2 b2, a' = a ++ a2 ∧ b' = b ++ b2 ∧ a2.length = b2.length ∧
        ((∀ p ∈ (sig_const σ a2).zip (sig_const σ b2),
            (p.1 = State.S0 ∧ p.2 = State.S0) ∨ (p.1 = State.S1 ∧ p.2 = State.S1)) ↔
          pattern_matches σ (amt_s.drop j) pattern = true) := by
  induction pattern with
  | nil =>
    intro j a b a' b' h
    simp only [eq_operands, Option.some.injEq, Prod.mk.injEq] at h
    refine ⟨[], [], by simp [h.1], by simp [h.2], rfl, ?_⟩
    have : pattern_matches σ (amt_s.drop j) [] = true := by
      cases amt_s.drop j <;> rfl
    simp [this, sig_const]
  | cons bit rest ih =>
    intro j a b a' b' h
    rw [eq_operands] at h
    by_cases hb : bit = State.S0 ∨ bit = State.S1
    · rw [if_pos hb] at h
      cases hex : amt_s.extract j 1 with
      | none => rw [hex] at h; simp at h
      | some s =>
        rw [hex] at h
        simp only at h
        unfold SigSpec.extract at hex
        split at hex
        · rename_i hle
          simp only [Option.some.injEq] at hex
          have hj : j < amt_s.length := by omega
          have hdrop : amt_s.drop j = amt_s[j] :: amt_s.drop (j + 1) :=
            drop_eq_cons_of_getElem? amt_s j _ (List.getElem?_eq_getElem hj)
          have hs : s = [amt_s[j]] := by
            rw [← hex, hdrop]
            rfl
          obtain ⟨a3, b3, h1, h2, h3, h4⟩ := ih (j + 1) _ _ a' b' h
          refine ⟨s ++ a3, SigBit.const bit :: b3, by rw [h1, List.append_assoc],
            by rw [h2, List.append_assoc]; rfl, by simp [hs, h3], ?_⟩
          rw [hdrop, hs]
          simp only [List.singleton_append, pattern_matches, Bool.and_eq_true]
          rw [← h4, ← same_value_iff σ amt_s[j] bit hb]
          have hc : sig_const σ (amt_s[j] :: a3) = (sig_const σ [amt_s[j]]) ++ sig_const σ a3 := by
            rw [← sig_const_append]
            rfl
          have hd : sig_const σ (SigBit.const bit :: b3) = bit :: sig_const σ b3 := rfl
          rw [hc, hd]
          have hv : sig_const σ [amt_s[j]]
              = [(sig_const σ [amt_s[j]]).headD State.S0] := rfl
          generalize (sig_const σ [amt_s[j]]).headD State.S0 = v at hv
          rw [hv]
          simp only [List.singleton_append, List.zip_cons_cons, List.mem_cons, forall_eq_or_imp,
            List.cons.injEq, and_true]
        · simp at hex
    · rw [if_neg hb] at h
      obtain ⟨a3, b3, h1, h2, h3, h4⟩ := ih (j + 1) a b a' b' h
      refine ⟨a3, b3, h1, h2, h3, ?_⟩
      rw [h4]
      have hnb : ∀ s, trit_matches σ s bit = true := by
        intro s
        cases bit <;> simp [trit_matches] at hb ⊢
      by_cases hj : j < amt_s.length
      · have hdrop : amt_s.drop j = amt_s[j] :: amt_s.drop (j + 1) :=
          drop_eq_cons_of_getElem? amt_s j _ (List.getElem?_eq_getElem hj)
        rw [hdrop]
        simp only [pattern_matches, Bool.and_eq_true]
        rw [hnb amt_s[j]]
        simp
      · have e1 : amt_s.drop j = [] := List.drop_eq_nil_of_le (by omega)
        have e2 : amt_s.drop (j + 1) = [] := List.drop_eq_nil_of_le (by omega)
        rw [e1, e2, pattern_matches_nil, pattern_matches_nil]

theorem eq_operands_total (amt_s : SigSpec) (pattern : Const) :
    ∀ (j : Nat) (ab : SigSpec × SigSpec), j + pattern.length ≤ amt_s.length →
      ∃ r, eq_operands amt_s pattern j ab = some r := by
  induction pattern with
  | nil =>
    intro j ab _
    exact ⟨ab, rfl⟩
  | cons bit rest ih =>
    intro j ab hlen
    obtain ⟨a, b⟩ := ab
    simp only [List.length_cons] at hlen
    rw [eq_operands]
    split
    · have hex : amt_s.extract j 1 = some ((amt_s.drop j).take 1) := by
        unfold SigSpec.extract
        rw [if_pos (by omega)]
      rw [hex]
      exact ih (j + 1) _ (by omega)
    · exact ih (j + 1) _ (by omega)
theorem resize_self (c : Const) : Const.resize c c.length = c := by
  simp [Const.resize]

theorem three_ports (cell : Cell) (a b y : SigSpec) :
    (((cell.setPort IdString.A a).setPort IdString.B b).setPort IdString.Y y).getPort
      IdString.A = a ∧
    (((cell.setPort IdString.A a).setPort IdString.B b).setPort IdString.Y y).getPort
      IdString.B = b ∧
    (((cell.setPort IdString.A a).setPort IdString.B b).setPort IdString.Y y).getPort
      IdString.Y = y ∧
    (((cell.setPort IdString.A a).setPort IdString.B b).setPort IdString.Y y).type
      = cell.type ∧
    (((cell.setPort IdString.A a).setPort IdString.B b).setPort IdString.Y y).name
      = cell.name := by
  refine ⟨?_, ?_, ?_, rfl, rfl⟩
  · simp [getPort_setPort]
  · simp [getPort_setPort]
  · simp [getPort_setPort]

/-- The `$eq` cell of a row: its ports, and its output under every assignment of the
wire bits: it is 1 exactly when the pattern of the row matches the selector. -/
theorem eq_cell_spec (name : Nat) (amt_s sig_s : SigSpec) (i : Nat) (selection : selection_t)
    (c : Cell) (h : eq_cell name amt_s sig_s i selection = some c) :
    c.name = name ∧ c.type = CellType.eq ∧ c.getPort IdString.Y = (sig_s.drop i).take 1 ∧
    i < sig_s.length ∧
    ∀ σ, cell_output σ c = [State.S1] ↔ pattern_matches σ amt_s selection.select = true := by
  unfold eq_cell at h
  split at h
  · rename_i eq_sig_a eq_sig_b y hop hy
    simp only [Option.some.injEq] at h
    subst h
    obtain ⟨hA, hB, hYp, htype, hname⟩ :=
      three_ports ⟨name, CellType.eq, [], [], false⟩ eq_sig_a eq_sig_b y
    unfold SigSpec.extract at hy
    split at hy
    · rename_i hle
      simp only [Option.some.injEq] at hy
      refine ⟨hname, htype, by rw [hYp, hy], by omega, ?_⟩
      intro σ
      obtain ⟨a2, b2, h1, h2, h3, h4⟩ := eq_operands_spec σ amt_s selection.select 0 [] []
        eq_sig_a eq_sig_b hop
      simp only [List.nil_append] at h1 h2
      subst h1
      subst h2
      rw [List.drop_zero] at h4
      rw [← h4]
      have hylen : y.length = 1 := by
        rw [← hy, List.length_take, List.length_drop]
        omega
      have hlen : (sig_const σ eq_sig_a).length = (sig_const σ eq_sig_b).length := by
        rw [sig_const_length, sig_const_length, h3]
      unfold cell_output eval_internals
      rw [hA, hB, hYp, hylen]
      simp only [htype]
      rw [← hlen, Nat.max_self, resize_self, hlen, resize_self,
        ← eq_state_one_iff _ _ hlen]
      simp [Const.resize]
    · simp at hy
  · simp at h

theorem eq_cells_spec (amt_s sig_s : SigSpec) (rows : List selection_t) :
    ∀ (i name : Nat) (cells : List Cell), eq_cells amt_s sig_s rows i name = some cells →
      cells.length = rows.length ∧
      ∀ (k : Nat) (row : selection_t), rows[k]? = some row →
        ∃ c, cells[k]? = some c ∧ eq_cell (name + k) amt_s sig_s (i + k) row = some c := by
  induction rows with
  | nil =>
    intro i name cells h
    simp only [eq_cells, Option.some.injEq] at h
    subst h
    exact ⟨rfl, by simp⟩
  | cons r rest ih =>
    intro i name cells h
    rw [eq_cells] at h
    split at h
    · rename_i c cs hc hcs
      simp only [Option.some.injEq] at h
      subst h
      obtain ⟨h1, h2⟩ := ih (i + 1) (name + 1) cs hcs
      refine ⟨by simp [h1], ?_⟩
      intro k row hk
      cases k with
      | zero =>
        simp only [List.getElem?_cons_zero, Option.some.injEq] at hk
        subst hk
        exact ⟨c, by simp, hc⟩
      | succ k =>
        simp only [List.getElem?_cons_succ] at hk ⊢
        obtain ⟨c', e1, e2⟩ := h2 k row hk
        refine ⟨c', e1, ?_⟩
        rw [← e2]
        congr 1 <;> omega
    · simp at h

theorem eq_cells_total (amt_s sig_s : SigSpec) (rows : List selection_t)
    (hw : ∀ r ∈ rows, r.select.length ≤ amt_s.length) :
    ∀ (i name : Nat), i + rows.length ≤ sig_s.length →
      ∃ cells, eq_cells amt_s sig_s rows i name = some cells := by
  induction rows with
  | nil =>
    intro i name _
    exact ⟨[], rfl⟩
  | cons r rest ih =>
    intro i name hlen
    simp only [List.length_cons] at hlen
    obtain ⟨cs, hcs⟩ := ih (fun r hr => hw r (List.mem_cons_of_mem _ hr)) (i + 1) (name + 1)
      (by omega)
    obtain ⟨ab, hab⟩ := eq_operands_total amt_s r.select 0 ([], [])
      (by have := hw r (List.mem_cons_self _ _); omega)
    have hex : sig_s.extract i 1 = some ((sig_s.drop i).take 1) := by
      unfold SigSpec.extract
      rw [if_pos (by omega)]
    have hc : ∃ c, eq_cell name amt_s sig_s i r = some c := by
      unfold eq_cell
      rw [hab, hex]
      exact ⟨_, rfl⟩
    obtain ⟨c, hc⟩ := hc
    exact ⟨c :: cs, by rw [eq_cells, hc, hcs]⟩

theorem remove_cell_append (xs ys : List Cell) (name : Nat)
    (h : ∃ c ∈ xs, c.name = name) :
    remove_cell (xs ++ ys) name = remove_cell xs name ++ ys := by
  induction xs with
  | nil => simp at h
  | cons x rest ih =>
    rw [List.cons_append, remove_cell, remove_cell]
    by_cases hx : x.name = name
    · rw [if_pos hx, if_pos hx]
    · rw [if_neg hx, if_neg hx]
      obtain ⟨c, hc, hn⟩ := h
      rcases List.mem_cons.mp hc with e | e
      · rw [e] at hn
        exact absurd hn hx
      · rw [ih ⟨c, e, hn⟩]
        rfl

theorem remove_cell_names (xs : List Cell) (name : Nat)
    (h : (xs.map (fun c => c.name)).Nodup) : ∀ c ∈ remove_cell xs name, c.name ≠ name := by
  induction xs with
  | nil => simp [remove_cell]
  | cons x rest ih =>
    simp only [List.map_cons, List.nodup_cons] at h
    rw [remove_cell]
    by_cases hx : x.name = name
    · rw [if_pos hx]
      intro c hc hn
      apply h.1
      rw [hx, ← hn]
      exact List.mem_map_of_mem _ hc
    · rw [if_neg hx]
      intro c hc
      rcases List.mem_cons.mp hc with e | e
      · rw [e]
        exact hx
      · exact ih h.2 c e

theorem of_wire_length (name width : Nat) : (SigSpec.of_wire name width).length = width := by
  simp [SigSpec.of_wire]

theorem of_wire_bit (name width i : Nat) (h : i < width) :
    ((SigSpec.of_wire name width).drop i).take 1 = [SigBit.wire name i] := by
  have hget : (SigSpec.of_wire name width)[i]? = some (SigBit.wire name i) := by
    simp [SigSpec.of_wire, h]
  rw [drop_eq_cons_of_getElem? _ i _ hget]
  rfl

theorem pattern_matches_nil_right (σ : Nat → Nat → Bool) (sig : SigSpec) :
    pattern_matches σ sig [] = true := by
  cases sig <;> rfl

theorem pattern_matches_dont_care (σ : Nat → Nat → Bool) (pattern : Const) :
    ∀ (sig : SigSpec), (∀ b ∈ pattern, b ≠ State.S0 ∧ b ≠ State.S1) →
      pattern_matches σ sig pattern = true := by
  induction pattern with
  | nil =>
    intro sig _
    exact pattern_matches_nil_right σ sig
  | cons bit rest ih =>
    intro sig h
    cases sig with
    | nil => rfl
    | cons s ss =>
      have hb := h bit (List.mem_cons_self _ _)
      have ht : trit_matches σ s bit = true := by
        cases bit <;> simp [trit_matches] at hb ⊢
      simp only [pattern_matches, ht, Bool.true_and]
      exact ih ss (fun b hb => h b (List.mem_cons_of_mem _ hb))

/-- C19: the mapping of an AMT (`map_amt`). For an `$amt` cell of a module (with unique
cell names) whose table decodes to `n` rows, `map_amt` returns, and the module it
leaves has, after the other cells, `n` `$eq` cells and one `$pmux`. The Y port of the
`$eq` cell of row `i` is bit `i` of the new wire of the match vector, and under every
assignment of the wire bits its output is 1 exactly when the selector `S` (as
`assign_map` gives it) agrees with the pattern of row `i` on all positions where the
pattern is 0 or 1; don't-care positions are not compared, and the cell of a row of
only don't-cares has the output 1 always. The `$pmux` has the all-zero
constant of width `|Y|` as input A, the A port of the AMT as input B, the match vector
in row order as S and the Y port of the AMT as Y (both as `assign_map` gives them).
The `$amt` cell is no cell of the module any more. -/
theorem C19_map_amt (assign_map : SigMap) (amt_cell : Cell) (module : Module)
    (rows : List selection_t)
    (hdec : copy_from_cell amt_cell [] = some rows)
    (htype : amt_cell.type = CellType.amt) (hin : amt_cell ∈ module.cells_)
    (hnames : (module.cells_.map (fun c => c.name)).Nodup) :
    ∃ (module' : Module) (cells : List Cell) (pmux : Cell),
      map_amt assign_map amt_cell module = some module' ∧
      module'.cells_ = remove_cell module.cells_ amt_cell.name ++ cells ++ [pmux] ∧
      module'.wires_ = module.wires_ ++ [⟨module.autoidx, rows.length, 0, none, false⟩] ∧
      cells.length = rows.length ∧
      (∀ (i : Nat) (row : selection_t), rows[i]? = some row →
        ∃ c, cells[i]? = some c ∧ c.type = CellType.eq ∧
          c.getPort IdString.Y = [SigBit.wire module.autoidx i] ∧
          (∀ σ, cell_output σ c = [State.S1] ↔
            pattern_matches σ (assign_map.apply (amt_cell.getPort IdString.S)) row.select
              = true) ∧
          ((∀ b ∈ row.select, b ≠ State.S0 ∧ b ≠ State.S1) →
            ∀ σ, cell_output σ c = [State.S1])) ∧
      pmux.type = CellType.pmux ∧
      pmux.getPort IdString.A = List.replicate (amt_cell.getPort IdString.Y).length
        (SigBit.const State.S0) ∧
      pmux.getPort IdString.B = assign_map.apply (amt_cell.getPort IdString.A) ∧
      pmux.getPort IdString.S = SigSpec.of_wire module.autoidx rows.length ∧
      pmux.getPort IdString.Y = assign_map.apply (amt_cell.getPort IdString.Y) ∧
      amt_cell ∉ module'.cells_ := by
  have hw := copy_from_cell_widths amt_cell rows hdec
  have hS : (assign_map.apply (amt_cell.getPort IdString.S)).length
      = (amt_cell.getPort IdString.S).length := by
    simp [SigMap.apply]
  have hYlen : (assign_map.apply (amt_cell.getPort IdString.Y)).length
      = (amt_cell.getPort IdString.Y).length := by
    simp [SigMap.apply]
  obtain ⟨cells, hcells⟩ := eq_cells_total (assign_map.apply (amt_cell.getPort IdString.S))
    (SigSpec.of_wire module.autoidx rows.length) rows
    (fun r hr => by rw [hS]; exact le_of_eq (hw r hr).1) 0 (module.autoidx + 1)
    (by rw [of_wire_length]; omega)
  obtain ⟨hlen, hspec⟩ := eq_cells_spec _ _ rows 0 (module.autoidx + 1) cells hcells
  have hmap : map_amt assign_map amt_cell module = some
      { module with
        wires_ := module.wires_ ++ [⟨module.autoidx, rows.length, 0, none, false⟩],
        cells_ := remove_cell (module.cells_ ++ cells ++
          [mk_mux (module.autoidx + 1 + rows.length) CellType.pmux
            (SigSpec.of_const (Const.of_int 0
              (assign_map.apply (amt_cell.getPort IdString.Y)).length))
            (assign_map.apply (amt_cell.getPort IdString.A))
            (SigSpec.of_wire module.autoidx rows.length)
            (assign_map.apply (amt_cell.getPort IdString.Y))]) amt_cell.name,
        autoidx := module.autoidx + 2 + rows.length } := by
    unfold map_amt
    rw [hdec]
    simp only [Wire.sig]
    rw [hcells]
  have hrem : remove_cell (module.cells_ ++ cells ++
      [mk_mux (module.autoidx + 1 + rows.length) CellType.pmux
        (SigSpec.of_const (Const.of_int 0
          (assign_map.apply (amt_cell.getPort IdString.Y)).length))
        (assign_map.apply (amt_cell.getPort IdString.A))
        (SigSpec.of_wire module.autoidx rows.length)
        (assign_map.apply (amt_cell.getPort IdString.Y))]) amt_cell.name
      = remove_cell module.cells_ amt_cell.name ++ cells ++
        [mk_mux (module.autoidx + 1 + rows.length) CellType.pmux
          (SigSpec.of_const (Const.of_int 0
            (assign_map.apply (amt_cell.getPort IdString.Y)).length))
          (assign_map.apply (amt_cell.getPort IdString.A))
          (SigSpec.of_wire module.autoidx rows.length)
          (assign_map.apply (amt_cell.getPort IdString.Y))] := by
    rw [List.append_assoc, remove_cell_append _ _ _ ⟨amt_cell, hin, rfl⟩, List.append_assoc]
  refine ⟨_, cells, _, hmap, hrem, rfl, hlen, ?_, rfl, ?_, rfl, rfl, rfl, ?_⟩
  · intro i row hi
    obtain ⟨c, hc1, hc2⟩ := hspec i row hi
    obtain ⟨_, e2, e3, e4, e5⟩ := eq_cell_spec _ _ _ _ _ c hc2
    refine ⟨c, hc1, e2, ?_, e5, fun hdc σ =>
      (e5 σ).mpr (pattern_matches_dont_care σ row.select _ hdc)⟩
    rw [e3, Nat.zero_add, of_wire_bit _ _ _ (by rw [of_wire_length] at e4; omega)]
  · show SigSpec.of_const (Const.of_int 0
      (assign_map.apply (amt_cell.getPort IdString.Y)).length) = _
    rw [hYlen, of_int_zero]
    simp [SigSpec.of_const]
  · show amt_cell ∉ remove_cell (module.cells_ ++ cells ++ _) amt_cell.name
    rw [hrem]
    intro hmem
    rcases List.mem_append.mp hmem with h1 | h1
    · rcases List.mem_append.mp h1 with h2 | h2
      · exact remove_cell_names module.cells_ amt_cell.name hnames amt_cell h2 rfl
      · obtain ⟨i, hi, hget⟩ := List.getElem_of_mem h2
        have hi' : i < rows.length := by omega
        obtain ⟨c, hc1, hc2⟩ := hspec i rows[i] (List.getElem?_eq_getElem hi')
        rw [List.getElem?_eq_getElem hi, hget] at hc1
        obtain ⟨_, e2, _⟩ := eq_cell_spec _ _ _ _ _ c hc2
        rw [← Option.some.inj hc1, htype] at e2
        exact absurd e2 (by decide)
    · simp only [List.mem_singleton] at h1
      have hp : amt_cell.type = CellType.pmux := by rw [h1]; rfl
      rw [htype] at hp
      exact absurd hp (by decide)

set_option maxRecDepth 100000 in
/-- Witness of C19 on `not_amt_cell` in `not_module`: four `$eq` cells and one `$pmux`
replace the `$amt` cell. -/
theorem C19_map_amt_witness :
    (inject_map id not_module).map (fun m => m.cells_.map (fun c => c.type))
      = some [CellType.not, CellType.eq, CellType.eq, CellType.eq, CellType.eq,
          CellType.pmux] ∧
    ∃ (module' : Module) (cells : List Cell) (pmux : Cell),
      map_amt id not_amt_cell not_module = some module' ∧
      module'.cells_ = remove_cell not_module.cells_ not_amt_cell.name ++ cells ++ [pmux] ∧
      module'.wires_ = not_module.wires_
        ++ [⟨not_module.autoidx, not_rows.length, 0, none, false⟩] ∧
      cells.length = not_rows.length ∧
      (∀ (i : Nat) (row : selection_t), not_rows[i]? = some row →
        ∃ c, cells[i]? = some c ∧ c.type = CellType.eq ∧
          c.getPort IdString.Y = [SigBit.wire not_module.autoidx i] ∧
          (∀ σ, cell_output σ c = [State.S1] ↔
            pattern_matches σ (SigMap.apply id (not_amt_cell.getPort IdString.S)) row.select
              = true) ∧
          ((∀ b ∈ row.select, b ≠ State.S0 ∧ b ≠ State.S1) →
            ∀ σ, cell_output σ c = [State.S1])) ∧
      pmux.type = CellType.pmux ∧
      pmux.getPort IdString.A = List.replicate (not_amt_cell.getPort IdString.Y).length
        (SigBit.const State.S0) ∧
      pmux.getPort IdString.B = SigMap.apply id (not_amt_cell.getPort IdString.A) ∧
      pmux.getPort IdString.S = SigSpec.of_wire not_module.autoidx not_rows.length ∧
      pmux.getPort IdString.Y = SigMap.apply id (not_amt_cell.getPort IdString.Y) ∧
      not_amt_cell ∉ module'.cells_ :=
  ⟨by decide, C19_map_amt id not_amt_cell not_module not_rows (by decide) (by decide)
    (by decide) (by decide)⟩

/-! ## The loop of the verifier -/

theorem solve_unsat (sathelper : SatHelper) (h : sathelper.gotTimeout = false) :
    sathelper.solve solve_result.UNSAT = some (false, sathelper) := by
  simp [SatHelper.solve, h, solve_result.success, solve_result.timeout_status]

theorem solve_sat (sathelper : SatHelper) (h : sathelper.gotTimeout = false) :
    sathelper.solve solve_result.SAT = some (true, sathelper) := by
  simp [SatHelper.solve, h, solve_result.success, solve_result.timeout_status]

theorem solve_timeout (sathelper : SatHelper) (h : sathelper.gotTimeout = false) :
    sathelper.solve solve_result.TIMEOUT = some (false, ⟨true⟩) := by
  simp [SatHelper.solve, h, solve_result.success, solve_result.timeout_status]

theorem solve_none (sathelper : SatHelper) (answer : solve_result)
    (h : sathelper.gotTimeout = true) : sathelper.solve answer = none := by
  simp [SatHelper.solve, h]

theorem sathelper_eq (sathelper : SatHelper) (b : Bool) (h : sathelper.gotTimeout = b) :
    sathelper = ⟨b⟩ := by
  cases sathelper
  simp only at h
  rw [h]

theorem int_add_some (a b : Int) (h1 : int_min ≤ a + b) (h2 : a + b ≤ int_max) :
    int_add a b = some (a + b) := by
  unfold int_add
  rw [if_pos ⟨h1, h2⟩]

theorem int_add_eq (a b c : Int) (h : int_add a b = some c) : c = a + b := by
  unfold int_add at h
  split at h
  · exact (Option.some.inj h).symm
  · simp at h

theorem int_add_le (a b c : Int) (h : int_add a b = some c) : a + b ≤ int_max := by
  unfold int_add at h
  split at h
  · rename_i hc
    exact hc.2
  · simp at h

/-- Past `max_sensitization` the outer loop ends. -/
theorem sensitization_loop_past (solver : solve_phase → Int → solve_result)
    (max_sensitization max_propagation : Int) (fuel : Nat) (step : Int) (st st' : verify_state)
    (hstep : max_sensitization < step)
    (h : sensitization_loop solver max_sensitization max_propagation fuel step st = some st') :
    st' = st := by
  cases fuel with
  | zero => simp [sensitization_loop] at h
  | succ fuel =>
    rw [sensitization_loop, if_neg (by omega)] at h
    exact (Option.some.inj h).symm

/-- What a completed run of the inner loop does: `m` iterations for consecutive steps,
and the end `propagation_outcome` describes. -/
theorem propagation_loop_spec (solver : solve_phase → Int → solve_result)
    (max_propagation : Int) :
    ∀ (fuel : Nat) (step : Int) (st st' : verify_state),
      st.sathelper.gotTimeout = false →
      propagation_loop solver max_propagation fuel step st = some st' →
      ∃ (m : Nat) (tail : List verify_event) (timeout : Bool),
        st' = ⟨⟨timeout⟩, st.trace ++ loop_events solve_phase.propagation step m ++ tail⟩ ∧
        propagation_outcome solver max_propagation step m tail timeout := by
  intro fuel
  induction fuel with
  | zero =>
    intro step st st' _ h
    simp [propagation_loop] at h
  | succ fuel ih =>
    intro step st st' hgt h
    rw [propagation_loop] at h
    by_cases hle : step ≤ max_propagation
    · rw [if_pos hle] at h
      cases hans : solver solve_phase.propagation step with
      | SAT =>
        rw [hans, solve_sat _ hgt] at h
        simp only [if_true, Option.some.injEq] at h
        subst h
        refine ⟨1, [verify_event.log verify_message.propagated], false, ?_, ?_, ?_, ?_⟩
        · rw [sathelper_eq _ false hgt]
          simp [loop_events]
        · intro i hi
          have : i = 0 := by omega
          subst this
          simpa using hle
        · intro i hi
          omega
        · exact Or.inr (Or.inl ⟨rfl, rfl, 0, rfl, by simpa using hans⟩)
      | TIMEOUT =>
        rw [hans, solve_timeout _ hgt] at h
        simp only [Bool.false_eq_true, if_false, if_true, Option.some.injEq] at h
        subst h
        refine ⟨1, [verify_event.log verify_message.timed_out], true, ?_, ?_, ?_, ?_⟩
        · simp [loop_events]
        · intro i hi
          have : i = 0 := by omega
          subst this
          simpa using hle
        · intro i hi
          omega
        · exact Or.inr (Or.inr ⟨rfl, rfl, 0, rfl, by simpa using hans⟩)
      | UNSAT =>
        rw [hans, solve_unsat _ hgt] at h
        simp only [Bool.false_eq_true, if_false, hgt] at h
        split at h
        · simp at h
        · rename_i next hnext
          have e1 := int_add_eq _ _ _ hnext
          subst e1
          obtain ⟨m, tail, timeout, h1, h2, h3, h4⟩ := ih (step + 1) _ st' (by exact hgt) h
          refine ⟨m + 1, tail, timeout, ?_, ?_, ?_, ?_⟩
          · rw [h1]
            simp [loop_events]
          · intro i hi
            cases i with
            | zero => simpa using hle
            | succ j =>
              have := h2 j (by omega)
              push_cast
              omega
          · intro i hi
            cases i with
            | zero => simpa using hans
            | succ j =>
              have := h3 j (by omega)
              rw [← this]
              congr 1
              push_cast
              omega
          · rcases h4 with ⟨a1, a2, a3, a4⟩ | ⟨a1, a2, j, a3, a4⟩ | ⟨a1, a2, j, a3, a4⟩
            · refine Or.inl ⟨a1, a2, by push_cast; omega, ?_⟩
              intro i hi
              cases i with
              | zero => simpa using hans
              | succ j =>
                have := a4 j (by omega)
                rw [← this]
                congr 1
                push_cast
                omega
            · refine Or.inr (Or.inl ⟨a1, a2, j + 1, by omega, ?_⟩)
              rw [← a4]
              congr 1
              push_cast
              omega
            · refine Or.inr (Or.inr ⟨a1, a2, j + 1, by omega, ?_⟩)
              rw [← a4]
              congr 1
              push_cast
              omega
    · rw [if_neg hle] at h
      simp only [Option.some.injEq] at h
      subst h
      refine ⟨0, [], false, ?_, ?_, ?_, ?_⟩
      · rw [← sathelper_eq _ false hgt]
        simp [loop_events]
      · intro i hi
        omega
      · intro i hi
        omega
      · exact Or.inl ⟨rfl, rfl, by push_cast; omega, fun i hi => by omega⟩

/-- What a completed run of the outer loop does: `k` iterations for consecutive steps,
and the end `sensitization_outcome` describes. -/
theorem sensitization_loop_spec (solver : solve_phase → Int → solve_result)
    (max_sensitization max_propagation : Int) :
    ∀ (fuel : Nat) (step : Int) (st st' : verify_state), 0 ≤ step →
      st.sathelper.gotTimeout = false →
      sensitization_loop solver max_sensitization max_propagation fuel step st = some st' →
      ∃ (k : Nat) (tail : List verify_event) (timeout : Bool),
        st' = ⟨⟨timeout⟩, st.trace ++ loop_events solve_phase.sensitization step k ++ tail⟩ ∧
        sensitization_outcome solver max_sensitization max_propagation step k tail
          timeout := by
  intro fuel
  induction fuel with
  | zero =>
    intro step st st' _ _ h
    simp [sensitization_loop] at h
  | succ fuel ih =>
    intro step st st' h0 hgt h
    rw [sensitization_loop] at h
    by_cases hle : step ≤ max_sensitization
    · rw [if_pos hle] at h
      cases hans : solver solve_phase.sensitization step with
      | SAT =>
        rw [hans, solve_sat _ hgt] at h
        simp only [if_true] at h
        split at h
        · simp at h
        · rename_i first hfirst
          have e0 := int_add_eq _ _ _ hfirst
          subst e0
          split at h
          · simp at h
          · rename_i st1 hprop
            split at h
            · simp at h
            · rename_i jump hjump
              split at h
              · simp at h
              · rename_i next hnext
                have e1 := int_add_eq _ _ _ hjump
                have e2 := int_add_eq _ _ _ hnext
                have hst := sensitization_loop_past solver max_sensitization
                  max_propagation fuel next st1 st' (by omega) h
                obtain ⟨m, tail1, timeout, t1, t2⟩ := propagation_loop_spec solver
                  max_propagation fuel (step + 1) _ st1 (by exact hgt) hprop
                refine ⟨1, verify_event.log verify_message.sensitized
                  :: (loop_events solve_phase.propagation (step + 1) m ++ tail1), timeout,
                  ?_, ?_, ?_, ?_⟩
                · rw [hst, t1]
                  simp [loop_events]
                · intro i hi
                  have : i = 0 := by omega
                  subst this
                  simpa using hle
                · intro i hi
                  omega
                · refine Or.inr (Or.inr ⟨0, m, tail1, rfl, by simpa using hans, ?_, ?_⟩)
                  · simp
                  · simpa using t2
      | TIMEOUT =>
        rw [hans, solve_timeout _ hgt] at h
        simp only [Bool.false_eq_true, if_false, if_true, Option.some.injEq] at h
        subst h
        refine ⟨1, [verify_event.log verify_message.timed_out], true, ?_, ?_, ?_, ?_⟩
        · simp [loop_events]
        · intro i hi
          have : i = 0 := by omega
          subst this
          simpa using hle
        · intro i hi
          omega
        · exact Or.inr (Or.inl ⟨rfl, rfl, 0, rfl, by simpa using hans⟩)
      | UNSAT =>
        rw [hans, solve_unsat _ hgt] at h
        simp only [Bool.false_eq_true, if_false, hgt] at h
        split at h
        · simp at h
        · rename_i next hnext
          have e1 := int_add_eq _ _ _ hnext
          subst e1
          by_cases hs : step = max_sensitization
          · have hst := sensitization_loop_past solver max_sensitization
              max_propagation fuel (step + 1) _ st' (by omega) h
            refine ⟨1, [verify_event.log verify_message.failed_to_sensitize], false,
              ?_, ?_, ?_, ?_⟩
            · rw [hst, sathelper_eq _ false hgt]
              simp [hs, loop_events]
            · intro i hi
              have : i = 0 := by omega
              subst this
              simpa using hle
            · intro i hi
              omega
            · refine Or.inl ⟨by simp, rfl, by push_cast; omega, ?_⟩
              intro i hi
              have : i = 0 := by omega
              subst this
              simpa using hans
          · obtain ⟨k, tail, timeout, k1, k2, k3, k4⟩ :=
              ih (step + 1) _ st' (by omega) (by exact hgt) h
            refine ⟨k + 1, tail, timeout, ?_, ?_, ?_, ?_⟩
            · rw [k1]
              simp [hs, loop_events]
            · intro i hi
              cases i with
              | zero => simpa using hle
              | succ j =>
                have := k2 j (by omega)
                push_cast
                omega
            · intro i hi
              cases i with
              | zero => simpa using hans
              | succ j =>
                have := k3 j (by omega)
                rw [← this]
                congr 1
                push_cast
                omega
            · rcases k4 with ⟨a1, a2, a3, a4⟩ | ⟨a1, a2, j, a3, a4⟩ |
                ⟨j, m, tail1, a1, a2, a3, a4⟩
              · have hk : k ≠ 0 := by
                  intro hk0
                  subst hk0
                  simp at a3
                  omega
                refine Or.inl ⟨?_, a2, by push_cast; omega, ?_⟩
                · rw [a1]
                  simp [hk]
                · intro i hi
                  cases i with
                  | zero => simpa using hans
                  | succ j =>
                    have := a4 j (by omega)
                    rw [← this]
                    congr 1
                    push_cast
                    omega
              · refine Or.inr (Or.inl ⟨a1, a2, j + 1, by omega, ?_⟩)
                rw [← a4]
                congr 1
                push_cast
                omega
              · have e : step + 1 + (j : Int) + 1 = step + ((j + 1 : Nat) : Int) + 1 := by
                  push_cast
                  omega
                refine Or.inr (Or.inr ⟨j + 1, m, tail1, by omega, ?_, ?_, ?_⟩)
                · rw [← a2]
                  congr 1
                  push_cast
                  omega
                · rw [a3, e]
                · rw [← e]
                  exact a4
    · rw [if_neg hle] at h
      simp only [Option.some.injEq] at h
      subst h
      refine ⟨0, [], false, ?_, ?_, ?_, ?_⟩
      · rw [← sathelper_eq _ false hgt]
        simp [loop_events]
      · intro i hi
        omega
      · intro i hi
        omega
      · exact Or.inl ⟨by simp, rfl, by push_cast; omega, fun i hi => by omega⟩

/-- The inner loop completes when no `int` overflows and the fuel suffices. -/
theorem propagation_loop_total (solver : solve_phase → Int → solve_result)
    (max_propagation : Int) (hmax : max_propagation < int_max) :
    ∀ (fuel : Nat) (step : Int) (st : verify_state),
      st.sathelper.gotTimeout = false → 0 ≤ step →
      (max_propagation + 1 - step).toNat < fuel →
      ∃ st', propagation_loop solver max_propagation fuel step st = some st' := by
  intro fuel
  induction fuel with
  | zero =>
    intro step st _ _ hf
    omega
  | succ fuel ih =>
    intro step st hgt h0 hf
    rw [propagation_loop]
    by_cases hle : step ≤ max_propagation
    · rw [if_pos hle]
      cases hans : solver solve_phase.propagation step with
      | SAT =>
        rw [solve_sat _ hgt]
        exact ⟨_, rfl⟩
      | TIMEOUT =>
        rw [solve_timeout _ hgt]
        exact ⟨_, rfl⟩
      | UNSAT =>
        rw [solve_unsat _ hgt]
        simp only [Bool.false_eq_true, if_false, hgt]
        rw [int_add_some step 1 (by unfold int_min; omega) (by omega)]
        exact ih (step + 1) _ (by exact hgt) (by omega) (by omega)
    · rw [if_neg hle]
      exact ⟨_, rfl⟩

/-- The outer loop completes when no `int` overflows (twice `max_sensitization` plus 1
is an `int`, and `max_propagation` is not the largest one) and the fuel suffices. -/
theorem sensitization_loop_total (solver : solve_phase → Int → solve_result)
    (max_sensitization max_propagation : Int)
    (hs : max_sensitization + max_sensitization + 1 ≤ int_max)
    (hp : max_propagation < int_max) :
    ∀ (fuel : Nat) (step : Int) (st : verify_state),
      st.sathelper.gotTimeout = false → 0 ≤ step →
      (max_sensitization + 1 - step).toNat + (max_propagation + 1 - step).toNat + 1 ≤ fuel →
      ∃ st', sensitization_loop solver max_sensitization max_propagation fuel step st
        = some st' := by
  intro fuel
  induction fuel with
  | zero =>
    intro step st _ _ hf
    omega
  | succ fuel ih =>
    intro step st hgt h0 hf
    rw [sensitization_loop]
    by_cases hle : step ≤ max_sensitization
    · rw [if_pos hle]
      cases hans : solver solve_phase.sensitization step with
      | SAT =>
        rw [solve_sat _ hgt]
        simp only [if_true]
        rw [int_add_some step 1 (by unfold int_min; omega) (by omega)]
        obtain ⟨st1, h1⟩ := propagation_loop_total solver max_propagation hp fuel (step + 1)
          ⟨st.sathelper, st.trace ++ [verify_event.setup step (decide (step = 1))]
            ++ [verify_event.solve solve_phase.sensitization step]
            ++ [verify_event.log verify_message.sensitized]⟩ hgt (by omega) (by omega)
        simp only
        rw [h1]
        simp only
        rw [int_add_some step max_sensitization (by unfold int_min; omega) (by omega)]
        simp only
        rw [int_add_some (step + max_sensitization) 1 (by unfold int_min; omega) (by omega)]
        simp only
        cases fuel with
        | zero => omega
        | succ fuel =>
          rw [sensitization_loop, if_neg (by omega)]
          exact ⟨_, rfl⟩
      | TIMEOUT =>
        rw [solve_timeout _ hgt]
        exact ⟨_, rfl⟩
      | UNSAT =>
        rw [solve_unsat _ hgt]
        simp only [Bool.false_eq_true, if_false, hgt]
        rw [int_add_some step 1 (by unfold int_min; omega) (by omega)]
        exact ih (step + 1) _ (by exact hgt) (by omega) (by omega)
    · rw [if_neg hle]
      exact ⟨_, rfl⟩

/-- After a sensitization solve with a model at a step `t` with `t + max_sensitization`
beyond the largest `int`, the statement `sensitization_step += max_sensitization`
overflows: the outer loop has no defined result. -/
theorem sensitization_loop_exit_overflow (solver : solve_phase → Int → solve_result)
    (max_sensitization max_propagation : Int) (fuel : Nat) (step : Int) (st : verify_state)
    (hle : step ≤ max_sensitization)
    (hsat : solver solve_phase.sensitization step = solve_result.SAT)
    (hover : int_max < step + max_sensitization + 1) :
    sensitization_loop solver max_sensitization max_propagation fuel step st = none := by
  cases fuel with
  | zero => rfl
  | succ fuel =>
    rw [sensitization_loop, if_pos hle, hsat]
    by_cases hgt : st.sathelper.gotTimeout = false
    · rw [solve_sat _ hgt]
      simp only [if_true]
      split
      · rfl
      · split
        · rfl
        · split
          · rfl
          · rename_i jump hjump
            split
            · rfl
            · rename_i next hnext
              have e1 := int_add_eq _ _ _ hjump
              have e2 := int_add_le _ _ _ hnext
              omega
    · have hgt' : st.sathelper.gotTimeout = true := by simpa using hgt
      rw [solve_none _ _ hgt']

/-! ### The solves and the calls of `setup` in a trace -/

theorem solve_steps_append (phase : solve_phase) (a b : List verify_event) :
    solve_steps phase (a ++ b) = solve_steps phase a ++ solve_steps phase b := by
  induction a with
  | nil => rfl
  | cons e rest ih =>
    cases e with
    | setup t i => simpa [solve_steps] using ih
    | solve p t =>
      by_cases hp : p = phase
      · simp [solve_steps, hp, ih]
      · simp [solve_steps, hp, ih]
    | log m => simpa [solve_steps] using ih

theorem solve_steps_loop_events (phase : solve_phase) :
    ∀ (k : Nat) (step : Int),
      solve_steps phase (loop_events phase step k) = steps_from step k := by
  intro k
  induction k with
  | zero => intro step; rfl
  | succ k ih =>
    intro step
    simp [loop_events, solve_steps, steps_from, ih]

theorem solve_steps_loop_events_ne (phase other : solve_phase) (h : other ≠ phase) :
    ∀ (k : Nat) (step : Int), solve_steps phase (loop_events other step k) = [] := by
  intro k
  induction k with
  | zero => intro step; rfl
  | succ k ih =>
    intro step
    simp [loop_events, solve_steps, h, ih]

theorem setup_calls_append (a b : List verify_event) :
    setup_calls (a ++ b) = setup_calls a ++ setup_calls b := by
  induction a with
  | nil => rfl
  | cons e rest ih =>
    cases e with
    | setup t i => simp [setup_calls, ih]
    | solve p t => simpa [setup_calls] using ih
    | log m => simpa [setup_calls] using ih

theorem setup_calls_loop_events (phase : solve_phase) :
    ∀ (k : Nat) (step : Int),
      setup_calls (loop_events phase step k)
        = (steps_from step k).map (fun t => (t, decide (t = 1))) := by
  intro k
  induction k with
  | zero => intro step; rfl
  | succ k ih =>
    intro step
    simp [loop_events, setup_calls, steps_from, ih]

theorem steps_from_append : ∀ (k m : Nat) (step : Int),
    steps_from step (k + m) = steps_from step k ++ steps_from (step + k) m := by
  intro k
  induction k with
  | zero =>
    intro m step
    simp [steps_from]
  | succ k ih =>
    intro m step
    have e : k + 1 + m = (k + m) + 1 := by omega
    rw [e]
    simp only [steps_from, List.cons_append, List.cons.injEq, true_and]
    rw [ih m (step + 1)]
    congr 2
    push_cast
    omega

theorem steps_from_length : ∀ (k : Nat) (step : Int), (steps_from step k).length = k := by
  intro k
  induction k with
  | zero => intro step; rfl
  | succ k ih =>
    intro step
    simp [steps_from, ih]

theorem mem_steps_from : ∀ (k : Nat) (step t : Int),
    t ∈ steps_from step k ↔ ∃ i : Nat, i < k ∧ t = step + i := by
  intro k
  induction k with
  | zero =>
    intro step t
    simp [steps_from]
  | succ k ih =>
    intro step t
    simp only [steps_from, List.mem_cons, ih]
    constructor
    · rintro (h | ⟨i, hi, h⟩)
      · exact ⟨0, by omega, by simpa using h⟩
      · exact ⟨i + 1, by omega, by rw [h]; push_cast; omega⟩
    · rintro ⟨i, hi, h⟩
      cases i with
      | zero => exact Or.inl (by simpa using h)
      | succ j => exact Or.inr ⟨j, by omega, by rw [h]; push_cast; omega⟩

theorem log_mem_loop_events (phase : solve_phase) (message : verify_message) :
    ∀ (k : Nat) (step : Int), verify_event.log message ∉ loop_events phase step k := by
  intro k
  induction k with
  | zero =>
    intro step
    simp [loop_events]
  | succ k ih =>
    intro step
    simp [loop_events, ih]

/-- The messages at the end of a run of the inner loop. -/
theorem propagation_outcome_tail (solver : solve_phase → Int → solve_result)
    (max_propagation step : Int) (m : Nat) (tail : List verify_event) (timeout : Bool)
    (h : propagation_outcome solver max_propagation step m tail timeout) :
    tail = [] ∨ tail = [verify_event.log verify_message.propagated] ∨
      tail = [verify_event.log verify_message.timed_out] := by
  rcases h.2.2 with ⟨a, _⟩ | ⟨a, _⟩ | ⟨a, _⟩
  · exact Or.inl a
  · exact Or.inr (Or.inl a)
  · exact Or.inr (Or.inr a)

/-- The first sensitization solve with a model fixes how the outer loop ends. -/
theorem sensitization_outcome_sat (solver : solve_phase → Int → solve_result)
    (max_sensitization max_propagation step : Int) (k : Nat) (tail : List verify_event)
    (timeout : Bool) (j : Nat)
    (h : sensitization_outcome solver max_sensitization max_propagation step k tail timeout)
    (hunsat : ∀ i : Nat, i < j →
      solver solve_phase.sensitization (step + i) = solve_result.UNSAT)
    (hsat : solver solve_phase.sensitization (step + j) = solve_result.SAT)
    (hle : step + j ≤ max_sensitization) :
    k = j + 1 ∧ ∃ (m : Nat) (tail1 : List verify_event),
      tail = verify_event.log verify_message.sensitized
        :: (loop_events solve_phase.propagation (step + j + 1) m ++ tail1) ∧
      propagation_outcome solver max_propagation (step + j + 1) m tail1 timeout := by
  obtain ⟨_, h2, h3⟩ := h
  have key : ∀ (j' : Nat), k = j' + 1 →
      solver solve_phase.sensitization (step + j') ≠ solve_result.UNSAT → j' = j := by
    intro j' hk hne
    rcases Nat.lt_trichotomy j' j with hlt | heq | hgt
    · exact absurd (hunsat j' hlt) hne
    · exact heq
    · have := h2 j (by omega)
      rw [hsat] at this
      exact absurd this (by decide)
  rcases h3 with ⟨_, _, a3, a4⟩ | ⟨_, _, j', a3, a4⟩ | ⟨j', m, tail1, a1, a2, a3, a4⟩
  · have := a4 j (by omega)
    rw [hsat] at this
    exact absurd this (by decide)
  · have hj := key j' a3 (by rw [a4]; decide)
    subst hj
    rw [hsat] at a4
    exact absurd a4 (by decide)
  · have hj := key j' a1 (by rw [a2]; decide)
    subst hj
    exact ⟨a1, m, tail1, a3, a4⟩

/-! ### The discipline of the timeout -/

theorem timeout_discipline_loop_events (solver : solve_phase → Int → solve_result)
    (phase : solve_phase) (seen : Bool) (rest : List verify_event) :
    ∀ (k : Nat) (step : Int),
      (∀ i : Nat, i < k → solver phase (step + i) = solve_result.UNSAT) →
      timeout_discipline solver seen rest →
      timeout_discipline solver seen (loop_events phase step k ++ rest) := by
  intro k
  induction k with
  | zero =>
    intro step _ h
    simpa [loop_events] using h
  | succ k ih =>
    intro step hu h
    have h0 : solver phase step = solve_result.UNSAT := by simpa using hu 0 (by omega)
    have hrest := ih (step + 1) (fun i hi => by
      have := hu (i + 1) (by omega)
      rw [← this]
      congr 1
      push_cast
      omega) h
    simp only [loop_events, List.cons_append, timeout_discipline]
    exact ⟨fun hc => by rw [h0] at hc; exact absurd hc (by decide), hrest⟩

theorem loop_events_succ (phase : solve_phase) : ∀ (k : Nat) (step : Int),
    loop_events phase step (k + 1)
      = loop_events phase step k
        ++ [verify_event.setup (step + k) (decide (step + k = 1)),
            verify_event.solve phase (step + k)] := by
  intro k
  induction k with
  | zero =>
    intro step
    simp [loop_events]
  | succ k ih =>
    intro step
    rw [loop_events, ih (step + 1)]
    have e : step + 1 + (k : Int) = step + ((k + 1 : Nat) : Int) := by
      push_cast
      omega
    rw [e]
    rfl

/-- The discipline read at a solve of the trace. -/
theorem timeout_discipline_at (solver : solve_phase → Int → solve_result) :
    ∀ (pre : List verify_event) (seen : Bool) (p : solve_phase) (t : Int)
      (post : List verify_event),
      timeout_discipline solver seen (pre ++ verify_event.solve p t :: post) →
      solver p t = solve_result.TIMEOUT →
      post = [verify_event.log verify_message.timed_out] ∧
      (p = solve_phase.propagation →
        seen = true ∨ verify_event.log verify_message.sensitized ∈ pre) := by
  intro pre
  induction pre with
  | nil =>
    intro seen p t post h ht
    simp only [List.nil_append, timeout_discipline] at h
    exact ⟨(h.1 ht).1, fun hp => Or.inl ((h.1 ht).2 hp)⟩
  | cons e rest ih =>
    intro seen p t post h ht
    cases e with
    | setup t' i =>
      simp only [List.cons_append, timeout_discipline] at h
      obtain ⟨h1, h2⟩ := ih seen p t post h ht
      exact ⟨h1, fun hp => (h2 hp).imp id (List.mem_cons_of_mem _)⟩
    | solve p' t' =>
      simp only [List.cons_append, timeout_discipline] at h
      obtain ⟨h1, h2⟩ := ih seen p t post h.2 ht
      exact ⟨h1, fun hp => (h2 hp).imp id (List.mem_cons_of_mem _)⟩
    | log m =>
      cases m with
      | sensitized =>
        simp only [List.cons_append, timeout_discipline] at h
        obtain ⟨h1, _⟩ := ih true p t post h ht
        exact ⟨h1, fun _ => Or.inr (List.mem_cons_self _ _)⟩
      | propagated =>
        simp only [List.cons_append, timeout_discipline] at h
        obtain ⟨h1, h2⟩ := ih seen p t post h ht
        exact ⟨h1, fun hp => (h2 hp).imp id (List.mem_cons_of_mem _)⟩
      | timed_out =>
        simp only [List.cons_append, timeout_discipline] at h
        obtain ⟨h1, h2⟩ := ih seen p t post h ht
        exact ⟨h1, fun hp => (h2 hp).imp id (List.mem_cons_of_mem _)⟩
      | failed_to_sensitize =>
        simp only [List.cons_append, timeout_discipline] at h
        obtain ⟨h1, h2⟩ := ih seen p t post h ht
        exact ⟨h1, fun hp => (h2 hp).imp id (List.mem_cons_of_mem _)⟩

/-- The discipline holds along a run of the inner loop entered after the message
`sensitized`. -/
theorem timeout_discipline_propagation (solver : solve_phase → Int → solve_result)
    (max_propagation step : Int) (m : Nat) (tail : List verify_event) (timeout : Bool)
    (h : propagation_outcome solver max_propagation step m tail timeout) :
    timeout_discipline solver true (loop_events solve_phase.propagation step m ++ tail) := by
  obtain ⟨_, h2, h3⟩ := h
  rcases h3 with ⟨a1, _, _, a4⟩ | ⟨a1, _, j, a3, a4⟩ | ⟨a1, _, j, a3, a4⟩
  · subst a1
    exact timeout_discipline_loop_events solver _ true [] m step a4 trivial
  · subst a1
    subst a3
    rw [loop_events_succ, List.append_assoc]
    apply timeout_discipline_loop_events solver _ true _ j step
      (fun i hi => h2 i (by omega))
    simp only [List.cons_append, List.nil_append, timeout_discipline, and_true]
    intro hc
    rw [a4] at hc
    exact absurd hc (by decide)
  · subst a1
    subst a3
    rw [loop_events_succ, List.append_assoc]
    apply timeout_discipline_loop_events solver _ true _ j step
      (fun i hi => h2 i (by omega))
    simp [timeout_discipline]

/-- The discipline holds along a run of the outer loop. -/
theorem timeout_discipline_sensitization (solver : solve_phase → Int → solve_result)
    (max_sensitization max_propagation step : Int) (k : Nat) (tail : List verify_event)
    (timeout : Bool)
    (h : sensitization_outcome solver max_sensitization max_propagation step k tail timeout) :
    timeout_discipline solver false
      (loop_events solve_phase.sensitization step k ++ tail) := by
  obtain ⟨_, h2, h3⟩ := h
  rcases h3 with ⟨a1, _, _, a4⟩ | ⟨a1, _, j, a3, a4⟩ | ⟨j, m, tail1, a1, a2, a3, a4⟩
  · apply timeout_discipline_loop_events solver _ false _ k step a4
    rw [a1]
    by_cases hk : k = 0
    · simp [hk, timeout_discipline]
    · simp [hk, timeout_discipline]
  · subst a1
    subst a3
    rw [loop_events_succ, List.append_assoc]
    apply timeout_discipline_loop_events solver _ false _ j step
      (fun i hi => h2 i (by omega))
    simp [timeout_discipline]
  · subst a1
    subst a3
    rw [loop_events_succ, List.append_assoc]
    apply timeout_discipline_loop_events solver _ false _ j step
      (fun i hi => h2 i (by omega))
    simp only [List.cons_append, List.nil_append, timeout_discipline]
    refine ⟨fun hc => ?_, timeout_discipline_propagation solver max_propagation _ m tail1
      timeout a4⟩
    rw [a2] at hc
    exact absurd hc (by decide)

/-! ### The verdict `not_sensitized` -/

/-- While the solver finds no model, the outer loop makes one solve for each of the
remaining `n` steps and logs the failure at the last one. -/
theorem sensitization_loop_unsat (solver : solve_phase → Int → solve_result)
    (max_sensitization max_propagation : Int) (hmax : max_sensitization < int_max) :
    ∀ (n fuel : Nat) (step : Int) (st : verify_state),
      st.sathelper.gotTimeout = false → 1 ≤ step → step + n = max_sensitization + 1 →
      n < fuel →
      (∀ t, step ≤ t → t ≤ max_sensitization →
        solver solve_phase.sensitization t = solve_result.UNSAT) →
      sensitization_loop solver max_sensitization max_propagation fuel step st
        = some ⟨st.sathelper, st.trace ++ loop_events solve_phase.sensitization step n
            ++ (if n = 0 then [] else [verify_event.log verify_message.failed_to_sensitize])⟩ := by
  intro n
  induction n with
  | zero =>
    intro fuel step st _ _ hn hfuel _
    cases fuel with
    | zero => omega
    | succ fuel =>
      rw [sensitization_loop, if_neg (by omega)]
      cases st
      simp [loop_events]
  | succ n ih =>
    intro fuel step st hgt h1 hn hfuel hunsat
    cases fuel with
    | zero => omega
    | succ fuel =>
      have hle : step ≤ max_sensitization := by omega
      have hnext : int_add step 1 = some (step + 1) :=
        int_add_some step 1 (by unfold int_min; omega) (by omega)
      rw [sensitization_loop, if_pos hle, hunsat step (le_refl _) hle, solve_unsat _ hgt]
      simp only [Bool.false_eq_true, if_false, hgt, hnext]
      rw [ih fuel (step + 1) _ (by exact hgt) (by omega) (by push_cast at hn ⊢; omega)
        (by omega) (fun t ht1 ht2 => hunsat t (by omega) ht2)]
      simp only [Nat.succ_ne_zero, if_false, Option.some.injEq, verify_state.mk.injEq,
        true_and, loop_events]
      by_cases hz : n = 0
      · subst hz
        have hs : step = max_sensitization := by push_cast at hn; omega
        simp [hs, loop_events]
      · have hs : step ≠ max_sensitization := by push_cast at hn; omega
        simp [hs, hz]

/-- With `max_sensitization` the largest `int` and a solver that never finds a model,
the outer loop does not complete: the increment of `sensitization_step` after the last
step overflows. -/
theorem sensitization_loop_overflow (max_propagation : Int) :
    ∀ (fuel : Nat) (step : Int) (st : verify_state),
      st.sathelper.gotTimeout = false → 1 ≤ step → step ≤ int_max →
      sensitization_loop never_sensitized int_max max_propagation fuel step st = none := by
  intro fuel
  induction fuel with
  | zero =>
    intro step st _ _ _
    rfl
  | succ fuel ih =>
    intro step st hgt h1 hle
    have hans : never_sensitized solve_phase.sensitization step = solve_result.UNSAT := rfl
    rw [sensitization_loop, if_pos hle, hans, solve_unsat _ hgt]
    simp only [Bool.false_eq_true, if_false, hgt]
    by_cases hs : step = int_max
    · have hnone : int_add step 1 = none := by
        unfold int_add
        rw [if_neg]
        intro hc
        omega
      rw [hnone]
    · have hnext : int_add step 1 = some (step + 1) :=
        int_add_some step 1 (by unfold int_min; omega) (by omega)
      rw [hnext]
      exact ih (step + 1) _ (by exact hgt) (by omega) (by omega)

theorem solve_steps_propagation_tail (solver : solve_phase → Int → solve_result)
    (max_propagation step : Int) (m : Nat) (tail : List verify_event) (timeout : Bool)
    (phase : solve_phase)
    (h : propagation_outcome solver max_propagation step m tail timeout) :
    solve_steps phase tail = [] := by
  rcases propagation_outcome_tail solver max_propagation step m tail timeout h with e | e | e
  · rw [e]; rfl
  · rw [e]; rfl
  · rw [e]; rfl

/-- The sensitization solves of a run of the outer loop are those of its `k`
iterations. -/
theorem solve_steps_sensitization_tail (solver : solve_phase → Int → solve_result)
    (max_sensitization max_propagation step : Int) (k : Nat) (tail : List verify_event)
    (timeout : Bool)
    (h : sensitization_outcome solver max_sensitization max_propagation step k tail timeout) :
    solve_steps solve_phase.sensitization tail = [] := by
  rcases h.2.2 with ⟨a1, _⟩ | ⟨a1, _⟩ | ⟨j, m, tail1, _, _, a3, a4⟩
  · rw [a1]
    by_cases hk : k = 0
    · simp [hk, solve_steps]
    · simp [hk, solve_steps]
  · rw [a1]; rfl
  · rw [a3]
    simp only [solve_steps]
    rw [solve_steps_append, solve_steps_loop_events_ne _ _ (by decide),
      solve_steps_propagation_tail solver max_propagation _ m tail1 timeout _ a4]
    rfl

/-- C20 fails for the largest `max_sensitization`: the counter `sensitization_step` is
an `int`, and the loop increments it once past `max_sensitization`. For
`max_sensitization = 2147483647` and a solver that answers every sensitization solve
with UNSAT, the increment after the step 2147483647 overflows: the run has no defined
result, for any amount of fuel. -/
theorem C20_counterexample :
    (1 : Int) ≤ 2147483647 ∧
    (∀ t : Int, never_sensitized solve_phase.sensitization t = solve_result.UNSAT) ∧
    int_add 2147483647 1 = none ∧
    ¬ ∃ (fuel : Nat) (st : verify_state),
      verify_miter never_sensitized 2147483647 32 fuel = some st := by
  refine ⟨by decide, fun _ => rfl, by decide, ?_⟩
  rintro ⟨fuel, st, h⟩
  have hnone := sensitization_loop_overflow 32 fuel 1 ⟨⟨false⟩, []⟩ rfl (le_refl _)
    (by unfold int_max; omega)
  have hmax : (2147483647 : Int) = int_max := rfl
  rw [verify_miter, hmax, hnone] at h
  exact absurd h (by simp)

/-- C20 (amended): the verdict `not_sensitized`. For `max_sensitization` from 1 to
2147483646: if the solver answers UNSAT for the sensitization solves at the steps
1, 2, .., `max_sensitization`, the loops of `verify_miter` and of `inject_verify`, given
more fuel than `max_sensitization`, complete, and what they do is exactly: for each of
the steps 1, .., `max_sensitization` in increasing order the call of `setup` and the
sensitization solve, then the message of the failure to sensitize; the sensitization
solves are `max_sensitization` many, no propagation solve is made and no timeout is
recorded. And in every completed run, for any answers of the solver, the sensitization
solves are those of the first `k` iterations, for the steps 1, .., `k` in this order,
none of them beyond `max_sensitization`, and every one of them but the last was
answered with UNSAT: the solve for the step `t + 1` is made only after an UNSAT
answer for the step `t`. -/
theorem C20_not_sensitized (solver : solve_phase → Int → solve_result)
    (max_sensitization max_propagation : Int) (fuel : Nat) :
    (1 ≤ max_sensitization → max_sensitization < 2147483647 →
      (∀ t, 1 ≤ t → t ≤ max_sensitization →
        solver solve_phase.sensitization t = solve_result.UNSAT) →
      max_sensitization < fuel →
      verify_miter solver max_sensitization max_propagation fuel
        = some ⟨⟨false⟩, loop_events solve_phase.sensitization 1 max_sensitization.toNat
            ++ [verify_event.log verify_message.failed_to_sensitize]⟩ ∧
      inject_verify solver max_sensitization max_propagation fuel
        = some ⟨⟨false⟩, loop_events solve_phase.sensitization 1 max_sensitization.toNat
            ++ [verify_event.log verify_message.failed_to_sensitize]⟩ ∧
      solve_steps solve_phase.sensitization
          (loop_events solve_phase.sensitization 1 max_sensitization.toNat
            ++ [verify_event.log verify_message.failed_to_sensitize])
        = steps_from 1 max_sensitization.toNat ∧
      (steps_from 1 max_sensitization.toNat).length = max_sensitization.toNat ∧
      solve_steps solve_phase.propagation
          (loop_events solve_phase.sensitization 1 max_sensitization.toNat
            ++ [verify_event.log verify_message.failed_to_sensitize]) = []) ∧
    (∀ st, verify_miter solver max_sensitization max_propagation fuel = some st →
      ∃ (k : Nat) (tail : List verify_event),
        st.trace = loop_events solve_phase.sensitization 1 k ++ tail ∧
        solve_steps solve_phase.sensitization tail = [] ∧
        solve_steps solve_phase.sensitization st.trace = steps_from 1 k ∧
        (∀ i : Nat, i < k → (1 : Int) + i ≤ max_sensitization) ∧
        ∀ i : Nat, i + 1 < k →
          solver solve_phase.sensitization (1 + i) = solve_result.UNSAT) ∧
    inject_verify solver max_sensitization max_propagation fuel
      = verify_miter solver max_sensitization max_propagation fuel := by
  refine ⟨?_, ?_, rfl⟩
  · intro h1 hmax hunsat hfuel
    have hrun := sensitization_loop_unsat solver max_sensitization max_propagation
      (by unfold int_max; exact hmax) max_sensitization.toNat fuel 1 ⟨⟨false⟩, []⟩ rfl
      (le_refl _) (by rw [Int.toNat_of_nonneg (by omega)]; omega) (by omega) hunsat
    have hne : max_sensitization.toNat ≠ 0 := by omega
    simp only [hne, if_false, List.nil_append] at hrun
    refine ⟨hrun, hrun, ?_, steps_from_length _ _, ?_⟩
    · rw [solve_steps_append, solve_steps_loop_events]
      simp [solve_steps]
    · rw [solve_steps_append, solve_steps_loop_events_ne _ _ (by decide)]
      rfl
  · intro st h
    obtain ⟨k, tail, timeout, k1, k2⟩ := sensitization_loop_spec solver max_sensitization
      max_propagation fuel 1 ⟨⟨false⟩, []⟩ st (by omega) rfl h
    have htail := solve_steps_sensitization_tail solver max_sensitization max_propagation 1 k
      tail timeout k2
    have htrace : st.trace = loop_events solve_phase.sensitization 1 k ++ tail := by
      rw [k1]
      simp
    refine ⟨k, tail, htrace, htail, ?_, k2.1, k2.2.1⟩
    rw [htrace, solve_steps_append, solve_steps_loop_events, htail, List.append_nil]

set_option maxRecDepth 100000 in
/-- Witness of C20 for `max_sensitization = 3`: three sensitization solves, for the
steps 1, 2, 3, and the message of the failure. -/
theorem C20_not_sensitized_witness :
    (1 : Int) ≤ 3 ∧ (3 : Int) < 2147483647 ∧
    (∀ t : Int, 1 ≤ t → t ≤ 3 →
      never_sensitized solve_phase.sensitization t = solve_result.UNSAT) ∧
    (3 : Int) < (4 : Nat) ∧
    loop_events solve_phase.sensitization 1 (3 : Int).toNat
        ++ [verify_event.log verify_message.failed_to_sensitize]
      = [verify_event.setup 1 true, verify_event.solve solve_phase.sensitization 1,
          verify_event.setup 2 false, verify_event.solve solve_phase.sensitization 2,
          verify_event.setup 3 false, verify_event.solve solve_phase.sensitization 3,
          verify_event.log verify_message.failed_to_sensitize] ∧
    steps_from 1 (3 : Int).toNat = [1, 2, 3] ∧
    verify_miter never_sensitized 3 32 4
      = some ⟨⟨false⟩, loop_events solve_phase.sensitization 1 (3 : Int).toNat
          ++ [verify_event.log verify_message.failed_to_sensitize]⟩ ∧
    inject_verify never_sensitized 3 32 4
      = some ⟨⟨false⟩, loop_events solve_phase.sensitization 1 (3 : Int).toNat
          ++ [verify_event.log verify_message.failed_to_sensitize]⟩ ∧
    solve_steps solve_phase.sensitization
        (loop_events solve_phase.sensitization 1 (3 : Int).toNat
          ++ [verify_event.log verify_message.failed_to_sensitize])
      = steps_from 1 (3 : Int).toNat ∧
    (steps_from 1 (3 : Int).toNat).length = (3 : Int).toNat ∧
    solve_steps solve_phase.propagation
        (loop_events solve_phase.sensitization 1 (3 : Int).toNat
          ++ [verify_event.log verify_message.failed_to_sensitize]) = [] :=
  ⟨by decide, by decide, fun _ _ _ => rfl, by decide, by decide, by decide,
    (C20_not_sensitized never_sensitized 3 32 4).1 (by decide) (by decide)
      (fun _ _ _ => rfl) (by decide)⟩

/-! ### The propagation phase, the timeout and the time steps -/

theorem log_mem_trace (message : verify_message) (phase1 phase2 : solve_phase)
    (step1 step2 : Int) (k m : Nat) (tail : List verify_event)
    (h : message ≠ verify_message.sensitized) :
    verify_event.log message ∈ loop_events phase1 step1 k
        ++ verify_event.log verify_message.sensitized
          :: (loop_events phase2 step2 m ++ tail)
      ↔ verify_event.log message ∈ tail := by
  simp only [List.mem_append, List.mem_cons, verify_event.log.injEq]
  constructor
  · rintro (h1 | h1 | h1 | h1)
    · exact absurd h1 (log_mem_loop_events _ _ _ _)
    · exact absurd h1 h
    · exact absurd h1 (log_mem_loop_events _ _ _ _)
    · exact h1
  · intro h1
    exact Or.inr (Or.inr (Or.inr h1))

/-- C21: the propagation phase. (1) In every completed run of `verify_miter` in which
the first sensitization solve with the answer SAT is that of the step `t = 1 + j`: the
sensitization solves are those of the steps 1, .., `t` and no further one is made; after
the message `sensitized` the propagation solves are made for the steps `t + 1`,
`t + 2`, .., `t + m` in this order, none of them beyond `max_propagation`, and every one
of them but the last was answered with UNSAT (the loop stops at the first SAT); the
message `propagated` is logged exactly when one of these solves was answered with SAT,
which then is one for a step `t'` with `t < t' ≤ max_propagation`; for
`max_propagation ≤ t` no propagation solve is made and `propagated` is not logged.
(2) The run completes whenever `2 * max_sensitization + 1` and `max_propagation + 1`
are values of the type `int` and the fuel suffices. (3) It does not for
`max_sensitization = 2147483647` and a first sensitization solve with the answer SAT:
after the inner loop, `sensitization_step += max_sensitization` is `1 + 2147483647`,
an overflow of `int`, and the run has no defined result. -/
theorem C21_propagation_phase (solver : solve_phase → Int → solve_result)
    (max_sensitization max_propagation : Int) (fuel : Nat) :
    (∀ (st : verify_state) (j : Nat),
      verify_miter solver max_sensitization max_propagation fuel = some st →
      (∀ i : Nat, i < j → solver solve_phase.sensitization (1 + i) = solve_result.UNSAT) →
      solver solve_phase.sensitization (1 + j) = solve_result.SAT →
      1 + (j : Int) ≤ max_sensitization →
      ∃ (m : Nat) (tail : List verify_event),
        st.trace = loop_events solve_phase.sensitization 1 (j + 1)
          ++ verify_event.log verify_message.sensitized
            :: (loop_events solve_phase.propagation (1 + j + 1) m ++ tail) ∧
        solve_steps solve_phase.sensitization st.trace = steps_from 1 (j + 1) ∧
        solve_steps solve_phase.propagation st.trace = steps_from (1 + j + 1) m ∧
        (∀ i : Nat, i < m → 1 + (j : Int) + 1 + i ≤ max_propagation) ∧
        (∀ i : Nat, i + 1 < m →
          solver solve_phase.propagation (1 + j + 1 + i) = solve_result.UNSAT) ∧
        (verify_event.log verify_message.propagated ∈ st.trace ↔
          ∃ i : Nat, i < m ∧
            solver solve_phase.propagation (1 + j + 1 + i) = solve_result.SAT) ∧
        (verify_event.log verify_message.propagated ∈ st.trace →
          ∃ t' : Int, 1 + (j : Int) < t' ∧ t' ≤ max_propagation ∧
            solver solve_phase.propagation t' = solve_result.SAT) ∧
        (max_propagation ≤ 1 + (j : Int) →
          m = 0 ∧ verify_event.log verify_message.propagated ∉ st.trace)) ∧
    (max_sensitization + max_sensitization + 1 ≤ 2147483647 →
      max_propagation < 2147483647 →
      max_sensitization.toNat + max_propagation.toNat + 2 ≤ fuel →
      ∃ st, verify_miter solver max_sensitization max_propagation fuel = some st) ∧
    (always_sat solve_phase.sensitization 1 = solve_result.SAT ∧
      int_add 1 2147483647 = none ∧
      ¬ ∃ (fuel1 : Nat) (st : verify_state),
        verify_miter always_sat 2147483647 32 fuel1 = some st) := by
  refine ⟨?_, ?_, rfl, by decide, ?_⟩
  · intro st j h hunsat hsat hle
    obtain ⟨k, tail, timeout, k1, k2⟩ := sensitization_loop_spec solver max_sensitization
      max_propagation fuel 1 ⟨⟨false⟩, []⟩ st (by omega) rfl h
    obtain ⟨hk, m, tail1, e1, e2⟩ := sensitization_outcome_sat solver max_sensitization
      max_propagation 1 k tail timeout j k2 hunsat hsat hle
    subst hk
    have htrace : st.trace = loop_events solve_phase.sensitization 1 (j + 1)
        ++ verify_event.log verify_message.sensitized
          :: (loop_events solve_phase.propagation (1 + j + 1) m ++ tail1) := by
      rw [k1, e1]
      simp
    have htail := propagation_outcome_tail solver max_propagation _ m tail1 timeout e2
    have hs1 : ∀ phase, solve_steps phase tail1 = [] := fun phase =>
      solve_steps_propagation_tail solver max_propagation _ m tail1 timeout phase e2
    have hprop : verify_event.log verify_message.propagated ∈ st.trace ↔
        ∃ i : Nat, i < m ∧
          solver solve_phase.propagation (1 + j + 1 + i) = solve_result.SAT := by
      rw [htrace, log_mem_trace _ _ _ _ _ _ _ _ (by decide)]
      obtain ⟨_, o2, o3⟩ := e2
      rcases o3 with ⟨a1, _, _, a4⟩ | ⟨a1, _, i, a3, a4⟩ | ⟨a1, _, i, a3, a4⟩
      · rw [a1]
        constructor
        · intro hc
          simp at hc
        · rintro ⟨i, hi, hc⟩
          rw [a4 i hi] at hc
          exact absurd hc (by decide)
      · rw [a1]
        constructor
        · intro _
          exact ⟨i, by omega, a4⟩
        · intro _
          simp
      · rw [a1]
        constructor
        · intro hc
          simp at hc
        · rintro ⟨i', hi', hc⟩
          by_cases hlast : i' = i
          · subst hlast
            rw [a4] at hc
            exact absurd hc (by decide)
          · rw [o2 i' (by omega)] at hc
            exact absurd hc (by decide)
    refine ⟨m, tail1, htrace, ?_, ?_, e2.1, e2.2.1, hprop, ?_, ?_⟩
    · rw [htrace, solve_steps_append, solve_steps_loop_events]
      simp only [solve_steps]
      rw [solve_steps_append, solve_steps_loop_events_ne _ _ (by decide), hs1]
      simp
    · rw [htrace, solve_steps_append, solve_steps_loop_events_ne _ _ (by decide)]
      simp only [solve_steps, List.nil_append]
      rw [solve_steps_append, solve_steps_loop_events, hs1, List.append_nil]
    · intro hp
      obtain ⟨i, hi, hsat'⟩ := hprop.mp hp
      exact ⟨1 + j + 1 + i, by omega, e2.1 i hi, hsat'⟩
    · intro hmax
      have hm : m = 0 := by
        by_contra hne
        have := e2.1 0 (by omega)
        simp at this
        omega
      refine ⟨hm, ?_⟩
      intro hp
      obtain ⟨i, hi, _⟩ := hprop.mp hp
      omega
  · intro hs hp hfuel
    exact sensitization_loop_total solver max_sensitization max_propagation
      (by unfold int_max; exact hs) (by unfold int_max; exact hp) fuel 1 ⟨⟨false⟩, []⟩ rfl
      (by omega) (by omega)
  · rintro ⟨fuel1, st, h⟩
    have hnone := sensitization_loop_exit_overflow always_sat 2147483647 32 fuel1 1
      ⟨⟨false⟩, []⟩ (by omega) rfl (by unfold int_max; omega)
    rw [verify_miter, hnone] at h
    exact absurd h (by simp)

set_option maxRecDepth 100000 in
/-- Witness of C21: with a model at the sensitization step 2 and at the propagation
step 4, `max_sensitization = 20` and `max_propagation = 32`, the run makes the
sensitization solves 1, 2 and the propagation solves 3, 4 and logs `propagated`. -/
theorem C21_propagation_phase_witness :
    verify_miter sat_2_4 20 32 60
      = some ⟨⟨false⟩, [verify_event.setup 1 true,
          verify_event.solve solve_phase.sensitization 1,
          verify_event.setup 2 false, verify_event.solve solve_phase.sensitization 2,
          verify_event.log verify_message.sensitized,
          verify_event.setup 3 false, verify_event.solve solve_phase.propagation 3,
          verify_event.setup 4 false, verify_event.solve solve_phase.propagation 4,
          verify_event.log verify_message.propagated]⟩ ∧
    ∃ st, verify_miter sat_2_4 20 32 60 = some st ∧
      (∀ i : Nat, i < 1 → sat_2_4 solve_phase.sensitization (1 + i) = solve_result.UNSAT) ∧
      sat_2_4 solve_phase.sensitization (1 + (1 : Nat)) = solve_result.SAT ∧
      1 + ((1 : Nat) : Int) ≤ 20 ∧
      ∃ (m : Nat) (tail : List verify_event),
        st.trace = loop_events solve_phase.sensitization 1 (1 + 1)
          ++ verify_event.log verify_message.sensitized
            :: (loop_events solve_phase.propagation (1 + (1 : Nat) + 1) m ++ tail) ∧
        solve_steps solve_phase.sensitization st.trace = steps_from 1 (1 + 1) ∧
        solve_steps solve_phase.propagation st.trace = steps_from (1 + (1 : Nat) + 1) m ∧
        (∀ i : Nat, i < m → 1 + ((1 : Nat) : Int) + 1 + i ≤ 32) ∧
        (∀ i : Nat, i + 1 < m →
          sat_2_4 solve_phase.propagation (1 + (1 : Nat) + 1 + i) = solve_result.UNSAT) ∧
        (verify_event.log verify_message.propagated ∈ st.trace ↔
          ∃ i : Nat, i < m ∧
            sat_2_4 solve_phase.propagation (1 + (1 : Nat) + 1 + i) = solve_result.SAT) ∧
        (verify_event.log verify_message.propagated ∈ st.trace →
          ∃ t' : Int, 1 + ((1 : Nat) : Int) < t' ∧ t' ≤ 32 ∧
            sat_2_4 solve_phase.propagation t' = solve_result.SAT) ∧
        ((32 : Int) ≤ 1 + ((1 : Nat) : Int) →
          m = 0 ∧ verify_event.log verify_message.propagated ∉ st.trace) := by
  refine ⟨by decide, ?_⟩
  cases hres : verify_miter sat_2_4 20 32 60 with
  | none => exact absurd hres (by decide)
  | some st =>
    have hu : ∀ i : Nat, i < 1 →
        sat_2_4 solve_phase.sensitization (1 + i) = solve_result.UNSAT := by
      intro i hi
      have : i = 0 := by omega
      subst this
      decide
    exact ⟨st, rfl, hu, by decide, by decide,
      (C21_propagation_phase sat_2_4 20 32 60).1 st 1 hres hu (by decide) (by decide)⟩

theorem solve_steps_logs_only (phase : solve_phase) :
    ∀ (events : List verify_event), logs_only events → solve_steps phase events = [] := by
  intro events
  induction events with
  | nil => intro _; rfl
  | cons e rest ih =>
    intro h
    obtain ⟨message, he⟩ := h e (List.mem_cons_self _ _)
    subst he
    simp only [solve_steps]
    exact ih (fun e' he' => h e' (List.mem_cons_of_mem _ he'))

theorem setup_calls_logs_only :
    ∀ (events : List verify_event), logs_only events → setup_calls events = [] := by
  intro events
  induction events with
  | nil => intro _; rfl
  | cons e rest ih =>
    intro h
    obtain ⟨message, he⟩ := h e (List.mem_cons_self _ _)
    subst he
    simp only [setup_calls]
    exact ih (fun e' he' => h e' (List.mem_cons_of_mem _ he'))

/-- The shape of the trace of a completed run of the outer loop from the step 1: the
iterations of the outer loop for the steps 1, .., `k`, messages, the iterations of the
inner loop for the steps `k + 1`, .., `k + m`, messages. -/
theorem verify_trace_shape (solver : solve_phase → Int → solve_result)
    (max_sensitization max_propagation : Int) (fuel : Nat) (st : verify_state)
    (h : verify_miter solver max_sensitization max_propagation fuel = some st) :
    ∃ (k m : Nat) (mid tail : List verify_event),
      st.trace = loop_events solve_phase.sensitization 1 k ++ mid
        ++ loop_events solve_phase.propagation (1 + k) m ++ tail ∧
      logs_only mid ∧ logs_only tail := by
  obtain ⟨k, tail, timeout, k1, k2⟩ := sensitization_loop_spec solver max_sensitization
    max_propagation fuel 1 ⟨⟨false⟩, []⟩ st (by omega) rfl h
  have htrace : st.trace = loop_events solve_phase.sensitization 1 k ++ tail := by
    rw [k1]
    simp
  rcases k2.2.2 with ⟨a1, _⟩ | ⟨a1, _⟩ | ⟨j, m, tail1, a1, _, a3, a4⟩
  · refine ⟨k, 0, tail, [], by rw [htrace]; simp [loop_events], ?_, by simp [logs_only]⟩
    rw [a1]
    by_cases hk : k = 0
    · simp [hk, logs_only]
    · simp [hk, logs_only]
  · refine ⟨k, 0, tail, [], by rw [htrace]; simp [loop_events], ?_, by simp [logs_only]⟩
    rw [a1]
    simp [logs_only]
  · refine ⟨k, m, [verify_event.log verify_message.sensitized], tail1, ?_,
      by simp [logs_only], ?_⟩
    · rw [htrace, a3, a1]
      have e : (1 : Int) + ((j + 1 : Nat) : Int) = 1 + j + 1 := by
        push_cast
        omega
      rw [e]
      simp
    · rcases propagation_outcome_tail solver max_propagation _ m tail1 timeout a4
        with e | e | e
      · rw [e]; simp [logs_only]
      · rw [e]; simp [logs_only]
      · rw [e]; simp [logs_only]

/-- C22: the handling of the timeout. (1) In every completed run of `verify_miter`
(and of `inject_verify`, which runs the same loops), whatever the answers of the solver:
a solve, of either loop, that was answered with TIMEOUT is followed by the message
`timed_out` and by nothing else, so no further solve is made; and when it is a
propagation solve, the message `sensitized` was logged before it. (2) The run
completes, so that no assertion of `SatHelper::solve` fails, whenever
`2 * max_sensitization + 1` and `max_propagation + 1` are values of the type `int` and
the fuel suffices. (3) It does not for `max_sensitization = 2147483647` with a model in
the sensitization solve of step 1 and a timeout in the propagation solve of step 2:
after the message `timed_out` the inner loop is left, and
`sensitization_step += max_sensitization` is `1 + 2147483647`, an overflow of `int`;
the run has no defined result. -/
theorem C22_timeout_handling (solver : solve_phase → Int → solve_result)
    (max_sensitization max_propagation : Int) (fuel : Nat) :
    (∀ (st : verify_state) (pre post : List verify_event) (p : solve_phase) (t : Int),
      verify_miter solver max_sensitization max_propagation fuel = some st →
      st.trace = pre ++ verify_event.solve p t :: post →
      solver p t = solve_result.TIMEOUT →
      post = [verify_event.log verify_message.timed_out] ∧
      (∀ p' t', verify_event.solve p' t' ∉ post) ∧
      (p = solve_phase.propagation →
        verify_event.log verify_message.sensitized ∈ pre)) ∧
    inject_verify solver max_sensitization max_propagation fuel
      = verify_miter solver max_sensitization max_propagation fuel ∧
    (max_sensitization + max_sensitization + 1 ≤ 2147483647 →
      max_propagation < 2147483647 →
      max_sensitization.toNat + max_propagation.toNat + 2 ≤ fuel →
      ∃ st, verify_miter solver max_sensitization max_propagation fuel = some st) ∧
    (propagation_timeout solve_phase.sensitization 1 = solve_result.SAT ∧
      propagation_timeout solve_phase.propagation 2 = solve_result.TIMEOUT ∧
      propagation_loop propagation_timeout 32 5 2
          ⟨⟨false⟩, [verify_event.setup 1 true,
            verify_event.solve solve_phase.sensitization 1,
            verify_event.log verify_message.sensitized]⟩
        = some ⟨⟨true⟩, [verify_event.setup 1 true,
            verify_event.solve solve_phase.sensitization 1,
            verify_event.log verify_message.sensitized,
            verify_event.setup 2 false, verify_event.solve solve_phase.propagation 2,
            verify_event.log verify_message.timed_out]⟩ ∧
      int_add 1 2147483647 = none ∧
      ¬ ∃ (fuel1 : Nat) (st : verify_state),
        verify_miter propagation_timeout 2147483647 32 fuel1 = some st) := by
  refine ⟨?_, rfl, ?_, rfl, rfl, by decide, by decide, ?_⟩
  · intro st pre post p t h htrace ht
    obtain ⟨k, tail, timeout, k1, k2⟩ := sensitization_loop_spec solver max_sensitization
      max_propagation fuel 1 ⟨⟨false⟩, []⟩ st (by omega) rfl h
    have hd := timeout_discipline_sensitization solver max_sensitization max_propagation 1
      k tail timeout k2
    have htrace' : st.trace = loop_events solve_phase.sensitization 1 k ++ tail := by
      rw [k1]
      simp
    rw [← htrace', htrace] at hd
    obtain ⟨h1, h2⟩ := timeout_discipline_at solver pre false p t post hd ht
    refine ⟨h1, ?_, ?_⟩
    · intro p' t' hc
      rw [h1] at hc
      simp at hc
    · intro hp
      rcases h2 hp with hc | hc
      · exact absurd hc (by decide)
      · exact hc
  · intro hs hp hfuel
    exact sensitization_loop_total solver max_sensitization max_propagation
      (by unfold int_max; exact hs) (by unfold int_max; exact hp) fuel 1 ⟨⟨false⟩, []⟩ rfl
      (by omega) (by omega)
  · rintro ⟨fuel1, st, h⟩
    have hnone := sensitization_loop_exit_overflow propagation_timeout 2147483647 32 fuel1 1
      ⟨⟨false⟩, []⟩ (by omega) rfl (by unfold int_max; omega)
    rw [verify_miter, hnone] at h
    exact absurd h (by simp)

set_option maxRecDepth 100000 in
/-- Witness of C22: with a model at the sensitization step 2 and a timeout at the
propagation step 4, the run ends with the message `timed_out` right after that
solve. -/
theorem C22_timeout_handling_witness :
    verify_miter timeout_2_4 20 32 60
      = some ⟨⟨true⟩, [verify_event.setup 1 true,
          verify_event.solve solve_phase.sensitization 1,
          verify_event.setup 2 false, verify_event.solve solve_phase.sensitization 2,
          verify_event.log verify_message.sensitized,
          verify_event.setup 3 false, verify_event.solve solve_phase.propagation 3,
          verify_event.setup 4 false]
          ++ verify_event.solve solve_phase.propagation 4
            :: [verify_event.log verify_message.timed_out]⟩ ∧
    timeout_2_4 solve_phase.propagation 4 = solve_result.TIMEOUT ∧
    ([verify_event.log verify_message.timed_out]
        = [verify_event.log verify_message.timed_out] ∧
      (∀ p' t', verify_event.solve p' t'
        ∉ [verify_event.log verify_message.timed_out]) ∧
      (solve_phase.propagation = solve_phase.propagation →
        verify_event.log verify_message.sensitized ∈ [verify_event.setup 1 true,
          verify_event.solve solve_phase.sensitization 1,
          verify_event.setup 2 false, verify_event.solve solve_phase.sensitization 2,
          verify_event.log verify_message.sensitized,
          verify_event.setup 3 false, verify_event.solve solve_phase.propagation 3,
          verify_event.setup 4 false])) :=
  ⟨by decide, by decide,
    (C22_timeout_handling timeout_2_4 20 32 60).1
      ⟨⟨true⟩, [verify_event.setup 1 true,
          verify_event.solve solve_phase.sensitization 1,
          verify_event.setup 2 false, verify_event.solve solve_phase.sensitization 2,
          verify_event.log verify_message.sensitized,
          verify_event.setup 3 false, verify_event.solve solve_phase.propagation 3,
          verify_event.setup 4 false]
          ++ verify_event.solve solve_phase.propagation 4
            :: [verify_event.log verify_message.timed_out]⟩
      [verify_event.setup 1 true,
          verify_event.solve solve_phase.sensitization 1,
          verify_event.setup 2 false, verify_event.solve solve_phase.sensitization 2,
          verify_event.log verify_message.sensitized,
          verify_event.setup 3 false, verify_event.solve solve_phase.propagation 3,
          verify_event.setup 4 false]
      [verify_event.log verify_message.timed_out] solve_phase.propagation 4
      (by decide) rfl (by decide)⟩

/-- C27: the discipline of the time steps. (1) In every completed run of
`verify_miter`, whatever the answers of the solver, the calls of `setup` are made for
the time steps 1, 2, .., `n` in this order, one call for each step, where `n` is the
number of solves of the run (the propagation phase continues with the step after the
last sensitization step), and the flag `initstate` of a call is true exactly for the
time step 1. (2) The run completes whenever `2 * max_sensitization + 1` and
`max_propagation + 1` are values of the type `int` and the fuel suffices. (3) It does
not for `max_sensitization = 2147483646` and a model in the first sensitization solve:
after the inner loop `sensitization_step += max_sensitization` yields 2147483647 and
the increment of the loop overflows; the run has no defined result. -/
theorem C27_time_steps (solver : solve_phase → Int → solve_result)
    (max_sensitization max_propagation : Int) (fuel : Nat) :
    (∀ st : verify_state,
      verify_miter solver max_sensitization max_propagation fuel = some st →
      ∃ n : Nat,
        setup_calls st.trace = (steps_from 1 n).map (fun t => (t, decide (t = 1))) ∧
        n = (solve_steps solve_phase.sensitization st.trace).length
          + (solve_steps solve_phase.propagation st.trace).length ∧
        (solve_steps solve_phase.sensitization st.trace
          ++ solve_steps solve_phase.propagation st.trace) = steps_from 1 n ∧
        ∀ c ∈ setup_calls st.trace, (c.2 = true ↔ c.1 = 1)) ∧
    (max_sensitization + max_sensitization + 1 ≤ 2147483647 →
      max_propagation < 2147483647 →
      max_sensitization.toNat + max_propagation.toNat + 2 ≤ fuel →
      ∃ st, verify_miter solver max_sensitization max_propagation fuel = some st) ∧
    (always_sat solve_phase.sensitization 1 = solve_result.SAT ∧
      int_add 1 2147483646 = some 2147483647 ∧ int_add 2147483647 1 = none ∧
      ¬ ∃ (fuel1 : Nat) (st : verify_state),
        verify_miter always_sat 2147483646 32 fuel1 = some st) := by
  refine ⟨?_, ?_, rfl, by decide, by decide, ?_⟩
  · intro st h
    obtain ⟨k, m, mid, tail, htrace, hmid, htail⟩ := verify_trace_shape solver
      max_sensitization max_propagation fuel st h
    have hsens : solve_steps solve_phase.sensitization st.trace = steps_from 1 k := by
      rw [htrace]
      simp only [solve_steps_append, solve_steps_loop_events,
        solve_steps_loop_events_ne _ _ (show solve_phase.propagation
          ≠ solve_phase.sensitization by decide),
        solve_steps_logs_only _ _ hmid, solve_steps_logs_only _ _ htail, List.append_nil]
    have hprop : solve_steps solve_phase.propagation st.trace = steps_from (1 + k) m := by
      rw [htrace]
      simp only [solve_steps_append, solve_steps_loop_events,
        solve_steps_loop_events_ne _ _ (show solve_phase.sensitization
          ≠ solve_phase.propagation by decide),
        solve_steps_logs_only _ _ hmid, solve_steps_logs_only _ _ htail, List.append_nil,
        List.nil_append]
    have hsetup : setup_calls st.trace
        = (steps_from 1 (k + m)).map (fun t => (t, decide (t = 1))) := by
      rw [htrace]
      simp only [setup_calls_append, setup_calls_loop_events, setup_calls_logs_only _ hmid,
        setup_calls_logs_only _ htail, List.append_nil, steps_from_append, List.map_append]
    refine ⟨k + m, hsetup, ?_, ?_, ?_⟩
    · rw [hsens, hprop, steps_from_length, steps_from_length]
    · rw [hsens, hprop, steps_from_append]
    · intro c hc
      rw [hsetup] at hc
      obtain ⟨t, _, ht⟩ := List.mem_map.mp hc
      rw [← ht]
      simp
  · intro hs hp hfuel
    exact sensitization_loop_total solver max_sensitization max_propagation
      (by unfold int_max; exact hs) (by unfold int_max; exact hp) fuel 1 ⟨⟨false⟩, []⟩ rfl
      (by omega) (by omega)
  · rintro ⟨fuel1, st, h⟩
    have hnone := sensitization_loop_exit_overflow always_sat 2147483646 32 fuel1 1
      ⟨⟨false⟩, []⟩ (by omega) rfl (by unfold int_max; omega)
    rw [verify_miter, hnone] at h
    exact absurd h (by simp)

set_option maxRecDepth 100000 in
/-- Witness of C27: with a model at the sensitization step 2 and at the propagation
step 4 the calls of `setup` are those for the steps 1, 2, 3, 4, the first one with the
flag `initstate`. -/
theorem C27_time_steps_witness :
    ∃ st, verify_miter sat_2_4 20 32 60 = some st ∧
      setup_calls st.trace = [(1, true), (2, false), (3, false), (4, false)] ∧
      ∃ n : Nat,
        setup_calls st.trace = (steps_from 1 n).map (fun t => (t, decide (t = 1))) ∧
        n = (solve_steps solve_phase.sensitization st.trace).length
          + (solve_steps solve_phase.propagation st.trace).length ∧
        (solve_steps solve_phase.sensitization st.trace
          ++ solve_steps solve_phase.propagation st.trace) = steps_from 1 n ∧
        ∀ c ∈ setup_calls st.trace, (c.2 = true ↔ c.1 = 1) := by
  cases hres : verify_miter sat_2_4 20 32 60 with
  | none => exact absurd hres (by decide)
  | some st =>
    have hcalls : (verify_miter sat_2_4 20 32 60).map (fun s => setup_calls s.trace)
        = some [(1, true), (2, false), (3, false), (4, false)] := by decide
    rw [hres] at hcalls
    exact ⟨st, rfl, by simpa using hcalls,
      (C27_time_steps sat_2_4 20 32 60).1 st hres⟩

/-! ## The four-valued equality of the SAT encoder -/

theorem eval_and_list (assignment : ez_literal → Bool) (es : List ez_expr) :
    (ez_expr.and_list es).eval assignment = true ↔ ∀ e ∈ es, e.eval assignment = true := by
  induction es with
  | nil => simp [ez_expr.and_list, ez_expr.eval]
  | cons e rest ih => simp [ez_expr.and_list, ez_expr.eval, ih]

theorem eval_or_list (assignment : ez_literal → Bool) (es : List ez_expr) :
    (ez_expr.or_list es).eval assignment = true ↔ ∃ e ∈ es, e.eval assignment = true := by
  induction es with
  | nil => simp [ez_expr.or_list, ez_expr.eval]
  | cons e rest ih => simp [ez_expr.or_list, ez_expr.eval, ih]

/-- The import of a signal without literals of its own: one expression for each bit,
whose value is the value of the bit, or whether it is undefined. -/
theorem import_bits_cons (model_undef undef_mode : Bool) (timestep : Int) (b : SigBit)
    (rest : SigSpec) (fresh : Nat) :
    ∃ e, import_bits model_undef undef_mode false timestep (b :: rest) fresh
        = e :: import_bits model_undef undef_mode false timestep rest fresh ∧
      ∀ assignment, e.eval assignment
        = if undef_mode then undef_at assignment timestep b
          else bit_at assignment timestep b := by
  cases b with
  | wire name offset =>
    refine ⟨_, rfl, ?_⟩
    intro assignment
    cases undef_mode <;> simp [ez_expr.eval, undef_at, bit_at]
  | const bit =>
    refine ⟨if bit = (if undef_mode then State.Sx else State.S1) then ez_expr.CONST_TRUE
      else ez_expr.CONST_FALSE, ?_, ?_⟩
    · simp [import_bits]
    · intro assignment
      cases undef_mode
      · by_cases hb : bit = State.S1
        · simp [hb, ez_expr.eval, bit_at]
        · simp [hb, ez_expr.eval, bit_at]
      · by_cases hb : bit = State.Sx
        · simp [hb, ez_expr.eval, undef_at]
        · simp [hb, ez_expr.eval, undef_at]

theorem import_bits_length (model_undef undef_mode : Bool) (timestep : Int) (fresh : Nat) :
    ∀ (sig : SigSpec),
      (import_bits model_undef undef_mode false timestep sig fresh).length = sig.length := by
  intro sig
  induction sig with
  | nil => rfl
  | cons b rest ih =>
    obtain ⟨e, he, _⟩ := import_bits_cons model_undef undef_mode timestep b rest fresh
    rw [he]
    simp [ih]

/-- The equality of the value vectors of two imported signals. -/
theorem vec_eq_import (model_undef : Bool) (timestep_lhs timestep_rhs : Int)
    (assignment : ez_literal → Bool) :
    ∀ (lhs rhs : SigSpec), lhs.length = rhs.length →
      ((ez_expr.and_list (List.zipWith ez_expr.IFF
          (import_bits model_undef false false timestep_lhs lhs 0)
          (import_bits model_undef false false timestep_rhs rhs 0))).eval assignment = true ↔
        ∀ p ∈ lhs.zip rhs,
          bit_at assignment timestep_lhs p.1 = bit_at assignment timestep_rhs p.2) := by
  intro lhs
  induction lhs with
  | nil =>
    intro rhs _
    simp [import_bits, ez_expr.and_list, ez_expr.eval]
  | cons l rest ih =>
    intro rhs hlen
    cases rhs with
    | nil => simp at hlen
    | cons r rest' =>
      have hlen' : rest.length = rest'.length := by simpa using hlen
      obtain ⟨el, hl1, hl2⟩ := import_bits_cons model_undef false timestep_lhs l rest 0
      obtain ⟨er, hr1, hr2⟩ := import_bits_cons model_undef false timestep_rhs r rest' 0
      rw [hl1, hr1]
      simp only [List.zipWith_cons_cons, ez_expr.and_list, ez_expr.eval, Bool.and_eq_true,
        List.zip_cons_cons, List.mem_cons, forall_eq_or_imp, ih rest' hlen', hl2, hr2,
        Bool.false_eq_true, if_false, beq_iff_eq]

/-- The bits of `eq_bits` for two imported signals. -/
theorem eq_bits_import (timestep_lhs timestep_rhs : Int) (assignment : ez_literal → Bool) :
    ∀ (lhs rhs : SigSpec), lhs.length = rhs.length →
      ∃ bits, eq_bits (import_bits true false false timestep_lhs lhs 0)
          (import_bits true false false timestep_rhs rhs 0)
          (import_bits true true false timestep_lhs lhs 0)
          (import_bits true true false timestep_rhs rhs 0) = some bits ∧
        ((ez_expr.and_list bits).eval assignment = true ↔
          ∀ p ∈ lhs.zip rhs,
            four_valued_eq assignment timestep_lhs timestep_rhs p.1 p.2) := by
  intro lhs
  induction lhs with
  | nil =>
    intro rhs _
    refine ⟨[], by simp [import_bits, eq_bits], ?_⟩
    simp [ez_expr.and_list, ez_expr.eval]
  | cons l rest ih =>
    intro rhs hlen
    cases rhs with
    | nil => simp at hlen
    | cons r rest' =>
      have hlen' : rest.length = rest'.length := by simpa using hlen
      obtain ⟨bits, hb1, hb2⟩ := ih rest' hlen'
      obtain ⟨vl, hvl1, hvl2⟩ := import_bits_cons true false timestep_lhs l rest 0
      obtain ⟨vr, hvr1, hvr2⟩ := import_bits_cons true false timestep_rhs r rest' 0
      obtain ⟨ul, hul1, hul2⟩ := import_bits_cons true true timestep_lhs l rest 0
      obtain ⟨ur, hur1, hur2⟩ := import_bits_cons true true timestep_rhs r rest' 0
      refine ⟨_, by rw [hvl1, hvr1, hul1, hur1, eq_bits, hb1], ?_⟩
      simp only [ez_expr.and_list, ez_expr.eval, Bool.and_eq_true, List.zip_cons_cons,
        List.mem_cons, forall_eq_or_imp, hb2, hvl2, hvr2, hul2, hur2, Bool.false_eq_true,
        if_false, if_true, beq_iff_eq]
      refine and_congr ?_ Iff.rfl
      unfold four_valued_eq
      cases undef_at assignment timestep_lhs l <;>
        cases undef_at assignment timestep_rhs r <;>
        cases bit_at assignment timestep_lhs l <;>
        cases bit_at assignment timestep_rhs r <;> simp

theorem four_valued_eq_refl (assignment : ez_literal → Bool) (timestep : Int) (b : SigBit) :
    four_valued_eq assignment timestep timestep b b := by
  unfold four_valued_eq
  cases undef_at assignment timestep b <;> simp

theorem mem_zip_self {α : Type} (xs : List α) : ∀ p ∈ xs.zip xs, p.1 = p.2 := by
  induction xs with
  | nil => simp
  | cons x rest ih =>
    intro p hp
    simp only [List.zip_cons_cons, List.mem_cons] at hp
    rcases hp with e | e
    · rw [e]
    · exact ih p e

/-- What `signals_eq` returns for equal widths and time steps other than 0. -/
theorem signals_eq_spec (sigmap : SigMap) (model_undef : Bool) (lhs rhs : SigSpec)
    (timestep_lhs timestep_rhs : Int) (assignment : ez_literal → Bool)
    (hlen : lhs.length = rhs.length) (hl : timestep_lhs ≠ 0) (hr : timestep_rhs ≠ 0) :
    ∃ e, signals_eq sigmap model_undef lhs rhs timestep_lhs timestep_rhs = some e ∧
      (e.eval assignment = true ↔
        ∀ p ∈ (sigmap.apply lhs).zip (sigmap.apply rhs),
          if model_undef then
            four_valued_eq assignment timestep_lhs
              (if timestep_rhs < 0 then timestep_lhs else timestep_rhs) p.1 p.2
          else
            bit_at assignment timestep_lhs p.1
              = bit_at assignment (if timestep_rhs < 0 then timestep_lhs else timestep_rhs)
                p.2) := by
  have hr' : (if timestep_rhs < 0 then timestep_lhs else timestep_rhs) ≠ 0 := by
    split
    · exact hl
    · exact hr
  have hlen' : (sigmap.apply lhs).length = (sigmap.apply rhs).length := by
    simp [SigMap.apply, hlen]
  generalize htr : (if timestep_rhs < 0 then timestep_lhs else timestep_rhs) = tr at hr'
  have hw : ∀ (undef_mode : Bool) (sig : SigSpec) (t : Int), t ≠ 0 →
      (undef_mode = true → model_undef = true) →
      (if undef_mode then importUndefSigSpec sigmap model_undef sig t
        else importSigSpec sigmap model_undef sig t)
        = some (import_bits model_undef undef_mode false t (sigmap.apply sig) 0) := by
    intro undef_mode sig t ht hm
    cases undef_mode
    · simp [importSigSpec, importSigSpecWorker, ht]
    · simp [importUndefSigSpec, importSigSpecWorker, ht, hm rfl]
  have hvl := hw false lhs timestep_lhs hl (by simp)
  have hvr := hw false rhs tr hr' (by simp)
  simp only [Bool.false_eq_true, if_false] at hvl hvr
  unfold signals_eq
  simp only [hlen, ne_eq, not_true_eq_false, if_false]
  rw [htr, hvl, hvr]
  cases model_undef with
  | false =>
    simp only [Bool.false_eq_true, not_false_eq_true, if_true, if_false]
    unfold vec_eq
    rw [if_pos (by rw [import_bits_length, import_bits_length, hlen'])]
    exact ⟨_, rfl, vec_eq_import false timestep_lhs tr assignment _ _ hlen'⟩
  | true =>
    have hul := hw true lhs timestep_lhs hl (by simp)
    have hur := hw true rhs tr hr' (by simp)
    simp only [if_true] at hul hur
    simp only [not_true_eq_false, if_false, if_true]
    rw [hul, hur]
    obtain ⟨bits, hb1, hb2⟩ := eq_bits_import timestep_lhs tr assignment _ _ hlen'
    simp only [hb1]
    exact ⟨_, rfl, hb2⟩

/-! ## The sensitization formula -/

/-- What the loop over the positions of a pattern appends: for every position that is 0
or 1 the bit of the select wire and the element, so that the two signals agree bit by
bit exactly when the select wire agrees with the pattern on these positions. -/
theorem select_condition_spec (select_port : Nat) (sigmap : SigMap)
    (hsigmap : ∀ c, sigmap (SigBit.const c) = SigBit.const c)
    (assignment : ez_literal → Bool) (timestep : Int) :
    ∀ (pattern : Const) (j : Nat) (c s : SigSpec),
      ∃ C S, select_condition select_port pattern j (c, s) = (c ++ C, s ++ S) ∧
        C.length = S.length ∧
        ((∀ p ∈ (sigmap.apply C).zip (sigmap.apply S),
            bit_at assignment timestep p.1 = bit_at assignment timestep p.2) ↔
          ∀ (i : Nat) (bit : State), pattern[i]? = some bit →
            (bit = State.S0 →
              bit_at assignment timestep (sigmap (SigBit.wire select_port (j + i))) = false) ∧
            (bit = State.S1 →
              bit_at assignment timestep (sigmap (SigBit.wire select_port (j + i))) = true)) := by
  intro pattern
  induction pattern with
  | nil =>
    intro j c s
    exact ⟨[], [], by simp [select_condition], rfl, by simp [SigMap.apply]⟩
  | cons bit rest ih =>
    intro j c s
    have hshift : ∀ (P : Nat → State → Prop),
        (∀ (i : Nat) (b : State), (bit :: rest)[i]? = some b → P i b) ↔
          P 0 bit ∧ ∀ (i : Nat) (b : State), rest[i]? = some b → P (i + 1) b := by
      intro P
      constructor
      · intro h
        exact ⟨h 0 bit (by simp), fun i b hb => h (i + 1) b (by simpa using hb)⟩
      · rintro ⟨h0, h1⟩ i b hb
        cases i with
        | zero =>
          simp only [List.getElem?_cons_zero, Option.some.injEq] at hb
          rw [← hb]
          exact h0
        | succ i => exact h1 i b (by simpa using hb)
    rw [hshift]
    by_cases hb : bit = State.S0 ∨ bit = State.S1
    · obtain ⟨C, S, h1, h2, h3⟩ := ih (j + 1) (c ++ [SigBit.wire select_port j])
        (s ++ [SigBit.const bit])
      refine ⟨SigBit.wire select_port j :: C, SigBit.const bit :: S, ?_, by simp [h2], ?_⟩
      · rw [select_condition, if_pos hb, h1]
        simp
      · have harg : ∀ i : Nat, j + 1 + i = j + (i + 1) := fun i => by omega
        simp only [SigMap.apply, List.map_cons, List.zip_cons_cons, List.mem_cons,
          forall_eq_or_imp, hsigmap, Nat.add_zero] at h3 ⊢
        rw [h3]
        simp only [harg]
        refine and_congr ?_ Iff.rfl
        rcases hb with e | e
        · subst e
          simp [bit_at]
        · subst e
          simp [bit_at]
    · obtain ⟨C, S, h1, h2, h3⟩ := ih (j + 1) c s
      refine ⟨C, S, ?_, h2, ?_⟩
      · rw [select_condition, if_neg hb, h1]
      · have harg : ∀ i : Nat, j + 1 + i = j + (i + 1) := fun i => by omega
        rw [h3]
        simp only [harg]
        constructor
        · intro h
          exact ⟨⟨fun e => absurd (Or.inl e) hb, fun e => absurd (Or.inr e) hb⟩, h⟩
        · intro h
          exact h.2

/-- The clauses of the sensitization formula: one for every row flagged buggy, true
exactly when the select wire agrees with the pattern of the row. -/
theorem verify_clause_spec (select_port : Nat) (sigmap : SigMap)
    (hsigmap : ∀ c, sigmap (SigBit.const c) = SigBit.const c)
    (timestep : Int) (ht : timestep ≠ 0) :
    ∀ (rows : List selection_t),
      ∃ clause, verify_clause sigmap timestep (verify_selects select_port rows)
          = some clause ∧
        clause.length = (rows.filter (fun r => r.buggy)).length ∧
        ∀ assignment, ((∃ e ∈ clause, e.eval assignment = true) ↔
          ∃ row ∈ rows, row.buggy = true ∧
            row_matches_at sigmap assignment timestep select_port row.select) := by
  intro rows
  induction rows with
  | nil => exact ⟨[], rfl, rfl, by simp⟩
  | cons row rest ih =>
    obtain ⟨clause, h1, h2, h3⟩ := ih
    by_cases hb : row.buggy = true
    · obtain ⟨C, S, c1, c2, _⟩ := select_condition_spec select_port sigmap hsigmap
        (fun _ => false) timestep row.select 0 [] []
      simp only [List.nil_append] at c1
      obtain ⟨e, e1, _⟩ := signals_eq_spec sigmap false C S timestep (-1) (fun _ => false)
        c2 ht (by decide)
      refine ⟨e :: clause, ?_, by simp [hb, h2], ?_⟩
      · simp only [verify_selects, hb, not_true_eq_false, if_false, verify_clause, c1, e1, h1]
      · intro assignment
        obtain ⟨C', S', c1', _, c3'⟩ := select_condition_spec select_port sigmap hsigmap
          assignment timestep row.select 0 [] []
        simp only [List.nil_append] at c1'
        rw [c1] at c1'
        simp only [Prod.mk.injEq] at c1'
        obtain ⟨hC, hS⟩ := c1'
        subst hC
        subst hS
        obtain ⟨e', e1', e2'⟩ := signals_eq_spec sigmap false C S timestep (-1) assignment
          c2 ht (by decide)
        rw [e1] at e1'
        simp only [Option.some.injEq] at e1'
        subst e1'
        simp only [Bool.false_eq_true, if_false, Int.reduceNeg, Int.reduceLT, if_true] at e2'
        simp only [List.mem_cons, exists_eq_or_imp, h3 assignment, e2', c3', Nat.zero_add, hb,
          true_and]
        rfl
    · refine ⟨clause, ?_, by simp [hb, h2], ?_⟩
      · simp [verify_selects, hb, h1]
      · intro assignment
        rw [h3 assignment]
        simp [hb]

/-- Counterexample to C23 as stated: the formula `verify_miter` solves at a
sensitization step holds no condition on the select wire. For the outputs `w31` and
`w32` and the step 1 it is the negation of `signals_eq`; under the assignment
`output_differs` the outputs differ and the formula is true, although the select wire
(wire 30, value 0) does not agree with the pattern `1` of the only row flagged buggy of
the table `one_buggy_row`: the conjunction the claim describes is false. The formula of
`inject_verify` for the same input is false. -/
theorem C23_counterexample :
    (verify_miter_formula id [SigBit.wire 31 0] [SigBit.wire 32 0] 1).map
        (fun e => e.eval output_differs) = some true ∧
    ¬ (∃ row ∈ one_buggy_row, row.buggy = true ∧
        row_matches_at id output_differs 1 30 row.select) ∧
    (inject_verify_formula id (verify_selects 30 one_buggy_row) [SigBit.wire 31 0]
        [SigBit.wire 32 0] 1).map (fun e => e.eval output_differs) = some false := by
  refine ⟨by decide, ?_, by decide⟩
  rintro ⟨row, hrow, _, hmatch⟩
  simp only [one_buggy_row, List.mem_singleton] at hrow
  subst hrow
  have := (hmatch 0 State.S1 rfl).2 rfl
  simp [bit_at, output_differs] at this

/-- C23 (amended): the sensitization formula of `inject_verify`. For outputs of equal
width and a time step other than 0, the formula `inject_verify` solves at the
sensitization step `t` is the conjunction of the disjunction of the clauses and of the
negation of `signals_eq(host_output, reference_output)` at `t`; there is one clause for
every row of the host table flagged buggy and none for the other rows, and under every
assignment the formula is true exactly when for at least one row flagged buggy the
select wire of the host at `t` has the value of the pattern on every position where the
pattern is 0 or 1 (other positions are not compared), and `signals_eq` of the outputs
is false. The formula `verify_miter` solves is the negation of `signals_eq` alone. -/
theorem C23_sensitization_formula (sigmap : SigMap) (select_port : Nat)
    (host_selections : List selection_t) (host_output reference_output : SigSpec)
    (sensitization_step : Int)
    (hsigmap : ∀ c, sigmap (SigBit.const c) = SigBit.const c)
    (hlen : host_output.length = reference_output.length) (ht : sensitization_step ≠ 0) :
    ∃ (clause : List ez_expr) (eq : ez_expr),
      verify_clause sigmap sensitization_step (verify_selects select_port host_selections)
        = some clause ∧
      clause.length = (host_selections.filter (fun r => r.buggy)).length ∧
      signals_eq sigmap false host_output reference_output sensitization_step (-1)
        = some eq ∧
      inject_verify_formula sigmap (verify_selects select_port host_selections)
          host_output reference_output sensitization_step
        = some (ez_expr.AND (ez_expr.or_list clause) (ez_expr.NOT eq)) ∧
      verify_miter_formula sigmap host_output reference_output sensitization_step
        = some (ez_expr.NOT eq) ∧
      ∀ assignment,
        ((ez_expr.AND (ez_expr.or_list clause) (ez_expr.NOT eq)).eval assignment = true ↔
          (∃ row ∈ host_selections, row.buggy = true ∧
            row_matches_at sigmap assignment sensitization_step select_port row.select) ∧
          eq.eval assignment = false) ∧
        ((ez_expr.NOT eq).eval assignment = true ↔ eq.eval assignment = false) := by
  obtain ⟨clause, h1, h2, h3⟩ := verify_clause_spec select_port sigmap hsigmap
    sensitization_step ht host_selections
  obtain ⟨eq, e1, _⟩ := signals_eq_spec sigmap false host_output reference_output
    sensitization_step (-1) (fun _ => false) hlen ht (by decide)
  refine ⟨clause, eq, h1, h2, e1, ?_, ?_, ?_⟩
  · simp only [inject_verify_formula, h1, e1]
  · simp only [verify_miter_formula, e1]
  · intro assignment
    constructor
    · simp only [ez_expr.eval, Bool.and_eq_true, eval_or_list, h3 assignment,
        Bool.not_eq_true']
    · simp [ez_expr.eval]

set_option maxRecDepth 100000 in
/-- Witness of C23: the table `one_buggy_row`, the select wire 30 and the outputs `w31`
and `w32` at the step 1. -/
theorem C23_sensitization_formula_witness :
    (∀ c, (id : SigMap) (SigBit.const c) = SigBit.const c) ∧
    ([SigBit.wire 31 0] : SigSpec).length = ([SigBit.wire 32 0] : SigSpec).length ∧
    (1 : Int) ≠ 0 ∧
    inject_verify_formula id (verify_selects 30 one_buggy_row) [SigBit.wire 31 0]
        [SigBit.wire 32 0] 1
      = some (ez_expr.AND
          (ez_expr.OR
            (ez_expr.AND
              (ez_expr.IFF (ez_expr.literal (ez_literal.named false 1 30 0))
                ez_expr.CONST_TRUE) ez_expr.CONST_TRUE)
            ez_expr.CONST_FALSE)
          (ez_expr.NOT
            (ez_expr.AND
              (ez_expr.IFF (ez_expr.literal (ez_literal.named false 1 31 0))
                (ez_expr.literal (ez_literal.named false 1 32 0))) ez_expr.CONST_TRUE))) ∧
    ∃ (clause : List ez_expr) (eq : ez_expr),
      verify_clause id 1 (verify_selects 30 one_buggy_row) = some clause ∧
      clause.length = (one_buggy_row.filter (fun r => r.buggy)).length ∧
      signals_eq id false [SigBit.wire 31 0] [SigBit.wire 32 0] 1 (-1) = some eq ∧
      inject_verify_formula id (verify_selects 30 one_buggy_row) [SigBit.wire 31 0]
          [SigBit.wire 32 0] 1
        = some (ez_expr.AND (ez_expr.or_list clause) (ez_expr.NOT eq)) ∧
      verify_miter_formula id [SigBit.wire 31 0] [SigBit.wire 32 0] 1
        = some (ez_expr.NOT eq) ∧
      ∀ assignment,
        ((ez_expr.AND (ez_expr.or_list clause) (ez_expr.NOT eq)).eval assignment = true ↔
          (∃ row ∈ one_buggy_row, row.buggy = true ∧
            row_matches_at id assignment 1 30 row.select) ∧
          eq.eval assignment = false) ∧
        ((ez_expr.NOT eq).eval assignment = true ↔ eq.eval assignment = false) :=
  ⟨fun _ => rfl, rfl, by decide, by decide,
    C23_sensitization_formula id 30 one_buggy_row [SigBit.wire 31 0] [SigBit.wire 32 0] 1
      (fun _ => rfl) rfl (by decide)⟩

/-- C24: the four-valued equality. For two signals of equal width and time steps other
than 0, `signals_eq` returns an expression; with the modelling of undefined values
enabled it is true under an assignment exactly when at every bit position either both
bits are undefined, or both are defined and have the same value; with it disabled it is
true exactly when at every position the values of the two bits are the same. For a
signal and itself at the same time step it is true under every assignment, in both
modes. -/
theorem C24_four_valued_equality (sigmap : SigMap) (lhs rhs : SigSpec)
    (timestep_lhs timestep_rhs : Int)
    (hlen : lhs.length = rhs.length) (hl : timestep_lhs ≠ 0) (hr : timestep_rhs ≠ 0) :
    (∃ e, signals_eq sigmap true lhs rhs timestep_lhs timestep_rhs = some e ∧
      ∀ assignment, (e.eval assignment = true ↔
        ∀ p ∈ (sigmap.apply lhs).zip (sigmap.apply rhs),
          four_valued_eq assignment timestep_lhs
            (if timestep_rhs < 0 then timestep_lhs else timestep_rhs) p.1 p.2)) ∧
    (∃ e, signals_eq sigmap false lhs rhs timestep_lhs timestep_rhs = some e ∧
      ∀ assignment, (e.eval assignment = true ↔
        ∀ p ∈ (sigmap.apply lhs).zip (sigmap.apply rhs),
          bit_at assignment timestep_lhs p.1
            = bit_at assignment (if timestep_rhs < 0 then timestep_lhs else timestep_rhs)
              p.2)) ∧
    (∀ model_undef, ∃ e, signals_eq sigmap model_undef lhs lhs timestep_lhs (-1) = some e ∧
      ∀ assignment, e.eval assignment = true) := by
  have key : ∀ (model_undef : Bool) (l r : SigSpec) (tr : Int), l.length = r.length →
      tr ≠ 0 →
      ∃ e, signals_eq sigmap model_undef l r timestep_lhs tr = some e ∧
        ∀ assignment, (e.eval assignment = true ↔
          ∀ p ∈ (sigmap.apply l).zip (sigmap.apply r),
            if model_undef then
              four_valued_eq assignment timestep_lhs
                (if tr < 0 then timestep_lhs else tr) p.1 p.2
            else
              bit_at assignment timestep_lhs p.1
                = bit_at assignment (if tr < 0 then timestep_lhs else tr) p.2) := by
    intro model_undef l r tr hlr htr
    obtain ⟨e, e1, _⟩ := signals_eq_spec sigmap model_undef l r timestep_lhs tr
      (fun _ => false) hlr hl htr
    refine ⟨e, e1, ?_⟩
    intro assignment
    obtain ⟨e', e1', e2'⟩ := signals_eq_spec sigmap model_undef l r timestep_lhs tr
      assignment hlr hl htr
    rw [e1] at e1'
    simp only [Option.some.injEq] at e1'
    subst e1'
    exact e2'
  refine ⟨?_, ?_, ?_⟩
  · obtain ⟨e, e1, e2⟩ := key true lhs rhs timestep_rhs hlen hr
    exact ⟨e, e1, fun assignment => by simpa using e2 assignment⟩
  · obtain ⟨e, e1, e2⟩ := key false lhs rhs timestep_rhs hlen hr
    exact ⟨e, e1, fun assignment => by simpa using e2 assignment⟩
  · intro model_undef
    obtain ⟨e, e1, e2⟩ := key model_undef lhs lhs (-1) rfl (by decide)
    refine ⟨e, e1, ?_⟩
    intro assignment
    rw [e2 assignment]
    intro p hp
    have hp' := mem_zip_self _ p hp
    cases model_undef
    · simp [hp']
    · simp only [if_true, Int.reduceNeg, Int.reduceLT]
      rw [hp']
      exact four_valued_eq_refl assignment timestep_lhs p.2

set_option maxRecDepth 100000 in
/-- Witness of C24: the signals `(w1, x)` and `(w2, x)` at the steps 3 and 4. -/
theorem C24_four_valued_equality_witness :
    ([SigBit.wire 1 0, SigBit.const State.Sx] : SigSpec).length
      = ([SigBit.wire 2 0, SigBit.const State.Sx] : SigSpec).length ∧
    (3 : Int) ≠ 0 ∧ (4 : Int) ≠ 0 ∧
    signals_eq id true [SigBit.wire 1 0, SigBit.const State.Sx]
        [SigBit.wire 2 0, SigBit.const State.Sx] 3 4
      = some (ez_expr.AND
          (ez_expr.AND
            (ez_expr.IFF (ez_expr.literal (ez_literal.named true 3 1 0))
              (ez_expr.literal (ez_literal.named true 4 2 0)))
            (ez_expr.IFF
              (ez_expr.OR (ez_expr.literal (ez_literal.named false 3 1 0))
                (ez_expr.literal (ez_literal.named true 3 1 0)))
              (ez_expr.OR (ez_expr.literal (ez_literal.named false 4 2 0))
                (ez_expr.literal (ez_literal.named true 4 2 0)))))
          (ez_expr.AND
            (ez_expr.AND (ez_expr.IFF ez_expr.CONST_TRUE ez_expr.CONST_TRUE)
              (ez_expr.IFF (ez_expr.OR ez_expr.CONST_FALSE ez_expr.CONST_TRUE)
                (ez_expr.OR ez_expr.CONST_FALSE ez_expr.CONST_TRUE)))
            ez_expr.CONST_TRUE)) ∧
    (∃ e, signals_eq id true [SigBit.wire 1 0, SigBit.const State.Sx]
        [SigBit.wire 2 0, SigBit.const State.Sx] 3 4 = some e ∧
      ∀ assignment, (e.eval assignment = true ↔
        ∀ p ∈ (SigMap.apply id [SigBit.wire 1 0, SigBit.const State.Sx]).zip
            (SigMap.apply id [SigBit.wire 2 0, SigBit.const State.Sx]),
          four_valued_eq assignment 3 (if (4 : Int) < 0 then 3 else 4) p.1 p.2)) ∧
    (∃ e, signals_eq id false [SigBit.wire 1 0, SigBit.const State.Sx]
        [SigBit.wire 2 0, SigBit.const State.Sx] 3 4 = some e ∧
      ∀ assignment, (e.eval assignment = true ↔
        ∀ p ∈ (SigMap.apply id [SigBit.wire 1 0, SigBit.const State.Sx]).zip
            (SigMap.apply id [SigBit.wire 2 0, SigBit.const State.Sx]),
          bit_at assignment 3 p.1
            = bit_at assignment (if (4 : Int) < 0 then 3 else 4) p.2)) ∧
    (∀ model_undef, ∃ e, signals_eq id model_undef [SigBit.wire 1 0, SigBit.const State.Sx]
        [SigBit.wire 1 0, SigBit.const State.Sx] 3 (-1) = some e ∧
      ∀ assignment, e.eval assignment = true) :=
  ⟨rfl, by decide, by decide, by decide,
    C24_four_valued_equality id [SigBit.wire 1 0, SigBit.const State.Sx]
      [SigBit.wire 2 0, SigBit.const State.Sx] 3 4 rfl (by decide) (by decide)⟩

/-! ## The flagged rows of the variants -/

theorem filter_no_buggy (rows : List selection_t) (h : no_buggy rows) :
    rows.filter (fun row => row.buggy) = [] := by
  rw [List.filter_eq_nil_iff]
  intro r hr
  simp [h r hr]

theorem no_buggy_eraseIdx (rows : List selection_t) (i : Nat) (h : no_buggy rows) :
    no_buggy (rows.eraseIdx i) :=
  fun r hr => h r (List.mem_of_mem_eraseIdx hr)

/-- A table without flagged rows in which one row is replaced by a flagged row has
exactly one flagged row. -/
theorem filter_set_buggy (rows : List selection_t) (i : Nat) (row mutated : selection_t)
    (h : no_buggy rows) (hi : rows[i]? = some row) (hm : mutated.buggy = true) :
    ((rows.set i mutated).filter (fun r => r.buggy)).length = 1 := by
  have hlt : i < rows.length := by
    rcases List.getElem?_eq_some_iff.mp hi with ⟨hlt, _⟩
    exact hlt
  rw [List.set_eq_take_append_cons_drop, if_pos hlt, List.filter_append, List.filter_cons,
    filter_no_buggy _ (fun r hr => h r (List.mem_of_mem_take hr)),
    filter_no_buggy _ (fun r hr => h r (List.mem_of_mem_drop hr))]
  simp [hm]

/-- A step of the loop over the bits appends variants with exactly one flagged row. -/
theorem mutate_bit_flagged (rand : Nat → Nat) (bugs_per_cell i j : Nat) (st : amt_state)
    (h : no_buggy st.selections)
    (hb : ∀ v ∈ st.bugs, (v.filter (fun r => r.buggy)).length = 1) :
    ∀ v ∈ (mutate_bit rand bugs_per_cell i j st).bugs,
      (v.filter (fun r => r.buggy)).length = 1 := by
  unfold mutate_bit
  split
  · exact hb
  · rename_i row hrow
    split
    · split
      · intro v hv
        simp only [List.mem_append, List.mem_singleton] at hv
        rcases hv with e | e
        · exact hb v e
        · rw [e]
          exact filter_set_buggy _ i row _ h hrow rfl
      · split
        · intro v hv
          simp only [List.mem_append, List.mem_singleton] at hv
          rcases hv with e | e
          · exact hb v e
          · rw [e, eraseIdx_set_self, List.filter_cons,
              filter_no_buggy _ (no_buggy_eraseIdx _ i h)]
            simp
        · exact hb
      · exact hb
    · exact hb

theorem mutate_bits_flagged (rand : Nat → Nat) (bugs_per_cell i : Nat) (js : List Nat)
    (st : amt_state) (h : no_buggy st.selections)
    (hb : ∀ v ∈ st.bugs, (v.filter (fun r => r.buggy)).length = 1) :
    ∀ v ∈ (mutate_bits rand bugs_per_cell i js st).bugs,
      (v.filter (fun r => r.buggy)).length = 1 := by
  induction js generalizing st with
  | nil => exact hb
  | cons j rest ih =>
    rw [mutate_bits]
    exact ih _ (by rw [(mutate_bit_inv rand bugs_per_cell i j st h).1]; exact h)
      (mutate_bit_flagged rand bugs_per_cell i j st h hb)

theorem mutate_row_flagged (rand : Nat → Nat) (bugs_per_cell i : Nat)
    (st : amt_state) (h : no_buggy st.selections)
    (hb : ∀ v ∈ st.bugs, (v.filter (fun r => r.buggy)).length = 1) :
    ∀ v ∈ (mutate_row rand bugs_per_cell i st).bugs,
      (v.filter (fun r => r.buggy)).length = 1 := by
  unfold mutate_row
  split
  · exact hb
  · split
    · exact hb
    · exact mutate_bits_flagged rand bugs_per_cell i _ st h hb

theorem mutate_rows_flagged (rand : Nat → Nat) (bugs_per_cell : Nat) (is : List Nat)
    (st : amt_state) (h : no_buggy st.selections)
    (hb : ∀ v ∈ st.bugs, (v.filter (fun r => r.buggy)).length = 1) :
    ∀ v ∈ (mutate_rows rand bugs_per_cell is st).bugs,
      (v.filter (fun r => r.buggy)).length = 1 := by
  induction is generalizing st with
  | nil => exact hb
  | cons i rest ih =>
    rw [mutate_rows]
    exact ih _ (by rw [(mutate_row_inv rand bugs_per_cell i st h).1]; exact h)
      (mutate_row_flagged rand bugs_per_cell i st h hb)

/-- No pair is built from a table without flagged rows. -/
theorem verify_selects_no_buggy (select_port : Nat) (rows : List selection_t)
    (h : no_buggy rows) : verify_selects select_port rows = [] := by
  induction rows with
  | nil => rfl
  | cons row rest ih =>
    rw [verify_selects, if_pos (by simp [h row (List.mem_cons_self _ _)])]
    exact ih (fun r hr => h r (List.mem_cons_of_mem _ hr))

/-- The pairs built from a table are as many as its flagged rows. -/
theorem verify_selects_length (select_port : Nat) (rows : List selection_t) :
    (verify_selects select_port rows).length = (rows.filter (fun r => r.buggy)).length := by
  induction rows with
  | nil => rfl
  | cons row rest ih =>
    rw [verify_selects]
    by_cases hb : row.buggy = true
    · simp [hb, ih]
    · simp [hb, ih]

/-- C29: the row-removal variant carries no flagged row. For an `$amt` cell whose
table decodes to `n ≥ 4` rows none of which is flagged, when the body of `inject_amt`
for the cell completes, the variants written are those of the mutations followed by
the removal variant; the removal variant is the table with the row at one index `r`,
`r < n`, removed and holds no flagged row; every variant of a mutation (generalisation
or specialisation) holds exactly one flagged row; each variant is written as a cell
that decodes to it; and the list `selects` that `inject_verify` builds from the table
of the removal variant is empty, while the one built from a mutation variant has one
pair. -/
theorem C29_removal_variant (rand : Nat → Nat) (bugs_per_cell calls : Nat) (cell : Cell)
    (rows : List selection_t) (res : amt_result) (select_port : Nat)
    (hdec : copy_from_cell cell [] = some rows) (hn : 4 ≤ rows.length)
    (hnb : no_buggy rows)
    (h : inject_amt_cell rand bugs_per_cell calls cell = some res) :
    ∃ (variants : List (List selection_t)) (removal : List selection_t) (r : Nat),
      r < rows.length ∧ removal = rows.eraseIdx r ∧
      res.variants = (variants ++ [removal]).map (copy_to_cell { cell with buggy := true }) ∧
      (∀ (i : Nat) (v : List selection_t), (variants ++ [removal])[i]? = some v →
        ∃ c, res.variants[i]? = some c ∧ copy_from_cell c [] = some v) ∧
      (∀ row ∈ removal, row.buggy = false) ∧
      (∀ v ∈ variants, (v.filter (fun row => row.buggy)).length = 1) ∧
      verify_selects select_port removal = [] ∧
      (∀ v ∈ variants, (verify_selects select_port v).length = 1) := by
  obtain ⟨st, hst, hv, _, _⟩ := inject_amt_cell_some rand bugs_per_cell calls cell rows res
    hdec hn h
  have hsized := amt_bugs_sized rand bugs_per_cell calls _ _ rows st
    (copy_from_cell_widths cell rows hdec) hst
  have hinv := mutate_rows_inv rand bugs_per_cell (List.range rows.length)
    ⟨rows, [], calls⟩ hnb
  have hflag := mutate_rows_flagged rand bugs_per_cell (List.range rows.length)
    ⟨rows, [], calls⟩ hnb (by simp)
  unfold amt_bugs add_removal vector_erase at hst
  generalize mutate_rows rand bugs_per_cell (List.range rows.length) ⟨rows, [], calls⟩ = st0
    at hst hinv hflag
  simp only at hinv
  split at hst
  · rename_i removal he
    simp only [Option.some.injEq] at hst
    subst hst
    split at he
    · rename_i hlt
      simp only [Option.some.injEq] at he
      rw [hinv.1] at he hlt
      have hrem : no_buggy removal := by
        rw [← he]
        exact no_buggy_eraseIdx rows _ hnb
      refine ⟨st0.bugs, removal, removal_index rand st0, hlt, he.symm, hv, ?_, hrem, hflag,
        verify_selects_no_buggy select_port removal hrem, ?_⟩
      · intro i v hi
        obtain ⟨c, c1, c2, _⟩ := variant_written cell res
          ⟨st0.selections, st0.bugs ++ [removal], st0.calls + 1⟩ i v hv hi
          (hsized.2 v (List.getElem?_mem hi))
        exact ⟨c, c1, c2⟩
      · intro v hvm
        rw [verify_selects_length, hflag v hvm]
    · simp at he
  · simp at hst

/-- Witness of C29 on `not_amt_cell` (4 rows, none flagged) with a `rand()` that always
returns 0: the body completes with 9 variants, the last of which is the removal
variant. -/
theorem C29_removal_variant_witness :
    ∃ res, inject_amt_cell (fun _ => 0) 1 0 not_amt_cell = some res ∧
      res.variants.length = 9 ∧
      copy_from_cell not_amt_cell [] = some not_rows ∧ 4 ≤ not_rows.length ∧
      no_buggy not_rows ∧
      ∃ (variants : List (List selection_t)) (removal : List selection_t) (r : Nat),
        r < not_rows.length ∧ removal = not_rows.eraseIdx r ∧
        res.variants
          = (variants ++ [removal]).map (copy_to_cell { not_amt_cell with buggy := true }) ∧
        (∀ (i : Nat) (v : List selection_t), (variants ++ [removal])[i]? = some v →
          ∃ c, res.variants[i]? = some c ∧ copy_from_cell c [] = some v) ∧
        (∀ row ∈ removal, row.buggy = false) ∧
        (∀ v ∈ variants, (v.filter (fun row => row.buggy)).length = 1) ∧
        verify_selects 7 removal = [] ∧
        (∀ v ∈ variants, (verify_selects 7 v).length = 1) := by
  cases hres : inject_amt_cell (fun _ => 0) 1 0 not_amt_cell with
  | none => exact absurd hres (by decide)
  | some res =>
    have hlen : (inject_amt_cell (fun _ => 0) 1 0 not_amt_cell).map
        (fun s => s.variants.length) = some 9 := by decide
    rw [hres] at hlen
    have hnb : no_buggy not_rows := by unfold no_buggy; decide
    exact ⟨res, rfl, by simpa using hlen, by decide, by decide, hnb,
      C29_removal_variant (fun _ => 0) 1 0 not_amt_cell not_rows res 7 (by decide) (by decide)
        hnb hres⟩

/-! ## Extraction leaves the module alone on failure -/

/-- A signal that is not constant and has no driver, or more than one, or is reached
with more than 48 rows collected, makes `abstract_tree` fail. -/
theorem abstract_tree_fails (module : Module) (assign_map : SigMap)
    (sig2driver : SigSet sig2driver_entry_t) (output : SigSpec) (fuel : Nat) (sig : SigSpec)
    (st : tree_state)
    (hconst : (assign_map.apply (sig.extend_u0 output.length false)).is_fully_const = false)
    (h : (sig2driver.find (assign_map.apply (sig.extend_u0 output.length false))).length ≠ 1
      ∨ 48 < st.selections.length) :
    abstract_tree module assign_map sig2driver output (fuel + 1) sig st = some (false, st) := by
  rw [abstract_tree]
  simp only [hconst, Bool.false_eq_true, if_false]
  by_cases h1 : (sig2driver.find (assign_map.apply (sig.extend_u0 output.length false))).length
      > 1
  · rw [if_pos h1]
  · rw [if_neg h1]
    by_cases h2 : (sig2driver.find
        (assign_map.apply (sig.extend_u0 output.length false))).length < 1
    · rw [if_pos h2]
    · rw [if_neg h2]
      rcases h with h | h
      · omega
      · rw [if_pos h]

/-- The loop over the marked wires returns the module as it was when the tree of every
wire fails or is small. -/
theorem extract_wires_unchanged (assign_map : SigMap) (sig2driver : SigSet sig2driver_entry_t)
    (fuel : Nat) (module : Module) (wires : List Wire)
    (h : ∀ wire ∈ wires, ∃ res,
      abstract_tree module assign_map sig2driver (assign_map.apply wire.sig) fuel
        (assign_map.apply wire.sig) ⟨[], [], [], []⟩ = some res ∧
      (res.1 = false ∨ res.2.selections.length < 4)) :
    extract_wires assign_map sig2driver fuel wires module = some module := by
  induction wires with
  | nil => rfl
  | cons wire rest ih =>
    obtain ⟨res, h1, h2⟩ := h wire (List.mem_cons_self _ _)
    have hex : extract_tree assign_map sig2driver fuel module wire = some module := by
      obtain ⟨ok, st⟩ := res
      cases ok with
      | false => exact extract_tree_failed assign_map sig2driver fuel module wire st h1
      | true =>
        rcases h2 with h2 | h2
        · exact absurd h2 (by simp)
        · exact extract_tree_small assign_map sig2driver fuel module wire st h1 h2
    rw [extract_wires, hex]
    exact ih (fun w hw => h w (List.mem_cons_of_mem _ hw))

/-- C25: extraction is atomic on failure. When `abstract_tree` on a wire returns
`false` or returns fewer than 4 rows, `extract_tree` returns the module it was given:
the same cells with the same ports, the same wires, the same `autoidx`. A signal of the
tree that is not constant and has no driver, or more than one driver, or is reached
with more than 48 rows collected makes `abstract_tree` return `false` with the state
it was called with. The loop over the marked wires of `inject_extract` returns the
module it was given when this holds for every marked wire. -/
theorem C25_extraction_atomic (assign_map : SigMap) (sig2driver : SigSet sig2driver_entry_t)
    (fuel : Nat) (module : Module) :
    (∀ (wire : Wire) (res : Bool × tree_state),
      abstract_tree module assign_map sig2driver (assign_map.apply wire.sig) fuel
        (assign_map.apply wire.sig) ⟨[], [], [], []⟩ = some res →
      (res.1 = false ∨ res.2.selections.length < 4) →
      extract_tree assign_map sig2driver fuel module wire = some module) ∧
    (∀ (output sig : SigSpec) (st : tree_state),
      (assign_map.apply (sig.extend_u0 output.length false)).is_fully_const = false →
      ((sig2driver.find (assign_map.apply (sig.extend_u0 output.length false))).length = 0 ∨
        1 < (sig2driver.find (assign_map.apply (sig.extend_u0 output.length false))).length ∨
        48 < st.selections.length) →
      abstract_tree module assign_map sig2driver output (fuel + 1) sig st = some (false, st)) ∧
    (∀ wires : List Wire,
      (∀ wire ∈ wires, ∃ res,
        abstract_tree module assign_map sig2driver (assign_map.apply wire.sig) fuel
          (assign_map.apply wire.sig) ⟨[], [], [], []⟩ = some res ∧
        (res.1 = false ∨ res.2.selections.length < 4)) →
      extract_wires assign_map sig2driver fuel wires module = some module) := by
  refine ⟨?_, ?_, ?_⟩
  · intro wire res h1 h2
    obtain ⟨ok, st⟩ := res
    cases ok with
    | false => exact extract_tree_failed assign_map sig2driver fuel module wire st h1
    | true =>
      rcases h2 with h2 | h2
      · exact absurd h2 (by simp)
      · exact extract_tree_small assign_map sig2driver fuel module wire st h1 h2
  · intro output sig st hc h
    apply abstract_tree_fails module assign_map sig2driver output fuel sig st hc
    rcases h with h | h | h
    · exact Or.inl (by omega)
    · exact Or.inl (by omega)
    · exact Or.inr h
  · intro wires h
    exact extract_wires_unchanged assign_map sig2driver fuel module wires h

set_option maxRecDepth 100000 in
/-- Witness of C25 on `two_select_module`: wire 5 (the select `s1`) has no driver, so
`abstract_tree` fails on it, and the tree of wire 3 (a `$mux` of two constants) has 2
rows; `extract_tree` returns the module unchanged for both. -/
theorem C25_extraction_atomic_witness :
    abstract_tree two_select_module id two_select_drivers
        (SigMap.apply id (Wire.sig ⟨5, 1, 0, some "inject", false⟩)) 10
        (SigMap.apply id (Wire.sig ⟨5, 1, 0, some "inject", false⟩)) ⟨[], [], [], []⟩
      = some (false, ⟨[], [], [], []⟩) ∧
    extract_tree id two_select_drivers 10 two_select_module ⟨5, 1, 0, some "inject", false⟩
      = some two_select_module ∧
    (∃ st, abstract_tree two_select_module id two_select_drivers
        (SigMap.apply id (Wire.sig ⟨3, 2, 0, some "inject", false⟩)) 10
        (SigMap.apply id (Wire.sig ⟨3, 2, 0, some "inject", false⟩)) ⟨[], [], [], []⟩
      = some (true, st) ∧ st.selections.length = 2) ∧
    extract_tree id two_select_drivers 10 two_select_module ⟨3, 2, 0, some "inject", false⟩
      = some two_select_module := by
  have h5 : abstract_tree two_select_module id two_select_drivers
        (SigMap.apply id (Wire.sig ⟨5, 1, 0, some "inject", false⟩)) 10
        (SigMap.apply id (Wire.sig ⟨5, 1, 0, some "inject", false⟩)) ⟨[], [], [], []⟩
      = some (false, ⟨[], [], [], []⟩) := by decide
  cases h3 : abstract_tree two_select_module id two_select_drivers
        (SigMap.apply id (Wire.sig ⟨3, 2, 0, some "inject", false⟩)) 10
        (SigMap.apply id (Wire.sig ⟨3, 2, 0, some "inject", false⟩)) ⟨[], [], [], []⟩ with
  | none => exact absurd h3 (by decide)
  | some res =>
    have hres : (abstract_tree two_select_module id two_select_drivers
        (SigMap.apply id (Wire.sig ⟨3, 2, 0, some "inject", false⟩)) 10
        (SigMap.apply id (Wire.sig ⟨3, 2, 0, some "inject", false⟩)) ⟨[], [], [], []⟩).map
          (fun r => (r.1, r.2.selections.length)) = some (true, 2) := by decide
    rw [h3] at hres
    simp only [Option.map_some', Option.some.injEq, Prod.mk.injEq] at hres
    obtain ⟨ok, st⟩ := res
    simp only at hres
    refine ⟨h5, ?_, ⟨st, by rw [hres.1], hres.2⟩, ?_⟩
    · exact (C25_extraction_atomic id two_select_drivers 10 two_select_module).1
        ⟨5, 1, 0, some "inject", false⟩ (false, ⟨[], [], [], []⟩) h5 (Or.inl rfl)
    · exact (C25_extraction_atomic id two_select_drivers 10 two_select_module).1
        ⟨3, 2, 0, some "inject", false⟩ (ok, st) h3 (Or.inr (by rw [hres.2]; decide))

/-! ## The patterns of wide `$pmux` cells -/

set_option maxRecDepth 1000000 in
/-- C28: the case patterns `RTLIL::Const(1<<i, sig_s.size())`. For a select width
`w <= 32` the pattern of every case `i < w` has bit `i` set and every other bit 0, and
the pattern of the default input is all 0 for every width. For `w = 33` the pattern of
case 31 is built from the most negative `int`, which the constructor extends by its
sign: bits 31 and 32 are both set, and the pattern is not the one-hot one. On
`pmux33_module` `abstract_tree` succeeds with 34 rows (default first); the row of case
31 carries the pattern with bits 31 and 32 set, and the row of case 32, whose shift
`1<<32` has no defined value in C++, carries with the shift count taken modulo 32 the
pattern of case 0; `extract_tree` then creates an `$amt` cell of 34 rows whose row 32 has
the pattern with bits 31 and 32 set. -/
theorem C28_pmux_patterns :
    (∀ w, w < 33 → ∀ i, i < w → Const.of_int (shl_one i) w = onehot i w) ∧
    (∀ w, Const.of_int 0 w = List.replicate w State.S0) ∧
    shl_one 31 = -2147483648 ∧
    Const.of_int (shl_one 31) 33 = List.replicate 31 State.S0 ++ [State.S1, State.S1] ∧
    Const.of_int (shl_one 31) 33 ≠ onehot 31 33 ∧
    Const.of_int (shl_one 32) 33 = onehot 0 33 ∧
    raw_patterns (abstract_tree pmux33_module id pmux33_drivers (SigMap.apply id wire_y.sig) 10
        (SigMap.apply id wire_y.sig) ⟨[], [], [], []⟩)
      = some (true, [List.replicate 33 State.S0] ::
          ((List.range 31).map (fun i => [onehot i 33]) ++
            [[List.replicate 31 State.S0 ++ [State.S1, State.S1]], [onehot 0 33]])) ∧
    (extract_tree id pmux33_drivers 10 pmux33_module wire_y).map
      (fun m => m.amt_cells.map (fun cell => (copy_from_cell cell []).map
        (fun rows => (rows.length, rows[32]?.map (fun row => row.select)))))
      = some [some (34, some (List.replicate 31 State.S0 ++ [State.S1, State.S1]))] := by
  refine ⟨of_int_shl_one, of_int_zero, by decide, by decide, by decide, by decide, by decide,
    by decide⟩

/-- Witness of C28: case 2 of a select of width 4. -/
theorem C28_pmux_patterns_witness : Const.of_int (shl_one 2) 4 = onehot 2 4 :=
  C28_pmux_patterns.1 4 (by decide) 2 (by decide)

/-! ## The targets of the driver mix-up -/

theorem mem_set_insert {α : Type} [DecidableEq α] (a x : α) (l : List α) :
    x ∈ set_insert a l ↔ x ∈ l ∨ x = a := by
  unfold set_insert
  by_cases h : a ∈ l
  · rw [if_pos h]
    constructor
    · exact Or.inl
    · rintro (e | e)
      · exact e
      · rw [e]
        exact h
  · rw [if_neg h]
    simp

theorem mem_foldr_set_insert {α : Type} [DecidableEq α] (l init : List α) (x : α) :
    x ∈ l.foldr set_insert init ↔ x ∈ l ∨ x ∈ init := by
  induction l with
  | nil => simp
  | cons a rest ih =>
    rw [List.foldr_cons, mem_set_insert, ih, List.mem_cons]
    constructor
    · rintro ((h | h) | h)
      · exact Or.inl (Or.inr h)
      · exact Or.inr h
      · exact Or.inl (Or.inl h)
    · rintro ((h | h) | h)
      · exact Or.inr h
      · exact Or.inl (Or.inl h)
      · exact Or.inl (Or.inr h)

/-- The targets the loop over the chunks collects are slices of the target of the
connection. -/
theorem collect_chunks_targets (is_public : Nat → Bool) (driver target : SigSpec) :
    ∀ (chunks : List SigChunk) (position offset : Nat) (sets : List SigSpec × List SigSpec)
      (res : Nat × List SigSpec × List SigSpec),
      collect_chunks is_public driver target chunks position offset sets = some res →
      ∀ t ∈ res.2.2, t ∈ sets.2 ∨
        ∃ o, o + t.length ≤ target.length ∧ t = (target.drop o).take t.length := by
  intro chunks
  induction chunks with
  | nil =>
    intro position offset sets res h t ht
    obtain ⟨a, b⟩ := sets
    simp only [collect_chunks, Option.some.injEq] at h
    subst h
    exact Or.inl ht
  | cons chunk rest ih =>
    intro position offset sets res h t ht
    obtain ⟨current_drivers, current_targets⟩ := sets
    rw [collect_chunks] at h
    split at h
    · split at h
      · rename_i slice hslice
        rcases ih _ _ _ res h t ht with e | e
        · simp only at e
          rcases (mem_set_insert slice t current_targets).mp e with e | e
          · exact Or.inl e
          · right
            unfold SigSpec.extract at hslice
            split at hslice
            · rename_i hle
              have hs := Option.some.inj hslice
              have hlen : t.length = chunk.width := by
                rw [e, ← hs, List.length_take, List.length_drop]
                omega
              exact ⟨offset, by omega, by rw [hlen, e, ← hs]⟩
            · simp at hslice
        · exact Or.inr e
      · simp at h
    · exact ih _ _ _ res h t ht

/-- The targets `collect_drivers` collects are slices of whole wires. -/
theorem collect_drivers_targets (is_public : Nat → Bool) (wires : List Wire) :
    ∀ (connections : List SigSig) (sets res : List SigSpec × List SigSpec),
      collect_drivers is_public wires connections sets = some res →
      (∀ t ∈ sets.2, wire_slice wires t) → ∀ t ∈ res.2, wire_slice wires t := by
  intro connections
  induction connections with
  | nil =>
    intro sets res h hs
    obtain ⟨a, b⟩ := sets
    simp only [collect_drivers, Option.some.injEq] at h
    subst h
    exact hs
  | cons connection rest ih =>
    intro sets res h hs
    obtain ⟨drivers_set, targets_set⟩ := sets
    rw [collect_drivers] at h
    split at h
    · exact ih _ res h hs
    · rename_i hw
      split at h
      · exact ih _ res h hs
      · split at h
        · simp at h
        · rename_i offset current_drivers current_targets hchunks
          split at h
          · exact ih _ res h hs
          · apply ih _ res h
            intro t ht
            simp only at ht
            rcases (mem_foldr_set_insert current_targets targets_set t).mp ht with e | e
            · rcases collect_chunks_targets is_public connection.2 connection.1 _ _ _ _ _
                hchunks t e with e1 | ⟨o, e1, e2⟩
              · simp at e1
              · exact ⟨connection.1, o, by simpa using hw, e1, e2⟩
            · exact hs t e

theorem of_wire_drop_take (name width o n : Nat) (hn : 0 < n) (h : o + n ≤ width) :
    ∃ rest, ((SigSpec.of_wire name width).drop o).take n = SigBit.wire name o :: rest := by
  have hget : (SigSpec.of_wire name width)[o]? = some (SigBit.wire name o) := by
    simp only [SigSpec.of_wire, List.getElem?_map]
    rw [List.getElem?_range (by omega)]
    rfl
  rw [drop_eq_cons_of_getElem? _ o _ hget]
  cases n with
  | zero => omega
  | succ n => exact ⟨_, rfl⟩

/-- A whole wire is the signal of the first wire of the module with its name. -/
theorem as_wire_some (wires : List Wire) (sig : SigSpec) (w : Wire)
    (h : sig.as_wire wires = some w) :
    wires.find? (fun x => x.name = w.name) = some w ∧ w.sig = sig ∧ w ∈ wires := by
  unfold SigSpec.as_wire at h
  split at h
  · rename_i name o rest
    split at h
    · rename_i w' hfind
      split at h
      · rename_i hsig
        have e := Option.some.inj h
        subst e
        have hname : w'.name = name := by simpa using List.find?_some hfind
        rw [hname]
        exact ⟨hfind, hsig, List.mem_of_find?_eq_some hfind⟩
      · simp at h
    · simp at h
  · simp at h

/-- A proper initial part of a slice of a whole wire is not a whole wire. -/
theorem take_slice_not_wire (wires : List Wire) (target : SigSpec) (n : Nat)
    (hslice : wire_slice wires target) (hn : 0 < n) (hlt : n < target.length) :
    SigSpec.is_wire wires (target.take n) = false := by
  obtain ⟨whole, offset, hw, hle, heq⟩ := hslice
  unfold SigSpec.is_wire at hw
  cases hwhole : whole.as_wire wires with
  | none => simp [hwhole] at hw
  | some w =>
    obtain ⟨hfind, hsig, _⟩ := as_wire_some wires whole w hwhole
    have hlen : whole.length = w.width := by
      rw [← hsig]
      exact of_wire_length _ _
    have htake : target.take n = (whole.drop offset).take n := by
      rw [heq, List.take_take, Nat.min_eq_left (Nat.le_of_lt hlt)]
    obtain ⟨rest, hrest⟩ := of_wire_drop_take w.name w.width offset n hn (by omega)
    have hlen2 : (target.take n).length = n := by
      rw [List.length_take]
      omega
    unfold SigSpec.is_wire SigSpec.as_wire
    rw [htake, ← hsig]
    unfold Wire.sig
    rw [hrest]
    simp only [hfind]
    rw [if_neg]
    · rfl
    · intro e
      have := congrArg List.length e
      rw [← hrest, of_wire_length, List.length_take, List.length_drop, of_wire_length] at this
      omega

/-- C30: only whole-wire targets yield driver mix-up variants. In a step of the loop of
`inject_driver` on the drivers and targets collected from the connections of the
module, with the driver `d` and the target `t` picked: if `d` is not fully constant and
`|d| < |t|`, the width adjustment truncates `t` to its lowest `|d|` bits, which are
not a whole wire, and the step changes neither the bug index nor the variants written
(it only consumes the two calls of `rand()`); and whenever a step changes the bug index
or writes a variant, the width-adjusted target is the whole of a wire of the module
and the index grows by 1. -/
theorem C30_whole_wire_targets (rand : Nat → Nat) (is_public : Nat → Bool)
    (wires : List Wire) (connections : List SigSig) (drivers targets : List SigSpec)
    (st st' : driver_state)
    (hcol : collect_drivers is_public wires connections ([], []) = some (drivers, targets))
    (hstep : driver_step rand wires drivers targets connections st = some st') :
    ∃ driver target, drivers[rand st.calls % drivers.length]? = some driver ∧
      targets[rand (st.calls + 1) % targets.length]? = some target ∧
      (driver.is_fully_const = false → driver.length < target.length →
        adjust_widths driver target = some (driver, target.take driver.length) ∧
        SigSpec.is_wire wires (target.take driver.length) = false ∧
        st' = { st with calls := st.calls + 2 }) ∧
      ((st'.index ≠ st.index ∨ st'.hosts ≠ st.hosts) →
        ∃ d' t' w, adjust_widths driver target = some (d', t') ∧ w ∈ wires ∧ t' = w.sig ∧
          SigSpec.as_wire wires t' = some w ∧ st'.index = st.index + 1) := by
  have hslices := collect_drivers_targets is_public wires connections ([], [])
    (drivers, targets) hcol (by simp)
  unfold driver_step at hstep
  split at hstep
  · simp at hstep
  · split at hstep
    · rename_i driver target hd ht
      refine ⟨driver, target, hd, ht, ?_, ?_⟩
      · intro hconst hlt
        have hslice : wire_slice wires target := hslices target (List.getElem?_mem ht)
        have hne : 0 < driver.length := by
          cases driver with
          | nil => simp [SigSpec.is_fully_const] at hconst
          | cons b rest => simp
        have hadj : adjust_widths driver target = some (driver, target.take driver.length) := by
          unfold adjust_widths SigSpec.extract
          simp [hlt, hconst, Nat.le_of_lt hlt]
        have hnw := take_slice_not_wire wires target driver.length hslice hne hlt
        refine ⟨hadj, hnw, ?_⟩
        simp only at hstep
        split at hstep
        · exact (Option.some.inj hstep).symm
        · rw [hadj] at hstep
          simp only [hnw, Bool.false_eq_true, not_false_eq_true, if_true] at hstep
          exact (Option.some.inj hstep).symm
      · intro hchange
        simp only at hstep
        split at hstep
        · have e := Option.some.inj hstep
          subst e
          simp at hchange
        · split at hstep
          · simp at hstep
          · rename_i d' t' hadj
            split at hstep
            · have e := Option.some.inj hstep
              subst e
              simp at hchange
            · rename_i hw
              have hw' : SigSpec.is_wire wires t' = true := by simpa using hw
              unfold SigSpec.is_wire at hw'
              cases hwire : SigSpec.as_wire wires t' with
              | none => simp [hwire] at hw'
              | some w =>
                obtain ⟨_, hsig, hmem⟩ := as_wire_some wires t' w hwire
                split at hstep
                · have e := Option.some.inj hstep
                  subst e
                  simp at hchange
                · split at hstep
                  · have e := Option.some.inj hstep
                    subst e
                    exact ⟨d', t', w, by assumption, hmem, hsig.symm, hwire, rfl⟩
                  · have e := Option.some.inj hstep
                    subst e
                    exact ⟨d', t', w, by assumption, hmem, hsig.symm, hwire, rfl⟩
    · simp at hstep

set_option maxRecDepth 100000 in
/-- Witness of C30 on the module with the connections `y <- b` (two bits) and `z <- a`
(one bit): the first pair picked is the driver `a` with the target `y`; `y` is
truncated to its bit 0, which is not a whole wire, and the step leaves the bug index
and the variants as they were. -/
theorem C30_whole_wire_targets_witness :
    collect_drivers public_below_16 slice_wires slice_connections ([], [])
      = some ([SigSpec.of_wire 3 2, [SigBit.wire 1 0]],
          [SigSpec.of_wire 2 2, [SigBit.wire 4 0]]) ∧
    driver_step slice_rand slice_wires [SigSpec.of_wire 3 2, [SigBit.wire 1 0]]
        [SigSpec.of_wire 2 2, [SigBit.wire 4 0]] slice_connections ⟨0, 0, []⟩
      = some ⟨0, 2, []⟩ ∧
    ∃ driver target,
      [SigSpec.of_wire 3 2, [SigBit.wire 1 0]][slice_rand 0 % 2]? = some driver ∧
      [SigSpec.of_wire 2 2, [SigBit.wire 4 0]][slice_rand (0 + 1) % 2]? = some target ∧
      (driver.is_fully_const = false → driver.length < target.length →
        adjust_widths driver target = some (driver, target.take driver.length) ∧
        SigSpec.is_wire slice_wires (target.take driver.length) = false ∧
        (⟨0, 2, []⟩ : driver_state) = ⟨0, 0 + 2, []⟩) ∧
      (((⟨0, 2, []⟩ : driver_state).index ≠ 0 ∨ (⟨0, 2, []⟩ : driver_state).hosts ≠ []) →
        ∃ d' t' w, adjust_widths driver target = some (d', t') ∧ w ∈ slice_wires ∧
          t' = w.sig ∧ SigSpec.as_wire slice_wires t' = some w ∧
          (⟨0, 2, []⟩ : driver_state).index = 0 + 1) :=
  ⟨by decide, by decide,
    C30_whole_wire_targets slice_rand public_below_16 slice_wires slice_connections
      [SigSpec.of_wire 3 2, [SigBit.wire 1 0]] [SigSpec.of_wire 2 2, [SigBit.wire 4 0]]
      ⟨0, 0, []⟩ ⟨0, 2, []⟩ (by decide) (by decide)⟩

/-! ## The minimisation of the truth table -/

theorem count_matching_le (a b : Const) : count_matching a b ≤ a.length := by
  induction a generalizing b with
  | nil => simp [count_matching]
  | cons x as ih =>
    cases b with
    | nil => simp [count_matching]
    | cons y bs =>
      have := ih bs
      simp only [count_matching, List.length_cons]
      split <;> omega

theorem count_matching_all (a b : Const) (hlen : a.length = b.length)
    (h : count_matching a b = a.length) : a = b := by
  induction a generalizing b with
  | nil =>
    cases b with
    | nil => rfl
    | cons y bs => simp at hlen
  | cons x as ih =>
    cases b with
    | nil => simp at hlen
    | cons y bs =>
      have hle := count_matching_le as bs
      simp only [count_matching, List.length_cons] at h hlen
      by_cases hxy : x = y
      · rw [if_pos hxy] at h
        rw [hxy, ih bs (by omega) (by omega)]
      · rw [if_neg hxy] at h
        omega

theorem last_mismatch_self (a : Const) (k index : Nat) : last_mismatch a a k index = index := by
  induction a generalizing k with
  | nil => rfl
  | cons x as ih => simp [last_mismatch, ih]

/-- Two patterns of equal length with all positions but one matching differ at the
position `last_mismatch` gives, and nowhere else. -/
theorem count_matching_split (a b : Const) (hlen : a.length = b.length)
    (h : count_matching a b + 1 = a.length) (k index : Nat) :
    ∃ pre x y post, a = pre ++ x :: post ∧ b = pre ++ y :: post ∧ x ≠ y ∧
      last_mismatch a b k index = k + pre.length := by
  induction a generalizing b k index with
  | nil => simp at h
  | cons x as ih =>
    cases b with
    | nil => simp at hlen
    | cons y bs =>
      simp only [count_matching, List.length_cons] at h hlen
      by_cases hxy : x = y
      · rw [if_pos hxy] at h
        obtain ⟨pre, x', y', post, h1, h2, h3, h4⟩ :=
          ih bs (by omega) (by omega) (k + 1) index
        refine ⟨x :: pre, x', y', post, by rw [h1]; rfl, by rw [h2, hxy]; rfl, h3, ?_⟩
        rw [last_mismatch, if_pos hxy, h4, List.length_cons]
        omega
      · rw [if_neg hxy] at h
        have he := count_matching_all as bs (by omega) (by omega)
        refine ⟨[], x, y, as, rfl, by rw [he]; rfl, hxy, ?_⟩
        rw [last_mismatch, if_neg hxy, he, last_mismatch_self]
        rfl

/-- A merge found by the inner loop: the row erased, its place, and the merged row. -/
theorem merge_row_some (width : Nat) (row_i : truth_row) (rest : List truth_row)
    (row : truth_row) (rest' : List truth_row)
    (h : merge_row width row_i rest = some (row, rest')) :
    ∃ r1 row_j r2, rest = r1 ++ row_j :: r2 ∧ rest' = r1 ++ r2 ∧ row_i.1 = row_j.1 ∧
      count_matching row_i.2 row_j.2 + 1 = width ∧
      row = (row_i.1, row_i.2.set (last_mismatch row_i.2 row_j.2 0 0) State.Sa) := by
  induction rest generalizing row rest' with
  | nil => simp [merge_row] at h
  | cons row_j rest ih =>
    rw [merge_row] at h
    split at h
    · rename_i hc
      simp only [Option.some.injEq, Prod.mk.injEq] at h
      exact ⟨[], row_j, rest, rfl, h.2.symm, hc.1, hc.2, h.1.symm⟩
    · split at h
      · rename_i row1 rest1 hrec
        simp only [Option.some.injEq, Prod.mk.injEq] at h
        obtain ⟨r1, rj, r2, h1, h2, h3, h4, h5⟩ := ih row1 rest1 hrec
        refine ⟨row_j :: r1, rj, r2, by rw [h1]; rfl, ?_, h3, h4, by rw [← h.1, h5]⟩
        rw [← h.2, h2]
        rfl
      · simp at h

theorem input_matches_length (p v : Const) (h : input_matches p v = true) :
    p.length = v.length := by
  induction p generalizing v with
  | nil =>
    cases v with
    | nil => rfl
    | cons u vs => simp [input_matches] at h
  | cons x ps ih =>
    cases v with
    | nil => simp [input_matches] at h
    | cons u vs =>
      simp only [input_matches, Bool.and_eq_true] at h
      simp [ih vs h.2]

theorem input_matches_append (a b va vb : Const) (hlen : a.length = va.length) :
    input_matches (a ++ b) (va ++ vb) = (input_matches a va && input_matches b vb) := by
  induction a generalizing va with
  | nil =>
    cases va with
    | nil => simp [input_matches]
    | cons u vs => simp at hlen
  | cons x as ih =>
    cases va with
    | nil => simp at hlen
    | cons u vs =>
      have e := ih vs (by simpa using hlen)
      show ((x = State.Sa ∨ x = u) && input_matches (as ++ b) (vs ++ vb))
        = (((x = State.Sa ∨ x = u) && input_matches as vs) && input_matches b vb)
      rw [e, Bool.and_assoc]

/-- The merged pattern matches the assignments either of the two patterns matches. -/
theorem input_matches_merged (pre post v : Const) (x y : State) (hxy : x ≠ y)
    (hx : x = State.S0 ∨ x = State.S1 ∨ x = State.Sa)
    (hy : y = State.S0 ∨ y = State.S1 ∨ y = State.Sa)
    (hv : ∀ s ∈ v, s = State.S0 ∨ s = State.S1) :
    input_matches (pre ++ State.Sa :: post) v
      = (input_matches (pre ++ x :: post) v || input_matches (pre ++ y :: post) v) := by
  by_cases hlen : v.length = pre.length + 1 + post.length
  · have hsplit : v = v.take pre.length ++ v.drop pre.length := (List.take_append_drop _ _).symm
    have htl : (v.take pre.length).length = pre.length := by
      rw [List.length_take]
      omega
    cases hd : v.drop pre.length with
    | nil =>
      have := congrArg List.length hd
      rw [List.length_drop] at this
      simp at this
      omega
    | cons u vpost =>
      have hu : u = State.S0 ∨ u = State.S1 := by
        apply hv
        apply List.mem_of_mem_drop
        rw [hd]
        exact List.mem_cons_self _ _
      rw [hsplit, hd, input_matches_append _ _ _ _ htl.symm,
        input_matches_append _ _ _ _ htl.symm, input_matches_append _ _ _ _ htl.symm]
      simp only [input_matches]
      cases input_matches pre (v.take pre.length) <;> cases input_matches post vpost <;>
        rcases hx with e | e | e <;> rcases hy with e' | e' | e' <;>
        rcases hu with e'' | e'' <;> subst e <;> subst e' <;> subst e'' <;>
        first | rfl | exact absurd rfl hxy
  · have h1 : input_matches (pre ++ State.Sa :: post) v = false := by
      cases h : input_matches (pre ++ State.Sa :: post) v with
      | false => rfl
      | true =>
        have := input_matches_length _ _ h
        simp at this
        omega
    have h2 : input_matches (pre ++ x :: post) v = false := by
      cases h : input_matches (pre ++ x :: post) v with
      | false => rfl
      | true =>
        have := input_matches_length _ _ h
        simp at this
        omega
    have h3 : input_matches (pre ++ y :: post) v = false := by
      cases h : input_matches (pre ++ y :: post) v with
      | false => rfl
      | true =>
        have := input_matches_length _ _ h
        simp at this
        omega
    rw [h1, h2, h3]
    rfl

theorem set_append_cons (pre post : Const) (x s : State) :
    (pre ++ x :: post).set pre.length s = pre ++ s :: post := by
  induction pre with
  | nil => rfl
  | cons a rest ih => simp [ih]

theorem matching_outputs_cons (row : truth_row) (rest : List truth_row) (v : Const) :
    matching_outputs (row :: rest) v
      = (if input_matches row.2 v = true then [row.1] else []) ++ matching_outputs rest v := by
  unfold matching_outputs
  by_cases h : input_matches row.2 v = true
  · simp [List.filter_cons, h]
  · simp [List.filter_cons, h]

theorem matching_outputs_append (a b : List truth_row) (v : Const) :
    matching_outputs (a ++ b) v = matching_outputs a v ++ matching_outputs b v := by
  unfold matching_outputs
  rw [List.filter_append, List.map_append]

/-- A run of the loop over `i` keeps the width of the patterns and their elements 0, 1
and don't-care, and for every concrete assignment matched by at most one row it keeps
the outputs of the matching rows. -/
theorem merge_pass_spec (width : Nat) :
    ∀ (count : Nat) (rows : List truth_row),
      (∀ r ∈ rows, r.2.length = width ∧
        ∀ s ∈ r.2, s = State.S0 ∨ s = State.S1 ∨ s = State.Sa) →
      (∀ r ∈ (merge_pass width count rows).1, r.2.length = width ∧
        ∀ s ∈ r.2, s = State.S0 ∨ s = State.S1 ∨ s = State.Sa) ∧
      ∀ v : Const, (∀ s ∈ v, s = State.S0 ∨ s = State.S1) →
        (matching_outputs rows v).length ≤ 1 →
        matching_outputs (merge_pass width count rows).1 v = matching_outputs rows v := by
  intro count
  induction count with
  | zero =>
    intro rows hrows
    rw [merge_pass]
    exact ⟨hrows, fun _ _ _ => rfl⟩
  | succ count ih =>
    intro rows hrows
    cases rows with
    | nil =>
      have e : merge_pass width (count + 1) ([] : List truth_row) = ([], false) := by
        simp [merge_pass]
      rw [e]
      exact ⟨hrows, fun _ _ _ => rfl⟩
    | cons row_i rest =>
      rw [merge_pass]
      have hrest : ∀ r ∈ rest, r.2.length = width ∧
          ∀ s ∈ r.2, s = State.S0 ∨ s = State.S1 ∨ s = State.Sa :=
        fun r hr => hrows r (List.mem_cons_of_mem _ hr)
      have hi := hrows row_i (List.mem_cons_self _ _)
      split
      · rename_i row rest' hm
        obtain ⟨r1, row_j, r2, e1, e2, e3, e4, e5⟩ := merge_row_some width row_i rest row rest' hm
        have hj := hrest row_j (by rw [e1]; simp)
        obtain ⟨pre, x, y, post, a1, a2, a3, a4⟩ := count_matching_split row_i.2 row_j.2
          (by rw [hi.1, hj.1]) (by rw [e4, hi.1]) 0 0
        have hrow2 : row.2 = pre ++ State.Sa :: post := by
          rw [e5]
          simp only
          rw [a4, Nat.zero_add]
          nth_rewrite 1 [a1]
          exact set_append_cons pre post x State.Sa
        have hrest' : ∀ r ∈ rest', r.2.length = width ∧
            ∀ s ∈ r.2, s = State.S0 ∨ s = State.S1 ∨ s = State.Sa := by
          intro r hr
          apply hrest
          rw [e2] at hr
          rw [e1]
          rcases List.mem_append.mp hr with h | h
          · exact List.mem_append_left _ h
          · exact List.mem_append_right _ (List.mem_cons_of_mem _ h)
        obtain ⟨ih1, ih2⟩ := ih rest' hrest'
        have hx : x = State.S0 ∨ x = State.S1 ∨ x = State.Sa :=
          hi.2 x (by rw [a1]; simp)
        have hy : y = State.S0 ∨ y = State.S1 ∨ y = State.Sa :=
          hj.2 y (by rw [a2]; simp)
        constructor
        · intro r hr
          rcases List.mem_cons.mp hr with h | h
          · rw [h, hrow2]
            constructor
            · rw [← hi.1, a1]
              simp
            · intro s hs
              rcases List.mem_append.mp hs with h1 | h1
              · exact hi.2 s (by rw [a1]; exact List.mem_append_left _ h1)
              · rcases List.mem_cons.mp h1 with h2 | h2
                · exact Or.inr (Or.inr h2)
                · have hmem : s ∈ pre ++ x :: post :=
                    List.mem_append_right _ (List.mem_cons_of_mem _ h2)
                  exact hi.2 s (by rw [a1]; exact hmem)
          · exact ih1 r h
        · intro v hv hle
          have hmerged := input_matches_merged pre post v x y a3 hx hy hv
          rw [← hrow2, ← a1, ← a2] at hmerged
          have hrow1 : row.1 = row_i.1 := by rw [e5]
          rw [matching_outputs_cons, e1, matching_outputs_append, matching_outputs_cons] at hle
          have hsub : (matching_outputs rest' v).length ≤ 1 := by
            rw [e2, matching_outputs_append]
            simp only [List.length_append] at hle ⊢
            omega
          show matching_outputs (row :: (merge_pass width count rest').1) v
            = matching_outputs (row_i :: rest) v
          rw [matching_outputs_cons, ih2 v hv hsub, matching_outputs_cons, e2, e1,
            matching_outputs_append, matching_outputs_append, matching_outputs_cons, hmerged,
            hrow1, ← e3]
          simp only [List.length_append] at hle
          cases h1 : input_matches row_i.2 v <;> cases h2 : input_matches row_j.2 v
          · simp
          · simp only [h1, h2, if_true, Bool.false_eq_true, if_false, List.length_cons,
              List.length_nil, List.nil_append, Bool.or_true] at hle ⊢
            have z1 : matching_outputs r1 v = [] := List.eq_nil_of_length_eq_zero (by omega)
            have z2 : matching_outputs r2 v = [] := List.eq_nil_of_length_eq_zero (by omega)
            rw [z1, z2]
            rfl
          · simp
          · simp only [h1, h2, if_true, List.length_cons, List.length_nil] at hle
            omega
      · rename_i hm
        obtain ⟨ih1, ih2⟩ := ih rest hrest
        constructor
        · intro r hr
          rcases List.mem_cons.mp hr with h | h
          · rw [h]
            exact hi
          · exact ih1 r h
        · intro v hv hle
          rw [matching_outputs_cons] at hle
          rw [matching_outputs_cons, matching_outputs_cons, ih2 v hv
            (by simp only [List.length_append] at hle; omega)]

/-- The merge loop keeps, for every concrete assignment, the outputs of the matching
rows of a table in which every concrete assignment is matched by at most one row. -/
theorem minimize_spec (width : Nat) :
    ∀ (count : Nat) (rows : List truth_row),
      (∀ r ∈ rows, r.2.length = width ∧
        ∀ s ∈ r.2, s = State.S0 ∨ s = State.S1 ∨ s = State.Sa) →
      (∀ v : Const, (∀ s ∈ v, s = State.S0 ∨ s = State.S1) →
        (matching_outputs rows v).length ≤ 1) →
      ∀ v : Const, (∀ s ∈ v, s = State.S0 ∨ s = State.S1) →
        matching_outputs (minimize width count rows) v = matching_outputs rows v := by
  intro count
  induction count with
  | zero =>
    intro rows _ _ v _
    rfl
  | succ count ih =>
    intro rows hrows hone v hv
    obtain ⟨p1, p2⟩ := merge_pass_spec width rows.length rows hrows
    rw [minimize]
    split
    · rw [ih _ p1 (fun u hu => by rw [p2 u hu (hone u hu)]; exact hone u hu) v hv]
      exact p2 v hv (hone v hv)
    · exact p2 v hv (hone v hv)

/-- A run of the loop over `i` that merges nothing leaves the table as it is, and a run
that merges leaves fewer rows. -/
theorem merge_pass_length (width : Nat) :
    ∀ (count : Nat) (rows : List truth_row),
      (merge_pass width count rows).1.length ≤ rows.length ∧
      ((merge_pass width count rows).2 = true →
        (merge_pass width count rows).1.length < rows.length) ∧
      ((merge_pass width count rows).2 = false → (merge_pass width count rows).1 = rows) := by
  intro count
  induction count with
  | zero =>
    intro rows
    rw [merge_pass]
    simp
  | succ count ih =>
    intro rows
    cases rows with
    | nil =>
      have e : merge_pass width (count + 1) ([] : List truth_row) = ([], false) := by
        simp [merge_pass]
      rw [e]
      simp
    | cons row_i rest =>
      rw [merge_pass]
      split
      · rename_i row rest' hm
        obtain ⟨r1, row_j, r2, e1, e2, _⟩ := merge_row_some width row_i rest row rest' hm
        have := (ih rest').1
        have hl : rest'.length + 1 = rest.length := by
          rw [e1, e2]
          simp
          omega
        simp only [List.length_cons]
        refine ⟨by omega, fun _ => by omega, fun h => by simp at h⟩
      · obtain ⟨i1, i2, i3⟩ := ih rest
        simp only [List.length_cons]
        refine ⟨by omega, fun h => by have := i2 h; omega, fun h => by rw [i3 h]⟩

/-- The loop `while (merged)` ends: with as many runs allowed as the table has rows,
the last run merges nothing. -/
theorem minimize_ends (width : Nat) :
    ∀ (count : Nat) (rows : List truth_row), rows.length ≤ count →
      (merge_pass width (minimize width count rows).length (minimize width count rows)).2
        = false := by
  intro count
  induction count with
  | zero =>
    intro rows h
    have : rows = [] := List.eq_nil_of_length_eq_zero (by omega)
    subst this
    rfl
  | succ count ih =>
    intro rows h
    obtain ⟨p1, p2, p3⟩ := merge_pass_length width rows.length rows
    rw [minimize]
    split
    · rename_i hm
      exact ih _ (by have := p2 hm; omega)
    · rename_i hm
      have hf : (merge_pass width rows.length rows).2 = false := by simpa using hm
      rw [p3 hf]
      exact hf

theorem of_int_concrete (val : Int) (w : Nat) :
    ∀ s ∈ Const.of_int val w, s = State.S0 ∨ s = State.S1 := by
  induction w generalizing val with
  | zero =>
    intro s hs
    simp [Const.of_int] at hs
  | succ w ih =>
    intro s hs
    rw [Const.of_int] at hs
    rcases List.mem_cons.mp hs with h | h
    · rw [h]
      split
      · exact Or.inr rfl
      · exact Or.inl rfl
    · exact ih _ s h

/-- The constants of the numbers below `2 ^ w` are pairwise different. -/
theorem of_int_inj (w : Nat) : ∀ (i j : Nat), i < 2 ^ w → j < 2 ^ w →
    Const.of_int (Int.ofNat i) w = Const.of_int (Int.ofNat j) w → i = j := by
  induction w with
  | zero =>
    intro i j hi hj _
    simp at hi hj
    omega
  | succ w ih =>
    intro i j hi hj h
    rw [Const.of_int, Const.of_int] at h
    simp only [List.cons.injEq] at h
    obtain ⟨h1, h2⟩ := h
    have e1 : (Int.ofNat i) / 2 = Int.ofNat (i / 2) := by
      simp only [Int.ofNat_eq_coe]
      omega
    have e2 : (Int.ofNat j) / 2 = Int.ofNat (j / 2) := by
      simp only [Int.ofNat_eq_coe]
      omega
    rw [e1, e2] at h2
    have hdiv := ih (i / 2) (j / 2) (by rw [Nat.pow_succ] at hi; omega)
      (by rw [Nat.pow_succ] at hj; omega) h2
    have hmod : i % 2 = j % 2 := by
      simp only [Int.ofNat_eq_coe] at h1
      by_cases a : (i : Int) % 2 = 1 <;> by_cases b : (j : Int) % 2 = 1
      · omega
      · simp [a, b] at h1
      · simp [a, b] at h1
      · omega
    omega

theorem input_matches_concrete (p v : Const) (hp : ∀ s ∈ p, s = State.S0 ∨ s = State.S1) :
    input_matches p v = true ↔ p = v := by
  induction p generalizing v with
  | nil =>
    cases v with
    | nil => simp [input_matches]
    | cons u vs => simp [input_matches]
  | cons x ps ih =>
    cases v with
    | nil => simp [input_matches]
    | cons u vs =>
      have hx := hp x (List.mem_cons_self _ _)
      have hne : x ≠ State.Sa := by
        rcases hx with e | e <;> rw [e] <;> decide
      simp only [input_matches, Bool.and_eq_true, decide_eq_true_eq, List.cons.injEq,
        ih vs (fun s hs => hp s (List.mem_cons_of_mem _ hs))]
      constructor
      · rintro ⟨h1 | h1, h2⟩
        · exact absurd h1 hne
        · exact ⟨h1, h2⟩
      · rintro ⟨h1, h2⟩
        exact ⟨Or.inr h1, h2⟩

theorem truth_entry_input (ct : CellTypes) (assign_map : SigMap) (cell : Cell)
    (cell_input cell_output full_output : SigSpec) (i : Nat) (row : truth_row)
    (h : truth_entry ct assign_map cell cell_input cell_output full_output i = some row) :
    row.2 = Const.of_int (Int.ofNat i) cell_input.length := by
  unfold truth_entry at h
  simp only at h
  split at h
  · split at h
    · rw [← Option.some.inj h]
    · simp at h
  · simp at h

/-- The table the loop fills has one row per input assignment, in order. -/
theorem truth_table_map (ct : CellTypes) (assign_map : SigMap) (cell : Cell)
    (cell_input cell_output full_output : SigSpec) :
    ∀ (l : List Nat) (truth_tab : List truth_row),
      truth_table ct assign_map cell cell_input cell_output full_output l = some truth_tab →
      truth_tab = l.map (fun i =>
        (truth_entry ct assign_map cell cell_input cell_output full_output i).getD ([], [])) ∧
      ∀ i ∈ l, ∃ row,
        truth_entry ct assign_map cell cell_input cell_output full_output i = some row := by
  intro l
  induction l with
  | nil =>
    intro truth_tab h
    simp only [truth_table, Option.some.injEq] at h
    subst h
    simp
  | cons i rest ih =>
    intro truth_tab h
    rw [truth_table] at h
    split at h
    · rename_i row rows h1 h2
      obtain ⟨g1, g2⟩ := ih rows h2
      rw [← Option.some.inj h]
      constructor
      · rw [List.map_cons, h1, ← g1]
        rfl
      · intro k hk
        rcases List.mem_cons.mp hk with e | e
        · rw [e]
          exact ⟨row, h1⟩
        · exact g2 k e
    · simp at h

theorem filter_eq_range (i : Nat) : ∀ n, i < n →
    (List.range n).filter (fun j => decide (j = i)) = [i] := by
  intro n
  induction n with
  | zero => intro h; omega
  | succ n ih =>
    intro h
    rw [List.range_succ, List.filter_append]
    by_cases hi : i < n
    · rw [ih hi]
      simp [List.filter_cons]
      omega
    · have e : i = n := by omega
      subst e
      have : (List.range i).filter (fun j => decide (j = i)) = [] := by
        rw [List.filter_eq_nil_iff]
        intro j hj
        have := List.mem_range.mp hj
        simp
        omega
      rw [this]
      simp [List.filter_cons]

/-- In the table of all input assignments every assignment matches its own row and no
other. -/
theorem matching_outputs_initial (w : Nat) (F : Nat → truth_row) (i : Nat) (hi : i < 2 ^ w)
    (hF : ∀ j, j < 2 ^ w → (F j).2 = Const.of_int (Int.ofNat j) w) :
    matching_outputs ((List.range (2 ^ w)).map F) (Const.of_int (Int.ofNat i) w)
      = [(F i).1] := by
  unfold matching_outputs
  rw [List.filter_map, List.map_map]
  have hf : (List.range (2 ^ w)).filter
      ((fun row : truth_row => input_matches row.2 (Const.of_int (Int.ofNat i) w)) ∘ F)
      = (List.range (2 ^ w)).filter (fun j => decide (j = i)) := by
    apply List.filter_congr
    intro j hj
    have hj' := List.mem_range.mp hj
    simp only [Function.comp, hF j hj']
    by_cases e : j = i
    · subst e
      simp only [decide_True]
      exact (input_matches_concrete _ _ (of_int_concrete _ w)).mpr rfl
    · simp only [e, decide_False]
      cases hm : input_matches (Const.of_int (Int.ofNat j) w) (Const.of_int (Int.ofNat i) w) with
      | false => rfl
      | true =>
        exact absurd (of_int_inj w j i hj' hi
          ((input_matches_concrete _ _ (of_int_concrete _ w)).mp hm)) e
  rw [hf, filter_eq_range i _ hi]
  rfl

theorem getElem_append_cons_some {α : Type} (pre post : List α) (x : α) :
    (pre ++ x :: post)[pre.length]? = some x := by
  induction pre with
  | nil => simp
  | cons a rest ih => simpa using ih

/-- C26: the minimisation of the truth table preserves the function of the driver.
For the table `truth_tab` the expander fills for a driver with `w` input bits, one row
per input assignment `i < 2 ^ w`: (a) a merge found by the inner loop for a row `i`
among later rows of width `w` erases one later row `j` with the same output whose
input pattern differs from that of row `i` at exactly one position `k`, and sets
position `k` of row `i` to don't-care; (b) the loop `while (merged)` ends: a further
run over the minimised table merges nothing; (c) for every input assignment
`i < 2 ^ w` exactly one row of the minimised table matches the assignment (don't-care
matching both values), and its output is the output the driver has for it. -/
theorem C26_minimisation_preserves (ct : CellTypes) (assign_map : SigMap) (cell : Cell)
    (cell_input cell_output full_output : SigSpec) (truth_tab : List truth_row)
    (htab : truth_table ct assign_map cell cell_input cell_output full_output
      (List.range (2 ^ cell_input.length)) = some truth_tab) :
    (∀ (row_i row : truth_row) (rest rest' : List truth_row),
      row_i.2.length = cell_input.length → (∀ r ∈ rest, r.2.length = cell_input.length) →
      merge_row cell_input.length row_i rest = some (row, rest') →
      ∃ (j k : Nat) (row_j : truth_row), rest[j]? = some row_j ∧ rest' = rest.eraseIdx j ∧
        row_j.1 = row_i.1 ∧ k < cell_input.length ∧ row_i.2[k]? ≠ row_j.2[k]? ∧
        (∀ k', k' ≠ k → row_i.2[k']? = row_j.2[k']?) ∧
        row = (row_i.1, row_i.2.set k State.Sa)) ∧
    truth_tab.length = 2 ^ cell_input.length ∧
    (merge_pass cell_input.length
      (minimize cell_input.length truth_tab.length truth_tab).length
      (minimize cell_input.length truth_tab.length truth_tab)).2 = false ∧
    ∀ i, i < 2 ^ cell_input.length →
      ∃ out, truth_entry ct assign_map cell cell_input cell_output full_output i
          = some (out, Const.of_int (Int.ofNat i) cell_input.length) ∧
        matching_outputs (minimize cell_input.length truth_tab.length truth_tab)
          (Const.of_int (Int.ofNat i) cell_input.length) = [out] := by
  obtain ⟨hmap, hentry⟩ := truth_table_map ct assign_map cell cell_input cell_output
    full_output _ truth_tab htab
  have hF : ∀ j, j < 2 ^ cell_input.length →
      ((truth_entry ct assign_map cell cell_input cell_output full_output j).getD ([], [])).2
        = Const.of_int (Int.ofNat j) cell_input.length := by
    intro j hj
    obtain ⟨row, hrow⟩ := hentry j (List.mem_range.mpr hj)
    rw [hrow]
    exact truth_entry_input ct assign_map cell cell_input cell_output full_output j row hrow
  have hrows : ∀ r ∈ truth_tab, r.2.length = cell_input.length ∧
      ∀ s ∈ r.2, s = State.S0 ∨ s = State.S1 ∨ s = State.Sa := by
    intro r hr
    rw [hmap] at hr
    obtain ⟨j, hj, e⟩ := List.mem_map.mp hr
    rw [← e, hF j (List.mem_range.mp hj)]
    refine ⟨of_int_length _ _, fun s hs => ?_⟩
    rcases of_int_concrete _ _ s hs with h | h
    · exact Or.inl h
    · exact Or.inr (Or.inl h)
  have hsur : ∀ v : Const, (∀ s ∈ v, s = State.S0 ∨ s = State.S1) →
      (matching_outputs truth_tab v).length ≤ 1 := by
    intro v hv
    by_cases hex : ∃ i, i < 2 ^ cell_input.length ∧
        v = Const.of_int (Int.ofNat i) cell_input.length
    · obtain ⟨i, hi, e⟩ := hex
      rw [e, hmap, matching_outputs_initial cell_input.length _ i hi hF]
      simp
    · have : matching_outputs truth_tab v = [] := by
        unfold matching_outputs
        rw [List.map_eq_nil_iff, List.filter_eq_nil_iff]
        intro r hr hm
        apply hex
        rw [hmap] at hr
        obtain ⟨j, hj, e⟩ := List.mem_map.mp hr
        refine ⟨j, List.mem_range.mp hj, ?_⟩
        rw [← e, hF j (List.mem_range.mp hj)] at hm
        exact ((input_matches_concrete _ _ (of_int_concrete _ _)).mp hm).symm
      rw [this]
      simp
  refine ⟨?_, ?_, ?_, ?_⟩
  · intro row_i row rest rest' hi hrest hm
    obtain ⟨r1, row_j, r2, e1, e2, e3, e4, e5⟩ :=
      merge_row_some cell_input.length row_i rest row rest' hm
    have hj : row_j.2.length = cell_input.length := hrest row_j (by rw [e1]; simp)
    obtain ⟨pre, x, y, post, a1, a2, a3, a4⟩ := count_matching_split row_i.2 row_j.2
      (by rw [hi, hj]) (by rw [e4, hi]) 0 0
    refine ⟨r1.length, pre.length, row_j, ?_, ?_, e3.symm, ?_, ?_, ?_, ?_⟩
    · rw [e1]
      exact getElem_append_cons_some r1 r2 row_j
    · rw [e1, e2, List.eraseIdx_append_of_length_le (Nat.le_refl _)]
      simp
    · rw [← hi, a1]
      simp
    · rw [a1, a2, getElem_append_cons_some, getElem_append_cons_some]
      intro e
      exact a3 (Option.some.inj e)
    · intro k' hk
      rw [a1, a2]
      by_cases hlt : k' < pre.length
      · rw [List.getElem?_append_left hlt, List.getElem?_append_left hlt]
      · rw [List.getElem?_append_right (by omega), List.getElem?_append_right (by omega)]
        obtain ⟨m, hm'⟩ : ∃ m, k' - pre.length = m + 1 := ⟨k' - pre.length - 1, by omega⟩
        rw [hm']
        rfl
    · rw [e5, a4, Nat.zero_add]
  · rw [hmap]
    simp
  · exact minimize_ends cell_input.length truth_tab.length truth_tab (Nat.le_refl _)
  · intro i hi
    obtain ⟨row, hrow⟩ := hentry i (List.mem_range.mpr hi)
    have h2 := truth_entry_input ct assign_map cell cell_input cell_output full_output i row hrow
    refine ⟨row.1, ?_, ?_⟩
    · rw [hrow, ← h2]
    · rw [minimize_spec cell_input.length truth_tab.length truth_tab hrows hsur _
        (of_int_concrete _ _)]
      nth_rewrite 1 [hmap]
      rw [matching_outputs_initial cell_input.length _ i hi hF, hrow]
      rfl

set_option maxRecDepth 100000 in
/-- Witness of C26 on `and_driver`: the table of the four input assignments of `b`,
`a` with the outputs 0, 0, 0, 1 is minimised to the rows `a0 -> 0`, `01 -> 0`,
`11 -> 1`, and the assignment `b = 1, a = 0` matches the first of them only. -/
theorem C26_minimisation_preserves_witness :
    truth_table ct_internals id and_driver [SigBit.wire 3 0, SigBit.wire 1 0]
        [SigBit.wire 20 0] [SigBit.wire 20 0] (List.range 4)
      = some [([State.S0], [State.S0, State.S0]), ([State.S0], [State.S1, State.S0]),
          ([State.S0], [State.S0, State.S1]), ([State.S1], [State.S1, State.S1])] ∧
    minimize 2 4 [([State.S0], [State.S0, State.S0]), ([State.S0], [State.S1, State.S0]),
        ([State.S0], [State.S0, State.S1]), ([State.S1], [State.S1, State.S1])]
      = [([State.S0], [State.Sa, State.S0]), ([State.S0], [State.S0, State.S1]),
          ([State.S1], [State.S1, State.S1])] ∧
    ∃ out, truth_entry ct_internals id and_driver [SigBit.wire 3 0, SigBit.wire 1 0]
        [SigBit.wire 20 0] [SigBit.wire 20 0] 1 = some (out, Const.of_int (Int.ofNat 1) 2) ∧
      matching_outputs (minimize 2 4 [([State.S0], [State.S0, State.S0]),
          ([State.S0], [State.S1, State.S0]), ([State.S0], [State.S0, State.S1]),
          ([State.S1], [State.S1, State.S1])]) (Const.of_int (Int.ofNat 1) 2) = [out] :=
  ⟨by decide, by decide,
    (C26_minimisation_preserves ct_internals id and_driver [SigBit.wire 3 0, SigBit.wire 1 0]
      [SigBit.wire 20 0] [SigBit.wire 20 0]
      [([State.S0], [State.S0, State.S0]), ([State.S0], [State.S1, State.S0]),
        ([State.S0], [State.S0, State.S1]), ([State.S1], [State.S1, State.S1])]
      (by decide)).2.2.2 1 (by decide)⟩

/-! ## Live rows through the expansion -/

/-! ## Live rows survive the expansion -/

theorem chunks_has (sig : SigSpec) : ∀ (c : SigChunk) (b : SigBit),
    c ∈ sig.chunks → c.has b = true → b ∈ sig := by
  induction sig with
  | nil =>
    intro c b hc _
    simp [SigSpec.chunks] at hc
  | cons x rest ih =>
    intro c b hc hb
    cases b with
    | const d => simp [SigChunk.has] at hb
    | wire n' o' =>
      simp only [SigChunk.has, Bool.and_eq_true, decide_eq_true_eq] at hb
      cases x with
      | const d =>
        rw [SigSpec.chunks] at hc
        split at hc
        · rename_i c0 cs hcs
          split at hc
          · rcases List.mem_cons.mp hc with e | e
            · rename_i hnone
              rw [e] at hb
              simp only at hb
              rw [hnone] at hb
              exact absurd hb.1 (by simp)
            · exact List.mem_cons_of_mem _ (ih c _ (by rw [hcs]; exact List.mem_cons_of_mem _ e)
                (by simp [SigChunk.has, hb]))
          · rcases List.mem_cons.mp hc with e | e
            · rw [e] at hb
              exact absurd hb.1 (by simp)
            · exact List.mem_cons_of_mem _ (ih c _ (by rw [hcs]; exact e)
                (by simp [SigChunk.has, hb]))
        · rcases List.mem_cons.mp hc with e | e
          · rw [e] at hb
            exact absurd hb.1 (by simp)
          · simp at e
      | wire n o =>
        rw [SigSpec.chunks] at hc
        split at hc
        · rename_i c0 cs hcs
          split at hc
          · rename_i hrun
            rcases List.mem_cons.mp hc with e | e
            · rw [e] at hb
              simp only [Option.some.injEq] at hb
              by_cases ho : o' = o
              · rw [ho, ← hb.1]
                exact List.mem_cons_self _ _
              · apply List.mem_cons_of_mem
                apply ih c0 _ (by rw [hcs]; exact List.mem_cons_self _ _)
                simp only [SigChunk.has, Bool.and_eq_true, decide_eq_true_eq]
                refine ⟨by rw [hrun.1, hb.1], ?_, ?_⟩ <;> omega
            · exact List.mem_cons_of_mem _ (ih c _ (by rw [hcs]; exact List.mem_cons_of_mem _ e)
                (by simp [SigChunk.has, hb]))
          · rcases List.mem_cons.mp hc with e | e
            · rw [e] at hb
              simp only [Option.some.injEq] at hb
              have ho : o' = o := by omega
              rw [ho, ← hb.1]
              exact List.mem_cons_self _ _
            · exact List.mem_cons_of_mem _ (ih c _ (by rw [hcs]; exact e)
                (by simp [SigChunk.has, hb]))
        · rcases List.mem_cons.mp hc with e | e
          · rw [e] at hb
            simp only [Option.some.injEq] at hb
            have ho : o' = o := by omega
            rw [ho, ← hb.1]
            exact List.mem_cons_self _ _
          · simp at e

/-- The bits `sig.extract(pattern)` returns are wire bits of `sig` that are bits of
`pattern`. -/
theorem mem_extract_pattern (sig pattern : SigSpec) (b : SigBit)
    (h : b ∈ sig.extract_pattern pattern) :
    b ∈ sig ∧ b ∈ pattern ∧ b.is_wire = true := by
  unfold SigSpec.extract_pattern at h
  rw [List.mem_flatten] at h
  obtain ⟨l, hl, hb⟩ := h
  obtain ⟨c, hc, e⟩ := List.mem_map.mp hl
  rw [← e] at hb
  obtain ⟨h1, h2⟩ := List.mem_filter.mp hb
  refine ⟨h1, chunks_has pattern c b hc h2, ?_⟩
  cases b with
  | const d => simp [SigChunk.has] at h2
  | wire n o => rfl

/-- The loop that appends the new bits of `sig_s` to `select` leaves `select` as a
prefix, appends bits of `sig_s` only, and keeps a selector of wire bits free of
duplicates. -/
theorem add_select_spec (sig_s : SigSpec) (hw : ∀ b ∈ sig_s, b.is_wire = true) :
    ∀ select : SigSpec, ∃ ext, add_select sig_s select = select ++ ext ∧
      (∀ b ∈ ext, b ∈ sig_s) ∧ (select.Nodup → (select ++ ext).Nodup) := by
  induction sig_s with
  | nil =>
    intro select
    exact ⟨[], by simp [add_select], by simp, by simp⟩
  | cons x rest ih =>
    intro select
    have hwr : ∀ b ∈ rest, b.is_wire = true := fun b hb => hw b (List.mem_cons_of_mem _ hb)
    rw [add_select]
    split
    · rename_i he
      have hx : x ∉ select :=
        (extract_pattern_single select x).mp he (hw x (List.mem_cons_self _ _))
      obtain ⟨ext, e1, e2, e3⟩ := ih hwr (select ++ [x])
      refine ⟨x :: ext, by rw [e1]; simp, ?_, ?_⟩
      · intro b hb
        rcases List.mem_cons.mp hb with e | e
        · rw [e]
          exact List.mem_cons_self _ _
        · exact List.mem_cons_of_mem _ (e2 b e)
      · intro hnd
        have : (select ++ [x] ++ ext).Nodup := by
          apply e3
          rw [List.nodup_append]
          refine ⟨hnd, by simp, ?_⟩
          intro a ha hax
          simp only [List.mem_singleton] at hax
          rw [hax] at ha
          exact hx ha
        simpa using this
    · obtain ⟨ext, e1, e2, e3⟩ := ih hwr select
      exact ⟨ext, e1, fun b hb => List.mem_cons_of_mem _ (e2 b hb), e3⟩

theorem pattern_to_with_none (pattern with_ : SigSpec) (b : SigBit) (h : b ∉ pattern) :
    pattern_to_with pattern with_ b = none := by
  induction pattern generalizing with_ with
  | nil => simp [pattern_to_with]
  | cons p ps ih =>
    cases with_ with
    | nil => simp [pattern_to_with]
    | cons x xs =>
      simp only [pattern_to_with]
      have hne : ¬ p = b := fun e => h (by rw [e]; exact List.mem_cons_self _ _)
      simp only [hne, and_false, if_false]
      exact ih xs (fun hb => h (List.mem_cons_of_mem _ hb))

theorem map_eq_of_zip {α β : Type} (f : α → β) : ∀ (l : List α) (w : List β),
    l.length = w.length → (∀ x ∈ l.zip w, f x.1 = x.2) → l.map f = w := by
  intro l
  induction l with
  | nil =>
    intro w hlen _
    cases w with
    | nil => rfl
    | cons y ys => simp at hlen
  | cons a rest ih =>
    intro w hlen h
    cases w with
    | nil => simp at hlen
    | cons y ys =>
      rw [List.map_cons, h (a, y) (by simp), ih ys (by simpa using hlen)
        (fun x hx => h x (by simp [hx]))]

/-- Replacing the bits of the old selector by a pattern in the new selector: the
pattern stands in the place of the old selector and the appended bits stay. -/
theorem replace_prefix (old ext : SigSpec) (pat : Const) (hnd : old.Nodup)
    (hw : ∀ b ∈ old, b.is_wire = true) (hlen : pat.length = old.length)
    (hext : ∀ b ∈ ext, b ∉ old) :
    (old ++ ext).replace old (SigSpec.of_const pat) = SigSpec.of_const pat ++ ext := by
  unfold SigSpec.replace
  rw [replace_into_self, List.map_append]
  congr 1
  · apply map_eq_of_zip
    · simp [SigSpec.of_const, hlen]
    · intro x hx
      unfold replaced_bit
      have := pattern_to_with_zip old (SigSpec.of_const pat) [] [] x.1 x.2 hnd
        (hw x.1 (List.of_mem_zip hx).1) hx
      simp only [List.append_nil] at this
      rw [this]
  · conv => rhs; rw [← List.map_id ext]
    apply List.map_congr_left
    intro b hb
    unfold replaced_bit
    rw [pattern_to_with_none _ _ _ (hext b hb)]
    rfl

/-- The projection of a pattern over an extended selector onto the selector it
extends is the pattern cut to its width. -/
theorem replace_projection (original ext : SigSpec) (c : Const) (hnd : original.Nodup)
    (hw : ∀ b ∈ original, b.is_wire = true) (hlen : original.length ≤ c.length) :
    original.replace (original ++ ext) (SigSpec.of_const c)
      = SigSpec.of_const (c.take original.length) := by
  unfold SigSpec.replace
  rw [replace_into_self]
  apply map_eq_of_zip
  · simp [SigSpec.of_const]
    omega
  · intro x hx
    unfold replaced_bit
    have hc : SigSpec.of_const c = SigSpec.of_const (c.take original.length)
        ++ SigSpec.of_const (c.drop original.length) := by
      simp [SigSpec.of_const, ← List.map_append]
    rw [hc, pattern_to_with_zip original _ ext _ x.1 x.2 hnd (hw x.1 (List.of_mem_zip hx).1) hx]

theorem forall2_zipWith {α β : Type} (R R' : α → β → Prop) (f : α → β → β)
    (l : List α) (w : List β) (h : List.Forall₂ R l w)
    (hf : ∀ a b, R a b → R' a (f a b)) : List.Forall₂ R' l (List.zipWith f l w) := by
  induction h with
  | nil => exact List.Forall₂.nil
  | cons hab _ ih => exact List.Forall₂.cons (hf _ _ hab) ih

theorem forall2_and {α β : Type} (R S : α → β → Prop) (l : List α) (w : List β)
    (h1 : List.Forall₂ R l w) (h2 : List.Forall₂ S l w) :
    List.Forall₂ (fun a b => R a b ∧ S a b) l w := by
  induction h1 with
  | nil => exact List.Forall₂.nil
  | cons hab _ ih =>
    cases h2 with
    | cons hs ht => exact List.Forall₂.cons ⟨hab, hs⟩ (ih ht)

theorem forall2_imp_mem {α β : Type} (R S : α → β → Prop) (l : List α) (w : List β)
    (h : List.Forall₂ R l w) (hf : ∀ a ∈ l, ∀ b, R a b → S a b) : List.Forall₂ S l w := by
  induction h with
  | nil => exact List.Forall₂.nil
  | cons hab _ ih =>
    exact List.Forall₂.cons (hf _ (List.mem_cons_self _ _) _ hab)
      (ih (fun a ha b hr => hf a (List.mem_cons_of_mem _ ha) b hr))

theorem forall2_map_self {α β : Type} (f : α → β) (l : List α) :
    List.Forall₂ (fun a b => b = f a) l (l.map f) := by
  induction l with
  | nil => exact List.Forall₂.nil
  | cons a rest ih => exact List.Forall₂.cons rfl ih

theorem forall2_eq_map {α β : Type} (f : α → β) (l : List α) (w : List β)
    (h : List.Forall₂ (fun a b => b = f a) l w) : w = l.map f := by
  induction h with
  | nil => rfl
  | cons hab _ ih => rw [List.map_cons, hab, ih]

/-- One write of the loop that unifies the inputs: the position of the bit receives the
value, every other position stays. -/
theorem replace_into_single (select new_select : SigSpec) (bit : SigBit) (v : State) :
    select.replace_into [bit] [SigBit.const v] new_select
      = List.zipWith (fun b o => if bit.is_wire = true ∧ bit = b then SigBit.const v else o)
          select new_select := by
  unfold SigSpec.replace_into
  congr 1
  funext b o
  simp only [pattern_to_with]
  by_cases h : bit.is_wire = true ∧ bit = b
  · rw [if_pos h, if_pos h]
  · rw [if_neg h, if_neg h]

/-- The loop that unifies the inputs writes at positions of input bits only. -/
theorem unify_inputs_frame (select cell_input : SigSpec) (f : SigBit → SigBit) :
    ∀ (bits : SigSpec) (ts ss : Const) (r : SigSpec × Bool),
      (∀ b ∈ bits, b ∈ cell_input) →
      List.Forall₂ (fun b o => b ∉ cell_input → o = f b) select r.1 →
      List.Forall₂ (fun b o => b ∉ cell_input → o = f b) select
        (unify_inputs select bits ts ss r).1 := by
  intro bits
  induction bits with
  | nil =>
    intro ts ss r _ h
    simpa [unify_inputs] using h
  | cons bit rest ih =>
    intro ts ss r hsub h
    obtain ⟨ns, m⟩ := r
    have hrest : ∀ b ∈ rest, b ∈ cell_input := fun b hb => hsub b (List.mem_cons_of_mem _ hb)
    have hbit : bit ∈ cell_input := hsub bit (List.mem_cons_self _ _)
    have hstep : ∀ v, List.Forall₂ (fun b o => b ∉ cell_input → o = f b) select
        (select.replace_into [bit] [SigBit.const v] ns) := by
      intro v
      rw [replace_into_single]
      apply forall2_zipWith _ _ _ _ _ h
      intro b o hbo hb
      have hne : ¬ (bit.is_wire = true ∧ bit = b) := fun e => hb (by rw [← e.2]; exact hbit)
      rw [if_neg hne]
      exact hbo hb
    cases ts with
    | nil => simpa [unify_inputs] using h
    | cons t ts =>
      cases ss with
      | nil => simpa [unify_inputs] using h
      | cons s ss =>
        rw [unify_inputs]
        split
        · exact ih ts ss _ hrest (hstep s)
        · split
          · exact ih ts ss _ hrest (hstep t)
          · split
            · exact ih ts ss _ hrest (hstep s)
            · exact ih ts ss _ hrest h

/-- For a truth-table row and a row of the table that both fit the assignment `σ`, the
loop that unifies the inputs keeps the flag `matching` and leaves a fitting constant at
the position of every input bit. -/
theorem unify_inputs_fits (σ : Nat → Nat → Bool) (select : SigSpec) :
    ∀ (bits : SigSpec) (ts ss : Const) (ns : SigSpec) (m : Bool) (done : SigBit → Prop),
      ts.length = bits.length → ss.length = bits.length →
      (∀ b ∈ bits, b.is_wire = true) →
      (∀ x ∈ bits.zip ts, fits σ x.1 x.2) → (∀ x ∈ bits.zip ss, fits σ x.1 x.2) →
      List.Forall₂ (fun b o => done b → ∃ v, o = SigBit.const v ∧ fits σ b v) select ns →
      (unify_inputs select bits ts ss (ns, m)).2 = m ∧
      List.Forall₂ (fun b o => (done b ∨ b ∈ bits) → ∃ v, o = SigBit.const v ∧ fits σ b v)
        select (unify_inputs select bits ts ss (ns, m)).1 := by
  intro bits
  induction bits with
  | nil =>
    intro ts ss ns m done _ _ _ _ _ h
    refine ⟨by simp [unify_inputs], ?_⟩
    simp only [unify_inputs]
    exact forall2_imp_mem _ _ _ _ h (fun a _ b hr hd => by
      rcases hd with hd | hd
      · exact hr hd
      · simp at hd)
  | cons bit rest ih =>
    intro ts ss ns m done hts hss hw ht hs h
    cases ts with
    | nil => simp at hts
    | cons t ts =>
      cases ss with
      | nil => simp at hss
      | cons s ss =>
        have hbw : bit.is_wire = true := hw bit (List.mem_cons_self _ _)
        have hft : fits σ bit t := ht (bit, t) (by simp)
        have hfs : fits σ bit s := hs (bit, s) (by simp)
        have hstep : ∀ v, fits σ bit v →
            List.Forall₂ (fun b o => (done b ∨ b = bit) → ∃ v, o = SigBit.const v ∧ fits σ b v)
              select (select.replace_into [bit] [SigBit.const v] ns) := by
          intro v hv
          rw [replace_into_single]
          apply forall2_zipWith _ _ _ _ _ h
          intro b o hbo hd
          by_cases hb : bit = b
          · rw [if_pos ⟨hbw, hb⟩]
            exact ⟨v, rfl, by rw [← hb]; exact hv⟩
          · rw [if_neg (fun e => hb e.2)]
            rcases hd with hd | hd
            · exact hbo hd
            · exact absurd hd.symm hb
        have hnext : ∀ ns', List.Forall₂
            (fun b o => (done b ∨ b = bit) → ∃ v, o = SigBit.const v ∧ fits σ b v) select ns' →
            (unify_inputs select rest ts ss (ns', m)).2 = m ∧
            List.Forall₂ (fun b o => (done b ∨ b ∈ bit :: rest) →
              ∃ v, o = SigBit.const v ∧ fits σ b v) select
              (unify_inputs select rest ts ss (ns', m)).1 := by
          intro ns' h'
          obtain ⟨i1, i2⟩ := ih ts ss ns' m (fun b => done b ∨ b = bit) (by simpa using hts)
            (by simpa using hss) (fun b hb => hw b (List.mem_cons_of_mem _ hb))
            (fun x hx => ht x (by simp [hx])) (fun x hx => hs x (by simp [hx])) h'
          refine ⟨i1, forall2_imp_mem _ _ _ _ i2 (fun a _ b hr hd => hr ?_)⟩
          rcases hd with hd | hd
          · exact Or.inl (Or.inl hd)
          · rcases List.mem_cons.mp hd with e | e
            · exact Or.inl (Or.inr e)
            · exact Or.inr e
        rw [unify_inputs]
        split
        · exact hnext _ (hstep s hfs)
        · split
          · exact hnext _ (hstep t hft)
          · split
            · exact hnext _ (hstep s hfs)
            · rename_i h1 h2 h3
              exfalso
              obtain ⟨ht1, ht2⟩ := hft
              obtain ⟨hs1, hs2⟩ := hfs
              rcases ht1 with e | e | e <;> rcases hs1 with e' | e' | e' <;>
                subst e <;> subst e' <;>
                first
                | exact h1 rfl
                | exact h2 rfl
                | exact h3 rfl
                | (simp only [trit_matches, decide_eq_true_eq] at ht2 hs2
                   rw [ht2] at hs2
                   simp at hs2)

theorem fits_unique (σ : Nat → Nat → Bool) (b : SigBit) (t s : State)
    (ht : fits σ b t) (hs : fits σ b s) : t = State.Sa ∨ s = State.Sa ∨ t = s := by
  obtain ⟨ht1, ht2⟩ := ht
  obtain ⟨hs1, hs2⟩ := hs
  rcases ht1 with e | e | e <;> rcases hs1 with e' | e' | e' <;> subst e <;> subst e' <;>
    first
    | exact Or.inl rfl
    | exact Or.inr (Or.inl rfl)
    | exact Or.inr (Or.inr rfl)
    | (simp only [trit_matches, decide_eq_true_eq] at ht2 hs2
       rw [ht2] at hs2
       simp at hs2)

theorem fits_dont_care (σ : Nat → Nat → Bool) (b : SigBit) : fits σ b State.Sa :=
  ⟨Or.inr (Or.inr rfl), rfl⟩

theorem forall2_fits_of_matches (σ : Nat → Nat → Bool) (sig : SigSpec) (c : Const)
    (hlen : c.length = sig.length)
    (htr : ∀ s ∈ c, s = State.S0 ∨ s = State.S1 ∨ s = State.Sa)
    (hm : pattern_matches σ sig c = true) : List.Forall₂ (fits σ) sig c := by
  rw [List.forall₂_iff_zip]
  refine ⟨hlen.symm, ?_⟩
  intro a b hab
  exact ⟨htr b (List.of_mem_zip hab).2, (pattern_matches_iff σ sig c).mp hm (a, b) hab⟩

theorem matches_of_forall2_fits (σ : Nat → Nat → Bool) (sig : SigSpec) (c : Const)
    (h : List.Forall₂ (fits σ) sig c) :
    pattern_matches σ sig c = true ∧ c.length = sig.length ∧
      ∀ s ∈ c, s = State.S0 ∨ s = State.S1 ∨ s = State.Sa := by
  induction h with
  | nil => exact ⟨rfl, rfl, by simp⟩
  | cons hab _ ih =>
    obtain ⟨i1, i2, i3⟩ := ih
    refine ⟨by simp [pattern_matches, hab.2, i1], by simp [i2], ?_⟩
    intro s hs
    rcases List.mem_cons.mp hs with e | e
    · rw [e]
      exact hab.1
    · exact i3 s e

/-- Where a row fits the assignment, `replace` puts a fitting constant for every bit of
the selector. -/
theorem replaced_bit_fits (σ : Nat → Nat → Bool) (old : SigSpec) (pat : Const)
    (hnd : old.Nodup) (hw : ∀ b ∈ old, b.is_wire = true)
    (hf : List.Forall₂ (fits σ) old pat) :
    ∀ b ∈ old, ∃ v, replaced_bit old (SigSpec.of_const pat) b = SigBit.const v ∧ fits σ b v := by
  intro b hb
  obtain ⟨hlen, hzip⟩ := List.forall₂_iff_zip.mp hf
  obtain ⟨d, hd⟩ := exists_zip_of_mem old pat b hlen.symm hb
  have hz : (b, SigBit.const d) ∈ old.zip (SigSpec.of_const pat) := by
    simp only [SigSpec.of_const, List.zip_map_right, List.mem_map, Prod.map_apply, id_eq]
    exact ⟨(b, d), hd, rfl⟩
  have := pattern_to_with_zip old (SigSpec.of_const pat) [] [] b (SigBit.const d) hnd
    (hw b hb) hz
  simp only [List.append_nil] at this
  exact ⟨d, by simp [replaced_bit, this], hzip hd⟩

theorem as_const_eq : ∀ (sig : SigSpec) (c : Const), sig.as_const = some c →
    sig = SigSpec.of_const c := by
  intro sig
  induction sig with
  | nil =>
    intro c h
    simp only [SigSpec.as_const, Option.some.injEq] at h
    subst h
    rfl
  | cons b rest ih =>
    intro c h
    cases b with
    | wire n o => simp [SigSpec.as_const] at h
    | const d =>
      simp only [SigSpec.as_const] at h
      split at h
      · rename_i c' hc'
        simp only [Option.some.injEq] at h
        subst h
        rw [ih c' hc']
        rfl
      · simp at h

theorem as_const_forall2 (P : SigBit → State → Prop) (l ns : SigSpec)
    (h : List.Forall₂ (fun b o => ∃ v, o = SigBit.const v ∧ P b v) l ns) :
    ∀ c, ns.as_const = some c → List.Forall₂ P l c := by
  induction h with
  | nil =>
    intro c hc
    simp only [SigSpec.as_const, Option.some.injEq] at hc
    subst hc
    exact List.Forall₂.nil
  | cons hab _ ih =>
    intro c hc
    obtain ⟨v, e, hp⟩ := hab
    subst e
    simp only [SigSpec.as_const] at hc
    split at hc
    · rename_i c' hc'
      simp only [Option.some.injEq] at hc
      subst hc
      exact List.Forall₂.cons hp (ih c' hc')
    · simp at hc

/-- The constant `selection_output` of a row that fits the assignment fits the selector
outputs of the driver. -/
theorem selection_output_fits (σ : Nat → Nat → Bool) (old cell_output : SigSpec)
    (pat so : Const) (hnd : old.Nodup) (hw : ∀ b ∈ old, b.is_wire = true)
    (hf : List.Forall₂ (fits σ) old pat) (hco : ∀ b ∈ cell_output, b ∈ old)
    (h : (cell_output.replace_into old (SigSpec.of_const pat) cell_output).as_const = some so) :
    List.Forall₂ (fits σ) cell_output so := by
  rw [replace_into_self] at h
  refine as_const_forall2 _ _ _ ?_ so h
  refine forall2_imp_mem _ _ _ _ (forall2_map_self _ cell_output) ?_
  intro a ha b e
  obtain ⟨v, hv, hfit⟩ := replaced_bit_fits σ old pat hnd hw hf a (hco a ha)
  exact ⟨v, by rw [e, hv], hfit⟩

theorem outputs_compatible_fits (σ : Nat → Nat → Bool) :
    ∀ (cell_output : SigSpec) (t s : Const), List.Forall₂ (fits σ) cell_output t →
      List.Forall₂ (fits σ) cell_output s → outputs_compatible t s = true := by
  intro cell_output
  induction cell_output with
  | nil =>
    intro t s ht _
    cases ht
    rfl
  | cons b rest ih =>
    intro t s ht hs
    cases ht with
    | cons ht1 ht2 =>
      cases hs with
      | cons hs1 hs2 =>
        rw [outputs_compatible]
        have := fits_unique σ b _ _ ht1 hs1
        rw [if_neg (by
          rintro ⟨h1, h2, h3⟩
          rcases this with e | e | e
          · exact h1 e
          · exact h2 e
          · exact h3 e)]
        exact ih _ _ ht2 hs2

/-- The constant `selection_input` of a row that fits the assignment fits the inputs of
the driver. -/
theorem selection_input_fits (σ : Nat → Nat → Bool) (old cell_input : SigSpec)
    (e : selection_t) (hnd : old.Nodup) (hw : ∀ b ∈ old, b.is_wire = true)
    (hciw : ∀ b ∈ cell_input, b.is_wire = true)
    (hf : List.Forall₂ (fits σ) old e.select) :
    List.Forall₂ (fits σ) cell_input (selection_input cell_input old e) := by
  unfold selection_input
  rw [replace_into_self, List.map_map]
  refine forall2_imp_mem _ _ _ _ (forall2_map_self _ cell_input) ?_
  intro a ha b hb
  rw [hb]
  simp only [Function.comp]
  by_cases hmem : a ∈ old
  · obtain ⟨v, hv, hfit⟩ := replaced_bit_fits σ old e.select hnd hw hf a hmem
    rw [hv]
    exact hfit
  · have hn := pattern_to_with_none old (SigSpec.of_const e.select) a hmem
    have : replaced_bit old (SigSpec.of_const e.select) a = a := by simp [replaced_bit, hn]
    rw [this]
    have hwa := hciw a ha
    cases a with
    | wire n o => exact fits_dont_care σ _
    | const d => simp [SigBit.is_wire] at hwa

/-- The loop over the truth-table rows inserts, for a truth-table row that fits the
assignment, a product that fits it and leaves the positions outside the inputs of the
driver as the row had them. -/
theorem product_rows_live (σ : Nat → Nat → Bool) (sel cell_input : SigSpec) (so si : Const)
    (e : selection_t) (f : SigBit → SigBit)
    (hciw : ∀ b ∈ cell_input, b.is_wire = true)
    (hsi : List.Forall₂ (fits σ) cell_input si)
    (hf : ∀ b ∈ sel, b ∉ cell_input → ∃ v, f b = SigBit.const v ∧ fits σ b v)
    (t : truth_row) (ht1 : outputs_compatible t.1 so = true)
    (ht2 : List.Forall₂ (fits σ) cell_input t.2) :
    ∀ (truth_tab : List truth_row) (ns : SigSpec) (rows : List selection_t), t ∈ truth_tab →
      List.Forall₂ (fun b o => b ∉ cell_input → o = f b) sel ns →
      product_rows sel cell_input so si e truth_tab ns = some rows →
      ∃ c ns', (⟨c, e.output, e.buggy⟩ : selection_t) ∈ rows ∧ SigSpec.as_const ns' = some c ∧
        List.Forall₂ (fun b o => ∃ v, o = SigBit.const v ∧ fits σ b v) sel ns' ∧
        List.Forall₂ (fun b o => b ∉ cell_input → o = f b) sel ns' := by
  intro truth_tab
  induction truth_tab with
  | nil =>
    intro ns rows ht _ _
    simp at ht
  | cons row rest ih =>
    intro ns rows ht hns h
    have hframe := unify_inputs_frame sel cell_input f cell_input row.2 si (ns, true)
      (fun b hb => hb) hns
    have hhere : row = t →
        (unify_inputs sel cell_input row.2 si (ns, true)).2 = true ∧
        List.Forall₂ (fun b o => ∃ v, o = SigBit.const v ∧ fits σ b v) sel
          (unify_inputs sel cell_input row.2 si (ns, true)).1 := by
      intro e1
      subst e1
      obtain ⟨l1, z1⟩ := List.forall₂_iff_zip.mp ht2
      obtain ⟨l2, z2⟩ := List.forall₂_iff_zip.mp hsi
      have hlen : ns.length = sel.length := (List.Forall₂.length_eq hns).symm
      have h0 : List.Forall₂ (fun b o => False → ∃ v, o = SigBit.const v ∧ fits σ b v)
          sel ns := forall2_imp_mem _ _ _ _ hns (fun _ _ _ _ hfalse => hfalse.elim)
      obtain ⟨u1, u2⟩ := unify_inputs_fits σ sel cell_input row.2 si ns true (fun _ => False)
        l1.symm l2.symm hciw (fun x hx => z1 hx) (fun x hx => z2 hx) h0
      refine ⟨u1, ?_⟩
      refine forall2_imp_mem _ _ _ _ (forall2_and _ _ _ _ u2 hframe) ?_
      intro a ha b hab
      by_cases hc : a ∈ cell_input
      · exact hab.1 (Or.inr hc)
      · obtain ⟨v, hv, hfit⟩ := hf a ha hc
        exact ⟨v, by rw [hab.2 hc, hv], hfit⟩
    rw [product_rows] at h
    split at h
    · rename_i hcomp
      have hne : t ≠ row := by
        intro e1
        subst e1
        exact hcomp ht1
      have hin : t ∈ rest := by
        rcases List.mem_cons.mp ht with e1 | e1
        · exact absurd e1 hne
        · exact e1
      exact ih ns rows hin hns h
    · simp only at h
      split at h
      · rename_i hm
        have hne : t ≠ row := by
          intro e1
          exact hm (hhere e1.symm).1
        have hin : t ∈ rest := by
          rcases List.mem_cons.mp ht with e1 | e1
          · exact absurd e1 hne
          · exact e1
        exact ih _ rows hin hframe h
      · split at h
        · rename_i c rows' hc hrows'
          simp only [Option.some.injEq] at h
          subst h
          by_cases e1 : row = t
          · exact ⟨c, _, List.mem_cons_self _ _, hc, (hhere e1).2, hframe⟩
          · have hin : t ∈ rest := by
              rcases List.mem_cons.mp ht with e2 | e2
              · exact absurd e2.symm e1
              · exact e2
            obtain ⟨c', ns', m1, m2, m3, m4⟩ := ih _ rows' hin hframe hrows'
            exact ⟨c', ns', List.mem_cons_of_mem _ m1, m2, m3, m4⟩
        · simp at h

/-- What a product that keeps the positions of the original selector bits and fits the
assignment amounts to. -/
theorem product_finish (σ : Nat → Nat → Bool) (S ext0 rest : SigSpec) (pat c : Const)
    (ns : SigSpec) (hnd : (S ++ ext0).Nodup) (hw : ∀ b ∈ S ++ ext0, b.is_wire = true)
    (hlen : pat.length = (S ++ ext0).length)
    (h1 : List.Forall₂ (fun b o => ∃ v, o = SigBit.const v ∧ fits σ b v) (S ++ ext0 ++ rest) ns)
    (h2 : List.Forall₂ (fun b o => b ∈ S →
      o = replaced_bit (S ++ ext0) (SigSpec.of_const pat) b) (S ++ ext0 ++ rest) ns)
    (hc : ns.as_const = some c) :
    List.Forall₂ (fits σ) (S ++ ext0 ++ rest) c ∧ c.take S.length = pat.take S.length := by
  refine ⟨as_const_forall2 _ _ _ h1 c hc, ?_⟩
  have hns := as_const_eq ns c hc
  have ht := List.forall₂_take S.length h2
  rw [List.append_assoc, List.take_left'  rfl] at ht
  have hmap := forall2_eq_map _ _ _ (forall2_imp_mem _ _ _ _ ht (fun a ha b hab => hab ha))
  have hproj := replace_projection S ext0 pat (List.Nodup.of_append_left hnd)
    (fun b hb => hw b (List.mem_append_left _ hb)) (by rw [hlen]; simp)
  unfold SigSpec.replace at hproj
  rw [replace_into_self] at hproj
  rw [hproj, hns] at hmap
  have e : SigSpec.of_const (c.take S.length) = SigSpec.of_const (pat.take S.length) := by
    rw [← hmap]
    simp [SigSpec.of_const, List.map_take]
  unfold SigSpec.of_const at e
  exact List.map_injective_iff.mpr (fun a b hab => by injection hab) e

/-- The body of the loop over the rows: a row that fits the assignment has, for a
truth-table row that fits it, a product that fits it and agrees with the row on the
original selector bits. -/
theorem expand_row_live (σ : Nat → Nat → Bool) (S ext0 ext cell_input cell_output : SigSpec)
    (truth_tab : List truth_row) (e : selection_t) (rows : List selection_t)
    (hnd : (S ++ ext0 ++ ext).Nodup) (hw : ∀ b ∈ S ++ ext0, b.is_wire = true)
    (hciw : ∀ b ∈ cell_input, b.is_wire = true) (hext : ∀ b ∈ ext, b ∈ cell_input)
    (hout : ∀ b ∈ cell_input, b ∉ S) (hco : ∀ b ∈ cell_output, b ∈ S ++ ext0)
    (hfe : List.Forall₂ (fits σ) (S ++ ext0) e.select)
    (t : truth_row) (ht : t ∈ truth_tab) (ht1 : List.Forall₂ (fits σ) cell_output t.1)
    (ht2 : List.Forall₂ (fits σ) cell_input t.2)
    (h : expand_row (S ++ ext0) (S ++ ext0 ++ ext) cell_input cell_output truth_tab e
      = some rows) :
    ∃ e' ∈ rows, List.Forall₂ (fits σ) (S ++ ext0 ++ ext) e'.select ∧
      e'.select.take S.length = e.select.take S.length := by
  have hnd0 : (S ++ ext0).Nodup := List.Nodup.of_append_left hnd
  have hN0 := replaced_bit_fits σ (S ++ ext0) e.select hnd0 hw hfe
  have hlen : e.select.length = (S ++ ext0).length := (List.Forall₂.length_eq hfe).symm
  have hold : ∀ b ∈ S ++ ext0 ++ ext, b ∉ cell_input → b ∈ S ++ ext0 := by
    intro b hb hc
    rcases List.mem_append.mp hb with h1 | h1
    · exact h1
    · exact absurd (hext b h1) hc
  unfold expand_row at h
  split at h
  · simp at h
  · rename_i so hso
    have hsofit := selection_output_fits σ (S ++ ext0) cell_output e.select so hnd0 hw hfe
      hco hso
    simp only at h
    split at h
    · unfold SigSpec.replace at h
      rw [replace_into_self, replace_into_self, List.map_map] at h
      split at h
      · rename_i c hc
        simp only [Option.some.injEq] at h
        subst h
        refine ⟨_, List.mem_cons_self _ _, ?_⟩
        have hkeep : ∀ b ∈ S ++ ext0,
            replaced_bit cell_input
              (SigSpec.of_const (Const.of_state State.Sa cell_input.length))
              (replaced_bit (S ++ ext0) (SigSpec.of_const e.select) b)
            = replaced_bit (S ++ ext0) (SigSpec.of_const e.select) b := by
          intro b hb
          obtain ⟨v, hv, _⟩ := hN0 b hb
          rw [hv]
          simp [replaced_bit, pattern_to_with_const]
        have hm := forall2_map_self
          (replaced_bit cell_input
              (SigSpec.of_const (Const.of_state State.Sa cell_input.length)) ∘
            replaced_bit (S ++ ext0) (SigSpec.of_const e.select)) (S ++ ext0 ++ ext)
        refine product_finish σ S ext0 ext e.select c _ hnd0 hw hlen ?_ ?_ hc
        · refine forall2_imp_mem _ _ _ _ hm ?_
          intro a ha b hb
          rw [hb]
          simp only [Function.comp]
          by_cases hmem : a ∈ S ++ ext0
          · rw [hkeep a hmem]
            exact hN0 a hmem
          · have haext : a ∈ ext := by
              rcases List.mem_append.mp ha with h1 | h1
              · exact absurd h1 hmem
              · exact h1
            have hn := pattern_to_with_none (S ++ ext0) (SigSpec.of_const e.select) a hmem
            have e0 : replaced_bit (S ++ ext0) (SigSpec.of_const e.select) a = a := by
              simp [replaced_bit, hn]
            rw [e0]
            obtain ⟨w, hw1, hw2⟩ := pattern_to_with_some cell_input
              (SigSpec.of_const (Const.of_state State.Sa cell_input.length)) a
              (by simp [SigSpec.of_const, Const.of_state]) (hext a haext)
              (hciw a (hext a haext))
            have hwa : w = SigBit.const State.Sa := by
              simp only [SigSpec.of_const, Const.of_state, List.map_replicate] at hw1
              exact (List.mem_replicate.mp hw1).2
            exact ⟨State.Sa, by simp [replaced_bit, hw2, hwa], fits_dont_care σ a⟩
        · refine forall2_imp_mem _ _ _ _ hm ?_
          intro a _ b hb haS
          rw [hb]
          exact hkeep a (List.mem_append_left _ haS)
      · simp at h
    · have hns : List.Forall₂ (fun b o => b ∉ cell_input →
          o = replaced_bit (S ++ ext0) (SigSpec.of_const e.select) b) (S ++ ext0 ++ ext)
          ((S ++ ext0 ++ ext).replace (S ++ ext0) (SigSpec.of_const e.select)) := by
        unfold SigSpec.replace
        rw [replace_into_self]
        exact forall2_imp_mem _ _ _ _ (forall2_map_self _ _) (fun _ _ _ hb _ => hb)
      obtain ⟨c, ns', m1, m2, m3, m4⟩ := product_rows_live σ (S ++ ext0 ++ ext) cell_input so
        (selection_input cell_input (S ++ ext0) e) e
        (replaced_bit (S ++ ext0) (SigSpec.of_const e.select)) hciw
        (selection_input_fits σ (S ++ ext0) cell_input e hnd0 hw hciw hfe)
        (fun b hb hc => hN0 b (hold b hb hc)) t
        (outputs_compatible_fits σ cell_output t.1 so ht1 hsofit) ht2 truth_tab _ rows ht hns h
      refine ⟨_, m1, ?_⟩
      exact product_finish σ S ext0 ext e.select c ns' hnd0 hw hlen m3
        (forall2_imp_mem _ _ _ _ m4 (fun a _ b hab haS =>
          hab (fun hc => hout a hc haS))) m2

/-- The loop over the rows, for one row of the table. -/
theorem expand_rows_live (σ : Nat → Nat → Bool) (S ext0 ext cell_input cell_output : SigSpec)
    (truth_tab : List truth_row) (e : selection_t)
    (hnd : (S ++ ext0 ++ ext).Nodup) (hw : ∀ b ∈ S ++ ext0, b.is_wire = true)
    (hciw : ∀ b ∈ cell_input, b.is_wire = true) (hext : ∀ b ∈ ext, b ∈ cell_input)
    (hout : ∀ b ∈ cell_input, b ∉ S) (hco : ∀ b ∈ cell_output, b ∈ S ++ ext0)
    (hfe : List.Forall₂ (fits σ) (S ++ ext0) e.select)
    (t : truth_row) (ht : t ∈ truth_tab) (ht1 : List.Forall₂ (fits σ) cell_output t.1)
    (ht2 : List.Forall₂ (fits σ) cell_input t.2) :
    ∀ (selections rows : List selection_t), e ∈ selections →
      expand_rows (S ++ ext0) (S ++ ext0 ++ ext) cell_input cell_output truth_tab selections
        = some rows →
      ∃ e' ∈ rows, List.Forall₂ (fits σ) (S ++ ext0 ++ ext) e'.select ∧
        e'.select.take S.length = e.select.take S.length := by
  intro selections
  induction selections with
  | nil =>
    intro rows he _
    simp at he
  | cons s rest ih =>
    intro rows he h
    rw [expand_rows] at h
    split at h
    · rename_i r1 more h1 h2
      simp only [Option.some.injEq] at h
      subst h
      rcases List.mem_cons.mp he with e1 | e1
      · subst e1
        obtain ⟨e', m1, m2⟩ := expand_row_live σ S ext0 ext cell_input cell_output truth_tab e
          r1 hnd hw hciw hext hout hco hfe t ht ht1 ht2 h1
        exact ⟨e', List.mem_append_left _ m1, m2⟩
      · obtain ⟨e', m1, m2⟩ := ih more e1 h2
        exact ⟨e', List.mem_append_right _ m1, m2⟩
    · simp at h

theorem const_index_lt : ∀ c : Const, const_index c < 2 ^ c.length := by
  intro c
  induction c with
  | nil => simp [const_index]
  | cons b rest ih =>
    simp only [const_index, List.length_cons, pow_succ]
    split <;> omega

/-- The minimised truth table holds, for every input assignment, a row that matches it
and holds the output of the driver for it. -/
theorem minimized_row (ct : CellTypes) (assign_map : SigMap) (cell : Cell)
    (cell_input cell_output full_output : SigSpec) (truth_tab : List truth_row)
    (htab : truth_table ct assign_map cell cell_input cell_output full_output
      (List.range (2 ^ cell_input.length)) = some truth_tab)
    (i : Nat) (hi : i < 2 ^ cell_input.length) :
    ∃ out, truth_entry ct assign_map cell cell_input cell_output full_output i
        = some (out, Const.of_int (Int.ofNat i) cell_input.length) ∧
      ∃ t ∈ minimize cell_input.length truth_tab.length truth_tab, t.1 = out ∧
        input_matches t.2 (Const.of_int (Int.ofNat i) cell_input.length) = true := by
  obtain ⟨hmap, hentry⟩ := truth_table_map ct assign_map cell cell_input cell_output
    full_output _ truth_tab htab
  have hF : ∀ j, j < 2 ^ cell_input.length →
      ((truth_entry ct assign_map cell cell_input cell_output full_output j).getD ([], [])).2
        = Const.of_int (Int.ofNat j) cell_input.length := by
    intro j hj
    obtain ⟨row, hrow⟩ := hentry j (List.mem_range.mpr hj)
    rw [hrow]
    exact truth_entry_input ct assign_map cell cell_input cell_output full_output j row hrow
  have hrows : ∀ r ∈ truth_tab, r.2.length = cell_input.length ∧
      ∀ s ∈ r.2, s = State.S0 ∨ s = State.S1 ∨ s = State.Sa := by
    intro r hr
    rw [hmap] at hr
    obtain ⟨j, hj, e⟩ := List.mem_map.mp hr
    rw [← e, hF j (List.mem_range.mp hj)]
    refine ⟨of_int_length _ _, fun s hs => ?_⟩
    rcases of_int_concrete _ _ s hs with h | h
    · exact Or.inl h
    · exact Or.inr (Or.inl h)
  have hsur : ∀ v : Const, (∀ s ∈ v, s = State.S0 ∨ s = State.S1) →
      (matching_outputs truth_tab v).length ≤ 1 := by
    intro v hv
    by_cases hex : ∃ i, i < 2 ^ cell_input.length ∧
        v = Const.of_int (Int.ofNat i) cell_input.length
    · obtain ⟨i, hi, e⟩ := hex
      rw [e, hmap, matching_outputs_initial cell_input.length _ i hi hF]
      simp
    · have : matching_outputs truth_tab v = [] := by
        unfold matching_outputs
        rw [List.map_eq_nil_iff, List.filter_eq_nil_iff]
        intro r hr hm
        apply hex
        rw [hmap] at hr
        obtain ⟨j, hj, e⟩ := List.mem_map.mp hr
        refine ⟨j, List.mem_range.mp hj, ?_⟩
        rw [← e, hF j (List.mem_range.mp hj)] at hm
        exact ((input_matches_concrete _ _ (of_int_concrete _ _)).mp hm).symm
      rw [this]
      simp
  obtain ⟨row, hrow⟩ := hentry i (List.mem_range.mpr hi)
  have h2 := truth_entry_input ct assign_map cell cell_input cell_output full_output i row hrow
  refine ⟨row.1, by rw [hrow, ← h2], ?_⟩
  have hm : matching_outputs (minimize cell_input.length truth_tab.length truth_tab)
      (Const.of_int (Int.ofNat i) cell_input.length) = [row.1] := by
    rw [minimize_spec cell_input.length truth_tab.length truth_tab hrows hsur _
      (of_int_concrete _ _)]
    nth_rewrite 1 [hmap]
    rw [matching_outputs_initial cell_input.length _ i hi hF, hrow]
    rfl
  unfold matching_outputs at hm
  have hmem : row.1 ∈ ((minimize cell_input.length truth_tab.length truth_tab).filter
      (fun r => input_matches r.2 (Const.of_int (Int.ofNat i) cell_input.length))).map
      (fun r => r.1) := by
    rw [hm]
    exact List.mem_cons_self _ _
  obtain ⟨t, ht, e⟩ := List.mem_map.mp hmem
  obtain ⟨t1, t2⟩ := List.mem_filter.mp ht
  exact ⟨t, t1, e, t2⟩

theorem sig_const_fits (σ : Nat → Nat → Bool) :
    ∀ sig : SigSpec, (∀ b ∈ sig, b.is_wire = true) →
      List.Forall₂ (fits σ) sig (sig_const σ sig) := by
  intro sig
  induction sig with
  | nil =>
    intro _
    exact List.Forall₂.nil
  | cons b rest ih =>
    intro hw
    have hb := hw b (List.mem_cons_self _ _)
    refine List.Forall₂.cons ?_ (ih (fun x hx => hw x (List.mem_cons_of_mem _ hx)))
    cases b with
    | const d => simp [SigBit.is_wire] at hb
    | wire n o =>
      by_cases hσ : σ n o = true
      · simp only [hσ, if_true]
        exact ⟨Or.inr (Or.inl rfl), by simp [trit_matches, bit_value, hσ]⟩
      · simp only [hσ]
        exact ⟨Or.inl rfl, by simp [trit_matches, bit_value, hσ]⟩

theorem input_matches_fits (σ : Nat → Nat → Bool) :
    ∀ (sig : SigSpec) (p : Const), (∀ b ∈ sig, b.is_wire = true) →
      input_matches p (sig_const σ sig) = true → List.Forall₂ (fits σ) sig p := by
  intro sig
  induction sig with
  | nil =>
    intro p _ h
    cases p with
    | nil => exact List.Forall₂.nil
    | cons x xs => simp [sig_const, input_matches] at h
  | cons b rest ih =>
    intro p hw h
    cases p with
    | nil => simp [sig_const, input_matches] at h
    | cons x xs =>
      have hb := hw b (List.mem_cons_self _ _)
      have hfb := sig_const_fits σ [b] (fun y hy => by
        rw [List.mem_singleton.mp hy]; exact hb)
      cases hfb with
      | cons hfb1 _ =>
        simp only [sig_const, List.map_cons, input_matches, Bool.and_eq_true,
          decide_eq_true_eq] at h
        refine List.Forall₂.cons ?_ (ih xs (fun y hy => hw y (List.mem_cons_of_mem _ hy)) h.2)
        rcases h.1 with e | e
        · rw [e]
          exact fits_dont_care σ b
        · rw [e]
          simpa [sig_const] using hfb1

theorem driver_input_wires (ct : CellTypes) (assign_map : SigMap) (cell : Cell)
    (select cell_input full_output : SigSpec)
    (h : driver_input ct assign_map cell select = some (cell_input, full_output)) :
    ∀ b ∈ cell_input, b.is_wire = true := by
  have key : ∀ sig : SigSpec, ∀ b ∈ sig.remove_const, b.is_wire = true := by
    intro sig b hb
    unfold SigSpec.remove_const at hb
    exact (List.mem_filter.mp hb).2
  unfold driver_input at h
  simp only at h
  split at h
  · split at h
    · simp only [Option.some.injEq, Prod.mk.injEq] at h
      rw [← h.1]
      exact key _
    · simp at h
  · split at h
    · split at h
      · simp only [Option.some.injEq, Prod.mk.injEq] at h
        rw [← h.1]
        exact key _
      · simp at h
    · simp only [Option.some.injEq, Prod.mk.injEq] at h
      rw [← h.1]
      exact key _

/-- The body of the loop over the worklist keeps the invariant `row_tracked` when the
assignment agrees with the driver it merges and no input of the driver is an original
selector bit. -/
theorem merge_cell_live (ct : CellTypes) (assign_map : SigMap) (σ : Nat → Nat → Bool)
    (S : SigSpec) (pattern : Const) (cell : Cell) (st st' : expand_state) (merged : Bool)
    (h : merge_cell ct assign_map cell st = some (st', merged))
    (hag : merged = true → agrees_with_driver ct assign_map σ cell st.select)
    (hin : merged = true → inputs_outside ct assign_map S cell st.select)
    (hinv : row_tracked σ S pattern st) : row_tracked σ S pattern st' := by
  obtain ⟨sel, sels⟩ := st
  obtain ⟨⟨ext0, hsel⟩, hnd, hw, e, he, hfe, htake⟩ := hinv
  simp only at hsel hnd hw he hfe htake hag hin
  unfold merge_cell at h
  split at h
  · simp at h
  · rename_i cell_input full_output hdi
    have hciw := driver_input_wires ct assign_map cell _ cell_input full_output hdi
    split at h
    · simp only [Option.some.injEq, Prod.mk.injEq] at h
      rw [← h.1]
      exact ⟨⟨ext0, hsel⟩, hnd, hw, e, he, hfe, htake⟩
    · simp only at h
      split at h
      · simp at h
      · rename_i truth_tab htab
        split at h
        · simp at h
        · rename_i selections hrows
          simp only [Option.some.injEq, Prod.mk.injEq] at h
          obtain ⟨h1, h2⟩ := h
          subst h1
          have hag' := hag h2.symm
          have hin' := hin h2.symm
          unfold agrees_with_driver at hag'
          unfold inputs_outside at hin'
          simp only at hdi
          rw [hdi] at hag' hin'
          simp only at hag' hin'
          obtain ⟨ext, hadd, hext, hndext⟩ := add_select_spec cell_input hciw sel
          have hco : ∀ b ∈ full_output.extract_pattern sel,
              b ∈ sel ∧ b.is_wire = true := by
            intro b hb
            have := mem_extract_pattern full_output sel b hb
            exact ⟨this.2.1, this.2.2⟩
          obtain ⟨out, hent, t, ht, t1, t2⟩ := minimized_row ct assign_map cell cell_input
            (full_output.extract_pattern sel) full_output truth_tab htab
            (const_index (sig_const σ cell_input))
            (by
              have := const_index_lt (sig_const σ cell_input)
              rwa [sig_const_length] at this)
          rw [hag'] at hent
          simp only [Option.some.injEq, Prod.mk.injEq] at hent
          obtain ⟨e1, e2⟩ := hent
          rw [← e2] at t2
          have ht1 : List.Forall₂ (fits σ) (full_output.extract_pattern sel) t.1 := by
            rw [t1, ← e1]
            exact sig_const_fits σ _ (fun b hb => (hco b hb).2)
          have ht2 := input_matches_fits σ cell_input t.2 hciw t2
          rw [hadd] at hrows ⊢
          subst hsel
          obtain ⟨e', m1, m2, m3⟩ := expand_rows_live σ S ext0 ext cell_input
            (full_output.extract_pattern (S ++ ext0)) _ e (hndext hnd) hw hciw hext hin'
            (fun b hb => (hco b hb).1) hfe t ht ht1 ht2 sels selections he hrows
          refine ⟨⟨ext0 ++ ext, by simp⟩, hndext hnd, ?_, e', m1, m2, by rw [m3, htake]⟩
          intro b hb
          rcases List.mem_append.mp hb with hb | hb
          · exact hw b hb
          · exact hciw b (hext b hb)

/-- The loop over the worklist keeps the invariant `row_tracked`. -/
theorem merge_worklist_live (ct : CellTypes) (assign_map : SigMap) (σ : Nat → Nat → Bool)
    (S : SigSpec) (pattern : Const) :
    ∀ (cells : List Cell) (st st' : expand_state),
      merge_worklist ct assign_map cells st = some st' →
      (∀ p ∈ worklist_merges ct assign_map cells st,
        agrees_with_driver ct assign_map σ p.1 p.2 ∧
        inputs_outside ct assign_map S p.1 p.2) →
      row_tracked σ S pattern st → row_tracked σ S pattern st' := by
  intro cells
  induction cells with
  | nil =>
    intro st st' h _ hinv
    simp only [merge_worklist, Option.some.injEq] at h
    rw [← h]
    exact hinv
  | cons cell rest ih =>
    intro st st' h hdr hinv
    rw [merge_worklist] at h
    rw [worklist_merges] at hdr
    split at h
    · simp at h
    · rename_i st1 merged hmc
      rw [hmc] at hdr
      simp only at hdr
      have hinv1 := merge_cell_live ct assign_map σ S pattern cell st st1 merged hmc
        (fun hm => (hdr (cell, st.select) (by simp [hm])).1)
        (fun hm => (hdr (cell, st.select) (by simp [hm])).2) hinv
      split at h
      · rename_i hc
        simp only [Option.some.injEq] at h
        rw [← h]
        exact hinv1
      · rename_i hc
        refine ih st1 st' h ?_ hinv1
        intro p hp
        apply hdr p
        rw [if_neg hc]
        exact List.mem_append_right _ hp

/-- The loop over the worklists keeps the invariant `row_tracked`. -/
theorem expand_loop_live (ct : CellTypes) (assign_map : SigMap) (sig2driver : SigSet Cell)
    (σ : Nat → Nat → Bool) (S : SigSpec) (pattern : Const) :
    ∀ (fuel position : Nat) (st st' : expand_state),
      expand_loop ct assign_map sig2driver fuel position st = some st' →
      (∀ p ∈ expand_merges ct assign_map sig2driver fuel position st,
        agrees_with_driver ct assign_map σ p.1 p.2 ∧
        inputs_outside ct assign_map S p.1 p.2) →
      row_tracked σ S pattern st → row_tracked σ S pattern st' := by
  intro fuel
  induction fuel with
  | zero =>
    intro position st st' h _ _
    simp [expand_loop] at h
  | succ fuel ih =>
    intro position st st' h hdr hinv
    rw [expand_loop] at h
    rw [expand_merges] at hdr
    simp only at h hdr
    split at h
    · rename_i hempty
      simp only [Option.some.injEq] at h
      rw [← h]
      exact hinv
    · rename_i hempty
      rw [if_neg hempty] at hdr
      split at h
      · simp at h
      · rename_i st1 hwl
        rw [hwl] at hdr
        simp only at hdr
        have hinv1 := merge_worklist_live ct assign_map σ S pattern _ st st1 hwl
          (fun p hp => hdr p (List.mem_append_left _ hp)) hinv
        split at h
        · simp only [Option.some.injEq] at h
          rw [← h]
          exact hinv1
        · rename_i hc
          refine ih _ st1 st' h ?_ hinv1
          intro p hp
          apply hdr p
          rw [if_neg hc]
          exact List.mem_append_right _ hp

set_option maxRecDepth 100000 in
/-- Counterexample to C10 as stated, in three parts. (1) In `not_module` the selector
bit `y` is driven by `y = ~a` and `a` is a selector bit too. The merge of the `$not`
cell leaves the expanded table `10 -> 3, 01 -> 1`; no expanded row projects onto the
original row `00 -> 2`, which contradicts the driver, and the final filter drops it
(and `11 -> 0`). (2) For the rows `-0 -> 0, 1- -> 1, 01 -> 2, -- -> 3` over the same
selector, the row `-0` matches the assignment `a = 1, y = 0`, which agrees with the
driver; the input `a` of the driver is a bit of the original selector, the product of
the row is `10`, which does not project onto `-0`, and the final filter drops the row:
the table yields 0 before and 1 after the pass. (3) For a selector with a constant bit
the projection leaves the constant in place: the row `0-` of `const_select_amt_cell` is
dropped without any merge, and the table yields 0 before and nothing after the pass. -/
theorem C10_counterexample :
    (copy_from_cell not_amt_cell [] = some not_rows ∧
     expand_table ct_internals id not_drivers 10 not_amt_cell
       = some ⟨[SigBit.wire 1 0, SigBit.wire 20 0],
           [⟨[State.S0, State.S1], const2 3, false⟩, ⟨[State.S1, State.S0], const2 1, false⟩]⟩ ∧
     ([⟨[State.S0, State.S1], const2 3, false⟩, ⟨[State.S1, State.S0], const2 1, false⟩]
       : List selection_t).any
       (projects_to (not_amt_cell.getPort IdString.S) [SigBit.wire 1 0, SigBit.wire 20 0]
         ⟨[State.S0, State.S0], const2 2, false⟩) = false ∧
     (inject_expand ct_internals id public_below_16 10 not_module).map
         (fun m => m.amt_cells.map (fun c => copy_from_cell c []))
       = some [some [⟨[State.S0, State.S1], const2 3, false⟩,
           ⟨[State.S1, State.S0], const2 1, false⟩]]) ∧
    (copy_from_cell dc_amt_cell [] = some dc_rows ∧
     dc_amt_cell.getPort IdString.S = [SigBit.wire 1 0, SigBit.wire 20 0] ∧
     pattern_matches (fun n _ => decide (n = 1)) [SigBit.wire 1 0, SigBit.wire 20 0]
       [State.Sa, State.S0] = true ∧
     (∀ p ∈ expand_merges ct_internals id not_drivers 10 0
         ⟨[SigBit.wire 1 0, SigBit.wire 20 0], dc_rows⟩,
       agrees_with_driver ct_internals id (fun n _ => decide (n = 1)) p.1 p.2 ∧
       ¬ inputs_outside ct_internals id [SigBit.wire 1 0, SigBit.wire 20 0] p.1 p.2) ∧
     expand_table ct_internals id not_drivers 10 dc_amt_cell
       = some ⟨[SigBit.wire 1 0, SigBit.wire 20 0],
           [⟨[State.S1, State.S0], const2 0, false⟩, ⟨[State.S1, State.Sa], const2 1, false⟩,
            ⟨[State.S0, State.S1], const2 2, false⟩, ⟨[State.Sa, State.Sa], const2 3, false⟩]⟩ ∧
     (expand_amt ct_internals id not_drivers 10 dc_amt_cell).map (fun c => copy_from_cell c [])
       = some (some [⟨[State.S1, State.Sa], const2 1, false⟩,
           ⟨[State.S0, State.S1], const2 2, false⟩, ⟨[State.Sa, State.Sa], const2 3, false⟩]) ∧
     amt_eval (fun n _ => decide (n = 1)) [SigBit.wire 1 0, SigBit.wire 20 0] dc_rows
       = some (const2 0) ∧
     amt_eval (fun n _ => decide (n = 1)) [SigBit.wire 1 0, SigBit.wire 20 0]
         [⟨[State.S1, State.Sa], const2 1, false⟩, ⟨[State.S0, State.S1], const2 2, false⟩,
          ⟨[State.Sa, State.Sa], const2 3, false⟩]
       = some (const2 1)) ∧
    (copy_from_cell const_select_amt_cell [] = some const_select_rows ∧
     const_select_amt_cell.getPort IdString.S = [SigBit.wire 5 0, SigBit.const State.S1] ∧
     pattern_matches (fun _ _ => false) [SigBit.wire 5 0, SigBit.const State.S1]
       [State.S0, State.Sa] = true ∧
     expand_merges ct_internals id not_drivers 10 0
       ⟨[SigBit.wire 5 0, SigBit.const State.S1], const_select_rows⟩ = [] ∧
     (expand_amt ct_internals id not_drivers 10 const_select_amt_cell).map
         (fun c => copy_from_cell c [])
       = some (some [⟨[State.S1, State.S1], const2 3, false⟩]) ∧
     amt_eval (fun _ _ => false) [SigBit.wire 5 0, SigBit.const State.S1] const_select_rows
       = some (const2 0) ∧
     amt_eval (fun _ _ => false) [SigBit.wire 5 0, SigBit.const State.S1]
         [⟨[State.S1, State.S1], const2 3, false⟩] = none) := by
  refine ⟨⟨?_, ?_, ?_, ?_⟩, ⟨?_, ?_, ?_, ?_, ?_, ?_, ?_, ?_⟩, ⟨?_, ?_, ?_, ?_, ?_, ?_, ?_⟩⟩
  all_goals decide

/-- C10 (amended): expansion keeps every live row. Let `inject_expand` run over an AMT
whose selector consists of pairwise different wire bits, and let no input of a driver
it merges be a bit of the original selector. For every row of the original table with
a pattern over 0, 1 and don't-care that is live, in that an assignment `σ` of the wire
bits matches its pattern and agrees with the truth table of every merged driver, the
expansion ends with a table that holds at least one row whose projection onto the
original selector bits equals the pattern of the original row (and which matches `σ`
on the expanded selector), so that the final filter retains the row. The table written
consists of exactly the original rows with such an expanded row, and the selector
written is the original one. -/
theorem C10_live_rows_kept (ct : CellTypes) (assign_map : SigMap) (sig2driver : SigSet Cell)
    (fuel : Nat) (amt_cell cell' : Cell) (original : List selection_t)
    (σ : Nat → Nat → Bool) (row : selection_t)
    (h : expand_amt ct assign_map sig2driver fuel amt_cell = some cell')
    (ho : copy_from_cell amt_cell [] = some original)
    (hS : (amt_cell.getPort IdString.S).Nodup)
    (hSw : ∀ b ∈ amt_cell.getPort IdString.S, b.is_wire = true)
    (hin : ∀ p ∈ expand_merges ct assign_map sig2driver fuel 0
        ⟨amt_cell.getPort IdString.S, original⟩,
      inputs_outside ct assign_map (amt_cell.getPort IdString.S) p.1 p.2)
    (hrow : row ∈ original)
    (htr : ∀ s ∈ row.select, s = State.S0 ∨ s = State.S1 ∨ s = State.Sa)
    (hm : pattern_matches σ (amt_cell.getPort IdString.S) row.select = true)
    (hag : ∀ p ∈ expand_merges ct assign_map sig2driver fuel 0
        ⟨amt_cell.getPort IdString.S, original⟩,
      agrees_with_driver ct assign_map σ p.1 p.2) :
    ∃ st final, expand_table ct assign_map sig2driver fuel amt_cell = some st ∧
      (∃ expanded ∈ st.selections,
        (amt_cell.getPort IdString.S).replace st.select (SigSpec.of_const expanded.select)
          = SigSpec.of_const row.select ∧
        pattern_matches σ st.select expanded.select = true) ∧
      copy_from_cell cell' [] = some final ∧
      cell'.getPort IdString.S = amt_cell.getPort IdString.S ∧
      row ∈ final ∧
      ∀ r, r ∈ final ↔ r ∈ original ∧ ∃ expanded ∈ st.selections,
        (amt_cell.getPort IdString.S).replace st.select (SigSpec.of_const expanded.select)
          = SigSpec.of_const r.select := by
  obtain ⟨original', st, h1, h2, h3, _, h5, _⟩ :=
    expand_amt_spec ct assign_map sig2driver fuel amt_cell cell' h
  rw [ho] at h1
  simp only [Option.some.injEq] at h1
  subst h1
  have hst := h2
  unfold expand_table at h2
  rw [ho] at h2
  simp only at h2
  have hlen := (copy_from_cell_widths amt_cell original ho row hrow).1
  have hinv0 : row_tracked σ (amt_cell.getPort IdString.S) row.select
      ⟨amt_cell.getPort IdString.S, original⟩ :=
    ⟨⟨[], by simp⟩, hS, hSw, row, hrow,
      forall2_fits_of_matches σ _ row.select hlen htr hm,
      List.take_of_length_le (by rw [hlen])⟩
  obtain ⟨⟨ext, hsel⟩, _, _, e, he, hfe, htake⟩ :=
    expand_loop_live ct assign_map sig2driver σ (amt_cell.getPort IdString.S) row.select
      fuel 0 _ st h2 (fun p hp => ⟨hag p hp, hin p hp⟩) hinv0
  have hproj : (amt_cell.getPort IdString.S).replace st.select (SigSpec.of_const e.select)
      = SigSpec.of_const row.select := by
    rw [hsel, replace_projection _ ext e.select hS hSw (by
      have := List.Forall₂.length_eq hfe
      rw [hsel] at this
      rw [← this]
      simp), htake]
  have hall : ∀ r, r ∈ filtered_selections (amt_cell.getPort IdString.S) st.select original
      st.selections ↔ r ∈ original ∧ ∃ expanded ∈ st.selections,
        (amt_cell.getPort IdString.S).replace st.select (SigSpec.of_const expanded.select)
          = SigSpec.of_const r.select := by
    intro r
    simp only [filtered_selections, List.mem_filter, List.any_eq_true, projects_to,
      decide_eq_true_eq]
  exact ⟨st, _, hst, ⟨e, he, hproj, (matches_of_forall2_fits σ _ _ hfe).1⟩, h5, h3,
    (hall row).mpr ⟨hrow, e, he, hproj⟩, hall⟩

set_option maxRecDepth 100000 in
/-- Witness of C10 (amended) on `and_amt_cell`, whose selector bit `s` is driven by
`s = a & b`: the row `10 -> 1` matches the assignment `a = b = s = 1, t = 0`, which
agrees with the driver, and is retained. -/
theorem C10_live_rows_kept_witness :
    expand_amt ct_internals id and_drivers 10 and_amt_cell
      = some (expand_finish and_amt_cell [SigBit.wire 20 0, SigBit.wire 5 0] and_rows
          ⟨[SigBit.wire 20 0, SigBit.wire 5 0, SigBit.wire 3 0, SigBit.wire 1 0],
           [⟨[State.S0, State.S0, State.Sa, State.S0], const2 0, false⟩,
            ⟨[State.S0, State.S0, State.S0, State.S1], const2 0, false⟩,
            ⟨[State.S1, State.S0, State.S1, State.S1], const2 1, false⟩,
            ⟨[State.S0, State.S1, State.Sa, State.S0], const2 2, false⟩,
            ⟨[State.S0, State.S1, State.S0, State.S1], const2 2, false⟩,
            ⟨[State.S1, State.S1, State.S1, State.S1], const2 3, false⟩]⟩) ∧
    expand_merges ct_internals id and_drivers 10 0 ⟨and_amt_cell.getPort IdString.S, and_rows⟩
      = [(and_driver, [SigBit.wire 20 0, SigBit.wire 5 0])] ∧
    pattern_matches (fun n _ => decide (n = 1 ∨ n = 3 ∨ n = 20))
      (and_amt_cell.getPort IdString.S) [State.S1, State.S0] = true ∧
    ∃ st final, expand_table ct_internals id and_drivers 10 and_amt_cell = some st ∧
      (∃ expanded ∈ st.selections,
        (and_amt_cell.getPort IdString.S).replace st.select (SigSpec.of_const expanded.select)
          = SigSpec.of_const [State.S1, State.S0] ∧
        pattern_matches (fun n _ => decide (n = 1 ∨ n = 3 ∨ n = 20)) st.select
          expanded.select = true) ∧
      copy_from_cell (expand_finish and_amt_cell [SigBit.wire 20 0, SigBit.wire 5 0] and_rows
          ⟨[SigBit.wire 20 0, SigBit.wire 5 0, SigBit.wire 3 0, SigBit.wire 1 0],
           [⟨[State.S0, State.S0, State.Sa, State.S0], const2 0, false⟩,
            ⟨[State.S0, State.S0, State.S0, State.S1], const2 0, false⟩,
            ⟨[State.S1, State.S0, State.S1, State.S1], const2 1, false⟩,
            ⟨[State.S0, State.S1, State.Sa, State.S0], const2 2, false⟩,
            ⟨[State.S0, State.S1, State.S0, State.S1], const2 2, false⟩,
            ⟨[State.S1, State.S1, State.S1, State.S1], const2 3, false⟩]⟩) [] = some final ∧
      (expand_finish and_amt_cell [SigBit.wire 20 0, SigBit.wire 5 0] and_rows
          ⟨[SigBit.wire 20 0, SigBit.wire 5 0, SigBit.wire 3 0, SigBit.wire 1 0],
           [⟨[State.S0, State.S0, State.Sa, State.S0], const2 0, false⟩,
            ⟨[State.S0, State.S0, State.S0, State.S1], const2 0, false⟩,
            ⟨[State.S1, State.S0, State.S1, State.S1], const2 1, false⟩,
            ⟨[State.S0, State.S1, State.Sa, State.S0], const2 2, false⟩,
            ⟨[State.S0, State.S1, State.S0, State.S1], const2 2, false⟩,
            ⟨[State.S1, State.S1, State.S1, State.S1], const2 3, false⟩]⟩).getPort IdString.S
        = and_amt_cell.getPort IdString.S ∧
      (⟨[State.S1, State.S0], const2 1, false⟩ : selection_t) ∈ final ∧
      ∀ r, r ∈ final ↔ r ∈ and_rows ∧ ∃ expanded ∈ st.selections,
        (and_amt_cell.getPort IdString.S).replace st.select (SigSpec.of_const expanded.select)
          = SigSpec.of_const r.select :=
  ⟨by decide, by decide, by decide,
    C10_live_rows_kept ct_internals id and_drivers 10 and_amt_cell _ and_rows
      (fun n _ => decide (n = 1 ∨ n = 3 ∨ n = 20)) ⟨[State.S1, State.S0], const2 1, false⟩
      (by decide) (by decide) (by decide) (by decide) (by decide) (by decide) (by decide)
      (by decide) (by decide)⟩

end Yosys
